import Mathlib

/-!
Simple-Sudoku: a shallow embedding of `Sudoku.cpp`.

The C++ classes `BlankList`, `Board`, `Holes` and `Sudoku` are translated into
pure Lean functions on explicit state.

* `unsigned` / `bitfield` values are natural numbers; the only places where the
  32-bit width matters are `~x` (`bnot`) and `--remains` / `++remains`
  (`dec32` / `inc32`).
* The C arrays `matrix[9][9]`, `memory[9][9]`, `rows[9]`, `cols[9]`,
  `blocks[3][3]` are total functions on indices; the program only ever reads
  and writes indices inside the array bounds.
* `for (unsigned i = 0; i < 9; ++i)` is a left fold over `List.range 9`.
* `do ... while` loops and the recursive search carry a fuel argument and
  return `none` when it runs out; the termination theorems show that the fuel
  used by the top-level functions is never exhausted.
-/

set_option autoImplicit false

namespace SimpleSudoku

/-! ## Machine words and bit sets -/

/-- The C++ type `bitfield` (`typedef unsigned bitfield`). -/
abbrev bitfield := Nat

/-- `static const bitfield maskMax = 512`. -/
def maskMax : bitfield := 512

/-- `static const bitfield allSet = 511`. -/
def allSet : bitfield := 511

/-- C++ `~x` on a 32-bit `unsigned`. -/
def bnot (x : bitfield) : bitfield := 4294967295 ^^^ x

/-- C++ `--x` on a 32-bit `unsigned`. -/
def dec32 (x : Nat) : Nat := (x + 4294967295) % 4294967296

/-- C++ `++x` on a 32-bit `unsigned`. -/
def inc32 (x : Nat) : Nat := (x + 1) % 4294967296

/-- `enum difficulty`. -/
inductive difficulty
  | DEFAULT
  | EASY
  | MEDIUM
  | DIFFICULT
  | EVIL
  deriving DecidableEq

/-- The numeric value of an enumerator, used by `level > EASY` and `level > MEDIUM`. -/
def difficulty.toNat : difficulty → Nat
  | .DEFAULT => 0
  | .EASY => 1
  | .MEDIUM => 2
  | .DIFFICULT => 3
  | .EVIL => 4

/-- The `while (mask != maskMax)` loop of `bitCount`; it runs nine times from `mask = 1`. -/
def bitCountLoop : Nat → bitfield → bitfield → Nat → Nat
  | 0, _, _, result => result
  | fuel + 1, bits, mask, result =>
    if mask = maskMax then result
    else bitCountLoop fuel bits (mask * 2) (if bits &&& mask ≠ 0 then result + 1 else result)

/-- `static unsigned bitCount(bitfield bits)`: the number of set bits among bits 0..8. -/
def bitCount (bits : bitfield) : Nat := bitCountLoop 10 bits 1 0

/-- `static inline bitfield bitFor(unsigned num)`: `1 << (num - 1)`, for `num ≥ 1`. -/
def bitFor (num : Nat) : bitfield := 1 <<< (num - 1)

/-- The `while (bit)` loop of `numFor`; a 32-bit value is exhausted after 32 shifts. -/
def numForLoop : Nat → bitfield → Nat → Nat
  | 0, _, num => num
  | fuel + 1, bit, num => if bit ≠ 0 then numForLoop fuel (bit >>> 1) (num + 1) else num

/-- `static unsigned numFor(bitfield bit)`: the position of the highest set bit, from 1. -/
def numFor (bit : bitfield) : Nat := numForLoop 32 bit 0

/-! ## Arrays -/

/-- Assignment `a[i] = v` to a one-dimensional array. -/
def upd1 (a : Nat → Nat) (i v : Nat) : Nat → Nat :=
  fun k => if k = i then v else a k

/-- Assignment `a[i][j] = v` to a two-dimensional array. -/
def upd2 (a : Nat → Nat → Nat) (i j v : Nat) : Nat → Nat → Nat :=
  fun r c => if r = i ∧ c = j then v else a r c

/-! ## `class BlankList` -/

/-- The private members of `BlankList`. -/
structure BlankList where
  rows : Nat → bitfield
  cols : Nat → bitfield
  blocks : Nat → Nat → bitfield

/-- The constructor `BlankList()`: every mask is `allSet`. -/
def BlankList.init : BlankList :=
  { rows := fun _ => allSet, cols := fun _ => allSet, blocks := fun _ _ => allSet }

/-- `void elim(unsigned i, unsigned j, unsigned n)`. -/
def BlankList.elim (bl : BlankList) (i j n : Nat) : BlankList :=
  let bit := bitFor n
  { rows := upd1 bl.rows i (bl.rows i &&& bnot bit)
    cols := upd1 bl.cols j (bl.cols j &&& bnot bit)
    blocks := upd2 bl.blocks (i / 3) (j / 3) (bl.blocks (i / 3) (j / 3) &&& bnot bit) }

/-- `void cancel(unsigned i, unsigned j, unsigned n)`. -/
def BlankList.cancel (bl : BlankList) (i j n : Nat) : BlankList :=
  let bit := bitFor n
  { rows := upd1 bl.rows i (bl.rows i ||| bit)
    cols := upd1 bl.cols j (bl.cols j ||| bit)
    blocks := upd2 bl.blocks (i / 3) (j / 3) (bl.blocks (i / 3) (j / 3) ||| bit) }

/-- `bitfield possible(unsigned i, unsigned j)`. -/
def BlankList.possible (bl : BlankList) (i j : Nat) : bitfield :=
  bl.rows i &&& bl.cols j &&& bl.blocks (i / 3) (j / 3)

/-! ## `class Board`: state and the two mutators -/

/-- The data members of `Board`. -/
structure Board where
  backtrack_count : Nat
  matrix : Nat → Nat → Nat
  memory : Nat → Nat → bitfield
  remains : Nat
  Blank : BlankList

/-- The constructor `Board()`: empty matrix, open memory, `remains(81)`, fresh tracker.
`backtrack_count` is left uninitialised by the constructor; it is taken as 0. -/
def Board.init : Board :=
  { backtrack_count := 0
    matrix := fun _ _ => 0
    memory := fun _ _ => allSet
    remains := 81
    Blank := BlankList.init }

/-- The statement `memory[r][c] &= x`. -/
def Board.andMem (b : Board) (r c : Nat) (x : bitfield) : Board :=
  { b with memory := upd2 b.memory r c (b.memory r c &&& x) }

/-- The body of the loop of `_update` for the index `i`: the cells `(row, i)`,
`(i, col)` and the `i`-th cell of the block. -/
def Board.updateStep (b : Board) (row col i : Nat) : Board :=
  let row_base := row / 3 * 3
  let col_base := col / 3 * 3
  let b1 : Board :=
    if b.matrix row i = 0 then b.andMem row i (b.Blank.possible row i) else b
  let b2 : Board :=
    if b1.matrix i col = 0 then b1.andMem i col (b1.Blank.possible i col) else b1
  let r := row_base + i / 3
  let c := col_base + i % 3
  if r ≠ row ∧ c ≠ col ∧ b2.matrix r c = 0 then b2.andMem r c (b2.Blank.possible r c)
  else b2

/-- `void _update(unsigned row, unsigned col)`: narrow the memory of the blank cells of
the row, the column and the rest of the block to the tracker's `possible`. -/
def Board._update (b : Board) (row col : Nat) : Board :=
  (List.range 9).foldl (fun (b : Board) (i : Nat) => b.updateStep row col i) b

/-- `void set(unsigned row, unsigned col, unsigned val, bool advanced = false)`. -/
def Board.set (b : Board) (row col val : Nat) (advanced : Bool) : Board :=
  let b1 : Board := { b with matrix := upd2 b.matrix row col val }
  let b2 : Board :=
    if b1.matrix row col ≠ 0 then
      { b1 with Blank := b1.Blank.elim row col val, remains := dec32 b1.remains }
    else b1
  if advanced then b2._update row col else b2

/-- `unsigned unset(unsigned row, unsigned col)`: the returned value and the new board. -/
def Board.unset (b : Board) (row col : Nat) : Nat × Board :=
  let val := b.matrix row col
  let b1 : Board :=
    if val ≠ 0 then
      { b with Blank := b.Blank.cancel row col val, remains := inc32 b.remains }
    else b
  (val, { b1 with matrix := upd2 b1.matrix row col 0 })

/-- `unsigned remaining()`. -/
def Board.remaining (b : Board) : Nat := b.remains

/-- `bitfield mask_check(unsigned i, unsigned j, bitfield mask)`. -/
def Board.mask_check (b : Board) (i j : Nat) (mask : bitfield) : bitfield :=
  b.Blank.possible i j &&& mask &&& b.memory i j

/-! ## Call sequences on a board -/

/-- One call of a `Board` mutator. -/
inductive Call
  | set (row col val : Nat) (advanced : Bool)
  | unset (row col : Nat)

/-- The board after one call. -/
def Board.call (b : Board) : Call → Board
  | .set row col val advanced => b.set row col val advanced
  | .unset row col => (b.unset row col).2

/-- The board after a sequence of calls, first call first. -/
def Board.calls (b : Board) (cs : List Call) : Board :=
  cs.foldl Board.call b

/-- The sequence of the 81 cells in row-major order. -/
def cells : List (Nat × Nat) :=
  (List.range 9).flatMap (fun i => (List.range 9).map (fun j => (i, j)))

/-- The number of zero-valued cells of a 9x9 matrix. -/
def countZeros (m : Nat → Nat → Nat) : Nat :=
  (cells.filter (fun p => m p.1 p.2 = 0)).length

/-! ## `class Board`: the basic pass -/

/-- `bitfield house_check(unsigned i, unsigned j, bool advanced = false)`. -/
def Board.house_check (b : Board) (i j : Nat) (advanced : Bool) : bitfield :=
  let row_base := i / 3 * 3
  let col_base := j / 3 * 3
  (List.range' row_base 3).foldl (fun (house_hidden : bitfield) (row : Nat) =>
    (List.range' col_base 3).foldl (fun (house_hidden : bitfield) (col : Nat) =>
      if (row = i ∧ col = j) ∨ b.matrix row col ≠ 0 then house_hidden
      else house_hidden &&&
        (if advanced then bnot (b.memory row col) else bnot (b.Blank.possible row col)))
      house_hidden) allSet

/-- `bitfield row_check(unsigned i, unsigned j, bool advanced = false)`. -/
def Board.row_check (b : Board) (i j : Nat) (advanced : Bool) : bitfield :=
  (List.range 9).foldl (fun (row_hidden : bitfield) (col : Nat) =>
    if b.matrix i col = 0 ∧ col ≠ j then
      row_hidden &&&
        (if advanced then bnot (b.memory i col) else bnot (b.Blank.possible i col))
    else row_hidden) allSet

/-- `bitfield col_check(unsigned i, unsigned j, bool advanced = false)`. -/
def Board.col_check (b : Board) (i j : Nat) (advanced : Bool) : bitfield :=
  (List.range 9).foldl (fun (col_hidden : bitfield) (row : Nat) =>
    if b.matrix row j = 0 ∧ row ≠ i then
      col_hidden &&&
        (if advanced then bnot (b.memory row j) else bnot (b.Blank.possible row j))
    else col_hidden) allSet

/-- `bitfield decide(bitfield & possible, bitfield & house, bitfield & row, bitfield & col)`. -/
def Board.decide (possible house row col : bitfield) : bitfield :=
  if bitCount possible = 1 then possible
  else
    let check1 := possible &&& house
    if bitCount check1 = 1 then check1
    else
      let check2 := possible &&& row
      if bitCount check2 = 1 then check2
      else
        let check3 := possible &&& col
        if bitCount check3 = 1 then check3
        else
          let check := check1 &&& check2
          if bitCount check = 1 then check
          else
            let check := check1 &&& check3
            if bitCount check = 1 then check
            else
              let check := check2 &&& check3
              if bitCount check = 1 then check
              else
                let check := check &&& check1
                if bitCount check = 1 then check
                else 0

/-- The body of the two `for` loops of `hidden_fill` at cell `(i, j)`; the state is the
board together with the flag `again`. -/
def Board.hidden_step (st : Board × Bool) (i j : Nat) : Board × Bool :=
  let b := st.1
  if b.matrix i j ≠ 0 then st
  else
    let possible := b.Blank.possible i j
    let house := b.house_check i j false
    let row := b.row_check i j false
    let col := b.col_check i j false
    let to_check := Board.decide possible house row col
    if to_check ≠ 0 then (b.set i j (numFor to_check) false, true)
    else st

/-- One iteration of the `do ... while (again)` loop of `hidden_fill`: a sweep over the
81 cells, started with `again = false`. -/
def Board.hidden_sweep (b : Board) : Board × Bool :=
  (List.range 9).foldl (fun (st : Board × Bool) (i : Nat) =>
    (List.range 9).foldl (fun (st : Board × Bool) (j : Nat) =>
      Board.hidden_step st i j) st) (b, false)

/-- The `do ... while (again)` loop of `hidden_fill`, with fuel. -/
def Board.hidden_fill_loop : Nat → Board → Option Board
  | 0, _ => none
  | fuel + 1, b =>
    let st := b.hidden_sweep
    if st.2 then Board.hidden_fill_loop fuel st.1 else some st.1

/-- `void hidden_fill()`. Every repeated sweep fills a cell, so 82 sweeps are enough
(`hidden_fill_loop_total`). -/
def Board.hidden_fill (b : Board) : Option Board :=
  Board.hidden_fill_loop 82 b

/-! ## `class Board`: the advanced pass -/

/-- The first scanning loop of `candidate_check`, over the rows of the house: the
accumulators `(row_i, row_locked, total_count)`. -/
def Board.scanRows (b : Board) (i j : Nat) : bitfield × bitfield × Nat :=
  let row_base := i / 3 * 3
  let col_base := j / 3 * 3
  (List.range' row_base 3).foldl (fun (s : bitfield × bitfield × Nat) (row : Nat) =>
    if row = i then
      (List.range' col_base 3).foldl (fun (s : bitfield × bitfield × Nat) (col : Nat) =>
        if b.matrix row col ≠ 0 then s
        else (s.1 ||| b.memory row col, s.2.1, s.2.2)) s
    else
      (List.range' col_base 3).foldl (fun (s : bitfield × bitfield × Nat) (col : Nat) =>
        if b.matrix row col ≠ 0 then s
        else (s.1, s.2.1 ||| b.memory row col, s.2.2 + 1)) s) (0, 0, 0)

/-- The second scanning loop of `candidate_check`, over the columns of the house: the
accumulators `(col_j, col_locked, total_count)`. -/
def Board.scanCols (b : Board) (i j : Nat) : bitfield × bitfield × Nat :=
  let row_base := i / 3 * 3
  let col_base := j / 3 * 3
  (List.range' col_base 3).foldl (fun (s : bitfield × bitfield × Nat) (col : Nat) =>
    if col = j then
      (List.range' row_base 3).foldl (fun (s : bitfield × bitfield × Nat) (row : Nat) =>
        if b.matrix row col ≠ 0 then s
        else (s.1 ||| b.memory row col, s.2.1, s.2.2)) s
    else
      (List.range' row_base 3).foldl (fun (s : bitfield × bitfield × Nat) (row : Nat) =>
        if b.matrix row col ≠ 0 then s
        else (s.1, s.2.1 ||| b.memory row col, s.2.2 + 1)) s) (0, 0, 0)

/-- The loop `memory[i][col] &= ~x` over the blank cells of row `i` outside the house
of `(i, j)`. -/
def Board.clearRowOut (b : Board) (i j : Nat) (x : bitfield) : Board :=
  let col_base := j / 3 * 3
  (List.range 9).foldl (fun (b : Board) (col : Nat) =>
    if b.matrix i col ≠ 0 ∨ (col_base ≤ col ∧ col < col_base + 3) then b
    else b.andMem i col (bnot x)) b

/-- The loop `memory[row][j] &= ~x` over the blank cells of column `j` outside the house
of `(i, j)`. -/
def Board.clearColOut (b : Board) (i j : Nat) (x : bitfield) : Board :=
  let row_base := i / 3 * 3
  (List.range 9).foldl (fun (b : Board) (row : Nat) =>
    if b.matrix row j ≠ 0 ∨ (row_base ≤ row ∧ row < row_base + 3) then b
    else b.andMem row j (bnot x)) b

/-- The loop `row_i &= ~memory[i][col]` over the blank cells of row `i` outside the
house of `(i, j)`. -/
def Board.claimRow (b : Board) (i j : Nat) (row_i : bitfield) : bitfield :=
  let col_base := j / 3 * 3
  (List.range 9).foldl (fun (row_i : bitfield) (col : Nat) =>
    if b.matrix i col ≠ 0 ∨ (col_base ≤ col ∧ col < col_base + 3) then row_i
    else row_i &&& bnot (b.memory i col)) row_i

/-- The loop `col_j &= ~memory[row][j]` over the blank cells of column `j` outside the
house of `(i, j)`. -/
def Board.claimCol (b : Board) (i j : Nat) (col_j : bitfield) : bitfield :=
  let row_base := i / 3 * 3
  (List.range 9).foldl (fun (col_j : bitfield) (row : Nat) =>
    if b.matrix row j ≠ 0 ∨ (row_base ≤ row ∧ row < row_base + 3) then col_j
    else col_j &&& bnot (b.memory row j)) col_j

/-- The loop `memory[r][c] &= ~x` over the blank cells of the house of `(i, j)` outside
row `i`. -/
def Board.clearHouseRows (b : Board) (i j : Nat) (x : bitfield) : Board :=
  let row_base := i / 3 * 3
  let col_base := j / 3 * 3
  (List.range' row_base 3).foldl (fun (b : Board) (r : Nat) =>
    (List.range' col_base 3).foldl (fun (b : Board) (c : Nat) =>
      if r = i ∨ b.matrix r c ≠ 0 then b
      else b.andMem r c (bnot x)) b) b

/-- The loop `memory[r][c] &= ~x` over the blank cells of the house of `(i, j)` outside
column `j`. -/
def Board.clearHouseCols (b : Board) (i j : Nat) (x : bitfield) : Board :=
  let row_base := i / 3 * 3
  let col_base := j / 3 * 3
  (List.range' row_base 3).foldl (fun (b : Board) (r : Nat) =>
    (List.range' col_base 3).foldl (fun (b : Board) (c : Nat) =>
      if c = j ∨ b.matrix r c ≠ 0 then b
      else b.andMem r c (bnot x)) b) b

/-- `void candidate_check(unsigned i, unsigned j)`; each loop of the source is one of
the functions above. -/
def Board.candidate_check (b : Board) (i j : Nat) : Board :=
  -- Locked Candidate Type 1 (Pointing)
  let s1 := b.scanRows i j
  let row_i := s1.1
  let row_locked := s1.2.1
  let total_count := s1.2.2
  let b1 : Board :=
    if total_count ≠ 0 ∧ total_count = bitCount row_locked then b.andMem i j (bnot row_locked)
    else b
  let pointing := row_i &&& bnot row_locked
  let b2 : Board := if pointing ≠ 0 then b1.clearRowOut i j pointing else b1
  let s2 := b2.scanCols i j
  let col_j := s2.1
  let col_locked := s2.2.1
  let total_count := s2.2.2
  let b3 : Board :=
    if total_count ≠ 0 ∧ total_count = bitCount col_locked then b2.andMem i j (bnot col_locked)
    else b2
  let pointing := col_j &&& bnot col_locked
  let b4 : Board := if pointing ≠ 0 then b3.clearColOut i j pointing else b3
  -- Locked Candidate Type 2 (Claiming)
  let row_i := b4.claimRow i j row_i
  let b5 : Board := if row_i ≠ 0 then b4.clearHouseRows i j row_i else b4
  let col_j := b5.claimCol i j col_j
  if col_j ≠ 0 then b5.clearHouseCols i j col_j else b5

/-- The search loop for a naked pair in row `i`: the first column other than `j` whose
cell is blank and has memory `value`, or 9. -/
def Board.pairRowMatch (b : Board) (i j : Nat) (value : bitfield) : Nat :=
  ((List.range 9).find? (fun col =>
    !(b.matrix i col != 0 || col == j || b.memory i col != value))).getD 9

/-- The loop `memory[i][col] &= ~value` over the blank cells of row `i` other than the
pair. -/
def Board.clearRowPair (b : Board) (i j match_c : Nat) (value : bitfield) : Board :=
  (List.range 9).foldl (fun (b : Board) (col : Nat) =>
    if b.matrix i col ≠ 0 ∨ col = j ∨ col = match_c then b
    else b.andMem i col (bnot value)) b

/-- The search loop for a naked pair in column `j`: the first row other than `i` whose
cell is blank and has memory `value`, or 9. -/
def Board.pairColMatch (b : Board) (i j : Nat) (value : bitfield) : Nat :=
  ((List.range 9).find? (fun row =>
    !(b.matrix row j != 0 || row == i || b.memory row j != value))).getD 9

/-- The loop `memory[row][j] &= ~value` over the blank cells of column `j` other than
the pair. -/
def Board.clearColPair (b : Board) (i j match_r : Nat) (value : bitfield) : Board :=
  (List.range 9).foldl (fun (b : Board) (row : Nat) =>
    if b.matrix row j ≠ 0 ∨ row = i ∨ row = match_r then b
    else b.andMem row j (bnot value)) b

/-- The search loops for a naked pair in the house, rows other than `i` and columns
other than `j`: `(match_r, match_c)`, or `(9, 9)`. The `break` leaves only the inner
loop, so a match in a later row of the house overwrites an earlier one. -/
def Board.pairHouseMatch (b : Board) (i j : Nat) (value : bitfield) : Nat × Nat :=
  let row_base := i / 3 * 3
  let col_base := j / 3 * 3
  (List.range' row_base 3).foldl (fun (m : Nat × Nat) (row : Nat) =>
    if row = i then m
    else
      match (List.range' col_base 3).find? (fun col =>
        !(col == j || b.matrix row col != 0 || b.memory row col != value)) with
      | some col => (row, col)
      | none => m) (9, 9)

/-- The loop `memory[row][col] &= ~value` over the blank cells of the house other than
the pair. -/
def Board.clearHousePair (b : Board) (i j match_r match_c : Nat) (value : bitfield) : Board :=
  let row_base := i / 3 * 3
  let col_base := j / 3 * 3
  (List.range' row_base 3).foldl (fun (b : Board) (row : Nat) =>
    (List.range' col_base 3).foldl (fun (b : Board) (col : Nat) =>
      if b.matrix row col ≠ 0 ∨ (row = i ∧ col = j) ∨ (row = match_r ∧ col = match_c) then b
      else b.andMem row col (bnot value)) b) b

/-- `void pair_check(unsigned i, unsigned j)`; each loop of the source is one of the
functions above. -/
def Board.pair_check (b : Board) (i j : Nat) : Board :=
  let value := b.memory i j
  if bitCount value = 2 then
    -- Naked Pair in Row
    let match_c := b.pairRowMatch i j value
    let b1 : Board := if match_c ≠ 9 then b.clearRowPair i j match_c value else b
    -- Naked Pair in Column
    let match_r := b1.pairColMatch i j value
    let b2 : Board := if match_r ≠ 9 then b1.clearColPair i j match_r value else b1
    -- Naked Pair in House
    let m := b2.pairHouseMatch i j value
    if m.1 ≠ 9 then b2.clearHousePair i j m.1 m.2 value else b2
  else b

/-- The body of the first double loop of `advanced_fill` at cell `(i, j)`. -/
def Board.seedStep (b : Board) (i j : Nat) : Board :=
  if b.matrix i j = 0 then b.andMem i j (b.Blank.possible i j) else b

/-- The first double loop of `advanced_fill`: `memory[i][j] &= Blank.possible(i, j)` on
every blank cell. -/
def Board.advanced_seed (b : Board) : Board :=
  (List.range 9).foldl (fun (b : Board) (i : Nat) =>
    (List.range 9).foldl (fun (b : Board) (j : Nat) => b.seedStep i j) b) b

/-- The loop `sum += memory[i][j]` over the 81 cells, in 32-bit arithmetic. -/
def Board.memory_add (b : Board) (sum : Nat) : Nat :=
  (List.range 9).foldl (fun (sum : Nat) (i : Nat) =>
    (List.range 9).foldl (fun (sum : Nat) (j : Nat) =>
      (sum + b.memory i j) % 4294967296) sum) sum

/-- The loop `sum -= memory[i][j]` over the 81 cells, in 32-bit arithmetic. -/
def Board.memory_sub (b : Board) (sum : Nat) : Nat :=
  (List.range 9).foldl (fun (sum : Nat) (i : Nat) =>
    (List.range 9).foldl (fun (sum : Nat) (j : Nat) =>
      (sum + (4294967296 - b.memory i j % 4294967296)) % 4294967296) sum) sum

/-- The body of the sweep of `advanced_fill` at cell `(i, j)`. -/
def Board.advanced_step (b : Board) (i j : Nat) : Board :=
  if b.matrix i j ≠ 0 then b
  else
    let b1 := b.candidate_check i j
    let b2 := b1.pair_check i j
    let possible := b2.memory i j
    let house := b2.house_check i j true
    let row := b2.row_check i j true
    let col := b2.col_check i j true
    let to_check := Board.decide possible house row col
    if to_check ≠ 0 then b2.set i j (numFor to_check) true else b2

/-- One iteration of the `do ... while (again)` loop of `advanced_fill`: the board after
the sweep and the flag `again` (`sum` is nonzero). -/
def Board.advanced_sweep (b : Board) : Board × Bool :=
  let sum := b.memory_add 0
  let b1 : Board :=
    (List.range 9).foldl (fun (b : Board) (i : Nat) =>
      (List.range 9).foldl (fun (b : Board) (j : Nat) => b.advanced_step i j) b) b
  let sum := b1.memory_sub sum
  (b1, sum != 0)

/-- The `do ... while (again)` loop of `advanced_fill`, with fuel. -/
def Board.advanced_fill_loop : Nat → Board → Option Board
  | 0, _ => none
  | fuel + 1, b =>
    let st := b.advanced_sweep
    if st.2 then Board.advanced_fill_loop fuel st.1 else some st.1

/-- `void advanced_fill()`. A repeated sweep has cleared a bit of some 32-bit memory
word, so `81 * 32 + 1` sweeps are enough. -/
def Board.advanced_fill (b : Board) : Option Board :=
  Board.advanced_fill_loop 2593 b.advanced_seed

/-! ## `class Board`: the search -/

/-- The result of `findMin`: the return value `found`, the reference arguments `row`,
`col`, and whether `unique` is set by the call; `count` is the loop variable. -/
structure MinCell where
  found : Bool
  count : Nat
  row : Nat
  col : Nat

/-- `bool findMin(unsigned& row, unsigned& col, bool & unique)`: the scan; `row` and `col`
are only read by the caller when `found` holds. -/
def Board.findMinScan (b : Board) : MinCell :=
  (List.range 9).foldl (fun (s : MinCell) (i : Nat) =>
    (List.range 9).foldl (fun (s : MinCell) (j : Nat) =>
      if b.matrix i j = 0 ∧ bitCount (b.Blank.possible i j &&& b.memory i j) < s.count then
        { found := true
          count := bitCount (b.Blank.possible i j &&& b.memory i j)
          row := i
          col := j }
      else s) s) { found := false, count := 10, row := 0, col := 0 }

/-- `findMin`: returns `(found, row, col, unique)` where `unique` is the value of the
caller's flag after the call, given that it was `false` before. -/
def Board.findMin (b : Board) : Bool × Nat × Nat × Bool :=
  let s := b.findMinScan
  (s.found, s.row, s.col, s.count == 1)

/-- The `while (mask != maskMax)` loop of `_btrack`; `rec` is the recursive call
`_btrack(depth-1)` and the first argument bounds the nine iterations. -/
def Board.btrackLoop (rec : Board → Option (Bool × Board)) (row col : Nat) (unique : Bool) :
    Nat → Board → Nat → bitfield → Option (Bool × Board)
  | 0, _, _, _ => none
  | k + 1, b, num, mask =>
    if mask = maskMax then some (false, b)
    else if b.mask_check row col mask ≠ 0 then
      match rec (b.set row col num false) with
      | none => none
      | some (true, b1) => some (true, b1)
      | some (false, b1) =>
        let b2 := (b1.unset row col).2
        if unique then some (false, b2)
        else Board.btrackLoop rec row col unique k b2 (num + 1) (mask * 2)
    else Board.btrackLoop rec row col unique k b (num + 1) (mask * 2)

/-- `bool _btrack(unsigned depth)`, with fuel for the recursion depth. -/
def Board._btrack : Nat → Board → Nat → Option (Bool × Board)
  | 0, _, _ => none
  | fuel + 1, b, depth =>
    let f := b.findMin
    if f.1 = false then
      if depth = 0 then some (true, b) else some (false, b)
    else
      let row := f.2.1
      let col := f.2.2.1
      let unique := f.2.2.2
      let b1 : Board := { b with backtrack_count := inc32 b.backtrack_count }
      Board.btrackLoop (fun b2 => Board._btrack fuel b2 (dec32 depth)) row col unique
        10 b1 1 (bitFor 1)

/-- `bool backtrack()`. Every level of the recursion fills a cell, so the depth is at
most 82. -/
def Board.backtrack (b : Board) : Option (Bool × Board) :=
  let b1 : Board := { b with backtrack_count := 0 }
  Board._btrack 82 b1 b1.remaining

/-- `bool assert(unsigned i, unsigned j, unsigned val)`. -/
def Board.assert (b : Board) (i j val : Nat) : Bool :=
  b.matrix i j == val

/-! ## Random numbers -/

/-- The state of `std::rand`: the stream of values fixed by `std::srand(seed)` and the
number of values drawn so far. -/
structure RandState where
  stream : Nat → Nat
  pos : Nat

/-- `std::rand()`: the drawn value and the new state. -/
def RandState.next (r : RandState) : Nat × RandState :=
  (r.stream r.pos, { r with pos := r.pos + 1 })

/-- The static table `look_up` of `_fill` and `digHoles`. -/
def look_up : List Nat := [0, 1, 2, 9, 10, 11, 18, 19, 20]

/-- The static table `base` of `_fill` and `digHoles`. -/
def base : List Nat := [0, 3, 6, 27, 30, 33, 54, 57, 60]

/-! ## `class Board`: the random fill -/

/-- The loop `while (true) { place = std::rand() % 9; if (available & bitFor(place + 1))
break; }` of `_fill`, with fuel for the number of draws. -/
def pickPlace : Nat → bitfield → RandState → Option (Nat × RandState)
  | 0, _, _ => none
  | fuel + 1, available, r =>
    let d := r.next
    let place := d.1 % 9
    if available &&& bitFor (place + 1) ≠ 0 then some (place, d.2)
    else pickPlace fuel available d.2

/-- The loop `while (available)` of `_fill`; `rec` is the recursive call
`_fill(is_big, block + 1, num)` and the first argument bounds the nine iterations. -/
def Board.fillLoop (rec : Board → RandState → Option (Bool × Board × RandState)) (pick : Nat)
    (block num : Nat) : Nat → Board → bitfield → RandState → Option (Bool × Board × RandState)
  | 0, _, _, _ => none
  | k + 1, b, available, r =>
    if available = 0 then some (false, b, r)
    else
      match pickPlace pick available r with
      | none => none
      | some (place, r1) =>
        let available := available &&& bnot (bitFor (place + 1))
        let loc := base.getD ((2 * block) % 9) 0 + look_up.getD place 0
        let row := loc / 9
        let col := loc % 9
        if b.matrix row col = 0 ∧ bitFor num &&& b.Blank.possible row col ≠ 0 then
          match rec (b.set row col num false) r1 with
          | none => none
          | some (true, b1, r2) => some (true, b1, r2)
          | some (false, b1, r2) =>
            Board.fillLoop rec pick block num k (b1.unset row col).2 available r2
        else Board.fillLoop rec pick block num k b available r1

/-- `bool _fill(bool is_big, unsigned block, unsigned num)`, with fuel for the recursion
depth and `pick` for the draws of each cell-picking loop. -/
def Board._fill (pick : Nat) : Nat → Board → Bool → Nat → Nat → RandState →
    Option (Bool × Board × RandState)
  | 0, _, _, _, _, _ => none
  | fuel + 1, b, is_big, block, num, r =>
    if is_big ∧ num = 10 then some (true, b, r)
    else if is_big ∧ block = 9 then Board._fill pick fuel b is_big 0 (num + 1) r
    else if block = 9 then some (true, b, r)
    else
      Board.fillLoop (fun b1 r1 => Board._fill pick fuel b1 is_big (block + 1) num r1)
        pick block num 10 b allSet r

/-- One call `_fill(is_big, 0, num)` of `_random_fill`; its return value, which the source
discards or only prints, is appended to the list of flags. -/
def Board.fillStep (pick fuel : Nat) (is_big : Bool) (num : Nat)
    (st : Option (List Bool × Board × RandState)) : Option (List Bool × Board × RandState) :=
  match st with
  | none => none
  | some (flags, b, r) =>
    match Board._fill pick fuel b is_big 0 num r with
    | none => none
    | some (ok, b1, r1) => some (flags ++ [ok], b1, r1)

/-- The six calls of `_fill` that `_random_fill` makes, `_fill(false, 0, i)` for `i` in
1..5 and then `_fill(true, 0, 6)`, with their return values in call order. -/
def Board.fillAll (pick fuel : Nat) (b : Board) (r : RandState) :
    Option (List Bool × Board × RandState) :=
  Board.fillStep pick fuel true 6
    ((List.range' 1 5).foldl (fun st i => Board.fillStep pick fuel false i st) (some ([], b, r)))

/-- `void _random_fill()`. The return values of the first five calls are discarded; the
message "Error" printed when the last call returns false is not modelled. -/
def Board._random_fill (pick fuel : Nat) (b : Board) (r : RandState) : Option (Board × RandState) :=
  (Board.fillAll pick fuel b r).map (fun x => x.2)

/-- The constructor `Board(unsigned seed)`; `r` is the state of `std::rand` after
`std::srand(seed)`. -/
def Board.seeded (pick fuel : Nat) (r : RandState) : Option (Board × RandState) :=
  Board._random_fill pick fuel Board.init r

/-! ## `class Holes` -/

/-- `unsigned _random_by_level(difficulty level)`. -/
def Holes._random_by_level (level : difficulty) (r : RandState) : Nat × RandState :=
  let d := r.next
  let rnd := d.1
  match level with
  | .EASY =>
    let random := rnd % 7
    if random < 4 ∧ rnd % 2 ≠ 0 then
      let d2 := d.2.next
      (random + d2.1 % 4 + 3, d2.2)
    else (random + 3, d.2)
  | .MEDIUM => (rnd % 5 + 3, d.2)
  | .DIFFICULT => (rnd % 5 + 4, d.2)
  | .EVIL => (rnd % 5 + 5, d.2)
  | .DEFAULT => (5, d.2)

/-- The test of one alternative digit in `_valid_dig`: `Board bd = puzzle; bd.set(i, j,
num); bd.hidden_fill(); bd.advanced_fill();` and the value of `bd.backtrack()`. -/
@[irreducible] def Holes.altTest (puzzle : Board) (i j num : Nat) : Option Bool :=
  let bd := puzzle.set i j num false
  match bd.hidden_fill with
  | none => none
  | some bd1 =>
    match bd1.advanced_fill with
    | none => none
    | some bd2 =>
      match bd2.backtrack with
      | none => none
      | some (res, _) => some res

/-- The `for (unsigned num = 1; num <= 9; ++num)` loop of `_valid_dig`: `some true` when
an alternative digit at `(i, j)` leads to a solved scratch board. -/
def Holes.altLoop (puzzle : Board) (i j val : Nat) : List Nat → Option Bool
  | [] => some false
  | num :: rest =>
    if num ≠ val ∧ puzzle.mask_check i j (bitFor num) ≠ 0 then
      match Holes.altTest puzzle i j num with
      | none => none
      | some true => some true
      | some false => Holes.altLoop puzzle i j val rest
    else Holes.altLoop puzzle i j val rest

/-- `bool _valid_dig(unsigned i, unsigned j, difficulty level)` on the member `puzzle`. -/
def Holes._valid_dig (puzzle : Board) (i j : Nat) (level : difficulty) :
    Option (Bool × Board) :=
  let u := puzzle.unset i j
  let val := u.1
  let puzzle := u.2
  let easy : Option Bool :=
    if level = difficulty.EASY then
      match puzzle.hidden_fill with
      | none => none
      | some bd => some (bd.remaining != 0)
    else some false
  match easy with
  | none => none
  | some true => some (false, puzzle.set i j val false)
  | some false =>
    match Holes.altLoop puzzle i j val (List.range' 1 9) with
    | none => none
    | some true => some (false, puzzle.set i j val false)
    | some false => some (true, puzzle)

/-- The loop `for (unsigned j = 0; j < diff; ++j)` of `digHoles` for block `i`; the first
argument bounds the iterations. -/
def Holes.digBlock (level : difficulty) (array : List Nat) (i : Nat) :
    Nat → Board → Nat → Nat → Option Board
  | 0, _, _, _ => none
  | k + 1, puzzle, j, diff =>
    if j < diff then
      let loc := base.getD i 0 + look_up.getD (array.getD j 0) 0
      let row := loc / 9
      let col := loc % 9
      match Holes._valid_dig puzzle row col level with
      | none => none
      | some (true, p1) => Holes.digBlock level array i k p1 (j + 1) diff
      | some (false, p1) =>
        if diff + 1 = 10 then some p1
        else Holes.digBlock level array i k p1 (j + 1) (diff + 1)
    else some puzzle

/-- `void digHoles(difficulty level)`. The state is the member `puzzle`, the static
`array` and `std::rand`; `shuffle` stands for `std::random_shuffle(array, array + 9)`,
a library routine that permutes the array using the random source. -/
def Holes.digHoles (shuffle : List Nat → RandState → List Nat × RandState) (level : difficulty)
    (puzzle : Board) (array : List Nat) (r : RandState) : Option (Board × List Nat × RandState) :=
  (List.range 9).foldl (fun (st : Option (Board × List Nat × RandState)) (i : Nat) =>
    match st with
    | none => none
    | some (puzzle, array, r) =>
      let d := Holes._random_by_level level r
      let diff := d.1
      let s := shuffle array d.2
      match Holes.digBlock level s.1 i 10 puzzle 0 diff with
      | none => none
      | some p1 => some (p1, s.1, s.2)) (some (puzzle, array, r))

/-! ## `class Sudoku` -/

/-- The data members of `Sudoku`. -/
structure Sudoku where
  _board : Board
  _answer : Board

/-- The reading loop of the constructor `Sudoku(const char* name, bool play)`:
`_board.set(i, j, num)` for the 81 numbers read, `g i j` being the number read for
cell `(i, j)`. -/
def Board.load (g : Nat → Nat → Nat) : Board :=
  (List.range 9).foldl (fun (b : Board) (i : Nat) =>
    (List.range 9).foldl (fun (b : Board) (j : Nat) => b.set i j (g i j) false) b) Board.init

/-- `bool _solve()`: works on the member `_answer`. -/
def Sudoku._solve (s : Sudoku) : Option (Bool × Sudoku) :=
  match s._answer.hidden_fill with
  | none => none
  | some a1 =>
    if a1.remaining = 0 then some (true, { s with _answer := a1 })
    else
      match a1.advanced_fill with
      | none => none
      | some a2 =>
        match a2.backtrack with
        | none => none
        | some (res, a3) => some (res, { s with _answer := a3 })

/-- The constructor `Sudoku(const char* name, bool play)` up to its output: load the
grid, copy it to `_answer`, and solve. -/
def Sudoku.ofGrid (g : Nat → Nat → Nat) : Option (Bool × Sudoku) :=
  let bd := Board.load g
  Sudoku._solve { _board := bd, _answer := bd }

/-- One round of the `while (true)` loop of `generate`: dig holes into a copy of the
answer board and test the puzzle; the first component is `some puzzle` when the loop
ends with `break` and `none` when it goes on with `continue`. -/
def Sudoku.generateRound (shuffle : List Nat → RandState → List Nat × RandState)
    (level : difficulty) (answer : Board) (array : List Nat) (r : RandState) :
    Option (Option Board × List Nat × RandState) :=
  match Holes.digHoles shuffle level answer array r with
  | none => none
  | some (puzzle, array1, r1) =>
    if level.toNat > difficulty.EASY.toNat then
      match puzzle.hidden_fill with
      | none => none
      | some bd =>
        if bd.remaining = 0 then some (none, array1, r1)
        else
          match bd.advanced_fill with
          | none => none
          | some bd1 =>
            if level.toNat > difficulty.MEDIUM.toNat ∧ bd1.remaining = 0 then
              some (none, array1, r1)
            else some (some puzzle, array1, r1)
    else some (some puzzle, array1, r1)

/-- The `while (true)` loop of `generate`, with fuel for the number of rounds. -/
def Sudoku.generateLoop (shuffle : List Nat → RandState → List Nat × RandState)
    (level : difficulty) (answer : Board) : Nat → List Nat → RandState →
    Option (Board × List Nat × RandState)
  | 0, _, _ => none
  | fuel + 1, array, r =>
    match Sudoku.generateRound shuffle level answer array r with
    | none => none
    | some (some puzzle, array1, r1) => some (puzzle, array1, r1)
    | some (none, array1, r1) => Sudoku.generateLoop shuffle level answer fuel array1 r1

/-- `void generate(difficulty level, std::ostream & out)`: the new `Sudoku` object.
`r` is the state of `std::rand` after `std::srand(std::time(0))`, `array` the static
array of `digHoles`, `pick` and `fuel` bound the random fill and `rounds` the number
of digging rounds. -/
def Sudoku.generate (shuffle : List Nat → RandState → List Nat × RandState) (pick fuel rounds : Nat)
    (level : difficulty) (array : List Nat) (r : RandState) : Option Sudoku :=
  match Board.seeded pick fuel r with
  | none => none
  | some (answer, r1) =>
    match Sudoku.generateLoop shuffle level answer rounds array r1 with
    | none => none
    | some (puzzle, _, _) => some { _board := puzzle, _answer := answer }

/-- `void play(unsigned& row, unsigned& col, unsigned& val)`; the screen output is not
modelled. -/
def Sudoku.play (s : Sudoku) (row col val : Nat) : Sudoku :=
  if s._board.mask_check row col (bitFor val) ≠ 0 then
    if s._answer.assert row col val then { s with _board := s._board.set row col val false }
    else s
  else s

/-- `bool is_complete()`. -/
def Sudoku.is_complete (s : Sudoku) : Bool :=
  s._board.remaining == 0

/-! ## Text input and output -/

/-- The decimal text that `out << n` writes for an `unsigned` value. -/
def showUnsigned (n : Nat) : List Char :=
  Nat.toDigits 10 n

/-- `void print_board(std::ostream & out)`: the characters written to `out`; `std::endl`
writes a newline. -/
def Board.print_board (b : Board) : List Char :=
  (List.range 9).foldl (fun (out : List Char) (i : Nat) =>
    (List.range 9).foldl (fun (out : List Char) (j : Nat) =>
      out ++ showUnsigned (b.matrix i j) ++ [' ']) out ++ ['\n']) [] ++ ['\n']

/-- The characters that formatted input skips before a number (`std::isspace` in the
classic locale): space, newline, tab, carriage return, vertical tab, form feed. -/
def isSpaceChar (c : Char) : Bool :=
  c == ' ' || c == '\n' || c == '\t' || c == '\r' || c == Char.ofNat 11 || c == Char.ofNat 12

/-- An input stream: the characters not yet read and the fail state. -/
structure IStream where
  buf : List Char
  fail : Bool

/-- `in >> num` for an `unsigned num`: nothing happens on a failed stream; otherwise
leading whitespace is skipped and the longest run of decimal digits is read. At the end
of the input the stream fails and `num` keeps its value; with no digit the stream fails
and `num` becomes 0; a value that does not fit 32 bits gives the largest value and
fails. A leading sign is not modelled. -/
def IStream.readUnsigned (s : IStream) (num : Nat) : Nat × IStream :=
  if s.fail then (num, s)
  else
    let rest := s.buf.dropWhile isSpaceChar
    let digits := rest.takeWhile Char.isDigit
    let tail := rest.dropWhile Char.isDigit
    if rest = [] then (num, { buf := rest, fail := true })
    else if digits = [] then (0, { buf := rest, fail := true })
    else
      let v := digits.foldl (fun (acc : Nat) (c : Char) => 10 * acc + (c.toNat - 48)) 0
      if v < 4294967296 then (v, { buf := tail, fail := false })
      else (4294967295, { buf := tail, fail := true })

/-- The numbers that `n` successive `in >> num` give, `num` being the variable of the
constructor `Sudoku(const char* name, bool play)`. -/
def readNumbers : Nat → IStream → Nat → List Nat
  | 0, _, _ => []
  | n + 1, s, num =>
    let d := s.readUnsigned num
    d.1 :: readNumbers n d.2 d.1

/-- The numbers read by the 81 `in >> num` of the constructor from a file holding
`text`, as the grid that the reading loop places: cell `(i, j)` gets the number read
at step `9 * i + j`. -/
def Sudoku.readGrid (text : List Char) : Nat → Nat → Nat :=
  fun i j => (readNumbers 81 { buf := text, fail := false } 0).getD (9 * i + j) 0

/-! ## The search with a log of its invocations -/

/-- The loop of `_btrack` as in `btrackLoop`, where the recursive call `rec` also returns
the log of the invocations of `_btrack` it made; the logs are concatenated in call
order. -/
def Board.btrackLoopLog (rec : Board → Option ((Bool × Board) × List (Board × Nat)))
    (row col : Nat) (unique : Bool) :
    Nat → Board → Nat → bitfield → Option ((Bool × Board) × List (Board × Nat))
  | 0, _, _, _ => none
  | k + 1, b, num, mask =>
    if mask = maskMax then some ((false, b), [])
    else if b.mask_check row col mask ≠ 0 then
      match rec (b.set row col num false) with
      | none => none
      | some ((true, b1), log) => some ((true, b1), log)
      | some ((false, b1), log) =>
        let b2 := (b1.unset row col).2
        if unique then some ((false, b2), log)
        else
          match Board.btrackLoopLog rec row col unique k b2 (num + 1) (mask * 2) with
          | none => none
          | some (r, log2) => some (r, log ++ log2)
    else Board.btrackLoopLog rec row col unique k b (num + 1) (mask * 2)

/-- `bool _btrack(unsigned depth)` as in `_btrack`, returning also the log of all its
invocations: for each one, in call order, the board at entry and the argument `depth`. -/
def Board._btrackLog : Nat → Board → Nat → Option ((Bool × Board) × List (Board × Nat))
  | 0, _, _ => none
  | fuel + 1, b, depth =>
    let f := b.findMin
    if f.1 = false then
      if depth = 0 then some ((true, b), [(b, depth)]) else some ((false, b), [(b, depth)])
    else
      let row := f.2.1
      let col := f.2.2.1
      let unique := f.2.2.2
      let b1 : Board := { b with backtrack_count := inc32 b.backtrack_count }
      match Board.btrackLoopLog (fun b2 => Board._btrackLog fuel b2 (dec32 depth)) row col unique
          10 b1 1 (bitFor 1) with
      | none => none
      | some (r, log) => some (r, (b, depth) :: log)

/-- `bool backtrack()` with the log of the invocations of `_btrack`. -/
def Board.backtrackLog (b : Board) : Option ((Bool × Board) × List (Board × Nat)) :=
  let b1 : Board := { b with backtrack_count := 0 }
  Board._btrackLog 82 b1 b1.remaining

/-! ## Specification vocabulary -/

/-- The cells of row `r`. -/
def rowCells (r : Nat) : List (Nat × Nat) :=
  (List.range 9).map (fun c => (r, c))

/-- The cells of column `c`. -/
def colCells (c : Nat) : List (Nat × Nat) :=
  (List.range 9).map (fun r => (r, c))

/-- The cells of the 3x3 block number `k`, blocks being numbered 0..8 row by row. -/
def blockCells (k : Nat) : List (Nat × Nat) :=
  (List.range 9).map (fun t => (k / 3 * 3 + t / 3, k % 3 * 3 + t % 3))

/-- Each digit 1..9 occurs exactly once among the cells `cs` of the grid `g`. -/
def holdsOnce (g : Nat → Nat → Nat) (cs : List (Nat × Nat)) : Prop :=
  ∀ d ∈ List.range' 1 9, (cs.map (fun p => g p.1 p.2)).count d = 1

/-- A complete valid Sudoku grid: each row, column and 3x3 block holds 1..9 once. -/
def Valid (g : Nat → Nat → Nat) : Prop :=
  ∀ k ∈ List.range 9, holdsOnce g (rowCells k) ∧ holdsOnce g (colCells k) ∧
    holdsOnce g (blockCells k)

instance instDecidableValid (g : Nat → Nat → Nat) : Decidable (Valid g) := by
  unfold Valid holdsOnce; infer_instance

/-- No nonzero value is repeated among the cells `cs` of the grid `g`. -/
def noRepeat (g : Nat → Nat → Nat) (cs : List (Nat × Nat)) : Prop :=
  ((cs.map (fun p => g p.1 p.2)).filter (fun v => v ≠ 0)).Nodup

/-- A 9x9 input of values 0..9 with no repeated nonzero digit in any row, column or
block. -/
def DupFree (g : Nat → Nat → Nat) : Prop :=
  (∀ p ∈ cells, g p.1 p.2 ≤ 9) ∧
  ∀ k ∈ List.range 9, noRepeat g (rowCells k) ∧ noRepeat g (colCells k) ∧
    noRepeat g (blockCells k)

instance instDecidableDupFree (g : Nat → Nat → Nat) : Decidable (DupFree g) := by
  unfold DupFree noRepeat; infer_instance

/-- The grid `s` agrees with the matrix `m` on the filled cells of `m`. -/
def Agrees (m s : Nat → Nat → Nat) : Prop :=
  ∀ p ∈ cells, m p.1 p.2 ≠ 0 → m p.1 p.2 = s p.1 p.2

instance instDecidableAgrees (m s : Nat → Nat → Nat) : Decidable (Agrees m s) := by
  unfold Agrees; infer_instance

/-- The grid given by a list of nine rows. -/
def gridOf (l : List (List Nat)) : Nat → Nat → Nat :=
  fun r c => (l.getD r []).getD c 0

/-- The digit `d` occurs in no cell of row `r`, of column `c`, or of the block of
`(r, c)` of the matrix `m`. -/
def digitFree (m : Nat → Nat → Nat) (r c d : Nat) : Bool :=
  (rowCells r).all (fun p => m p.1 p.2 != d) &&
  (colCells c).all (fun p => m p.1 p.2 != d) &&
  (blockCells (r / 3 * 3 + c / 3)).all (fun p => m p.1 p.2 != d)

/-- The candidate mask of cell `(r, c)` recomputed from scratch: the set of the digits
1..9 that occur in no cell of the row, the column or the block. -/
def scratchPossible (m : Nat → Nat → Nat) (r c : Nat) : bitfield :=
  (List.range' 1 9).foldl (fun (mask : bitfield) (d : Nat) =>
    if digitFree m r c d then mask ||| bitFor d else mask) 0

/-- A call that the tracker allows: a `set` puts a digit 1..9 into a blank cell where the
digit is tracker-legal; an `unset` names a cell of the board. -/
def Call.legal (b : Board) : Call → Prop
  | .set row col val _ =>
    row < 9 ∧ col < 9 ∧ 1 ≤ val ∧ val ≤ 9 ∧ b.matrix row col = 0 ∧
      b.Blank.possible row col &&& bitFor val ≠ 0
  | .unset row col => row < 9 ∧ col < 9

/-- Every call of the sequence is legal on the board it is applied to. -/
def legalCalls : Board → List Call → Prop
  | _, [] => True
  | b, c :: cs => c.legal b ∧ legalCalls (b.call c) cs

/-- A call with row and column in 0..8 and value in 0..9. -/
def Call.inRange : Call → Prop
  | .set row col val _ => row < 9 ∧ col < 9 ∧ val ≤ 9
  | .unset row col => row < 9 ∧ col < 9

/-- A call with row and column in 0..8 and value in 0..9 whose `set` targets a blank
cell. -/
def Call.onBlank (b : Board) : Call → Prop
  | .set row col val _ => row < 9 ∧ col < 9 ∧ val ≤ 9 ∧ b.matrix row col = 0
  | .unset row col => row < 9 ∧ col < 9

/-- Every `set` of the sequence targets a cell that is blank when it is called. -/
def blankCalls : Board → List Call → Prop
  | _, [] => True
  | b, c :: cs => c.onBlank b ∧ blankCalls (b.call c) cs

/-- All members of the board hold 32-bit values. -/
def Board.Word32 (b : Board) : Prop :=
  b.remains < 4294967296 ∧ b.backtrack_count < 4294967296 ∧
  ∀ i j, b.matrix i j < 4294967296 ∧ b.memory i j < 4294967296 ∧
    b.Blank.rows i < 4294967296 ∧ b.Blank.cols i < 4294967296 ∧
    b.Blank.blocks i j < 4294967296

/-- The tracker and `remains` are in step with a matrix of values 0..9 that has no
repeated digit in a row, column or block. -/
structure Board.Sync (b : Board) : Prop where
  val_le : ∀ r c, r < 9 → c < 9 → b.matrix r c ≤ 9
  rows_lt : ∀ r, r < 9 → b.Blank.rows r < 512
  cols_lt : ∀ c, c < 9 → b.Blank.cols c < 512
  blocks_lt : ∀ br bc, br < 3 → bc < 3 → b.Blank.blocks br bc < 512
  rows_bit : ∀ r d, r < 9 → 1 ≤ d → d ≤ 9 →
    ((b.Blank.rows r).testBit (d - 1) = true ↔ ∀ c, c < 9 → b.matrix r c ≠ d)
  cols_bit : ∀ c d, c < 9 → 1 ≤ d → d ≤ 9 →
    ((b.Blank.cols c).testBit (d - 1) = true ↔ ∀ r, r < 9 → b.matrix r c ≠ d)
  blocks_bit : ∀ br bc d, br < 3 → bc < 3 → 1 ≤ d → d ≤ 9 →
    ((b.Blank.blocks br bc).testBit (d - 1) = true ↔
      ∀ r c, r < 9 → c < 9 → r / 3 = br → c / 3 = bc → b.matrix r c ≠ d)
  row_inj : ∀ r c1 c2, r < 9 → c1 < 9 → c2 < 9 → b.matrix r c1 ≠ 0 →
    b.matrix r c1 = b.matrix r c2 → c1 = c2
  col_inj : ∀ r1 r2 c, r1 < 9 → r2 < 9 → c < 9 → b.matrix r1 c ≠ 0 →
    b.matrix r1 c = b.matrix r2 c → r1 = r2
  block_inj : ∀ r1 c1 r2 c2, r1 < 9 → c1 < 9 → r2 < 9 → c2 < 9 → r1 / 3 = r2 / 3 →
    c1 / 3 = c2 / 3 → b.matrix r1 c1 ≠ 0 → b.matrix r1 c1 = b.matrix r2 c2 →
    r1 = r2 ∧ c1 = c2
  remains_eq : b.remains = countZeros b.matrix

/-- The board `b2` differs from `b1` at most in `memory`, and every memory word of `b2`
is a bitwise subset of the word of `b1`. -/
def Board.Narrows (b1 b2 : Board) : Prop :=
  b2.matrix = b1.matrix ∧ b2.Blank = b1.Blank ∧ b2.remains = b1.remains ∧
  b2.backtrack_count = b1.backtrack_count ∧
  ∀ r c k, (b2.memory r c).testBit k = true → (b1.memory r c).testBit k = true

instance instDecidableCallLegal (b : Board) (cl : Call) : Decidable (cl.legal b) := by
  cases cl <;> (unfold Call.legal; infer_instance)

instance instDecidableLegalCalls : (b : Board) → (cs : List Call) → Decidable (legalCalls b cs)
  | _, [] => isTrue trivial
  | b, cl :: cs =>
    match instDecidableCallLegal b cl, instDecidableLegalCalls (b.call cl) cs with
    | isTrue h1, isTrue h2 => isTrue ⟨h1, h2⟩
    | isFalse h1, _ => isFalse (fun h => h1 h.1)
    | _, isFalse h2 => isFalse (fun h => h2 h.2)

instance instDecidableCallInRange (cl : Call) : Decidable cl.inRange := by
  cases cl <;> (unfold Call.inRange; infer_instance)

instance instDecidableCallOnBlank (b : Board) (cl : Call) : Decidable (cl.onBlank b) := by
  cases cl <;> (unfold Call.onBlank; infer_instance)

instance instDecidableBlankCalls : (b : Board) → (cs : List Call) → Decidable (blankCalls b cs)
  | _, [] => isTrue trivial
  | b, cl :: cs =>
    match instDecidableCallOnBlank b cl, instDecidableBlankCalls (b.call cl) cs with
    | isTrue h1, isTrue h2 => isTrue ⟨h1, h2⟩
    | isFalse h1, _ => isFalse (fun h => h1 h.1)
    | _, isFalse h2 => isFalse (fun h => h2 h.2)

/-- A complete grid in the form used by the proofs: all 81 values lie in 1..9 and no
value is repeated in a row, a column or a block. -/
structure GridOk (g : Nat → Nat → Nat) : Prop where
  range : ∀ r c, r < 9 → c < 9 → 1 ≤ g r c ∧ g r c ≤ 9
  row_inj : ∀ r c1 c2, r < 9 → c1 < 9 → c2 < 9 → g r c1 = g r c2 → c1 = c2
  col_inj : ∀ r1 r2 c, r1 < 9 → r2 < 9 → c < 9 → g r1 c = g r2 c → r1 = r2
  block_inj : ∀ r1 c1 r2 c2, r1 < 9 → c1 < 9 → r2 < 9 → c2 < 9 → r1 / 3 = r2 / 3 →
    c1 / 3 = c2 / 3 → g r1 c1 = g r2 c2 → r1 = r2 ∧ c1 = c2

/-- The mask that `hidden_fill` computes at cell `(i, j)`: `decide` on the tracker's
`possible` and the three hidden masks. -/
def Board.hiddenPick (b : Board) (i j : Nat) : bitfield :=
  Board.decide (b.Blank.possible i j) (b.house_check i j false) (b.row_check i j false)
    (b.col_check i j false)

/-- An input grid in the form used by the proofs: values 0..9 and no nonzero value
repeated in a row, a column or a block. -/
structure InputOk (g : Nat → Nat → Nat) : Prop where
  val_le : ∀ r c, r < 9 → c < 9 → g r c ≤ 9
  row_inj : ∀ r c1 c2, r < 9 → c1 < 9 → c2 < 9 → g r c1 ≠ 0 → g r c1 = g r c2 → c1 = c2
  col_inj : ∀ r1 r2 c, r1 < 9 → r2 < 9 → c < 9 → g r1 c ≠ 0 → g r1 c = g r2 c → r1 = r2
  block_inj : ∀ r1 c1 r2 c2, r1 < 9 → c1 < 9 → r2 < 9 → c2 < 9 → r1 / 3 = r2 / 3 →
    c1 / 3 = c2 / 3 → g r1 c1 ≠ 0 → g r1 c1 = g r2 c2 → r1 = r2 ∧ c1 = c2

/-- A complete valid grid used by the examples. -/
def sampleGrid : Nat → Nat → Nat :=
  gridOf [[5, 3, 4, 6, 7, 8, 9, 1, 2],
          [6, 7, 2, 1, 9, 5, 3, 4, 8],
          [1, 9, 8, 3, 4, 2, 5, 6, 7],
          [8, 5, 9, 7, 6, 1, 4, 2, 3],
          [4, 2, 6, 8, 5, 3, 7, 9, 1],
          [7, 1, 3, 9, 2, 4, 8, 5, 6],
          [9, 6, 1, 5, 3, 7, 2, 8, 4],
          [2, 8, 7, 4, 1, 9, 6, 3, 5],
          [3, 4, 5, 2, 8, 6, 1, 7, 9]]

/-- An empty board whose candidate memory is empty at every cell, used by an example. -/
def blockedBoard : Board :=
  { Board.init with memory := fun _ _ => 0 }

/-- A shuffle that leaves the array as it is, used by the examples. -/
def idShuffle : List Nat → RandState → List Nat × RandState :=
  fun a r => (a, r)

/-- The random source that always draws 0, used by the examples. -/
def zeroRand : RandState :=
  { stream := fun _ => 0, pos := 0 }

/-- On every blank cell the candidate memory is a subset of the tracker's `possible`. -/
def Board.MemSub (b : Board) : Prop :=
  ∀ r c, r < 9 → c < 9 → b.matrix r c = 0 →
    ∀ k, (b.memory r c).testBit k = true → (b.Blank.possible r c).testBit k = true

/-- On every blank cell the candidate memory still holds the digit of the grid `s`. -/
def Board.MemHas (b : Board) (s : Nat → Nat → Nat) : Prop :=
  ∀ r c, r < 9 → c < 9 → b.matrix r c = 0 → (b.memory r c).testBit (s r c - 1) = true

/-- The body of the sweep of `advanced_fill` at a blank cell up to the hidden-single
test: the board after `candidate_check` and `pair_check`. -/
def Board.advPre (b : Board) (i j : Nat) : Board :=
  (b.candidate_check i j).pair_check i j

/-- The mask that `advanced_fill` computes at a blank cell: `decide` on the memory of
the cell and the three hidden masks taken from memory. -/
def Board.advPick (b : Board) (i j : Nat) : bitfield :=
  Board.decide (b.memory i j) (b.house_check i j true) (b.row_check i j true)
    (b.col_check i j true)

/-- The number of set bits of a 32-bit word. -/
def pop32 (x : Nat) : Nat :=
  ((Finset.range 32).filter (fun k => x.testBit k = true)).card

/-- The number of candidate bits in the memory of the 81 cells. -/
def Board.memBits (b : Board) : Nat :=
  (cells.map (fun p => pop32 (b.memory p.1 p.2))).sum

/-- Every memory word of `b2` is a bitwise subset of the word of `b1`. -/
def Board.MemLe (b1 b2 : Board) : Prop :=
  ∀ r c k, (b2.memory r c).testBit k = true → (b1.memory r c).testBit k = true

/-- The memory words of the 81 cells are 32-bit values. -/
def Board.MemWord (b : Board) : Prop :=
  ∀ p ∈ cells, b.memory p.1 p.2 < 4294967296

/-- The boards agree in everything but `backtrack_count`. -/
def Board.SameCore (b1 b2 : Board) : Prop :=
  b2.matrix = b1.matrix ∧ b2.memory = b1.memory ∧ b2.remains = b1.remains ∧
  b2.Blank = b1.Blank

/-- Some complete valid grid agrees with the filled cells of the board and takes, at
every blank cell, a digit of the cell's memory. -/
def Board.Solvable (b : Board) : Prop :=
  ∃ s, Valid s ∧ Agrees b.matrix s ∧ b.MemHas s

/-- What a call of the search on the board `b` guarantees about its result `res` and the
board `b2` it leaves: on success a full board in step that extends `b`; on failure the
board `b` itself up to `backtrack_count`, and `b` has no solution. -/
def Board.SearchPost (b : Board) (res : Bool) (b2 : Board) : Prop :=
  b2.memory = b.memory ∧
  (res = true → b2.Sync ∧ countZeros b2.matrix = 0 ∧
    ∀ r c, b.matrix r c ≠ 0 → b2.matrix r c = b.matrix r c) ∧
  (res = false → b.SameCore b2 ∧ ¬ b.Solvable)

/-- A puzzle used by the examples; the basic pass solves it. -/
def samplePuzzle : Nat → Nat → Nat :=
  gridOf [[5, 3, 0, 0, 7, 0, 0, 0, 0],
          [6, 0, 0, 1, 9, 5, 0, 0, 0],
          [0, 9, 8, 0, 0, 0, 0, 6, 0],
          [8, 0, 0, 0, 6, 0, 0, 0, 3],
          [4, 0, 0, 8, 0, 3, 0, 0, 1],
          [7, 0, 0, 0, 2, 0, 0, 0, 6],
          [0, 6, 0, 0, 0, 0, 2, 8, 0],
          [0, 0, 0, 4, 1, 9, 0, 0, 5],
          [0, 0, 0, 0, 8, 0, 0, 7, 9]]

/-- The board is in step, the memory of its blank cells lies inside `possible`, and the
grid `s` extends the board with its digits still in memory. -/
structure Board.Keeps (b : Board) (s : Nat → Nat → Nat) : Prop where
  sync : b.Sync
  memSub : b.MemSub
  agrees : Agrees b.matrix s
  memHas : b.MemHas s

/-- The basic pass alone solves the board: `hidden_fill` leaves `remaining() == 0`. -/
def Board.BasicSolved (b : Board) : Prop :=
  ∃ b1, b.hidden_fill = some b1 ∧ b1.remaining = 0

/-- The state of the member `puzzle` of `Holes` while holes are dug out of the complete
grid `a`: the board is in step, its memory is untouched, its filled cells are cells of
`a`, and `a` is the only complete valid grid that agrees with the filled cells. -/
structure Board.Dug (b : Board) (a : Nat → Nat → Nat) : Prop where
  sync : b.Sync
  mem : b.memory = fun _ _ => allSet
  agrees : Agrees b.matrix a
  unique : ∀ s, Valid s → Agrees b.matrix s → ∀ p ∈ cells, s p.1 p.2 = a p.1 p.2

/-- The static array of `digHoles` before the first shuffle. -/
def startArray : List Nat := [0, 1, 2, 3, 4, 5, 6, 7, 8]

/-- An input with the digit 5 twice in the first row, used by an example. -/
def dupGrid : Nat → Nat → Nat :=
  gridOf [[5, 5, 0, 0, 0, 0, 0, 0, 0]]

/-- The tracker masks and `remains` hold 32-bit values. -/
def Board.CoreWord (b : Board) : Prop :=
  b.remains < 4294967296 ∧
  ∀ i j, b.Blank.rows i < 4294967296 ∧ b.Blank.cols i < 4294967296 ∧
    b.Blank.blocks i j < 4294967296

/-! ## Vocabulary for the random fill -/

/-- The number of cells that a call `_fill(is_big, block, num)` fills when it returns
true. -/
def fillCount (is_big : Bool) (block num : Nat) : Nat :=
  if is_big = true then (if 10 ≤ num then 0 else (9 - block) + 9 * (9 - num)) else 9 - block

/-- What a call of `_fill` that returned `res` and the board `b1` did to the board `b`: the
board stays in step, a false result gives back the board, and a true result fills `n`
blank cells and keeps the filled ones. -/
def Board.FillPost (b : Board) (n : Nat) (res : Bool) (b1 : Board) : Prop :=
  b1.Sync ∧ (res = false → b.SameCore b1) ∧
  (res = true → countZeros b1.matrix + n = countZeros b.matrix ∧
    ∀ r c, b.matrix r c ≠ 0 → b1.matrix r c = b.matrix r c)

/-! ## Vocabulary for `decide`, the propagation and the pair check -/

/-- The masks that `decide` is said to try, in that order: `possible` alone, each hidden
mask within `possible`, the three pairwise intersections of the hidden masks within
`possible`, and the three-way intersection within `possible`. -/
def decideOrder (possible house row col : bitfield) : List bitfield :=
  [possible, possible &&& house, possible &&& row, possible &&& col,
   possible &&& (house &&& row), possible &&& (house &&& col), possible &&& (row &&& col),
   possible &&& (house &&& row &&& col)]

/-- The first mask of a list that has exactly one set bit, or 0 when there is none. -/
def firstSingle (l : List bitfield) : bitfield :=
  (l.find? (fun m => bitCount m == 1)).getD 0

/-- The sum of the memory masks of the 81 cells, as a natural number. -/
def Board.memSum (b : Board) : Nat :=
  (cells.map (fun p => b.memory p.1 p.2)).sum

/-- An empty board on which the cells (0, 0), (0, 1) and (0, 5) remember the digits 1 and
2 only, used by an example. -/
def crowdedPairBoard : Board :=
  { Board.init with
    memory := fun r c => if r = 0 ∧ (c = 0 ∨ c = 1 ∨ c = 5) then 3 else allSet }

/-- An empty board on which the cell (0, 0) and one further cell of its row, of its column
and of its house remember the digits 1 and 2 only, used by an example. -/
def pairScopesBoard : Board :=
  { Board.init with
    memory := fun r c =>
      if (r = 0 ∧ c = 0) ∨ (r = 0 ∧ c = 5) ∨ (r = 5 ∧ c = 0) ∨ (r = 1 ∧ c = 1) then 3
      else allSet }

/-- The state of a `Sudoku` object after the calls `play(row, col, val)` for a list of
moves `(row, col, val)`, in order: the input loop of `main`. -/
def Sudoku.plays (s : Sudoku) (moves : List (Nat × Nat × Nat)) : Sudoku :=
  moves.foldl (fun (s : Sudoku) (m : Nat × Nat × Nat) => s.play m.1 m.2.1 m.2.2) s

/-- A `Sudoku` object as one of the two constructors leaves it: loaded from a grid, or
generated. -/
def Sudoku.Constructed (s : Sudoku) : Prop :=
  (∃ (g : Nat → Nat → Nat) (res : Bool), Sudoku.ofGrid g = some (res, s)) ∨
  ∃ (shuffle : List Nat → RandState → List Nat × RandState) (pick fuel rounds : Nat)
    (level : difficulty) (array : List Nat) (r : RandState),
    Sudoku.generate shuffle pick fuel rounds level array r = some s

/-- The states of a `Sudoku` object on which `main` calls `play`: the object built by the
loading constructor or by the generating constructor, after any number of calls of
`play`. -/
def Sudoku.Playable (s : Sudoku) : Prop :=
  ∃ (s0 : Sudoku) (moves : List (Nat × Nat × Nat)), s0.Constructed ∧ s = s0.plays moves

/-! ## Bit-level facts -/

theorem bitFor_eq (d : Nat) : bitFor d = 2 ^ (d - 1) := by
  simp [bitFor, Nat.one_shiftLeft]

theorem testBit_bitFor (d k : Nat) : (bitFor d).testBit k = decide (d - 1 = k) := by
  rw [bitFor_eq, Nat.testBit_two_pow]

theorem testBit_bnot (x k : Nat) (hk : k < 32) : (bnot x).testBit k = !x.testBit k := by
  have h : bnot x = (2 ^ 32 - 1) ^^^ x := by norm_num [bnot]
  rw [h, Nat.testBit_xor, Nat.testBit_two_pow_sub_one]
  simp [hk]

theorem and_two_pow_ne_zero (x k : Nat) : x &&& 2 ^ k ≠ 0 ↔ x.testBit k = true := by
  constructor
  · intro h
    obtain ⟨i, hi⟩ := Nat.ne_zero_implies_bit_true h
    rw [Nat.testBit_and, Nat.testBit_two_pow] at hi
    simp only [Bool.and_eq_true, decide_eq_true_eq] at hi
    rw [hi.2]; exact hi.1
  · intro h h0
    have : (x &&& 2 ^ k).testBit k = true := by
      rw [Nat.testBit_and, h, Nat.testBit_two_pow_self]; rfl
    rw [h0] at this
    simp at this

theorem and_bitFor_ne_zero (x d : Nat) : x &&& bitFor d ≠ 0 ↔ x.testBit (d - 1) = true := by
  rw [bitFor_eq]; exact and_two_pow_ne_zero x (d - 1)

theorem lt_512_of_and_left (x y : Nat) (h : x < 512) : x &&& y < 512 :=
  lt_of_le_of_lt Nat.and_le_left h

theorem lt_512_of_and_right (x y : Nat) (h : y < 512) : x &&& y < 512 :=
  lt_of_le_of_lt Nat.and_le_right h

theorem testBit_of_lt_512 (x k : Nat) (h : x < 512) (hk : 9 ≤ k) : x.testBit k = false := by
  apply Nat.testBit_lt_two_pow
  calc x < 2 ^ 9 := by simpa using h
    _ ≤ 2 ^ k := Nat.pow_le_pow_right (by norm_num) hk

theorem eq_of_testBit_lt9 (x y : Nat) (hx : x < 512) (hy : y < 512)
    (h : ∀ k, k < 9 → x.testBit k = y.testBit k) : x = y := by
  apply Nat.eq_of_testBit_eq
  intro k
  by_cases hk : k < 9
  · exact h k hk
  · rw [testBit_of_lt_512 x k hx (by omega), testBit_of_lt_512 y k hy (by omega)]

theorem bitCountLoop_step (fuel bits k r : Nat) (hk : k < 9) :
    bitCountLoop (fuel + 1) bits (2 ^ k) r
      = bitCountLoop fuel bits (2 ^ (k + 1)) (r + if bits.testBit k then 1 else 0) := by
  have hne : (2 : Nat) ^ k ≠ maskMax := by
    have h9 : maskMax = 2 ^ 9 := by norm_num [maskMax]
    rw [h9]
    intro h
    have := Nat.pow_right_injective (le_refl 2) h
    omega
  rw [bitCountLoop, if_neg hne, pow_succ]
  congr 1
  by_cases hb : bits.testBit k = true
  · rw [if_pos ((and_two_pow_ne_zero bits k).2 hb), if_pos hb]
  · rw [if_neg (fun h => hb ((and_two_pow_ne_zero bits k).1 h)), if_neg hb]; rfl

theorem bitCountLoop_end (fuel bits r : Nat) :
    bitCountLoop (fuel + 1) bits (2 ^ 9) r = r := by
  rw [bitCountLoop, if_pos (by norm_num [maskMax])]

/-- `bitCount` as a sum over the nine low bits. -/
theorem bitCount_eq (x : Nat) :
    bitCount x = (if x.testBit 0 then 1 else 0) + (if x.testBit 1 then 1 else 0)
      + (if x.testBit 2 then 1 else 0) + (if x.testBit 3 then 1 else 0)
      + (if x.testBit 4 then 1 else 0) + (if x.testBit 5 then 1 else 0)
      + (if x.testBit 6 then 1 else 0) + (if x.testBit 7 then 1 else 0)
      + (if x.testBit 8 then 1 else 0) := by
  have h : bitCount x = bitCountLoop (9 + 1) x (2 ^ 0) 0 := rfl
  rw [h, bitCountLoop_step _ _ 0 _ (by norm_num), bitCountLoop_step _ _ 1 _ (by norm_num),
    bitCountLoop_step _ _ 2 _ (by norm_num), bitCountLoop_step _ _ 3 _ (by norm_num),
    bitCountLoop_step _ _ 4 _ (by norm_num), bitCountLoop_step _ _ 5 _ (by norm_num),
    bitCountLoop_step _ _ 6 _ (by norm_num), bitCountLoop_step _ _ 7 _ (by norm_num),
    bitCountLoop_step _ _ 8 _ (by norm_num), bitCountLoop_end, Nat.zero_add]

/-- The set of the positions below 9 of the set bits of a mask. -/
theorem bitCount_eq_card (x : Nat) :
    bitCount x = ((Finset.range 9).filter (fun k => x.testBit k = true)).card := by
  rw [bitCount_eq, Finset.card_filter]
  simp only [Finset.sum_range_succ, Finset.sum_range_zero, Nat.zero_add]


set_option maxRecDepth 1000000 in
theorem single_bit_cases : ∀ x, x < 512 → bitCount x = 1 →
    (1 ≤ numFor x ∧ numFor x ≤ 9 ∧ x = bitFor (numFor x)) := by
  decide

theorem numFor_bitFor : ∀ d, d < 10 → 1 ≤ d → numFor (bitFor d) = d := by
  decide

theorem bitCount_bitFor : ∀ d, d < 10 → 1 ≤ d → bitCount (bitFor d) = 1 := by
  decide


/-! ## Arrays and counting -/

@[simp] theorem upd1_apply (a : Nat → Nat) (i v k : Nat) :
    upd1 a i v k = if k = i then v else a k := rfl

@[simp] theorem upd2_apply (a : Nat → Nat → Nat) (i j v r c : Nat) :
    upd2 a i j v r c = if r = i ∧ c = j then v else a r c := rfl

theorem upd2_same (a : Nat → Nat → Nat) (i j : Nat) : upd2 a i j (a i j) = a := by
  funext r c
  simp only [upd2_apply]
  split_ifs with h
  · rw [h.1, h.2]
  · rfl

theorem upd2_upd2 (a : Nat → Nat → Nat) (i j v w : Nat) :
    upd2 (upd2 a i j v) i j w = upd2 a i j w := by
  funext r c
  simp only [upd2_apply]
  split_ifs <;> rfl

theorem upd1_upd1 (a : Nat → Nat) (i v w : Nat) :
    upd1 (upd1 a i v) i w = upd1 a i w := by
  funext k
  simp only [upd1_apply]
  split_ifs <;> rfl

theorem upd1_same (a : Nat → Nat) (i : Nat) : upd1 a i (a i) = a := by
  funext k
  simp only [upd1_apply]
  split_ifs with h
  · rw [h]
  · rfl

theorem mem_cells (p : Nat × Nat) : p ∈ cells ↔ p.1 < 9 ∧ p.2 < 9 := by
  obtain ⟨r, c⟩ := p
  simp only [cells, List.mem_flatMap, List.mem_range, List.mem_map, Prod.mk.injEq]
  constructor
  · rintro ⟨i, hi, j, hj, rfl, rfl⟩
    exact ⟨hi, hj⟩
  · rintro ⟨hr, hc⟩
    exact ⟨r, hr, c, hc, rfl, rfl⟩

theorem cells_nodup : cells.Nodup := by decide

theorem foldl_flatMap_eq {α β σ : Type} (l : List α) (g : α → List β) (f : σ → β → σ) (s : σ) :
    (l.flatMap g).foldl f s = l.foldl (fun s a => (g a).foldl f s) s := by
  induction l generalizing s with
  | nil => rfl
  | cons x xs ih => simp only [List.flatMap_cons, List.foldl_append, List.foldl_cons, ih]

/-- A nested loop over rows and columns is a loop over `cells`. -/
theorem foldl_cells {σ : Type} (f : σ → Nat → Nat → σ) (s : σ) :
    (List.range 9).foldl (fun s i => (List.range 9).foldl (fun s j => f s i j) s) s
      = cells.foldl (fun s p => f s p.1 p.2) s := by
  simp only [cells, foldl_flatMap_eq, List.foldl_map]

/-- Changing a predicate at one element of a duplicate-free list changes the count of
the elements that satisfy it accordingly. -/
theorem filter_length_change {α : Type} [DecidableEq α] (l : List α) (a : α)
    (p q : α → Bool) (hnd : l.Nodup) (ha : a ∈ l) (hpq : ∀ x, x ≠ a → p x = q x) :
    (l.filter p).length + (if q a then 1 else 0)
      = (l.filter q).length + (if p a then 1 else 0) := by
  induction l with
  | nil => cases ha
  | cons x xs ih =>
    rw [List.nodup_cons] at hnd
    by_cases hx : x = a
    · subst hx
      have hrest : xs.filter p = xs.filter q := by
        apply List.filter_congr
        intro y hy
        exact hpq y (fun h => hnd.1 (h ▸ hy))
      simp only [List.filter_cons, hrest]
      cases hp : p x <;> cases hq : q x <;> simp
    · have ha2 : a ∈ xs := by
        rcases List.mem_cons.1 ha with h | h
        · exact absurd h.symm hx
        · exact h
      have := ih hnd.2 ha2
      simp only [List.filter_cons, ← hpq x hx]
      cases hp : p x <;> simp <;> omega

theorem countZeros_upd2 (m : Nat → Nat → Nat) (r c v : Nat) (hr : r < 9) (hc : c < 9) :
    countZeros (upd2 m r c v) + (if m r c = 0 then 1 else 0)
      = countZeros m + (if v = 0 then 1 else 0) := by
  have h := filter_length_change cells (r, c)
    (fun p => decide (upd2 m r c v p.1 p.2 = 0)) (fun p => decide (m p.1 p.2 = 0))
    cells_nodup ((mem_cells (r, c)).2 ⟨hr, hc⟩)
    (by
      intro x hx
      have : ¬ (x.1 = r ∧ x.2 = c) := fun h => hx (Prod.ext h.1 h.2)
      simp [upd2_apply, this])
  simp only [upd2_apply, and_self, if_true, decide_eq_true_eq] at h
  exact h

theorem countZeros_le (m : Nat → Nat → Nat) : countZeros m ≤ 81 := by
  have h : cells.length = 81 := by decide
  rw [← h]
  exact List.length_filter_le _ _


/-! ## `set` and `unset` keep the tracker in step -/

theorem testBit_and_bnot_bitFor (x d e : Nat) (hd : 1 ≤ d) (he : 1 ≤ e) (he9 : e ≤ 9) :
    (x &&& bnot (bitFor d)).testBit (e - 1) = (x.testBit (e - 1) && decide (d ≠ e)) := by
  rw [Nat.testBit_and, testBit_bnot _ _ (by omega), testBit_bitFor]
  congr 1
  by_cases h : d = e
  · subst h; simp
  · have : ¬ (d - 1 = e - 1) := by omega
    simp [h, this]

theorem testBit_or_bitFor (x d e : Nat) (hd : 1 ≤ d) (he : 1 ≤ e) :
    (x ||| bitFor d).testBit (e - 1) = (x.testBit (e - 1) || decide (d = e)) := by
  rw [Nat.testBit_or, testBit_bitFor]
  congr 1
  by_cases h : d = e
  · subst h; simp
  · have : ¬ (d - 1 = e - 1) := by omega
    simp [h, this]

theorem bitFor_lt_512 (d : Nat) (hd9 : d ≤ 9) : bitFor d < 512 := by
  rw [bitFor_eq]
  calc 2 ^ (d - 1) ≤ 2 ^ 8 := Nat.pow_le_pow_right (by norm_num) (by omega)
    _ < 512 := by norm_num

theorem or_lt_512 (x y : Nat) (hx : x < 512) (hy : y < 512) : x ||| y < 512 := by
  have h : (512 : Nat) = 2 ^ 9 := by norm_num
  rw [h] at hx hy ⊢
  exact Nat.or_lt_two_pow hx hy

theorem possible_testBit (bl : BlankList) (r c k : Nat) :
    (bl.possible r c).testBit k = true ↔
      (bl.rows r).testBit k = true ∧ (bl.cols c).testBit k = true ∧
        (bl.blocks (r / 3) (c / 3)).testBit k = true := by
  simp only [BlankList.possible, Nat.testBit_and, Bool.and_eq_true, and_assoc]

theorem set_false_eq (b : Board) (r c d : Nat) (hd : d ≠ 0) :
    b.set r c d false =
      { b with matrix := upd2 b.matrix r c d, Blank := b.Blank.elim r c d,
               remains := dec32 b.remains } := by
  simp [Board.set, hd]

theorem set_zero_eq (b : Board) (r c : Nat) :
    b.set r c 0 false = { b with matrix := upd2 b.matrix r c 0 } := by
  simp [Board.set]

theorem unset_eq (b : Board) (r c : Nat) (hv : b.matrix r c ≠ 0) :
    b.unset r c = (b.matrix r c,
      { b with matrix := upd2 b.matrix r c 0, Blank := b.Blank.cancel r c (b.matrix r c),
               remains := inc32 b.remains }) := by
  simp [Board.unset, hv]

theorem unset_blank (b : Board) (r c : Nat) (hv : b.matrix r c = 0) :
    b.unset r c = (0, b) := by
  have h : upd2 b.matrix r c 0 = b.matrix := by
    have := upd2_same b.matrix r c
    rwa [hv] at this
  simp [Board.unset, hv, h]

theorem set_zero_blank (b : Board) (r c : Nat) (hv : b.matrix r c = 0) :
    b.set r c 0 false = b := by
  have h : upd2 b.matrix r c 0 = b.matrix := by
    have := upd2_same b.matrix r c
    rwa [hv] at this
  rw [set_zero_eq, h]

/-- A tracker-legal digit occurs nowhere in the row, the column and the block. -/
theorem Board.Sync.legal_free {b : Board} (hs : b.Sync) {r c d : Nat} (hr : r < 9) (hc : c < 9)
    (hd1 : 1 ≤ d) (hd9 : d ≤ 9) (hleg : b.Blank.possible r c &&& bitFor d ≠ 0) :
    (∀ c2, c2 < 9 → b.matrix r c2 ≠ d) ∧ (∀ r2, r2 < 9 → b.matrix r2 c ≠ d) ∧
    (∀ r2 c2, r2 < 9 → c2 < 9 → r2 / 3 = r / 3 → c2 / 3 = c / 3 → b.matrix r2 c2 ≠ d) := by
  rw [and_bitFor_ne_zero, possible_testBit] at hleg
  exact ⟨(hs.rows_bit r d hr hd1 hd9).1 hleg.1, (hs.cols_bit c d hc hd1 hd9).1 hleg.2.1,
    (hs.blocks_bit (r / 3) (c / 3) d (by omega) (by omega) hd1 hd9).1 hleg.2.2⟩

theorem Board.Sync.free_legal {b : Board} (hs : b.Sync) {r c d : Nat} (hr : r < 9) (hc : c < 9)
    (hd1 : 1 ≤ d) (hd9 : d ≤ 9)
    (h1 : ∀ c2, c2 < 9 → b.matrix r c2 ≠ d) (h2 : ∀ r2, r2 < 9 → b.matrix r2 c ≠ d)
    (h3 : ∀ r2 c2, r2 < 9 → c2 < 9 → r2 / 3 = r / 3 → c2 / 3 = c / 3 → b.matrix r2 c2 ≠ d) :
    (b.Blank.possible r c).testBit (d - 1) = true := by
  rw [possible_testBit]
  exact ⟨(hs.rows_bit r d hr hd1 hd9).2 h1, (hs.cols_bit c d hc hd1 hd9).2 h2,
    (hs.blocks_bit (r / 3) (c / 3) d (by omega) (by omega) hd1 hd9).2 h3⟩

theorem Board.Sync.possible_lt {b : Board} (hs : b.Sync) {r c : Nat} (hr : r < 9) :
    b.Blank.possible r c < 512 := by
  unfold BlankList.possible
  exact lt_512_of_and_left _ _ (lt_512_of_and_left _ _ (hs.rows_lt r hr))

/-- A legal placement keeps the board in step. -/
theorem Board.Sync.set {b : Board} (hs : b.Sync) {r c d : Nat} (hr : r < 9) (hc : c < 9)
    (hd1 : 1 ≤ d) (hd9 : d ≤ 9) (hblank : b.matrix r c = 0)
    (hleg : b.Blank.possible r c &&& bitFor d ≠ 0) : (b.set r c d false).Sync := by
  obtain ⟨f1, f2, f3⟩ := hs.legal_free hr hc hd1 hd9 hleg
  rw [set_false_eq b r c d (by omega)]
  constructor
  · intro r2 c2 h2 h3
    simp only [upd2_apply]
    split_ifs
    · exact hd9
    · exact hs.val_le r2 c2 h2 h3
  · intro r2 h2
    simp only [BlankList.elim, upd1_apply]
    split_ifs
    · exact lt_512_of_and_left _ _ (hs.rows_lt r hr)
    · exact hs.rows_lt r2 h2
  · intro c2 h2
    simp only [BlankList.elim, upd1_apply]
    split_ifs
    · exact lt_512_of_and_left _ _ (hs.cols_lt c hc)
    · exact hs.cols_lt c2 h2
  · intro br bc h2 h3
    simp only [BlankList.elim, upd2_apply]
    split_ifs
    · exact lt_512_of_and_left _ _ (hs.blocks_lt _ _ (by omega) (by omega))
    · exact hs.blocks_lt br bc h2 h3
  · intro r2 e h2 he1 he9
    simp only [BlankList.elim, upd1_apply, upd2_apply]
    by_cases hrr : r2 = r
    · subst hrr
      rw [if_pos rfl, testBit_and_bnot_bitFor _ _ _ hd1 he1 he9, Bool.and_eq_true,
        hs.rows_bit r2 e h2 he1 he9, decide_eq_true_eq]
      constructor
      · rintro ⟨h, hne⟩ c2 hc2
        split_ifs
        · exact hne
        · exact h c2 hc2
      · intro h
        refine ⟨fun c2 hc2 => ?_, ?_⟩
        · by_cases hcc : c2 = c
          · subst hcc; rw [hblank]; omega
          · have := h c2 hc2
            rwa [if_neg (by tauto)] at this
        · have := h c hc
          rwa [if_pos ⟨rfl, rfl⟩] at this
    · rw [if_neg hrr, hs.rows_bit r2 e h2 he1 he9]
      simp only [hrr, false_and, if_false]
  · intro c2 e h2 he1 he9
    simp only [BlankList.elim, upd1_apply, upd2_apply]
    by_cases hcc : c2 = c
    · subst hcc
      rw [if_pos rfl, testBit_and_bnot_bitFor _ _ _ hd1 he1 he9, Bool.and_eq_true,
        hs.cols_bit c2 e h2 he1 he9, decide_eq_true_eq]
      constructor
      · rintro ⟨h, hne⟩ r2 hr2
        split_ifs
        · exact hne
        · exact h r2 hr2
      · intro h
        refine ⟨fun r2 hr2 => ?_, ?_⟩
        · by_cases hrr : r2 = r
          · subst hrr; rw [hblank]; omega
          · have := h r2 hr2
            rwa [if_neg (by tauto)] at this
        · have := h r hr
          rwa [if_pos ⟨rfl, rfl⟩] at this
    · rw [if_neg hcc, hs.cols_bit c2 e h2 he1 he9]
      simp only [hcc, and_false, if_false]
  · intro br bc e hbr hbc he1 he9
    simp only [BlankList.elim, upd2_apply]
    by_cases hbb : br = r / 3 ∧ bc = c / 3
    · obtain ⟨rfl, rfl⟩ := hbb
      rw [if_pos ⟨rfl, rfl⟩, testBit_and_bnot_bitFor _ _ _ hd1 he1 he9, Bool.and_eq_true,
        hs.blocks_bit _ _ e hbr hbc he1 he9, decide_eq_true_eq]
      constructor
      · rintro ⟨h, hne⟩ r2 c2 hr2 hc2 e1 e2
        split_ifs
        · exact hne
        · exact h r2 c2 hr2 hc2 e1 e2
      · intro h
        refine ⟨fun r2 c2 hr2 hc2 e1 e2 => ?_, ?_⟩
        · by_cases hcc : r2 = r ∧ c2 = c
          · obtain ⟨rfl, rfl⟩ := hcc; rw [hblank]; omega
          · have := h r2 c2 hr2 hc2 e1 e2
            rwa [if_neg hcc] at this
        · have := h r c hr hc rfl rfl
          rwa [if_pos ⟨rfl, rfl⟩] at this
    · rw [if_neg hbb, hs.blocks_bit br bc e hbr hbc he1 he9]
      constructor
      · intro h r2 c2 hr2 hc2 e1 e2
        rw [if_neg (by rintro ⟨rfl, rfl⟩; exact hbb ⟨e1.symm, e2.symm⟩)]
        exact h r2 c2 hr2 hc2 e1 e2
      · intro h r2 c2 hr2 hc2 e1 e2
        have := h r2 c2 hr2 hc2 e1 e2
        rwa [if_neg (by rintro ⟨rfl, rfl⟩; exact hbb ⟨e1.symm, e2.symm⟩)] at this
  · intro r2 c1 c2 h2 hc1 hc2
    simp only [upd2_apply]
    intro hne heq
    by_cases ha : r2 = r ∧ c1 = c <;> by_cases hb : r2 = r ∧ c2 = c
    · omega
    · rw [if_pos ha, if_neg hb] at heq
      obtain ⟨rfl, rfl⟩ := ha
      exact absurd heq.symm (f1 c2 hc2)
    · rw [if_neg ha, if_pos hb] at heq
      obtain ⟨rfl, rfl⟩ := hb
      exact absurd heq (f1 c1 hc1)
    · rw [if_neg ha] at hne
      rw [if_neg ha, if_neg hb] at heq
      exact hs.row_inj r2 c1 c2 h2 hc1 hc2 hne heq
  · intro r1 r2 c2 h1 h2 hc2
    simp only [upd2_apply]
    intro hne heq
    by_cases ha : r1 = r ∧ c2 = c <;> by_cases hb : r2 = r ∧ c2 = c
    · omega
    · rw [if_pos ha, if_neg hb] at heq
      obtain ⟨rfl, rfl⟩ := ha
      exact absurd heq.symm (f2 r2 h2)
    · rw [if_neg ha, if_pos hb] at heq
      obtain ⟨rfl, rfl⟩ := hb
      exact absurd heq (f2 r1 h1)
    · rw [if_neg ha] at hne
      rw [if_neg ha, if_neg hb] at heq
      exact hs.col_inj r1 r2 c2 h1 h2 hc2 hne heq
  · intro r1 c1 r2 c2 h1 hc1 h2 hc2 e1 e2
    simp only [upd2_apply]
    intro hne heq
    by_cases ha : r1 = r ∧ c1 = c <;> by_cases hb : r2 = r ∧ c2 = c
    · omega
    · rw [if_pos ha, if_neg hb] at heq
      obtain ⟨rfl, rfl⟩ := ha
      exact absurd heq.symm (f3 r2 c2 h2 hc2 e1.symm e2.symm)
    · rw [if_neg ha, if_pos hb] at heq
      obtain ⟨rfl, rfl⟩ := hb
      exact absurd heq (f3 r1 c1 h1 hc1 e1 e2)
    · rw [if_neg ha] at hne
      rw [if_neg ha, if_neg hb] at heq
      exact hs.block_inj r1 c1 r2 c2 h1 hc1 h2 hc2 e1 e2 hne heq
  · show dec32 b.remains = countZeros (upd2 b.matrix r c d)
    have h := countZeros_upd2 b.matrix r c d hr hc
    rw [if_pos hblank, if_neg (by omega)] at h
    have hle := countZeros_le b.matrix
    rw [hs.remains_eq]
    unfold dec32
    omega

/-- Removing a digit keeps the board in step. -/
theorem Board.Sync.unset {b : Board} (hs : b.Sync) {r c : Nat} (hr : r < 9) (hc : c < 9) :
    (b.unset r c).2.Sync := by
  by_cases hv : b.matrix r c = 0
  · rw [unset_blank b r c hv]; exact hs
  have hv9 := hs.val_le r c hr hc
  have hv1 : 1 ≤ b.matrix r c := by omega
  rw [unset_eq b r c hv]
  constructor
  · intro r2 c2 h2 h3
    simp only [upd2_apply]
    split_ifs
    · omega
    · exact hs.val_le r2 c2 h2 h3
  · intro r2 h2
    simp only [BlankList.cancel, upd1_apply]
    split_ifs
    · exact or_lt_512 _ _ (hs.rows_lt r hr) (bitFor_lt_512 _ hv9)
    · exact hs.rows_lt r2 h2
  · intro c2 h2
    simp only [BlankList.cancel, upd1_apply]
    split_ifs
    · exact or_lt_512 _ _ (hs.cols_lt c hc) (bitFor_lt_512 _ hv9)
    · exact hs.cols_lt c2 h2
  · intro br bc h2 h3
    simp only [BlankList.cancel, upd2_apply]
    split_ifs
    · exact or_lt_512 _ _ (hs.blocks_lt _ _ (by omega) (by omega)) (bitFor_lt_512 _ hv9)
    · exact hs.blocks_lt br bc h2 h3
  · intro r2 e h2 he1 he9
    simp only [BlankList.cancel, upd1_apply, upd2_apply]
    by_cases hrr : r2 = r
    · subst hrr
      rw [if_pos rfl, testBit_or_bitFor _ _ _ hv1 he1, Bool.or_eq_true,
        hs.rows_bit r2 e h2 he1 he9, decide_eq_true_eq]
      constructor
      · rintro (h | h) c2 hc2
        · split_ifs
          · omega
          · exact h c2 hc2
        · split_ifs with hcc
          · omega
          · intro h2e
            have := hs.row_inj r2 c2 c h2 hc2 hc (by omega) (by omega)
            exact hcc ⟨rfl, this⟩
      · intro h
        by_cases hve : b.matrix r2 c = e
        · exact Or.inr hve
        · left
          intro c2 hc2
          by_cases hcc : c2 = c
          · subst hcc; exact hve
          · have := h c2 hc2
            rwa [if_neg (by tauto)] at this
    · rw [if_neg hrr, hs.rows_bit r2 e h2 he1 he9]
      simp only [hrr, false_and, if_false]
  · intro c2 e h2 he1 he9
    simp only [BlankList.cancel, upd1_apply, upd2_apply]
    by_cases hcc : c2 = c
    · subst hcc
      rw [if_pos rfl, testBit_or_bitFor _ _ _ hv1 he1, Bool.or_eq_true,
        hs.cols_bit c2 e h2 he1 he9, decide_eq_true_eq]
      constructor
      · rintro (h | h) r2 hr2
        · split_ifs
          · omega
          · exact h r2 hr2
        · split_ifs with hrr
          · omega
          · intro h2e
            have := hs.col_inj r2 r c2 hr2 hr h2 (by omega) (by omega)
            exact hrr ⟨this, rfl⟩
      · intro h
        by_cases hve : b.matrix r c2 = e
        · exact Or.inr hve
        · left
          intro r2 hr2
          by_cases hrr : r2 = r
          · subst hrr; exact hve
          · have := h r2 hr2
            rwa [if_neg (by tauto)] at this
    · rw [if_neg hcc, hs.cols_bit c2 e h2 he1 he9]
      simp only [hcc, and_false, if_false]
  · intro br bc e hbr hbc he1 he9
    simp only [BlankList.cancel, upd2_apply]
    by_cases hbb : br = r / 3 ∧ bc = c / 3
    · obtain ⟨rfl, rfl⟩ := hbb
      rw [if_pos ⟨rfl, rfl⟩, testBit_or_bitFor _ _ _ hv1 he1, Bool.or_eq_true,
        hs.blocks_bit _ _ e hbr hbc he1 he9, decide_eq_true_eq]
      constructor
      · rintro (h | h) r2 c2 hr2 hc2 e1 e2
        · split_ifs
          · omega
          · exact h r2 c2 hr2 hc2 e1 e2
        · split_ifs with hcc
          · omega
          · intro h2e
            have := hs.block_inj r2 c2 r c hr2 hc2 hr hc e1 e2 (by omega) (by omega)
            exact hcc this
      · intro h
        by_cases hve : b.matrix r c = e
        · exact Or.inr hve
        · left
          intro r2 c2 hr2 hc2 e1 e2
          by_cases hcc : r2 = r ∧ c2 = c
          · obtain ⟨rfl, rfl⟩ := hcc; exact hve
          · have := h r2 c2 hr2 hc2 e1 e2
            rwa [if_neg hcc] at this
    · rw [if_neg hbb, hs.blocks_bit br bc e hbr hbc he1 he9]
      constructor
      · intro h r2 c2 hr2 hc2 e1 e2
        rw [if_neg (by rintro ⟨rfl, rfl⟩; exact hbb ⟨e1.symm, e2.symm⟩)]
        exact h r2 c2 hr2 hc2 e1 e2
      · intro h r2 c2 hr2 hc2 e1 e2
        have := h r2 c2 hr2 hc2 e1 e2
        rwa [if_neg (by rintro ⟨rfl, rfl⟩; exact hbb ⟨e1.symm, e2.symm⟩)] at this
  · intro r2 c1 c2 h2 hc1 hc2
    simp only [upd2_apply]
    intro hne heq
    by_cases ha : r2 = r ∧ c1 = c
    · rw [if_pos ha] at hne; omega
    · rw [if_neg ha] at hne heq
      by_cases hb : r2 = r ∧ c2 = c
      · rw [if_pos hb] at heq; omega
      · rw [if_neg hb] at heq
        exact hs.row_inj r2 c1 c2 h2 hc1 hc2 hne heq
  · intro r1 r2 c2 h1 h2 hc2
    simp only [upd2_apply]
    intro hne heq
    by_cases ha : r1 = r ∧ c2 = c
    · rw [if_pos ha] at hne; omega
    · rw [if_neg ha] at hne heq
      by_cases hb : r2 = r ∧ c2 = c
      · rw [if_pos hb] at heq; omega
      · rw [if_neg hb] at heq
        exact hs.col_inj r1 r2 c2 h1 h2 hc2 hne heq
  · intro r1 c1 r2 c2 h1 hc1 h2 hc2 e1 e2
    simp only [upd2_apply]
    intro hne heq
    by_cases ha : r1 = r ∧ c1 = c
    · rw [if_pos ha] at hne; omega
    · rw [if_neg ha] at hne heq
      by_cases hb : r2 = r ∧ c2 = c
      · rw [if_pos hb] at heq; omega
      · rw [if_neg hb] at heq
        exact hs.block_inj r1 c1 r2 c2 h1 hc1 h2 hc2 e1 e2 hne heq
  · show inc32 b.remains = countZeros (upd2 b.matrix r c 0)
    have h := countZeros_upd2 b.matrix r c 0 hr hc
    rw [if_neg hv, if_pos rfl] at h
    have hle := countZeros_le (upd2 b.matrix r c 0)
    rw [hs.remains_eq]
    unfold inc32
    omega

theorem Board.init_sync : Board.init.Sync := by
  constructor
  · intro r c _ _; simp [Board.init]
  · intro r _; simp [Board.init, BlankList.init, allSet]
  · intro r _; simp [Board.init, BlankList.init, allSet]
  · intro r c _ _; simp [Board.init, BlankList.init, allSet]
  · intro r d _ hd1 hd9
    have h : (allSet.testBit (d - 1) = true) := by
      have : ∀ d, d < 10 → 1 ≤ d → allSet.testBit (d - 1) = true := by decide
      exact this d (by omega) hd1
    simp only [Board.init, BlankList.init, h, true_iff]
    intro c _; omega
  · intro r d _ hd1 hd9
    have h : (allSet.testBit (d - 1) = true) := by
      have : ∀ d, d < 10 → 1 ≤ d → allSet.testBit (d - 1) = true := by decide
      exact this d (by omega) hd1
    simp only [Board.init, BlankList.init, h, true_iff]
    intro c _; omega
  · intro br bc d _ _ hd1 hd9
    have h : (allSet.testBit (d - 1) = true) := by
      have : ∀ d, d < 10 → 1 ≤ d → allSet.testBit (d - 1) = true := by decide
      exact this d (by omega) hd1
    simp only [Board.init, BlankList.init, h, true_iff]
    intro r c _ _ _ _; omega
  · intro r c1 c2 _ _ _ h; simp [Board.init] at h
  · intro r c1 c2 _ _ _ h; simp [Board.init] at h
  · intro r1 c1 r2 c2 _ _ _ _ _ _ h; simp [Board.init] at h
  · show (81 : Nat) = countZeros (fun _ _ => 0)
    decide


/-! ## Operations that only narrow `memory` -/

theorem foldl_inv {σ α : Type} (P : σ → Prop) (f : σ → α → σ) (l : List α) (s : σ)
    (h0 : P s) (hstep : ∀ s a, a ∈ l → P s → P (f s a)) : P (l.foldl f s) := by
  induction l generalizing s with
  | nil => exact h0
  | cons x xs ih =>
    rw [List.foldl_cons]
    exact ih (f s x) (hstep s x (List.mem_cons_self x xs) h0)
      (fun s a ha hp => hstep s a (List.mem_cons_of_mem x ha) hp)

theorem Board.Narrows.refl (b : Board) : b.Narrows b :=
  ⟨rfl, rfl, rfl, rfl, fun _ _ _ h => h⟩

theorem Board.Narrows.trans {b1 b2 b3 : Board} (h12 : b1.Narrows b2) (h23 : b2.Narrows b3) :
    b1.Narrows b3 :=
  ⟨h23.1.trans h12.1, h23.2.1.trans h12.2.1, h23.2.2.1.trans h12.2.2.1,
    h23.2.2.2.1.trans h12.2.2.2.1, fun r c k h => h12.2.2.2.2 r c k (h23.2.2.2.2 r c k h)⟩

theorem Board.narrows_andMem (b : Board) (r c x : Nat) : b.Narrows (b.andMem r c x) := by
  refine ⟨rfl, rfl, rfl, rfl, fun r2 c2 k h => ?_⟩
  simp only [Board.andMem, upd2_apply] at h
  split_ifs at h with hh
  · rw [Nat.testBit_and, Bool.and_eq_true] at h
    rw [hh.1, hh.2]; exact h.1
  · exact h

/-- A loop whose body narrows the board narrows the board. -/
theorem Board.narrows_foldl {α : Type} (f : Board → α → Board) (l : List α) (b : Board)
    (hstep : ∀ (s : Board) (a : α), s.Narrows (f s a)) : b.Narrows (l.foldl f b) :=
  foldl_inv (fun s => b.Narrows s) f l b (Board.Narrows.refl b)
    (fun s a _ hp => hp.trans (hstep s a))

theorem Board.narrows_ite (b b2 : Board) (p : Prop) [Decidable p] (h : b.Narrows b2) :
    b.Narrows (if p then b2 else b) := by
  split_ifs
  · exact h
  · exact Board.Narrows.refl b

theorem Board.narrows_ite2 (b b2 : Board) (p : Prop) [Decidable p] (h : b.Narrows b2) :
    b.Narrows (if p then b else b2) := by
  split_ifs
  · exact Board.Narrows.refl b
  · exact h

theorem Board.narrows_updateStep (s : Board) (row col i : Nat) :
    s.Narrows (s.updateStep row col i) := by
  unfold Board.updateStep
  dsimp only
  have h1 := Board.narrows_ite s (s.andMem row i (s.Blank.possible row i)) (s.matrix row i = 0)
    (Board.narrows_andMem s row i _)
  generalize (if s.matrix row i = 0 then s.andMem row i (s.Blank.possible row i) else s) = s1
    at h1 ⊢
  have h2 := Board.narrows_ite s1 (s1.andMem i col (s1.Blank.possible i col))
    (s1.matrix i col = 0) (Board.narrows_andMem s1 i col _)
  generalize (if s1.matrix i col = 0 then s1.andMem i col (s1.Blank.possible i col) else s1) = s2
    at h2 ⊢
  refine (h1.trans h2).trans ?_
  split_ifs
  · exact Board.narrows_andMem _ _ _ _
  · exact Board.Narrows.refl _

theorem Board.narrows_update (b : Board) (row col : Nat) : b.Narrows (b._update row col) := by
  unfold Board._update
  apply Board.narrows_foldl
  intro s i
  exact Board.narrows_updateStep s row col i

theorem Board.Narrows.sync {b1 b2 : Board} (h : b1.Narrows b2) (hs : b1.Sync) : b2.Sync := by
  obtain ⟨hm, hb, hr, _, _⟩ := h
  constructor
  · rw [hm]; exact hs.val_le
  · rw [hb]; exact hs.rows_lt
  · rw [hb]; exact hs.cols_lt
  · rw [hb]; exact hs.blocks_lt
  · rw [hb, hm]; exact hs.rows_bit
  · rw [hb, hm]; exact hs.cols_bit
  · rw [hb, hm]; exact hs.blocks_bit
  · rw [hm]; exact hs.row_inj
  · rw [hm]; exact hs.col_inj
  · rw [hm]; exact hs.block_inj
  · rw [hr, hm]; exact hs.remains_eq

theorem set_true_eq (b : Board) (r c d : Nat) :
    b.set r c d true = (b.set r c d false)._update r c := by
  simp [Board.set]

theorem Board.narrows_set_true (b : Board) (r c d : Nat) :
    (b.set r c d false).Narrows (b.set r c d true) := by
  rw [set_true_eq]; exact Board.narrows_update _ r c

theorem Board.narrows_set_adv (b : Board) (r c d : Nat) (adv : Bool) :
    (b.set r c d false).Narrows (b.set r c d adv) := by
  cases adv
  · exact Board.Narrows.refl _
  · exact Board.narrows_set_true b r c d

/-! ## Call sequences: C4, C5, C6 -/

theorem Board.Sync.call {b : Board} (hs : b.Sync) (cl : Call) (hl : cl.legal b) :
    (b.call cl).Sync := by
  cases cl with
  | set row col val adv =>
    obtain ⟨hr, hc, h1, h9, hb, hleg⟩ := hl
    exact (Board.narrows_set_adv b row col val adv).sync (hs.set hr hc h1 h9 hb hleg)
  | unset row col =>
    exact hs.unset hl.1 hl.2

theorem Board.Sync.calls {b : Board} (hs : b.Sync) (cs : List Call) (hl : legalCalls b cs) :
    (b.calls cs).Sync := by
  induction cs generalizing b with
  | nil => exact hs
  | cons cl cs ih =>
    exact ih (hs.call cl hl.1) hl.2

theorem digitFree_iff (m : Nat → Nat → Nat) (r c d : Nat) (hr : r < 9) (hc : c < 9) :
    digitFree m r c d = true ↔
      (∀ c2, c2 < 9 → m r c2 ≠ d) ∧ (∀ r2, r2 < 9 → m r2 c ≠ d) ∧
      (∀ r2 c2, r2 < 9 → c2 < 9 → r2 / 3 = r / 3 → c2 / 3 = c / 3 → m r2 c2 ≠ d) := by
  simp only [digitFree, rowCells, colCells, blockCells, Bool.and_eq_true, List.all_eq_true,
    List.mem_map, List.mem_range, bne_iff_ne, ne_eq, forall_exists_index, and_imp,
    forall_apply_eq_imp_iff₂]
  constructor
  · rintro ⟨⟨h1, h2⟩, h3⟩
    refine ⟨h1, h2, fun r2 c2 hr2 hc2 e1 e2 => ?_⟩
    have := h3 (r2 % 3 * 3 + c2 % 3) (by omega)
    have ea : (r / 3 * 3 + c / 3) / 3 * 3 + (r2 % 3 * 3 + c2 % 3) / 3 = r2 := by omega
    have eb : (r / 3 * 3 + c / 3) % 3 * 3 + (r2 % 3 * 3 + c2 % 3) % 3 = c2 := by omega
    rwa [ea, eb] at this
  · rintro ⟨h1, h2, h3⟩
    refine ⟨⟨h1, h2⟩, fun t ht => ?_⟩
    exact h3 _ _ (by omega) (by omega) (by omega) (by omega)

theorem foldl_or_testBit (p : Nat → Bool) (l : List Nat) (init k : Nat) :
    (l.foldl (fun (mask : Nat) (d : Nat) => if p d then mask ||| bitFor d else mask) init).testBit k
      = (init.testBit k || l.any (fun d => p d && decide (d - 1 = k))) := by
  induction l generalizing init with
  | nil => simp
  | cons x xs ih =>
    rw [List.foldl_cons, ih, List.any_cons]
    by_cases hp : p x = true
    · simp only [hp, if_true, Nat.testBit_or, testBit_bitFor, Bool.true_and, Bool.or_assoc]
    · simp only [hp, Bool.false_eq_true, if_false, Bool.false_and, Bool.false_or]

theorem foldl_or_lt (p : Nat → Bool) (l : List Nat) (init : Nat) (h0 : init < 512)
    (hl : ∀ d ∈ l, d ≤ 9) :
    l.foldl (fun (mask : Nat) (d : Nat) => if p d then mask ||| bitFor d else mask) init < 512 := by
  induction l generalizing init with
  | nil => exact h0
  | cons x xs ih =>
    rw [List.foldl_cons]
    apply ih
    · split_ifs
      · exact or_lt_512 _ _ h0 (bitFor_lt_512 x (hl x (List.mem_cons_self x xs)))
      · exact h0
    · intro d hd; exact hl d (List.mem_cons_of_mem x hd)

theorem scratchPossible_lt (m : Nat → Nat → Nat) (r c : Nat) : scratchPossible m r c < 512 := by
  unfold scratchPossible
  apply foldl_or_lt _ _ _ (by norm_num)
  intro d hd
  rw [List.mem_range'_1] at hd
  omega

theorem scratchPossible_testBit (m : Nat → Nat → Nat) (r c d : Nat) (hd1 : 1 ≤ d) (hd9 : d ≤ 9) :
    (scratchPossible m r c).testBit (d - 1) = digitFree m r c d := by
  unfold scratchPossible
  rw [foldl_or_testBit]
  simp only [Nat.zero_testBit, Bool.false_or]
  cases h : digitFree m r c d
  · rw [List.any_eq_false]
    intro e he
    rw [List.mem_range'_1] at he
    by_cases hed : e = d
    · subst hed; simp [h]
    · have : ¬ (e - 1 = d - 1) := by omega
      simp [this]
  · rw [List.any_eq_true]
    exact ⟨d, by rw [List.mem_range'_1]; omega, by simp [h]⟩

/-- On a board in step, the tracker mask of a cell is the mask recomputed from scratch. -/
theorem Board.Sync.possible_eq_scratch {b : Board} (hs : b.Sync) {r c : Nat}
    (hr : r < 9) (hc : c < 9) :
    b.Blank.possible r c = scratchPossible b.matrix r c := by
  apply eq_of_testBit_lt9 _ _ (hs.possible_lt hr) (scratchPossible_lt _ _ _)
  intro k hk
  have e : k = (k + 1) - 1 := by omega
  rw [e, scratchPossible_testBit _ _ _ _ (by omega) (by omega)]
  cases h : digitFree b.matrix r c (k + 1)
  · cases h2 : (b.Blank.possible r c).testBit (k + 1 - 1)
    · rfl
    · exfalso
      have hh := hs.legal_free hr hc (d := k + 1) (by omega) (by omega)
        ((and_bitFor_ne_zero _ _).2 h2)
      have := (digitFree_iff b.matrix r c (k + 1) hr hc).2 hh
      rw [h] at this
      exact Bool.false_ne_true this
  · obtain ⟨h1, h2, h3⟩ := (digitFree_iff b.matrix r c (k + 1) hr hc).1 h
    exact hs.free_legal hr hc (by omega) (by omega) h1 h2 h3


/-! ## The claims on `set`, `unset` and the tracker -/

/-- C4: starting from the empty board, after any sequence of `set` and `unset` calls in
which every `set` puts a digit 1..9 into a blank cell where the digit is tracker-legal,
`possible(r, c)` equals for every cell the mask recomputed from scratch from the
matrix. -/
theorem possible_eq_recomputed (cs : List Call) (hl : legalCalls Board.init cs)
    (r c : Nat) (hr : r < 9) (hc : c < 9) :
    (Board.init.calls cs).Blank.possible r c
      = scratchPossible (Board.init.calls cs).matrix r c :=
  (Board.init_sync.calls cs hl).possible_eq_scratch hr hc

theorem possible_eq_recomputed_witness :
    legalCalls Board.init [.set 0 0 5 false, .set 0 1 3 true, .unset 0 0, .set 4 4 5 false] ∧
    (Board.init.calls [.set 0 0 5 false, .set 0 1 3 true, .unset 0 0,
        .set 4 4 5 false]).Blank.possible 0 2
      = scratchPossible (Board.init.calls [.set 0 0 5 false, .set 0 1 3 true, .unset 0 0,
        .set 4 4 5 false]).matrix 0 2 :=
  ⟨by decide, possible_eq_recomputed _ (by decide) 0 2 (by decide) (by decide)⟩

/-- C5 as stated fails: two `set` calls on the same cell, with rows and columns in 0..8
and values in 0..9, leave `remaining()` at 79 while 80 cells are zero. -/
theorem remaining_desync_on_refill :
    Call.inRange (.set 0 0 1 false) ∧ Call.inRange (.set 0 0 2 false) ∧
    (Board.init.calls [.set 0 0 1 false, .set 0 0 2 false]).remaining = 79 ∧
    countZeros (Board.init.calls [.set 0 0 1 false, .set 0 0 2 false]).matrix = 80 := by
  decide

theorem remains_call {b : Board} (h : b.remains = countZeros b.matrix) (cl : Call)
    (hl : cl.onBlank b) : (b.call cl).remains = countZeros (b.call cl).matrix := by
  cases cl with
  | set row col val adv =>
    obtain ⟨hr, hc, _, hb⟩ := hl
    have hn := Board.narrows_set_adv b row col val adv
    show (b.set row col val adv).remains = countZeros (b.set row col val adv).matrix
    rw [hn.2.2.1, hn.1]
    by_cases hv : val = 0
    · subst hv
      rw [set_zero_blank b row col hb]; exact h
    · rw [set_false_eq b row col val hv]
      show dec32 b.remains = countZeros (upd2 b.matrix row col val)
      have h1 := countZeros_upd2 b.matrix row col val hr hc
      rw [if_pos hb, if_neg hv] at h1
      have hle := countZeros_le b.matrix
      rw [h]; unfold dec32; omega
  | unset row col =>
    obtain ⟨hr, hc⟩ := hl
    show (b.unset row col).2.remains = countZeros (b.unset row col).2.matrix
    by_cases hv : b.matrix row col = 0
    · rw [unset_blank b row col hv]; exact h
    · rw [unset_eq b row col hv]
      show inc32 b.remains = countZeros (upd2 b.matrix row col 0)
      have h1 := countZeros_upd2 b.matrix row col 0 hr hc
      rw [if_neg hv, if_pos rfl] at h1
      have hle := countZeros_le (upd2 b.matrix row col 0)
      rw [h]; unfold inc32; omega

theorem remains_calls {b : Board} (h : b.remains = countZeros b.matrix) (cs : List Call)
    (hl : blankCalls b cs) : (b.calls cs).remains = countZeros (b.calls cs).matrix := by
  induction cs generalizing b with
  | nil => exact h
  | cons cl cs ih => exact ih (remains_call h cl hl.1) hl.2

/-- C5, amended: starting from the empty board, after every sequence of `set` and `unset`
calls with rows and columns in 0..8 and values in 0..9 in which every `set` targets a
cell that is blank, `remaining()` equals the number of zero cells of the matrix. -/
theorem remaining_eq_countZeros (cs : List Call) (hl : blankCalls Board.init cs) :
    (Board.init.calls cs).remaining = countZeros (Board.init.calls cs).matrix :=
  remains_calls (b := Board.init) (by decide) cs hl

theorem remaining_eq_countZeros_witness :
    blankCalls Board.init [.set 0 0 1 false, .unset 0 0, .set 0 0 2 true, .set 3 4 0 false] ∧
    (Board.init.calls [.set 0 0 1 false, .unset 0 0, .set 0 0 2 true,
        .set 3 4 0 false]).remaining
      = countZeros (Board.init.calls [.set 0 0 1 false, .unset 0 0, .set 0 0 2 true,
        .set 3 4 0 false]).matrix :=
  ⟨by decide, remaining_eq_countZeros _ (by decide)⟩

theorem Board.init_word32 : Board.init.Word32 := by
  refine ⟨by decide, by decide, fun i j => ?_⟩
  simp [Board.init, BlankList.init, allSet]

theorem and_bnot_or_bitFor (x d : Nat) (hx : x < 4294967296) (hd1 : 1 ≤ d) (hd9 : d ≤ 9)
    (hb : x.testBit (d - 1) = true) : (x &&& bnot (bitFor d)) ||| bitFor d = x := by
  apply Nat.eq_of_testBit_eq
  intro k
  rw [Nat.testBit_or, Nat.testBit_and, testBit_bitFor]
  by_cases hk : k < 32
  · rw [testBit_bnot _ _ hk, testBit_bitFor]
    by_cases hdk : d - 1 = k
    · subst hdk; simp [hb]
    · simp [hdk]
  · have h1 : x.testBit k = false := by
      apply Nat.testBit_lt_two_pow
      calc x < 2 ^ 32 := by simpa using hx
        _ ≤ 2 ^ k := Nat.pow_le_pow_right (by norm_num) (by omega)
    have h2 : ¬ (d - 1 = k) := by omega
    simp [h1, h2]

theorem inc32_dec32 (x : Nat) (hx : x < 4294967296) : inc32 (dec32 x) = x := by
  unfold inc32 dec32; omega

/-- C6: for every board, every blank cell `(r, c)` and every digit `d` in 1..9 that is
tracker-legal at `(r, c)`, `set(r, c, d)` without propagation followed by `unset(r, c)`
returns `d` and leaves the board exactly as it was before the `set`. -/
theorem unset_set_restores (b : Board) (r c d : Nat) (hw : b.Word32) (_hr : r < 9) (_hc : c < 9)
    (hd1 : 1 ≤ d) (hd9 : d ≤ 9) (hblank : b.matrix r c = 0)
    (hleg : b.Blank.possible r c &&& bitFor d ≠ 0) :
    (b.set r c d false).unset r c = (d, b) := by
  rw [and_bitFor_ne_zero, possible_testBit] at hleg
  obtain ⟨hrem, _, hall⟩ := hw
  have hd0 : d ≠ 0 := by omega
  rw [set_false_eq b r c d hd0, unset_eq _ r c (by simp [hd0])]
  obtain ⟨bc, m, mem, rem, ⟨rows, cols, blocks⟩⟩ := b
  simp only [upd2_apply, and_self, if_true, Prod.mk.injEq, true_and, Board.mk.injEq,
    BlankList.elim, BlankList.cancel, upd1_apply, BlankList.mk.injEq, upd2_upd2, upd1_upd1]
  simp only [] at hleg hblank hrem hall
  refine ⟨?_, inc32_dec32 rem hrem, ?_, ?_, ?_⟩
  · have := upd2_same m r c
    rwa [hblank] at this
  · rw [and_bnot_or_bitFor _ d (hall r c).2.2.1 hd1 hd9 hleg.1]
    exact upd1_same rows r
  · rw [and_bnot_or_bitFor _ d (hall c c).2.2.2.1 hd1 hd9 hleg.2.1]
    exact upd1_same cols c
  · rw [and_bnot_or_bitFor _ d (hall (r / 3) (c / 3)).2.2.2.2 hd1 hd9 hleg.2.2]
    exact upd2_same blocks (r / 3) (c / 3)

theorem unset_set_restores_witness :
    Board.init.Word32 ∧ Board.init.matrix 2 3 = 0 ∧
    Board.init.Blank.possible 2 3 &&& bitFor 7 ≠ 0 ∧
    (Board.init.set 2 3 7 false).unset 2 3 = (7, Board.init) :=
  ⟨Board.init_word32, by decide, by decide,
    unset_set_restores Board.init 2 3 7 Board.init_word32
      (by decide) (by decide) (by decide) (by decide) (by decide) (by decide)⟩


/-! ## Complete grids -/

/-- Nine values hold each of 1..9 once iff they lie in 1..9 and are pairwise distinct. -/
theorem once_iff (f : Nat → Nat) :
    (∀ d ∈ List.range' 1 9, ((List.range 9).map f).count d = 1) ↔
      (∀ t, t < 9 → 1 ≤ f t ∧ f t ≤ 9) ∧ (∀ t1 t2, t1 < 9 → t2 < 9 → f t1 = f t2 → t1 = t2) := by
  have hlen : ((List.range 9).map f).length = (List.range' 1 9).length := by simp
  have hnd : (List.range' 1 9).Nodup := List.nodup_range' 1 9
  constructor
  · intro h
    have hsub : List.Subperm (List.range' 1 9) ((List.range 9).map f) := by
      rw [List.subperm_ext_iff]
      intro x hx
      rw [h x hx, List.count_eq_one_of_mem hnd hx]
    have hperm := hsub.perm_of_length_le (le_of_eq hlen)
    constructor
    · intro t ht
      have hm : f t ∈ List.range' 1 9 :=
        hperm.mem_iff.2 (List.mem_map.2 ⟨t, List.mem_range.2 ht, rfl⟩)
      rw [List.mem_range'_1] at hm
      omega
    · have hnd2 : ((List.range 9).map f).Nodup := hperm.nodup_iff.1 hnd
      intro t1 t2 h1 h2 he
      exact List.inj_on_of_nodup_map hnd2 (List.mem_range.2 h1) (List.mem_range.2 h2) he
  · rintro ⟨hr, hi⟩ d hd
    have hnd2 : ((List.range 9).map f).Nodup :=
      (List.nodup_map_iff_inj_on (List.nodup_range 9)).2
        (fun x hx y hy he => hi x y (List.mem_range.1 hx) (List.mem_range.1 hy) he)
    have hsub : List.Subperm ((List.range 9).map f) (List.range' 1 9) := by
      apply hnd2.subperm
      intro x hx
      obtain ⟨t, ht, rfl⟩ := List.mem_map.1 hx
      have := hr t (List.mem_range.1 ht)
      rw [List.mem_range'_1]; omega
    have hperm := hsub.perm_of_length_le (le_of_eq hlen.symm)
    rw [hperm.count_eq, List.count_eq_one_of_mem hnd hd]

theorem holdsOnce_row (g : Nat → Nat → Nat) (k : Nat) :
    holdsOnce g (rowCells k) ↔
      (∀ t, t < 9 → 1 ≤ g k t ∧ g k t ≤ 9) ∧
      (∀ t1 t2, t1 < 9 → t2 < 9 → g k t1 = g k t2 → t1 = t2) := by
  unfold holdsOnce rowCells
  rw [List.map_map]
  exact once_iff (fun t => g k t)

theorem holdsOnce_col (g : Nat → Nat → Nat) (k : Nat) :
    holdsOnce g (colCells k) ↔
      (∀ t, t < 9 → 1 ≤ g t k ∧ g t k ≤ 9) ∧
      (∀ t1 t2, t1 < 9 → t2 < 9 → g t1 k = g t2 k → t1 = t2) := by
  unfold holdsOnce colCells
  rw [List.map_map]
  exact once_iff (fun t => g t k)

theorem holdsOnce_block (g : Nat → Nat → Nat) (k : Nat) :
    holdsOnce g (blockCells k) ↔
      (∀ t, t < 9 → 1 ≤ g (k / 3 * 3 + t / 3) (k % 3 * 3 + t % 3) ∧
        g (k / 3 * 3 + t / 3) (k % 3 * 3 + t % 3) ≤ 9) ∧
      (∀ t1 t2, t1 < 9 → t2 < 9 →
        g (k / 3 * 3 + t1 / 3) (k % 3 * 3 + t1 % 3) = g (k / 3 * 3 + t2 / 3) (k % 3 * 3 + t2 % 3) →
        t1 = t2) := by
  unfold holdsOnce blockCells
  rw [List.map_map]
  exact once_iff (fun t => g (k / 3 * 3 + t / 3) (k % 3 * 3 + t % 3))

theorem Valid.gridOk {g : Nat → Nat → Nat} (h : Valid g) : GridOk g := by
  constructor
  · intro r c hr hc
    exact ((holdsOnce_row g r).1 (h r (List.mem_range.2 hr)).1).1 c hc
  · intro r c1 c2 hr h1 h2 he
    exact ((holdsOnce_row g r).1 (h r (List.mem_range.2 hr)).1).2 c1 c2 h1 h2 he
  · intro r1 r2 c h1 h2 hc he
    exact ((holdsOnce_col g c).1 (h c (List.mem_range.2 hc)).2.1).2 r1 r2 h1 h2 he
  · intro r1 c1 r2 c2 h1 hc1 h2 hc2 e1 e2 he
    have hb := ((holdsOnce_block g (r1 / 3 * 3 + c1 / 3)).1
      (h (r1 / 3 * 3 + c1 / 3) (List.mem_range.2 (by omega))).2.2).2
      (r1 % 3 * 3 + c1 % 3) (r2 % 3 * 3 + c2 % 3) (by omega) (by omega)
    have a1 : (r1 / 3 * 3 + c1 / 3) / 3 * 3 + (r1 % 3 * 3 + c1 % 3) / 3 = r1 := by omega
    have a2 : (r1 / 3 * 3 + c1 / 3) % 3 * 3 + (r1 % 3 * 3 + c1 % 3) % 3 = c1 := by omega
    have a3 : (r1 / 3 * 3 + c1 / 3) / 3 * 3 + (r2 % 3 * 3 + c2 % 3) / 3 = r2 := by omega
    have a4 : (r1 / 3 * 3 + c1 / 3) % 3 * 3 + (r2 % 3 * 3 + c2 % 3) % 3 = c2 := by omega
    rw [a1, a2, a3, a4] at hb
    have := hb he
    omega

theorem GridOk.valid {g : Nat → Nat → Nat} (h : GridOk g) : Valid g := by
  intro k hk
  rw [List.mem_range] at hk
  refine ⟨(holdsOnce_row g k).2 ⟨fun t ht => h.range k t hk ht,
      fun t1 t2 h1 h2 he => h.row_inj k t1 t2 hk h1 h2 he⟩,
    (holdsOnce_col g k).2 ⟨fun t ht => h.range t k ht hk,
      fun t1 t2 h1 h2 he => h.col_inj t1 t2 k h1 h2 hk he⟩,
    (holdsOnce_block g k).2 ⟨fun t ht => h.range _ _ (by omega) (by omega),
      fun t1 t2 h1 h2 he => ?_⟩⟩
  have := h.block_inj _ _ _ _ (by omega) (by omega) (by omega) (by omega) (by omega) (by omega) he
  omega

theorem count_pos_of_once {l : List Nat} {d : Nat} (h : l.count d = 1) : d ∈ l :=
  List.count_pos_iff.1 (by omega)

/-- In a complete valid grid every digit occurs in every row. -/
theorem Valid.row_surj {g : Nat → Nat → Nat} (h : Valid g) {r d : Nat} (hr : r < 9)
    (hd1 : 1 ≤ d) (hd9 : d ≤ 9) : ∃ c, c < 9 ∧ g r c = d := by
  have := count_pos_of_once ((h r (List.mem_range.2 hr)).1 d (by rw [List.mem_range'_1]; omega))
  simp only [rowCells, List.map_map, List.mem_map, List.mem_range, Function.comp] at this
  exact this

/-- In a complete valid grid every digit occurs in every column. -/
theorem Valid.col_surj {g : Nat → Nat → Nat} (h : Valid g) {c d : Nat} (hc : c < 9)
    (hd1 : 1 ≤ d) (hd9 : d ≤ 9) : ∃ r, r < 9 ∧ g r c = d := by
  have := count_pos_of_once ((h c (List.mem_range.2 hc)).2.1 d (by rw [List.mem_range'_1]; omega))
  simp only [colCells, List.map_map, List.mem_map, List.mem_range, Function.comp] at this
  exact this

/-- In a complete valid grid every digit occurs in the block of every cell. -/
theorem Valid.block_surj {g : Nat → Nat → Nat} (h : Valid g) {r c d : Nat} (hr : r < 9)
    (hc : c < 9) (hd1 : 1 ≤ d) (hd9 : d ≤ 9) :
    ∃ r2 c2, r2 < 9 ∧ c2 < 9 ∧ r2 / 3 = r / 3 ∧ c2 / 3 = c / 3 ∧ g r2 c2 = d := by
  have := count_pos_of_once ((h (r / 3 * 3 + c / 3) (List.mem_range.2 (by omega))).2.2 d
    (by rw [List.mem_range'_1]; omega))
  simp only [blockCells, List.map_map, List.mem_map, List.mem_range, Function.comp] at this
  obtain ⟨t, ht, he⟩ := this
  exact ⟨_, _, by omega, by omega, by omega, by omega, he⟩


/-! ## The basic pass -/

theorem numForLoop_ge (fuel bit num : Nat) : num ≤ numForLoop fuel bit num := by
  induction fuel generalizing bit num with
  | zero => exact le_refl _
  | succ n ih =>
    rw [numForLoop]
    split_ifs
    · exact le_trans (Nat.le_succ num) (ih _ _)
    · exact le_refl _

theorem numFor_ne_zero (bit : Nat) (h : bit ≠ 0) : numFor bit ≠ 0 := by
  have h1 : numFor bit = numForLoop 31 (bit >>> 1) 1 := by
    show numForLoop (31 + 1) bit 0 = _
    rw [numForLoop, if_pos h]
  have := numForLoop_ge 31 (bit >>> 1) 1
  omega

/-- The result of `decide` is 0 or a mask with `bitCount` 1. -/
theorem decide_zero_or_single (p h r c : Nat) :
    Board.decide p h r c = 0 ∨ bitCount (Board.decide p h r c) = 1 := by
  unfold Board.decide
  dsimp only
  split_ifs <;> first | exact Or.inl rfl | (right; assumption)

/-- The result of `decide` is a subset of `possible`. -/
theorem decide_subset (p h r c k : Nat) (hk : (Board.decide p h r c).testBit k = true) :
    p.testBit k = true := by
  unfold Board.decide at hk
  dsimp only at hk
  split_ifs at hk
  · exact hk
  · rw [Nat.testBit_and, Bool.and_eq_true] at hk; exact hk.1
  · rw [Nat.testBit_and, Bool.and_eq_true] at hk; exact hk.1
  · rw [Nat.testBit_and, Bool.and_eq_true] at hk; exact hk.1
  · simp only [Nat.testBit_and, Bool.and_eq_true] at hk; exact hk.1.1
  · simp only [Nat.testBit_and, Bool.and_eq_true] at hk; exact hk.1.1
  · simp only [Nat.testBit_and, Bool.and_eq_true] at hk; exact hk.1.1
  · simp only [Nat.testBit_and, Bool.and_eq_true] at hk; exact hk.1.1.1
  · simp at hk

theorem decide_le (p h r c : Nat) : Board.decide p h r c ≤ p := by
  unfold Board.decide
  dsimp only
  split_ifs
  · exact le_refl _
  · exact Nat.and_le_left
  · exact Nat.and_le_left
  · exact Nat.and_le_left
  · exact le_trans Nat.and_le_left Nat.and_le_left
  · exact le_trans Nat.and_le_left Nat.and_le_left
  · exact le_trans Nat.and_le_left Nat.and_le_left
  · exact le_trans Nat.and_le_right Nat.and_le_left
  · exact Nat.zero_le _

/-- A nonzero result of `decide` on a 9-bit `possible` is the bit of a digit 1..9 that
lies in `possible`. -/
theorem decide_digit (p h r c : Nat) (hp : p < 512) (hne : Board.decide p h r c ≠ 0) :
    1 ≤ numFor (Board.decide p h r c) ∧ numFor (Board.decide p h r c) ≤ 9 ∧
    Board.decide p h r c = bitFor (numFor (Board.decide p h r c)) ∧
    p.testBit (numFor (Board.decide p h r c) - 1) = true := by
  have h1 : bitCount (Board.decide p h r c) = 1 := by
    rcases decide_zero_or_single p h r c with h0 | h0
    · exact absurd h0 hne
    · exact h0
  have hlt : Board.decide p h r c < 512 := lt_of_le_of_lt (decide_le p h r c) hp
  obtain ⟨a1, a2, a3⟩ := single_bit_cases _ hlt h1
  refine ⟨a1, a2, a3, decide_subset p h r c _ ?_⟩
  rw [a3, testBit_bitFor]
  have : numFor (bitFor (numFor (Board.decide p h r c))) = numFor (Board.decide p h r c) := by
    rw [← a3]
  rw [this]
  simp

theorem hidden_step_eq (st : Board × Bool) (i j : Nat) :
    Board.hidden_step st i j =
      if st.1.matrix i j ≠ 0 then st
      else if st.1.hiddenPick i j ≠ 0 then
        (st.1.set i j (numFor (st.1.hiddenPick i j)) false, true)
      else st := rfl

theorem hidden_sweep_eq (b : Board) :
    b.hidden_sweep = cells.foldl (fun st p => Board.hidden_step st p.1 p.2) (b, false) := by
  unfold Board.hidden_sweep
  exact foldl_cells (fun st i j => Board.hidden_step st i j) (b, false)

/-- A sweep that leaves `again` false has changed nothing. -/
theorem hidden_sweep_unchanged (b : Board) (h : b.hidden_sweep.2 = false) :
    b.hidden_sweep.1 = b := by
  rw [hidden_sweep_eq] at h ⊢
  have key : ∀ (l : List (Nat × Nat)),
      (l.foldl (fun st p => Board.hidden_step st p.1 p.2) (b, false)).2 = false →
      (l.foldl (fun st p => Board.hidden_step st p.1 p.2) (b, false)).1 = b := by
    intro l
    refine foldl_inv (fun (st : Board × Bool) => st.2 = false → st.1 = b) _ l (b, false)
      (fun _ => rfl) ?_
    intro st p _ ih
    rw [hidden_step_eq]
    split_ifs
    · exact ih
    · intro hh; exact absurd hh (by simp)
    · exact ih
  exact key cells h

/-- A sweep that sets `again` has filled a blank cell. -/
theorem hidden_sweep_count (b : Board) :
    countZeros b.hidden_sweep.1.matrix + (if b.hidden_sweep.2 then 1 else 0)
      ≤ countZeros b.matrix := by
  rw [hidden_sweep_eq]
  refine foldl_inv (fun (st : Board × Bool) => countZeros st.1.matrix + (if st.2 then 1 else 0)
      ≤ countZeros b.matrix) _ cells (b, false) (by simp) ?_
  intro st p hp ih
  rw [mem_cells] at hp
  rw [hidden_step_eq]
  by_cases h1 : st.1.matrix p.1 p.2 ≠ 0
  · rw [if_pos h1]; exact ih
  · rw [if_neg h1]
    by_cases h2 : st.1.hiddenPick p.1 p.2 ≠ 0
    · rw [if_pos h2, set_false_eq _ _ _ _ (numFor_ne_zero _ h2)]
      have hc := countZeros_upd2 st.1.matrix p.1 p.2 (numFor (st.1.hiddenPick p.1 p.2))
        hp.1 hp.2
      rw [if_pos (not_not.1 h1), if_neg (numFor_ne_zero _ h2)] at hc
      have : countZeros st.1.matrix ≤ countZeros b.matrix := by
        split_ifs at ih <;> omega
      simp only [if_true]
      omega
    · rw [if_neg h2]; exact ih

theorem hidden_fill_loop_total (fuel : Nat) (b : Board) (h : countZeros b.matrix < fuel) :
    ∃ b1, Board.hidden_fill_loop fuel b = some b1 ∧ b1.hidden_sweep = (b1, false) := by
  induction fuel generalizing b with
  | zero => omega
  | succ n ih =>
    rw [Board.hidden_fill_loop]
    have hc := hidden_sweep_count b
    by_cases hs : b.hidden_sweep.2 = true
    · rw [if_pos hs]
      rw [if_pos hs] at hc
      exact ih _ (by omega)
    · rw [if_neg hs]
      have hs2 : b.hidden_sweep.2 = false := by simpa using hs
      have hb := hidden_sweep_unchanged b hs2
      refine ⟨_, rfl, ?_⟩
      rw [hb]
      exact Prod.ext hb hs2

/-- `hidden_fill` terminates on every board, at a board on which a sweep places
nothing. -/
theorem hidden_fill_total (b : Board) :
    ∃ b1, b.hidden_fill = some b1 ∧ b1.hidden_sweep = (b1, false) :=
  hidden_fill_loop_total 82 b (lt_of_le_of_lt (countZeros_le _) (by norm_num))

theorem hidden_fill_fixed (b : Board) (h : b.hidden_sweep = (b, false)) :
    b.hidden_fill = some b := by
  show Board.hidden_fill_loop (81 + 1) b = some b
  rw [Board.hidden_fill_loop, h]
  rfl

/-- C7: for every board `hidden_fill` terminates, and running `hidden_fill` again on its
result places no digit: the second run returns the very same board (matrix, tracker
masks, `remains` and memory). -/
theorem hidden_fill_idempotent (b : Board) :
    ∃ b1, b.hidden_fill = some b1 ∧ b1.hidden_fill = some b1 := by
  obtain ⟨b1, h1, h2⟩ := hidden_fill_total b
  exact ⟨b1, h1, hidden_fill_fixed b1 h2⟩


/-! ## Hidden masks -/

theorem testBit_allSet (k : Nat) : allSet.testBit k = decide (k < 9) := by
  have h : allSet = 2 ^ 9 - 1 := by norm_num [allSet]
  rw [h, Nat.testBit_two_pow_sub_one]

/-- A loop that clears from the accumulator the masks of the elements that are not
skipped. -/
theorem foldl_andnot_testBit {α : Type} (l : List α) (skip : α → Prop) [DecidablePred skip]
    (f : α → Nat) (init k : Nat) (hk : k < 32) :
    ((l.foldl (fun (acc : Nat) (x : α) => if skip x then acc else acc &&& bnot (f x)) init).testBit k
      = true) ↔ (init.testBit k = true ∧ ∀ x ∈ l, ¬ skip x → (f x).testBit k = false) := by
  induction l generalizing init with
  | nil => simp
  | cons x xs ih =>
    rw [List.foldl_cons, ih]
    by_cases hs : skip x
    · rw [if_pos hs]
      constructor
      · rintro ⟨h1, h2⟩
        refine ⟨h1, fun y hy hny => ?_⟩
        rcases List.mem_cons.1 hy with rfl | hy
        · exact absurd hs hny
        · exact h2 y hy hny
      · rintro ⟨h1, h2⟩
        exact ⟨h1, fun y hy hny => h2 y (List.mem_cons_of_mem x hy) hny⟩
    · rw [if_neg hs, Nat.testBit_and, testBit_bnot _ _ hk, Bool.and_eq_true]
      constructor
      · rintro ⟨⟨h1, h3⟩, h2⟩
        refine ⟨h1, fun y hy hny => ?_⟩
        rcases List.mem_cons.1 hy with rfl | hy
        · simpa using h3
        · exact h2 y hy hny
      · rintro ⟨h1, h2⟩
        refine ⟨⟨h1, ?_⟩, fun y hy hny => h2 y (List.mem_cons_of_mem x hy) hny⟩
        have := h2 x (List.mem_cons_self x xs) hs
        simp [this]

/-- The cells of the 3x3 square whose first cell is `(a, b)`, row by row. -/
theorem foldl_square {σ : Type} (f : σ → Nat → Nat → σ) (s : σ) (a b : Nat) :
    (List.range' a 3).foldl (fun s i => (List.range' b 3).foldl (fun s j => f s i j) s) s
      = ((List.range' a 3).flatMap (fun i => (List.range' b 3).map (fun j => (i, j)))).foldl
          (fun s p => f s p.1 p.2) s := by
  simp only [foldl_flatMap_eq, List.foldl_map]

theorem mem_square (a b : Nat) (p : Nat × Nat) :
    p ∈ (List.range' a 3).flatMap (fun i => (List.range' b 3).map (fun j => (i, j))) ↔
      (a ≤ p.1 ∧ p.1 < a + 3) ∧ (b ≤ p.2 ∧ p.2 < b + 3) := by
  obtain ⟨r, c⟩ := p
  simp only [List.mem_flatMap, List.mem_range'_1, List.mem_map, Prod.mk.injEq]
  constructor
  · rintro ⟨i, hi, j, hj, rfl, rfl⟩
    exact ⟨hi, hj⟩
  · rintro ⟨hr, hc⟩
    exact ⟨r, hr, c, hc, rfl, rfl⟩

/-- The candidate mask that the hidden masks read at a cell: `memory` in the advanced
pass, the tracker's `possible` in the basic pass. -/
theorem house_check_testBit (b : Board) (i j : Nat) (adv : Bool) (k : Nat) (hk : k < 9)
    (hi : i < 9) (hj : j < 9) :
    ((b.house_check i j adv).testBit k = true) ↔
      ∀ r c, r < 9 → c < 9 → r / 3 = i / 3 → c / 3 = j / 3 → ¬ (r = i ∧ c = j) →
        b.matrix r c = 0 →
        (if adv then b.memory r c else b.Blank.possible r c).testBit k = false := by
  unfold Board.house_check
  dsimp only
  rw [foldl_square (fun (acc : Nat) (row col : Nat) =>
    if (row = i ∧ col = j) ∨ b.matrix row col ≠ 0 then acc
    else acc &&& (if adv then bnot (b.memory row col) else bnot (b.Blank.possible row col)))]
  have e : ∀ (acc : Nat) (p : Nat × Nat),
      (if (p.1 = i ∧ p.2 = j) ∨ b.matrix p.1 p.2 ≠ 0 then acc
        else acc &&& (if adv then bnot (b.memory p.1 p.2) else bnot (b.Blank.possible p.1 p.2)))
      = (if (p.1 = i ∧ p.2 = j) ∨ b.matrix p.1 p.2 ≠ 0 then acc
        else acc &&& bnot (if adv then b.memory p.1 p.2 else b.Blank.possible p.1 p.2)) := by
    intro acc p
    cases adv <;> rfl
  simp only [e]
  rw [foldl_andnot_testBit _ (fun p : Nat × Nat => (p.1 = i ∧ p.2 = j) ∨ b.matrix p.1 p.2 ≠ 0)
    (fun p => if adv then b.memory p.1 p.2 else b.Blank.possible p.1 p.2) allSet k (by omega)]
  rw [testBit_allSet]
  simp only [hk, decide_True, true_and, mem_square, not_or, not_not, and_imp, Prod.forall]
  constructor
  · intro h r c hr hc e1 e2 hne hz
    exact h r c (by omega) (by omega) (by omega) (by omega) hne hz
  · intro h r c h1 h2 h3 h4 hne hz
    exact h r c (by omega) (by omega) (by omega) (by omega) hne hz

theorem row_check_testBit (b : Board) (i j : Nat) (adv : Bool) (k : Nat) (hk : k < 9) :
    ((b.row_check i j adv).testBit k = true) ↔
      ∀ c, c < 9 → c ≠ j → b.matrix i c = 0 →
        (if adv then b.memory i c else b.Blank.possible i c).testBit k = false := by
  unfold Board.row_check
  have e : ∀ (acc : Nat) (col : Nat),
      (if b.matrix i col = 0 ∧ col ≠ j then
        acc &&& (if adv then bnot (b.memory i col) else bnot (b.Blank.possible i col))
        else acc)
      = (if ¬ (b.matrix i col = 0 ∧ col ≠ j) then acc
        else acc &&& bnot (if adv then b.memory i col else b.Blank.possible i col)) := by
    intro acc col
    rw [ite_not]
    cases adv <;> rfl
  simp only [e]
  rw [foldl_andnot_testBit _ (fun col : Nat => ¬ (b.matrix i col = 0 ∧ col ≠ j))
    (fun col => if adv then b.memory i col else b.Blank.possible i col) allSet k (by omega)]
  rw [testBit_allSet]
  simp only [hk, decide_True, true_and, List.mem_range, not_not, and_imp]
  constructor
  · intro h c hc hne hz; exact h c hc hz hne
  · intro h c hc hz hne; exact h c hc hne hz

theorem col_check_testBit (b : Board) (i j : Nat) (adv : Bool) (k : Nat) (hk : k < 9) :
    ((b.col_check i j adv).testBit k = true) ↔
      ∀ r, r < 9 → r ≠ i → b.matrix r j = 0 →
        (if adv then b.memory r j else b.Blank.possible r j).testBit k = false := by
  unfold Board.col_check
  have e : ∀ (acc : Nat) (row : Nat),
      (if b.matrix row j = 0 ∧ row ≠ i then
        acc &&& (if adv then bnot (b.memory row j) else bnot (b.Blank.possible row j))
        else acc)
      = (if ¬ (b.matrix row j = 0 ∧ row ≠ i) then acc
        else acc &&& bnot (if adv then b.memory row j else b.Blank.possible row j)) := by
    intro acc row
    rw [ite_not]
    cases adv <;> rfl
  simp only [e]
  rw [foldl_andnot_testBit _ (fun row : Nat => ¬ (b.matrix row j = 0 ∧ row ≠ i))
    (fun row => if adv then b.memory row j else b.Blank.possible row j) allSet k (by omega)]
  rw [testBit_allSet]
  simp only [hk, decide_True, true_and, List.mem_range, not_not, and_imp]
  constructor
  · intro h r hr hne hz; exact h r hr hz hne
  · intro h r hr hz hne; exact h r hr hne hz

/-- The shape of `decide`: a chain of tests on eight candidate masks. -/
theorem decide_form (p h r c : Nat) :
    Board.decide p h r c = 0 ∨ (bitCount p = 1 ∧ Board.decide p h r c = p) ∨
    Board.decide p h r c = p &&& h ∨ Board.decide p h r c = p &&& r ∨
    Board.decide p h r c = p &&& c ∨ Board.decide p h r c = (p &&& h) &&& (p &&& r) ∨
    Board.decide p h r c = (p &&& h) &&& (p &&& c) ∨
    Board.decide p h r c = (p &&& r) &&& (p &&& c) ∨
    Board.decide p h r c = (p &&& r) &&& (p &&& c) &&& (p &&& h) := by
  unfold Board.decide
  dsimp only
  generalize bitCount p = n1
  generalize bitCount (p &&& h) = n2
  generalize bitCount (p &&& r) = n3
  generalize bitCount (p &&& c) = n4
  generalize bitCount ((p &&& h) &&& (p &&& r)) = n5
  generalize bitCount ((p &&& h) &&& (p &&& c)) = n6
  generalize bitCount ((p &&& r) &&& (p &&& c)) = n7
  generalize bitCount ((p &&& r) &&& (p &&& c) &&& (p &&& h)) = n8
  by_cases h1 : n1 = 1
  · simp only [h1, if_true, true_and, or_true, true_or]
  simp only [if_neg h1]
  by_cases h2 : n2 = 1
  · simp only [h2, if_true, true_and, or_true, true_or]
  simp only [if_neg h2]
  by_cases h3 : n3 = 1
  · simp only [h3, if_true, true_and, or_true, true_or]
  simp only [if_neg h3]
  by_cases h4 : n4 = 1
  · simp only [h4, if_true, true_and, or_true, true_or]
  simp only [if_neg h4]
  by_cases h5 : n5 = 1
  · simp only [h5, if_true, true_and, or_true, true_or]
  simp only [if_neg h5]
  by_cases h6 : n6 = 1
  · simp only [h6, if_true, true_and, or_true, true_or]
  simp only [if_neg h6]
  by_cases h7 : n7 = 1
  · simp only [h7, if_true, true_and, or_true, true_or]
  simp only [if_neg h7]
  by_cases h8 : n8 = 1
  · simp only [h8, if_true, true_and, or_true, true_or]
  simp only [if_neg h8, true_or]

/-- Where a nonzero result of `decide` comes from: the naked single `possible`, or a
subset of one of the three hidden masks. -/
theorem decide_cases (p h r c : Nat) (hne : Board.decide p h r c ≠ 0) :
    (bitCount p = 1 ∧ Board.decide p h r c = p) ∨
    (∀ k, (Board.decide p h r c).testBit k = true → h.testBit k = true) ∨
    (∀ k, (Board.decide p h r c).testBit k = true → r.testBit k = true) ∨
    (∀ k, (Board.decide p h r c).testBit k = true → c.testBit k = true) := by
  rcases decide_form p h r c with h0 | h0 | h0 | h0 | h0 | h0 | h0 | h0 | h0
  · exact absurd h0 hne
  · exact Or.inl h0
  · right; left; intro k hk
    rw [h0, Nat.testBit_and, Bool.and_eq_true] at hk; exact hk.2
  · right; right; left; intro k hk
    rw [h0, Nat.testBit_and, Bool.and_eq_true] at hk; exact hk.2
  · right; right; right; intro k hk
    rw [h0, Nat.testBit_and, Bool.and_eq_true] at hk; exact hk.2
  · right; left; intro k hk
    rw [h0] at hk
    simp only [Nat.testBit_and, Bool.and_eq_true] at hk; exact hk.1.2
  · right; left; intro k hk
    rw [h0] at hk
    simp only [Nat.testBit_and, Bool.and_eq_true] at hk; exact hk.1.2
  · right; right; left; intro k hk
    rw [h0] at hk
    simp only [Nat.testBit_and, Bool.and_eq_true] at hk; exact hk.1.2
  · right; right; left; intro k hk
    rw [h0] at hk
    simp only [Nat.testBit_and, Bool.and_eq_true] at hk; exact hk.1.1.2


/-! ## The basic pass places forced, legal digits -/

theorem Agrees.at {m s : Nat → Nat → Nat} (h : Agrees m s) {r c : Nat} (hr : r < 9) (hc : c < 9)
    (hne : m r c ≠ 0) : m r c = s r c :=
  h (r, c) ((mem_cells (r, c)).2 ⟨hr, hc⟩) hne

theorem agrees_of {m s : Nat → Nat → Nat}
    (h : ∀ r c, r < 9 → c < 9 → m r c ≠ 0 → m r c = s r c) : Agrees m s := by
  intro p hp hne
  rw [mem_cells] at hp
  exact h p.1 p.2 hp.1 hp.2 hne

/-- On a board in step, the digit of a solution at a blank cell is tracker-legal. -/
theorem Board.Sync.sol_possible {b : Board} (hs : b.Sync) {s : Nat → Nat → Nat} (hg : GridOk s)
    (ha : Agrees b.matrix s) {r c : Nat} (hr : r < 9) (hc : c < 9) (hz : b.matrix r c = 0) :
    (b.Blank.possible r c).testBit (s r c - 1) = true := by
  have hrange := hg.range r c hr hc
  apply hs.free_legal hr hc hrange.1 hrange.2
  · intro c2 hc2 he
    have h1 := ha.at hr hc2 (by omega)
    have := hg.row_inj r c2 c hr hc2 hc (by omega)
    subst this
    omega
  · intro r2 hr2 he
    have h1 := ha.at hr2 hc (by omega)
    have := hg.col_inj r2 r c hr2 hr hc (by omega)
    subst this
    omega
  · intro r2 c2 hr2 hc2 e1 e2 he
    have h1 := ha.at hr2 hc2 (by omega)
    have := hg.block_inj r2 c2 r c hr2 hc2 hr hc e1 e2 (by omega)
    obtain ⟨rfl, rfl⟩ := this
    omega

/-- The digit picked by `hidden_fill` at a blank cell of a board in step is a digit 1..9
that is tracker-legal there. -/
theorem Board.Sync.pick_legal {b : Board} (hs : b.Sync) {i j : Nat} (hi : i < 9)
    (hne : b.hiddenPick i j ≠ 0) :
    1 ≤ numFor (b.hiddenPick i j) ∧ numFor (b.hiddenPick i j) ≤ 9 ∧
    b.Blank.possible i j &&& bitFor (numFor (b.hiddenPick i j)) ≠ 0 := by
  obtain ⟨h1, h2, _, h4⟩ : 1 ≤ numFor (b.hiddenPick i j) ∧ numFor (b.hiddenPick i j) ≤ 9 ∧
      b.hiddenPick i j = bitFor (numFor (b.hiddenPick i j)) ∧
      (b.Blank.possible i j).testBit (numFor (b.hiddenPick i j) - 1) = true :=
    decide_digit _ _ _ _ (hs.possible_lt hi) hne
  exact ⟨h1, h2, (and_bitFor_ne_zero _ _).2 h4⟩

/-- A digit that survives in a hidden mask and is in the cell's own candidates is the
digit of every solution: the argument shared by the three scopes. -/
theorem forced_of_hidden {b : Board} (hs : b.Sync) {s : Nat → Nat → Nat} (hv : Valid s)
    (ha : Agrees b.matrix s) {i j d : Nat} (hi : i < 9) (hj : j < 9)
    (hd1 : 1 ≤ d) (hd9 : d ≤ 9)
    (cand : Nat → Nat → Nat)
    (hcand : ∀ r c, r < 9 → c < 9 → b.matrix r c = 0 → (cand r c).testBit (s r c - 1) = true)
    (hp : (b.Blank.possible i j).testBit (d - 1) = true)
    (hh : (∀ r c, r < 9 → c < 9 → r / 3 = i / 3 → c / 3 = j / 3 → ¬ (r = i ∧ c = j) →
            b.matrix r c = 0 → (cand r c).testBit (d - 1) = false) ∨
          (∀ c, c < 9 → c ≠ j → b.matrix i c = 0 → (cand i c).testBit (d - 1) = false) ∨
          (∀ r, r < 9 → r ≠ i → b.matrix r j = 0 → (cand r j).testBit (d - 1) = false)) :
    s i j = d := by
  obtain ⟨f1, f2, f3⟩ := hs.legal_free hi hj hd1 hd9 ((and_bitFor_ne_zero _ _).2 hp)
  rcases hh with hh | hh | hh
  · obtain ⟨r2, c2, hr2, hc2, e1, e2, he⟩ := hv.block_surj hi hj hd1 hd9
    by_cases hsame : r2 = i ∧ c2 = j
    · obtain ⟨rfl, rfl⟩ := hsame; exact he
    · exfalso
      by_cases hz : b.matrix r2 c2 = 0
      · have h1 := hcand r2 c2 hr2 hc2 hz
        rw [he, hh r2 c2 hr2 hc2 e1 e2 hsame hz] at h1
        exact Bool.false_ne_true h1
      · have := ha.at hr2 hc2 hz
        exact f3 r2 c2 hr2 hc2 e1 e2 (by omega)
  · obtain ⟨c2, hc2, he⟩ := hv.row_surj hi hd1 hd9
    by_cases hsame : c2 = j
    · subst hsame; exact he
    · exfalso
      by_cases hz : b.matrix i c2 = 0
      · have h1 := hcand i c2 hi hc2 hz
        rw [he, hh c2 hc2 hsame hz] at h1
        exact Bool.false_ne_true h1
      · have := ha.at hi hc2 hz
        exact f1 c2 hc2 (by omega)
  · obtain ⟨r2, hr2, he⟩ := hv.col_surj hj hd1 hd9
    by_cases hsame : r2 = i
    · subst hsame; exact he
    · exfalso
      by_cases hz : b.matrix r2 j = 0
      · have h1 := hcand r2 j hr2 hj hz
        rw [he, hh r2 hr2 hsame hz] at h1
        exact Bool.false_ne_true h1
      · have := ha.at hr2 hj hz
        exact f2 r2 hr2 (by omega)

/-- The digit picked by `hidden_fill` at a blank cell is the digit of every solution
that agrees with the board. -/
theorem Board.Sync.pick_forced {b : Board} (hs : b.Sync) {s : Nat → Nat → Nat} (hv : Valid s)
    (ha : Agrees b.matrix s) {i j : Nat} (hi : i < 9) (hj : j < 9) (hz : b.matrix i j = 0)
    (hne : b.hiddenPick i j ≠ 0) : s i j = numFor (b.hiddenPick i j) := by
  obtain ⟨h1, h2, h3, h4⟩ : 1 ≤ numFor (b.hiddenPick i j) ∧ numFor (b.hiddenPick i j) ≤ 9 ∧
      b.hiddenPick i j = bitFor (numFor (b.hiddenPick i j)) ∧
      (b.Blank.possible i j).testBit (numFor (b.hiddenPick i j) - 1) = true :=
    decide_digit _ _ _ _ (hs.possible_lt hi) hne
  have hsol := hs.sol_possible hv.gridOk ha hi hj hz
  have hrange := hv.gridOk.range i j hi hj
  have hbit : (b.hiddenPick i j).testBit (numFor (b.hiddenPick i j) - 1) = true := by
    have e : b.hiddenPick i j = bitFor (numFor (b.hiddenPick i j)) := h3
    rw [e, testBit_bitFor, ← e]
    simp
  rcases decide_cases _ _ _ _ hne with hc | hc | hc | hc
  · have e : b.Blank.possible i j = bitFor (numFor (b.hiddenPick i j)) := by
      rw [← hc.2]; exact h3
    rw [e, testBit_bitFor, decide_eq_true_eq] at hsol
    omega
  · have hk := hc _ hbit
    rw [house_check_testBit b i j false _ (by omega) hi hj] at hk
    exact forced_of_hidden hs hv ha hi hj h1 h2 (fun r c => b.Blank.possible r c)
      (fun r c hr hc hz => hs.sol_possible hv.gridOk ha hr hc hz) h4 (Or.inl hk)
  · have hk := hc _ hbit
    rw [row_check_testBit b i j false _ (by omega)] at hk
    exact forced_of_hidden hs hv ha hi hj h1 h2 (fun r c => b.Blank.possible r c)
      (fun r c hr hc hz => hs.sol_possible hv.gridOk ha hr hc hz) h4 (Or.inr (Or.inl hk))
  · have hk := hc _ hbit
    rw [col_check_testBit b i j false _ (by omega)] at hk
    exact forced_of_hidden hs hv ha hi hj h1 h2 (fun r c => b.Blank.possible r c)
      (fun r c hr hc hz => hs.sol_possible hv.gridOk ha hr hc hz) h4 (Or.inr (Or.inr hk))

/-- Induction over the placements of `hidden_fill`: a property kept by every placement
of a picked digit into a blank cell holds for the result. -/
theorem hidden_fill_induct (P : Board → Prop)
    (hstep : ∀ b i j, P b → i < 9 → j < 9 → b.matrix i j = 0 → b.hiddenPick i j ≠ 0 →
      P (b.set i j (numFor (b.hiddenPick i j)) false))
    (b b1 : Board) (h0 : P b) (h : b.hidden_fill = some b1) : P b1 := by
  have hsweep : ∀ b, P b → P b.hidden_sweep.1 := by
    intro b hb
    rw [hidden_sweep_eq]
    refine foldl_inv (fun (st : Board × Bool) => P st.1) _ cells (b, false) hb ?_
    intro st p hp ih
    rw [mem_cells] at hp
    rw [hidden_step_eq]
    by_cases h1 : st.1.matrix p.1 p.2 ≠ 0
    · rw [if_pos h1]; exact ih
    · rw [if_neg h1]
      by_cases h2 : st.1.hiddenPick p.1 p.2 ≠ 0
      · rw [if_pos h2]
        exact hstep st.1 p.1 p.2 ih hp.1 hp.2 (not_not.1 h1) h2
      · rw [if_neg h2]; exact ih
  have hloop : ∀ fuel b, P b → Board.hidden_fill_loop fuel b = some b1 → P b1 := by
    intro fuel
    induction fuel with
    | zero => intro b _ h; simp [Board.hidden_fill_loop] at h
    | succ n ih =>
      intro b hb h
      rw [Board.hidden_fill_loop] at h
      by_cases hs : b.hidden_sweep.2 = true
      · rw [if_pos hs] at h
        exact ih _ (hsweep b hb) h
      · rw [if_neg hs] at h
        have := hsweep b hb
        rw [Option.some.injEq] at h
        rwa [h] at this
  exact hloop 82 b h0 h

/-- The basic pass keeps a board in step, keeps the filled cells, memory and
`backtrack_count`, and keeps every solution. -/
theorem hidden_fill_spec (b b1 : Board) (hs : b.Sync) (h : b.hidden_fill = some b1) :
    b1.Sync ∧ b1.memory = b.memory ∧ b1.backtrack_count = b.backtrack_count ∧
    (∀ r c, b.matrix r c ≠ 0 → b1.matrix r c = b.matrix r c) ∧
    (∀ s, Valid s → Agrees b.matrix s → Agrees b1.matrix s) := by
  refine hidden_fill_induct (fun x => x.Sync ∧ x.memory = b.memory ∧
    x.backtrack_count = b.backtrack_count ∧
    (∀ r c, b.matrix r c ≠ 0 → x.matrix r c = b.matrix r c) ∧
    (∀ s, Valid s → Agrees b.matrix s → Agrees x.matrix s)) ?_ b b1
    ⟨hs, rfl, rfl, fun _ _ _ => rfl, fun _ _ h => h⟩ h
  rintro x i j ⟨hx, hm, hbc, hext, hsol⟩ hi hj hz hne
  obtain ⟨d1, d9, dleg⟩ := hx.pick_legal hi hne
  refine ⟨hx.set hi hj d1 d9 hz dleg, ?_, ?_, ?_, ?_⟩
  · rw [set_false_eq _ _ _ _ (by omega)]; exact hm
  · rw [set_false_eq _ _ _ _ (by omega)]; exact hbc
  · intro r c hrc
    rw [set_false_eq _ _ _ _ (by omega)]
    simp only [upd2_apply]
    have := hext r c hrc
    split_ifs with hh
    · obtain ⟨rfl, rfl⟩ := hh
      rw [hz] at this
      exact absurd this.symm hrc
    · exact this
  · intro s hv ha
    have hax := hsol s hv ha
    have hf := hx.pick_forced hv hax hi hj hz hne
    apply agrees_of
    intro r c hr hc
    rw [set_false_eq _ _ _ _ (by omega)]
    simp only [upd2_apply]
    split_ifs with hh
    · obtain ⟨rfl, rfl⟩ := hh
      intro _; exact hf.symm
    · exact hax.at hr hc


/-! ## Loading a grid -/

theorem sampleGrid_valid : Valid sampleGrid := by decide

theorem noRepeat_inj (f : Nat → Nat)
    (h : (((List.range 9).map f).filter (fun v => v ≠ 0)).Nodup) (t1 t2 : Nat) (h1 : t1 < 9)
    (h2 : t2 < 9) (hne : f t1 ≠ 0) (he : f t1 = f t2) : t1 = t2 := by
  rw [List.filter_map] at h
  apply List.inj_on_of_nodup_map h
  · simp [List.mem_filter, h1, hne]
  · simp [List.mem_filter, h2, ← he, hne]
  · exact he

theorem DupFree.inputOk {g : Nat → Nat → Nat} (h : DupFree g) : InputOk g := by
  obtain ⟨hv, hu⟩ := h
  constructor
  · intro r c hr hc
    exact hv (r, c) ((mem_cells (r, c)).2 ⟨hr, hc⟩)
  · intro r c1 c2 hr h1 h2 hne he
    have := (hu r (List.mem_range.2 hr)).1
    unfold noRepeat rowCells at this
    rw [List.map_map] at this
    exact noRepeat_inj (fun t => g r t) this c1 c2 h1 h2 hne he
  · intro r1 r2 c h1 h2 hc hne he
    have := (hu c (List.mem_range.2 hc)).2.1
    unfold noRepeat colCells at this
    rw [List.map_map] at this
    exact noRepeat_inj (fun t => g t c) this r1 r2 h1 h2 hne he
  · intro r1 c1 r2 c2 h1 hc1 h2 hc2 e1 e2 hne he
    have := (hu (r1 / 3 * 3 + c1 / 3) (List.mem_range.2 (by omega))).2.2
    unfold noRepeat blockCells at this
    rw [List.map_map] at this
    have hh := noRepeat_inj
      (fun t => g ((r1 / 3 * 3 + c1 / 3) / 3 * 3 + t / 3) ((r1 / 3 * 3 + c1 / 3) % 3 * 3 + t % 3))
      this (r1 % 3 * 3 + c1 % 3) (r2 % 3 * 3 + c2 % 3) (by omega) (by omega)
    have a1 : (r1 / 3 * 3 + c1 / 3) / 3 * 3 + (r1 % 3 * 3 + c1 % 3) / 3 = r1 := by omega
    have a2 : (r1 / 3 * 3 + c1 / 3) % 3 * 3 + (r1 % 3 * 3 + c1 % 3) % 3 = c1 := by omega
    have a3 : (r1 / 3 * 3 + c1 / 3) / 3 * 3 + (r2 % 3 * 3 + c2 % 3) / 3 = r2 := by omega
    have a4 : (r1 / 3 * 3 + c1 / 3) % 3 * 3 + (r2 % 3 * 3 + c2 % 3) % 3 = c2 := by omega
    simp only [a1, a2, a3, a4] at hh
    have := hh hne he
    omega

theorem load_eq (g : Nat → Nat → Nat) :
    Board.load g = cells.foldl (fun b p => b.set p.1 p.2 (g p.1 p.2) false) Board.init := by
  unfold Board.load
  exact foldl_cells (fun b i j => b.set i j (g i j) false) Board.init

theorem load_aux (g : Nat → Nat → Nat) (hg : InputOk g) (l : List (Nat × Nat)) :
    ∀ (b : Board), l.Nodup → (∀ p ∈ l, p.1 < 9 ∧ p.2 < 9) → b.Sync →
      (∀ p ∈ l, b.matrix p.1 p.2 = 0) →
      (∀ r c, r < 9 → c < 9 → b.matrix r c ≠ 0 → b.matrix r c = g r c) →
      (l.foldl (fun b p => b.set p.1 p.2 (g p.1 p.2) false) b).Sync ∧
      (∀ r c, (l.foldl (fun b p => b.set p.1 p.2 (g p.1 p.2) false) b).matrix r c
        = if (r, c) ∈ l then g r c else b.matrix r c) ∧
      (l.foldl (fun b p => b.set p.1 p.2 (g p.1 p.2) false) b).memory = b.memory ∧
      (l.foldl (fun b p => b.set p.1 p.2 (g p.1 p.2) false) b).backtrack_count
        = b.backtrack_count := by
  induction l with
  | nil =>
    intro b _ _ hs _ _
    exact ⟨hs, fun r c => by simp, rfl, rfl⟩
  | cons p l ih =>
    intro b hnd hin hs hblank hagree
    rw [List.nodup_cons] at hnd
    obtain ⟨r0, c0⟩ := p
    have hp := hin (r0, c0) (List.mem_cons_self _ _)
    have hz := hblank (r0, c0) (List.mem_cons_self _ _)
    simp only at hp hz
    rw [List.foldl_cons]
    by_cases h0 : g r0 c0 = 0
    · simp only [h0]
      rw [set_zero_blank b r0 c0 hz]
      obtain ⟨i1, i2, i3, i4⟩ := ih b hnd.2 (fun q hq => hin q (List.mem_cons_of_mem _ hq)) hs
        (fun q hq => hblank q (List.mem_cons_of_mem _ hq)) hagree
      refine ⟨i1, fun r c => ?_, i3, i4⟩
      rw [i2 r c]
      by_cases hm : (r, c) ∈ l
      · rw [if_pos hm, if_pos (List.mem_cons_of_mem _ hm)]
      · rw [if_neg hm]
        by_cases he : (r, c) = (r0, c0)
        · rw [if_pos (by rw [he]; exact List.mem_cons_self _ _)]
          rw [Prod.mk.injEq] at he
          rw [he.1, he.2, hz, h0]
        · rw [if_neg (by
            intro hh
            rcases List.mem_cons.1 hh with h | h
            · exact he h
            · exact hm h)]
    · have hd9 := hg.val_le r0 c0 hp.1 hp.2
      have hleg : b.Blank.possible r0 c0 &&& bitFor (g r0 c0) ≠ 0 := by
        rw [and_bitFor_ne_zero]
        apply hs.free_legal hp.1 hp.2 (by omega) hd9
        · intro c2 hc2 he
          have h1 := hagree r0 c2 hp.1 hc2 (by omega)
          have := hg.row_inj r0 c2 c0 hp.1 hc2 hp.2 (by omega) (by omega)
          subst this; omega
        · intro r2 hr2 he
          have h1 := hagree r2 c0 hr2 hp.2 (by omega)
          have := hg.col_inj r2 r0 c0 hr2 hp.1 hp.2 (by omega) (by omega)
          subst this; omega
        · intro r2 c2 hr2 hc2 e1 e2 he
          have h1 := hagree r2 c2 hr2 hc2 (by omega)
          have := hg.block_inj r2 c2 r0 c0 hr2 hc2 hp.1 hp.2 e1 e2 (by omega) (by omega)
          obtain ⟨rfl, rfl⟩ := this; omega
      have hs2 := hs.set hp.1 hp.2 (by omega) hd9 hz hleg
      have hm2 : (b.set r0 c0 (g r0 c0) false).matrix = upd2 b.matrix r0 c0 (g r0 c0) := by
        rw [set_false_eq _ _ _ _ h0]
      obtain ⟨i1, i2, i3, i4⟩ := ih (b.set r0 c0 (g r0 c0) false) hnd.2
        (fun q hq => hin q (List.mem_cons_of_mem _ hq)) hs2
        (by
          intro q hq
          rw [hm2, upd2_apply, if_neg]
          · exact hblank q (List.mem_cons_of_mem _ hq)
          · rintro ⟨e1, e2⟩
            exact hnd.1 (by rw [← e1, ← e2]; exact hq))
        (by
          intro r c hr hc
          rw [hm2, upd2_apply]
          split_ifs with hh
          · intro _; rw [hh.1, hh.2]
          · exact hagree r c hr hc)
      refine ⟨i1, fun r c => ?_, ?_, ?_⟩
      · rw [i2 r c, hm2, upd2_apply]
        by_cases hm : (r, c) ∈ l
        · rw [if_pos hm, if_pos (List.mem_cons_of_mem _ hm)]
        · rw [if_neg hm]
          by_cases he : r = r0 ∧ c = c0
          · rw [if_pos he, if_pos (by rw [he.1, he.2]; exact List.mem_cons_self _ _)]
            rw [he.1, he.2]
          · rw [if_neg he, if_neg (by
              intro hh
              rcases List.mem_cons.1 hh with h | h
              · rw [Prod.mk.injEq] at h; exact he h
              · exact hm h)]
      · rw [i3, set_false_eq _ _ _ _ h0]
      · rw [i4, set_false_eq _ _ _ _ h0]

/-- Loading a duplicate-free input gives a board in step whose matrix is the input. -/
theorem load_spec (g : Nat → Nat → Nat) (hg : InputOk g) :
    (Board.load g).Sync ∧ (∀ r c, r < 9 → c < 9 → (Board.load g).matrix r c = g r c) ∧
    (Board.load g).memory = (fun _ _ => allSet) ∧ (Board.load g).backtrack_count = 0 := by
  rw [load_eq]
  obtain ⟨i1, i2, i3, i4⟩ := load_aux g hg cells Board.init cells_nodup
    (fun p hp => (mem_cells p).1 hp) Board.init_sync (fun _ _ => rfl)
    (fun r c _ _ h => absurd rfl h)
  refine ⟨i1, fun r c hr hc => ?_, i3, i4⟩
  rw [i2 r c, if_pos ((mem_cells (r, c)).2 ⟨hr, hc⟩)]


/-! ## A grid with one blank cell -/

theorem decide_of_single (p h r c : Nat) (hp : bitCount p = 1) : Board.decide p h r c = p := by
  unfold Board.decide
  rw [if_pos hp]

theorem hidden_fold_skip (l : List (Nat × Nat)) (st : Board × Bool)
    (h : ∀ p ∈ l, st.1.matrix p.1 p.2 ≠ 0) :
    l.foldl (fun st p => Board.hidden_step st p.1 p.2) st = st := by
  induction l with
  | nil => rfl
  | cons p l ih =>
    rw [List.foldl_cons, hidden_step_eq, if_pos (h p (List.mem_cons_self _ _))]
    exact ih (fun q hq => h q (List.mem_cons_of_mem _ hq))

theorem countZeros_eq_zero (m : Nat → Nat → Nat) (h : ∀ r c, r < 9 → c < 9 → m r c ≠ 0) :
    countZeros m = 0 := by
  unfold countZeros
  rw [List.length_eq_zero, List.filter_eq_nil_iff]
  intro p hp
  rw [mem_cells] at hp
  simpa using h p.1 p.2 hp.1 hp.2

/-- A sweep over a full board places nothing. -/
theorem hidden_sweep_full (b : Board) (h : ∀ r c, r < 9 → c < 9 → b.matrix r c ≠ 0) :
    b.hidden_sweep = (b, false) := by
  rw [hidden_sweep_eq]
  exact hidden_fold_skip cells (b, false) (fun p hp => h p.1 p.2 ((mem_cells p).1 hp).1
    ((mem_cells p).1 hp).2)

/-- A sweep over a board whose only blank cell gets a digit fills that cell. -/
theorem hidden_sweep_single (b : Board) (r c : Nat) (hr : r < 9) (hc : c < 9)
    (hz : b.matrix r c = 0)
    (hfull : ∀ i j, i < 9 → j < 9 → ¬ (i = r ∧ j = c) → b.matrix i j ≠ 0)
    (hne : b.hiddenPick r c ≠ 0) :
    b.hidden_sweep = (b.set r c (numFor (b.hiddenPick r c)) false, true) := by
  rw [hidden_sweep_eq]
  obtain ⟨l1, l2, hl⟩ := List.append_of_mem ((mem_cells (r, c)).2 ⟨hr, hc⟩)
  have hnd := cells_nodup
  rw [hl] at hnd
  have hmem : ∀ p, p ∈ l1 ∨ p ∈ l2 → p.1 < 9 ∧ p.2 < 9 ∧ ¬ (p.1 = r ∧ p.2 = c) := by
    intro p hp
    have hin : p ∈ cells := by
      rw [hl]
      rcases hp with h | h
      · exact List.mem_append_left _ h
      · exact List.mem_append_right _ (List.mem_cons_of_mem _ h)
    rw [mem_cells] at hin
    refine ⟨hin.1, hin.2, ?_⟩
    rintro ⟨e1, e2⟩
    have hpe : p = (r, c) := Prod.ext e1 e2
    rw [List.nodup_append] at hnd
    rcases hp with h | h
    · exact hnd.2.2 h (by rw [hpe]; exact List.mem_cons_self _ _)
    · have := (List.nodup_cons.1 hnd.2.1).1
      exact this (by rw [← hpe]; exact h)
  rw [hl, List.foldl_append, List.foldl_cons]
  rw [hidden_fold_skip l1 (b, false) (fun p hp => by
    obtain ⟨a1, a2, a3⟩ := hmem p (Or.inl hp)
    exact hfull p.1 p.2 a1 a2 a3)]
  rw [hidden_step_eq, if_neg (by simpa using hz), if_pos hne]
  apply hidden_fold_skip
  intro p hp
  obtain ⟨a1, a2, a3⟩ := hmem p (Or.inr hp)
  rw [set_false_eq _ _ _ _ (numFor_ne_zero _ hne)]
  simp only [upd2_apply, if_neg a3]
  exact hfull p.1 p.2 a1 a2 a3

/-- C8: for every complete valid Sudoku grid `s` and every cell `(r, c)`, the board
obtained by loading `s` with only cell `(r, c)` blanked is solved by `hidden_fill` alone:
after `hidden_fill`, `remaining()` is 0 and the matrix equals `s`. -/
theorem hidden_fill_solves_one_blank (s : Nat → Nat → Nat) (r c : Nat) (hv : Valid s)
    (hr : r < 9) (hc : c < 9) :
    ∃ b1, (Board.load (upd2 s r c 0)).hidden_fill = some b1 ∧ b1.remaining = 0 ∧
      ∀ i j, i < 9 → j < 9 → b1.matrix i j = s i j := by
  have hg := hv.gridOk
  have hin : InputOk (upd2 s r c 0) := by
    constructor
    · intro i j hi hj
      simp only [upd2_apply]
      split_ifs
      · omega
      · exact (hg.range i j hi hj).2
    · intro i j1 j2 hi h1 h2
      simp only [upd2_apply]
      split_ifs <;> intro hne he
      · omega
      · omega
      · have := (hg.range i j1 hi h1).1; omega
      · exact hg.row_inj i j1 j2 hi h1 h2 he
    · intro i1 i2 j h1 h2 hj
      simp only [upd2_apply]
      split_ifs <;> intro hne he
      · omega
      · omega
      · have := (hg.range i1 j h1 hj).1; omega
      · exact hg.col_inj i1 i2 j h1 h2 hj he
    · intro i1 j1 i2 j2 h1 hj1 h2 hj2 e1 e2
      simp only [upd2_apply]
      split_ifs <;> intro hne he
      · omega
      · omega
      · have := (hg.range i1 j1 h1 hj1).1; omega
      · exact hg.block_inj i1 j1 i2 j2 h1 hj1 h2 hj2 e1 e2 he
  obtain ⟨hs, hm, _, _⟩ := load_spec _ hin
  generalize Board.load (upd2 s r c 0) = b at hs hm
  have hz : b.matrix r c = 0 := by rw [hm r c hr hc]; simp
  have hfull : ∀ i j, i < 9 → j < 9 → ¬ (i = r ∧ j = c) → b.matrix i j ≠ 0 := by
    intro i j hi hj hne
    rw [hm i j hi hj, upd2_apply, if_neg hne]
    have := (hg.range i j hi hj).1
    omega
  have hag : Agrees b.matrix s := by
    apply agrees_of
    intro i j hi hj
    rw [hm i j hi hj, upd2_apply]
    split_ifs
    · intro h; exact absurd rfl h
    · intro _; rfl
  have hrange := hg.range r c hr hc
  -- the tracker leaves exactly the digit of `s` at the blank cell
  have hposs : b.Blank.possible r c = bitFor (s r c) := by
    apply eq_of_testBit_lt9 _ _ (hs.possible_lt hr) (bitFor_lt_512 _ hrange.2)
    intro k hk
    rw [testBit_bitFor]
    by_cases hks : s r c - 1 = k
    · rw [← hks, hs.sol_possible hg hag hr hc hz]; simp
    · rw [decide_eq_false hks]
      cases hb : (b.Blank.possible r c).testBit k
      · rfl
      · exfalso
        have e : k = (k + 1) - 1 := by omega
        rw [e] at hb
        obtain ⟨f1, _, _⟩ := hs.legal_free hr hc (d := k + 1) (by omega) (by omega)
          ((and_bitFor_ne_zero _ _).2 hb)
        obtain ⟨c2, hc2, he⟩ := hv.row_surj hr (d := k + 1) (by omega) (by omega)
        have hcc : c2 ≠ c := by
          intro h; subst h; omega
        apply f1 c2 hc2
        rw [hm r c2 hr hc2, upd2_apply, if_neg (by tauto)]
        exact he
  have hpick : b.hiddenPick r c = bitFor (s r c) := by
    unfold Board.hiddenPick
    rw [decide_of_single _ _ _ _ (by rw [hposs]; exact bitCount_bitFor _ (by omega) hrange.1)]
    exact hposs
  have hne : b.hiddenPick r c ≠ 0 := by
    rw [hpick, bitFor_eq]; positivity
  have hnum : numFor (b.hiddenPick r c) = s r c := by
    rw [hpick]; exact numFor_bitFor _ (by omega) hrange.1
  have hsw := hidden_sweep_single b r c hr hc hz hfull hne
  rw [hnum] at hsw
  have hleg : b.Blank.possible r c &&& bitFor (s r c) ≠ 0 := by
    rw [and_bitFor_ne_zero]; exact hs.sol_possible hg hag hr hc hz
  have hs2 := hs.set hr hc hrange.1 hrange.2 hz hleg
  have hm2 : ∀ i j, i < 9 → j < 9 → (b.set r c (s r c) false).matrix i j = s i j := by
    intro i j hi hj
    rw [set_false_eq _ _ _ _ (by omega)]
    simp only [upd2_apply]
    split_ifs with hh
    · rw [hh.1, hh.2]
    · rw [hm i j hi hj, upd2_apply, if_neg hh]
  have hfull2 : ∀ i j, i < 9 → j < 9 → (b.set r c (s r c) false).matrix i j ≠ 0 := by
    intro i j hi hj
    rw [hm2 i j hi hj]
    have := (hg.range i j hi hj).1
    omega
  refine ⟨b.set r c (s r c) false, ?_, ?_, hm2⟩
  · show Board.hidden_fill_loop (81 + 1) b = _
    rw [Board.hidden_fill_loop, hsw]
    simp only [if_true]
    show Board.hidden_fill_loop (80 + 1) _ = _
    rw [Board.hidden_fill_loop, hidden_sweep_full _ hfull2]
    rfl
  · show (b.set r c (s r c) false).remains = 0
    rw [hs2.remains_eq]
    exact countZeros_eq_zero _ hfull2

theorem hidden_fill_solves_one_blank_witness :
    Valid sampleGrid ∧
    ∃ b1, (Board.load (upd2 sampleGrid 4 7 0)).hidden_fill = some b1 ∧ b1.remaining = 0 ∧
      ∀ i j, i < 9 → j < 9 → b1.matrix i j = sampleGrid i j :=
  ⟨sampleGrid_valid,
    hidden_fill_solves_one_blank sampleGrid 4 7 sampleGrid_valid (by decide) (by decide)⟩


/-! ## The acceptance test of `generate` -/

/-- What a round of `generate` has checked on a puzzle it accepts. -/
theorem generateRound_gate (shuffle : List Nat → RandState → List Nat × RandState)
    (level : difficulty) (answer : Board) (array : List Nat) (r : RandState) (p : Board)
    (a : List Nat) (r1 : RandState)
    (h : Sudoku.generateRound shuffle level answer array r = some (some p, a, r1)) :
    (difficulty.MEDIUM.toNat ≤ level.toNat →
      ∃ b1, p.hidden_fill = some b1 ∧ 0 < b1.remaining) ∧
    (difficulty.DIFFICULT.toNat ≤ level.toNat →
      ∃ b1 b2, p.hidden_fill = some b1 ∧ b1.advanced_fill = some b2 ∧ 0 < b2.remaining) := by
  unfold Sudoku.generateRound at h
  cases hd : Holes.digHoles shuffle level answer array r with
  | none => rw [hd] at h; cases h
  | some res =>
    obtain ⟨puzzle, array1, r2⟩ := res
    rw [hd] at h
    dsimp only at h
    by_cases hl : level.toNat > difficulty.EASY.toNat
    · rw [if_pos hl] at h
      cases hh : puzzle.hidden_fill with
      | none => rw [hh] at h; cases h
      | some bd =>
        rw [hh] at h
        dsimp only at h
        by_cases hr : bd.remaining = 0
        · rw [if_pos hr] at h
          simp only [Option.some.injEq, Prod.mk.injEq] at h
          exact absurd h.1 (by simp)
        · rw [if_neg hr] at h
          cases ha : bd.advanced_fill with
          | none => rw [ha] at h; cases h
          | some bd1 =>
            rw [ha] at h
            dsimp only at h
            by_cases hr2 : level.toNat > difficulty.MEDIUM.toNat ∧ bd1.remaining = 0
            · rw [if_pos hr2] at h
              simp only [Option.some.injEq, Prod.mk.injEq] at h
              exact absurd h.1 (by simp)
            · rw [if_neg hr2] at h
              simp only [Option.some.injEq, Prod.mk.injEq] at h
              obtain ⟨rfl, _, _⟩ := h
              refine ⟨fun _ => ⟨bd, hh, by omega⟩, fun hd3 => ⟨bd, bd1, hh, ha, ?_⟩⟩
              have : level.toNat > difficulty.MEDIUM.toNat := by
                simp only [difficulty.toNat] at hd3 ⊢; omega
              have : ¬ bd1.remaining = 0 := fun h0 => hr2 ⟨this, h0⟩
              omega
    · rw [if_neg hl] at h
      refine ⟨fun hm => ?_, fun hm => ?_⟩ <;>
        (simp only [difficulty.toNat] at hl hm; omega)

/-- What the loop of `generate` has checked on a puzzle it returns. -/
theorem generateLoop_gate (shuffle : List Nat → RandState → List Nat × RandState)
    (level : difficulty) (answer : Board) (rounds : Nat) :
    ∀ (array : List Nat) (r : RandState) (p : Board) (a : List Nat) (r1 : RandState),
      Sudoku.generateLoop shuffle level answer rounds array r = some (p, a, r1) →
      (difficulty.MEDIUM.toNat ≤ level.toNat →
        ∃ b1, p.hidden_fill = some b1 ∧ 0 < b1.remaining) ∧
      (difficulty.DIFFICULT.toNat ≤ level.toNat →
        ∃ b1 b2, p.hidden_fill = some b1 ∧ b1.advanced_fill = some b2 ∧ 0 < b2.remaining) := by
  induction rounds with
  | zero =>
    intro array r p a r1 h
    rw [Sudoku.generateLoop] at h
    cases h
  | succ n ih =>
    intro array r p a r1 h
    rw [Sudoku.generateLoop] at h
    cases hd : Sudoku.generateRound shuffle level answer array r with
    | none => rw [hd] at h; cases h
    | some res =>
      obtain ⟨op, array1, r2⟩ := res
      rw [hd] at h
      cases op with
      | none => exact ih array1 r2 p a r1 h
      | some q =>
        simp only [Option.some.injEq, Prod.mk.injEq] at h
        obtain ⟨rfl, rfl, rfl⟩ := h
        exact generateRound_gate shuffle level answer array r q array1 r2 hd

/-- `generate` returns the puzzle that its loop returns for the randomly filled answer
board. -/
theorem generate_eq_loop (shuffle : List Nat → RandState → List Nat × RandState)
    (pick fuel rounds : Nat) (level : difficulty) (array : List Nat) (r : RandState)
    (g : Sudoku) (h : Sudoku.generate shuffle pick fuel rounds level array r = some g) :
    ∃ r1 a r2, Board.seeded pick fuel r = some (g._answer, r1) ∧
      Sudoku.generateLoop shuffle level g._answer rounds array r1 = some (g._board, a, r2) := by
  unfold Sudoku.generate at h
  cases hs : Board.seeded pick fuel r with
  | none => rw [hs] at h; simp at h
  | some res =>
    obtain ⟨answer, r1⟩ := res
    rw [hs] at h
    dsimp only at h
    cases hl : Sudoku.generateLoop shuffle level answer rounds array r1 with
    | none => rw [hl] at h; simp at h
    | some res2 =>
      obtain ⟨puzzle, a, r2⟩ := res2
      rw [hl] at h
      simp only [Option.some.injEq] at h
      subst h
      exact ⟨r1, a, r2, rfl, hl⟩

/-- C10: every puzzle that the loop of `Sudoku::generate` accepts and returns, for every
answer board, requires search at level DIFFICULT or EVIL: `hidden_fill` followed by
`advanced_fill` on the returned puzzle leaves `remaining() > 0`; and every puzzle
returned at MEDIUM or above has `remaining() > 0` after `hidden_fill` alone. -/
theorem generate_requires_search (shuffle : List Nat → RandState → List Nat × RandState)
    (level : difficulty) (answer : Board) (rounds : Nat) (array : List Nat) (r : RandState)
    (h : (Sudoku.generateLoop shuffle level answer rounds array r).isSome = true) :
    ∃ p a r1, Sudoku.generateLoop shuffle level answer rounds array r = some (p, a, r1) ∧
      (difficulty.MEDIUM.toNat ≤ level.toNat →
        ∃ b1, p.hidden_fill = some b1 ∧ 0 < b1.remaining) ∧
      (difficulty.DIFFICULT.toNat ≤ level.toNat →
        ∃ b1 b2, p.hidden_fill = some b1 ∧ b1.advanced_fill = some b2 ∧ 0 < b2.remaining) := by
  cases hl : Sudoku.generateLoop shuffle level answer rounds array r with
  | none => rw [hl] at h; simp at h
  | some res =>
    obtain ⟨p, a, r1⟩ := res
    exact ⟨p, a, r1, rfl, generateLoop_gate shuffle level answer rounds array r p a r1 hl⟩

set_option maxRecDepth 100000 in
theorem generateLoop_blocked :
    (Sudoku.generateLoop idShuffle difficulty.EVIL blockedBoard 1 (List.range 9)
      zeroRand).isSome = true := by
  decide!

theorem generate_requires_search_witness :
    (Sudoku.generateLoop idShuffle difficulty.EVIL blockedBoard 1 (List.range 9)
      zeroRand).isSome = true ∧
    ∃ p a r1, Sudoku.generateLoop idShuffle difficulty.EVIL blockedBoard 1 (List.range 9)
        zeroRand = some (p, a, r1) ∧
      (difficulty.MEDIUM.toNat ≤ difficulty.EVIL.toNat →
        ∃ b1, p.hidden_fill = some b1 ∧ 0 < b1.remaining) ∧
      (difficulty.DIFFICULT.toNat ≤ difficulty.EVIL.toNat →
        ∃ b1 b2, p.hidden_fill = some b1 ∧ b1.advanced_fill = some b2 ∧ 0 < b2.remaining) :=
  ⟨generateLoop_blocked, generate_requires_search idShuffle difficulty.EVIL blockedBoard 1
    (List.range 9) zeroRand generateLoop_blocked⟩


/-! ## The advanced pass only narrows `memory` -/

theorem Board.narrows_clearRowOut (b : Board) (i j x : Nat) : b.Narrows (b.clearRowOut i j x) := by
  unfold Board.clearRowOut
  apply Board.narrows_foldl
  intro s col
  exact Board.narrows_ite2 _ _ _ (Board.narrows_andMem _ _ _ _)

theorem Board.narrows_clearColOut (b : Board) (i j x : Nat) : b.Narrows (b.clearColOut i j x) := by
  unfold Board.clearColOut
  apply Board.narrows_foldl
  intro s row
  exact Board.narrows_ite2 _ _ _ (Board.narrows_andMem _ _ _ _)

theorem Board.narrows_clearHouseRows (b : Board) (i j x : Nat) :
    b.Narrows (b.clearHouseRows i j x) := by
  unfold Board.clearHouseRows
  apply Board.narrows_foldl
  intro s r
  apply Board.narrows_foldl
  intro s2 c
  exact Board.narrows_ite2 _ _ _ (Board.narrows_andMem _ _ _ _)

theorem Board.narrows_clearHouseCols (b : Board) (i j x : Nat) :
    b.Narrows (b.clearHouseCols i j x) := by
  unfold Board.clearHouseCols
  apply Board.narrows_foldl
  intro s r
  apply Board.narrows_foldl
  intro s2 c
  exact Board.narrows_ite2 _ _ _ (Board.narrows_andMem _ _ _ _)

theorem Board.narrows_clearRowPair (b : Board) (i j m x : Nat) :
    b.Narrows (b.clearRowPair i j m x) := by
  unfold Board.clearRowPair
  apply Board.narrows_foldl
  intro s col
  exact Board.narrows_ite2 _ _ _ (Board.narrows_andMem _ _ _ _)

theorem Board.narrows_clearColPair (b : Board) (i j m x : Nat) :
    b.Narrows (b.clearColPair i j m x) := by
  unfold Board.clearColPair
  apply Board.narrows_foldl
  intro s row
  exact Board.narrows_ite2 _ _ _ (Board.narrows_andMem _ _ _ _)

theorem Board.narrows_clearHousePair (b : Board) (i j mr mc x : Nat) :
    b.Narrows (b.clearHousePair i j mr mc x) := by
  unfold Board.clearHousePair
  apply Board.narrows_foldl
  intro s r
  apply Board.narrows_foldl
  intro s2 c
  exact Board.narrows_ite2 _ _ _ (Board.narrows_andMem _ _ _ _)

theorem Board.narrows_candidate_check (b : Board) (i j : Nat) :
    b.Narrows (b.candidate_check i j) := by
  unfold Board.candidate_check
  dsimp only
  generalize hb1 : (if (b.scanRows i j).2.2 ≠ 0 ∧ (b.scanRows i j).2.2 = bitCount (b.scanRows i j).2.1
    then b.andMem i j (bnot (b.scanRows i j).2.1) else b) = b1
  have n1 : b.Narrows b1 := by
    rw [← hb1]; exact Board.narrows_ite _ _ _ (Board.narrows_andMem _ _ _ _)
  generalize hb2 : (if (b.scanRows i j).1 &&& bnot (b.scanRows i j).2.1 ≠ 0
    then b1.clearRowOut i j ((b.scanRows i j).1 &&& bnot (b.scanRows i j).2.1) else b1) = b2
  have n2 : b1.Narrows b2 := by
    rw [← hb2]; exact Board.narrows_ite _ _ _ (Board.narrows_clearRowOut _ _ _ _)
  generalize hb3 : (if (b2.scanCols i j).2.2 ≠ 0 ∧ (b2.scanCols i j).2.2 = bitCount (b2.scanCols i j).2.1
    then b2.andMem i j (bnot (b2.scanCols i j).2.1) else b2) = b3
  have n3 : b2.Narrows b3 := by
    rw [← hb3]; exact Board.narrows_ite _ _ _ (Board.narrows_andMem _ _ _ _)
  generalize hb4 : (if (b2.scanCols i j).1 &&& bnot (b2.scanCols i j).2.1 ≠ 0
    then b3.clearColOut i j ((b2.scanCols i j).1 &&& bnot (b2.scanCols i j).2.1) else b3) = b4
  have n4 : b3.Narrows b4 := by
    rw [← hb4]; exact Board.narrows_ite _ _ _ (Board.narrows_clearColOut _ _ _ _)
  generalize hb5 : (if b4.claimRow i j (b.scanRows i j).1 ≠ 0
    then b4.clearHouseRows i j (b4.claimRow i j (b.scanRows i j).1) else b4) = b5
  have n5 : b4.Narrows b5 := by
    rw [← hb5]; exact Board.narrows_ite _ _ _ (Board.narrows_clearHouseRows _ _ _ _)
  have n6 : b5.Narrows (if b5.claimCol i j (b2.scanCols i j).1 ≠ 0
      then b5.clearHouseCols i j (b5.claimCol i j (b2.scanCols i j).1) else b5) :=
    Board.narrows_ite _ _ _ (Board.narrows_clearHouseCols _ _ _ _)
  exact ((((n1.trans n2).trans n3).trans n4).trans n5).trans n6

theorem Board.narrows_pair_check (b : Board) (i j : Nat) : b.Narrows (b.pair_check i j) := by
  unfold Board.pair_check
  dsimp only
  by_cases h : bitCount (b.memory i j) = 2
  swap
  · rw [if_neg h]; exact Board.Narrows.refl b
  rw [if_pos h]
  generalize hb1 : (if b.pairRowMatch i j (b.memory i j) ≠ 9
    then b.clearRowPair i j (b.pairRowMatch i j (b.memory i j)) (b.memory i j) else b) = b1
  have n1 : b.Narrows b1 := by
    rw [← hb1]; exact Board.narrows_ite _ _ _ (Board.narrows_clearRowPair _ _ _ _ _)
  generalize hb2 : (if b1.pairColMatch i j (b.memory i j) ≠ 9
    then b1.clearColPair i j (b1.pairColMatch i j (b.memory i j)) (b.memory i j) else b1) = b2
  have n2 : b1.Narrows b2 := by
    rw [← hb2]; exact Board.narrows_ite _ _ _ (Board.narrows_clearColPair _ _ _ _ _)
  have n3 : b2.Narrows (if (b2.pairHouseMatch i j (b.memory i j)).1 ≠ 9
      then b2.clearHousePair i j (b2.pairHouseMatch i j (b.memory i j)).1
        (b2.pairHouseMatch i j (b.memory i j)).2 (b.memory i j) else b2) :=
    Board.narrows_ite _ _ _ (Board.narrows_clearHousePair _ _ _ _ _ _)
  exact (n1.trans n2).trans n3

theorem advanced_seed_eq (b : Board) :
    b.advanced_seed = cells.foldl (fun b p => b.seedStep p.1 p.2) b := by
  unfold Board.advanced_seed
  exact foldl_cells (fun b i j => b.seedStep i j) b

theorem Board.narrows_seedStep (s : Board) (i j : Nat) : s.Narrows (s.seedStep i j) :=
  Board.narrows_ite _ _ _ (Board.narrows_andMem _ _ _ _)

theorem Board.narrows_advanced_seed (b : Board) : b.Narrows b.advanced_seed := by
  rw [advanced_seed_eq]
  apply Board.narrows_foldl
  intro s p
  exact Board.narrows_seedStep s p.1 p.2

/-! ## The advanced pass keeps the board in step -/

/-- A loop in which the step for `x` establishes `Q x` and no step destroys it. -/
theorem foldl_establish {σ α : Type} (f : σ → α → σ) (Q : α → σ → Prop) (l : List α) (s : σ)
    (hest : ∀ s x, Q x (f s x)) (hstable : ∀ s x y, Q x s → Q x (f s y)) :
    ∀ x ∈ l, Q x (l.foldl f s) := by
  induction l generalizing s with
  | nil => intro x hx; cases hx
  | cons y ys ih =>
    intro x hx
    rw [List.foldl_cons]
    rcases List.mem_cons.1 hx with rfl | hx
    · exact foldl_inv (Q x) f ys (f s x) (hest s x) (fun s a _ h => hstable s x a h)
    · exact ih (f s y) x hx

theorem Board.Narrows.memSub {b1 b2 : Board} (h : b1.Narrows b2) (hm : b1.MemSub) :
    b2.MemSub := by
  intro r c hr hc hz k hk
  rw [h.2.1]
  rw [h.1] at hz
  exact hm r c hr hc hz k (h.2.2.2.2 r c k hk)

theorem lt_512_of_subset (x y : Nat) (hy : y < 512)
    (h : ∀ k, x.testBit k = true → y.testBit k = true) : x < 512 := by
  have e : (512 : Nat) = 2 ^ 9 := by norm_num
  rw [e]
  apply Nat.lt_pow_two_of_testBit
  intro k hk
  cases hx : x.testBit k
  · rfl
  · have := h k hx
    rw [testBit_of_lt_512 y k hy hk] at this
    exact absurd this Bool.false_ne_true

theorem Board.MemSub.mem_lt {b : Board} (hm : b.MemSub) (hs : b.Sync) {r c : Nat} (hr : r < 9)
    (hc : c < 9) (hz : b.matrix r c = 0) : b.memory r c < 512 :=
  lt_512_of_subset _ _ (hs.possible_lt hr) (hm r c hr hc hz)

theorem andMem_testBit (s : Board) (r c x k : Nat)
    (hk : ((s.andMem r c x).memory r c).testBit k = true) : x.testBit k = true := by
  simp only [Board.andMem, upd2_apply, and_self, if_true, Nat.testBit_and,
    Bool.and_eq_true] at hk
  exact hk.2

/-- After the seeding loop of `advanced_fill` the memory of every blank cell is a subset
of `possible`. -/
theorem advanced_seed_memSub (b : Board) : b.advanced_seed.MemSub := by
  intro r c hr hc hz k hk
  have key := foldl_establish (fun (s : Board) (p : Nat × Nat) => s.seedStep p.1 p.2)
    (fun (p : Nat × Nat) (s : Board) => s.matrix p.1 p.2 = 0 →
      ∀ k, (s.memory p.1 p.2).testBit k = true → (s.Blank.possible p.1 p.2).testBit k = true)
    cells b
    (by
      intro s p hz k hk
      dsimp only at hz hk ⊢
      have hn := Board.narrows_seedStep s p.1 p.2
      rw [hn.1] at hz
      rw [hn.2.1]
      unfold Board.seedStep at hk
      rw [if_pos hz] at hk
      exact andMem_testBit _ _ _ _ _ hk)
    (by
      intro s x y hq hz k hk
      dsimp only at hz hk ⊢
      have hn := Board.narrows_seedStep s y.1 y.2
      rw [hn.2.1]
      rw [hn.1] at hz
      exact hq hz k (hn.2.2.2.2 _ _ k hk))
    (r, c) ((mem_cells (r, c)).2 ⟨hr, hc⟩)
  rw [advanced_seed_eq] at hz hk ⊢
  dsimp only at key
  exact key hz k hk

/-- The step of `_update` for the index `t` leaves the memory of the blank cells it
visits inside `possible`. -/
theorem updateStep_visited (s : Board) (i j t r c : Nat)
    (hz : (s.updateStep i j t).matrix r c = 0)
    (hcase : (r = i ∧ c = t) ∨ (r = t ∧ c = j) ∨
      (r = i / 3 * 3 + t / 3 ∧ c = j / 3 * 3 + t % 3 ∧ r ≠ i ∧ c ≠ j))
    (k : Nat) (hk : ((s.updateStep i j t).memory r c).testBit k = true) :
    ((s.updateStep i j t).Blank.possible r c).testBit k = true := by
  have hn := Board.narrows_updateStep s i j t
  rw [hn.2.1]
  rw [hn.1] at hz
  unfold Board.updateStep at hk
  dsimp only at hk
  have h1 := Board.narrows_ite s (s.andMem i t (s.Blank.possible i t)) (s.matrix i t = 0)
    (Board.narrows_andMem s i t _)
  have hm1 : s.matrix i t = 0 → ∀ k,
      ((if s.matrix i t = 0 then s.andMem i t (s.Blank.possible i t) else s).memory i t).testBit k
        = true → (s.Blank.possible i t).testBit k = true := by
    intro h0 k hk
    rw [if_pos h0] at hk
    exact andMem_testBit _ _ _ _ _ hk
  generalize (if s.matrix i t = 0 then s.andMem i t (s.Blank.possible i t) else s) = s1
    at h1 hm1 hk
  have h2 := Board.narrows_ite s1 (s1.andMem t j (s1.Blank.possible t j))
    (s1.matrix t j = 0) (Board.narrows_andMem s1 t j _)
  have hm2 : s1.matrix t j = 0 → ∀ k,
      ((if s1.matrix t j = 0 then s1.andMem t j (s1.Blank.possible t j) else s1).memory t j).testBit k
        = true → (s1.Blank.possible t j).testBit k = true := by
    intro h0 k hk
    rw [if_pos h0] at hk
    exact andMem_testBit _ _ _ _ _ hk
  generalize (if s1.matrix t j = 0 then s1.andMem t j (s1.Blank.possible t j) else s1) = s2
    at h2 hm2 hk
  have h3 : s2.Narrows (if i / 3 * 3 + t / 3 ≠ i ∧ j / 3 * 3 + t % 3 ≠ j ∧
      s2.matrix (i / 3 * 3 + t / 3) (j / 3 * 3 + t % 3) = 0
      then s2.andMem (i / 3 * 3 + t / 3) (j / 3 * 3 + t % 3)
        (s2.Blank.possible (i / 3 * 3 + t / 3) (j / 3 * 3 + t % 3))
      else s2) := by
    split_ifs
    · exact Board.narrows_andMem _ _ _ _
    · exact Board.Narrows.refl _
  rcases hcase with ⟨rfl, rfl⟩ | ⟨rfl, rfl⟩ | ⟨rfl, rfl, hne1, hne2⟩
  · exact hm1 hz k (h2.2.2.2.2 _ _ k (h3.2.2.2.2 _ _ k hk))
  · have := hm2 (by rw [h1.1]; exact hz) k (h3.2.2.2.2 _ _ k hk)
    rw [h1.2.1] at this; exact this
  · rw [if_pos ⟨hne1, hne2, by rw [h2.1, h1.1]; exact hz⟩] at hk
    have := andMem_testBit _ _ _ _ _ hk
    rw [h2.2.1, h1.2.1] at this; exact this

/-- `_update` after a placement at `(i, j)` leaves the memory of every blank cell of the
row, the column and the block inside `possible`. -/
theorem update_peers (b : Board) (i j : Nat) (r c : Nat) (hr : r < 9)
    (hc : c < 9) (hp : r = i ∨ c = j ∨ (r / 3 = i / 3 ∧ c / 3 = j / 3))
    (hz : b.matrix r c = 0) (k : Nat)
    (hk : ((b._update i j).memory r c).testBit k = true) :
    (b.Blank.possible r c).testBit k = true := by
  -- the index of the loop at which the cell is visited
  have hidx : ∃ t, t < 9 ∧ ((r = i ∧ c = t) ∨ (r = t ∧ c = j) ∨
      (r = i / 3 * 3 + t / 3 ∧ c = j / 3 * 3 + t % 3 ∧ r ≠ i ∧ c ≠ j)) := by
    rcases hp with h | h | h
    · exact ⟨c, hc, Or.inl ⟨h, rfl⟩⟩
    · exact ⟨r, hr, Or.inr (Or.inl ⟨rfl, h⟩)⟩
    · by_cases h1 : r = i
      · exact ⟨c, hc, Or.inl ⟨h1, rfl⟩⟩
      · by_cases h2 : c = j
        · exact ⟨r, hr, Or.inr (Or.inl ⟨rfl, h2⟩)⟩
        · exact ⟨r % 3 * 3 + c % 3, by omega, Or.inr (Or.inr ⟨by omega, by omega, h1, h2⟩)⟩
  obtain ⟨t, ht, hcase⟩ := hidx
  have key := foldl_establish (fun (s : Board) (t : Nat) => s.updateStep i j t)
    (fun (t : Nat) (s : Board) => ∀ r c, s.matrix r c = 0 →
      ((r = i ∧ c = t) ∨ (r = t ∧ c = j) ∨
        (r = i / 3 * 3 + t / 3 ∧ c = j / 3 * 3 + t % 3 ∧ r ≠ i ∧ c ≠ j)) →
      ∀ k, (s.memory r c).testBit k = true → (s.Blank.possible r c).testBit k = true)
    (List.range 9) b
    (fun s t r c hz hcase k hk => updateStep_visited s i j t r c hz hcase k hk)
    (by
      intro s x y hq r c hz hcase k hk
      dsimp only at hz hk ⊢
      have hn := Board.narrows_updateStep s i j y
      rw [hn.2.1]
      rw [hn.1] at hz
      exact hq r c hz hcase k (hn.2.2.2.2 _ _ k hk))
    t (List.mem_range.2 ht)
  have hn := Board.narrows_update b i j
  have hU : b._update i j = (List.range 9).foldl (fun s t => s.updateStep i j t) b := rfl
  rw [hU] at hn hk
  have := key r c (by rw [hn.1]; exact hz) hcase k hk
  rwa [hn.2.1] at this


/-! ## The sweep of the advanced pass -/

theorem advanced_step_eq (b : Board) (i j : Nat) :
    b.advanced_step i j =
      if b.matrix i j ≠ 0 then b
      else if (b.advPre i j).advPick i j ≠ 0 then
        (b.advPre i j).set i j (numFor ((b.advPre i j).advPick i j)) true
      else b.advPre i j := rfl

theorem Board.narrows_advPre (b : Board) (i j : Nat) : b.Narrows (b.advPre i j) :=
  (Board.narrows_candidate_check b i j).trans (Board.narrows_pair_check _ i j)

/-- The digit picked by `advanced_fill` at a blank cell is a digit 1..9 of the cell's
memory that is tracker-legal. -/
theorem adv_pick_legal {b : Board} (hs : b.Sync) (hm : b.MemSub) {i j : Nat} (hi : i < 9)
    (hj : j < 9) (hz : b.matrix i j = 0) (hne : b.advPick i j ≠ 0) :
    1 ≤ numFor (b.advPick i j) ∧ numFor (b.advPick i j) ≤ 9 ∧
    b.advPick i j = bitFor (numFor (b.advPick i j)) ∧
    (b.memory i j).testBit (numFor (b.advPick i j) - 1) = true ∧
    b.Blank.possible i j &&& bitFor (numFor (b.advPick i j)) ≠ 0 := by
  obtain ⟨h1, h2, h3, h4⟩ : 1 ≤ numFor (b.advPick i j) ∧ numFor (b.advPick i j) ≤ 9 ∧
      b.advPick i j = bitFor (numFor (b.advPick i j)) ∧
      (b.memory i j).testBit (numFor (b.advPick i j) - 1) = true :=
    decide_digit _ _ _ _ (hm.mem_lt hs hi hj hz) hne
  exact ⟨h1, h2, h3, h4, (and_bitFor_ne_zero _ _).2 (hm i j hi hj hz _ h4)⟩

theorem elim_possible_other (bl : BlankList) (i j d r c : Nat)
    (hp : ¬ (r = i ∨ c = j ∨ (r / 3 = i / 3 ∧ c / 3 = j / 3))) :
    (bl.elim i j d).possible r c = bl.possible r c := by
  simp only [not_or] at hp
  simp only [BlankList.possible, BlankList.elim, upd1_apply, upd2_apply, if_neg hp.1,
    if_neg hp.2.1, if_neg hp.2.2]

/-- A legal placement with propagation keeps the board in step and the memory of the
blank cells inside `possible`. -/
theorem set_true_sync {b : Board} (hs : b.Sync) (hm : b.MemSub) {i j d : Nat} (hi : i < 9)
    (hj : j < 9) (hd1 : 1 ≤ d) (hd9 : d ≤ 9) (hz : b.matrix i j = 0)
    (hleg : b.Blank.possible i j &&& bitFor d ≠ 0) :
    (b.set i j d true).Sync ∧ (b.set i j d true).MemSub := by
  have hs1 := hs.set hi hj hd1 hd9 hz hleg
  have hn := Board.narrows_set_true b i j d
  refine ⟨hn.sync hs1, ?_⟩
  intro r c hr hc hz2 k hk
  rw [hn.2.1]
  rw [hn.1] at hz2
  by_cases hp : r = i ∨ c = j ∨ (r / 3 = i / 3 ∧ c / 3 = j / 3)
  · rw [set_true_eq] at hk
    exact update_peers _ i j r c hr hc hp hz2 k hk
  · have hk1 := hn.2.2.2.2 r c k hk
    rw [set_false_eq _ _ _ _ (by omega)] at hk1 hz2 ⊢
    simp only [upd2_apply] at hz2
    have hne : ¬ (r = i ∧ c = j) := fun h => hp (Or.inl h.1)
    rw [if_neg hne] at hz2
    show ((b.Blank.elim i j d).possible r c).testBit k = true
    rw [elim_possible_other _ _ _ _ _ _ hp]
    exact hm r c hr hc hz2 k hk1

theorem advanced_step_sync {b : Board} (hs : b.Sync) (hm : b.MemSub) {i j : Nat} (hi : i < 9)
    (hj : j < 9) : (b.advanced_step i j).Sync ∧ (b.advanced_step i j).MemSub := by
  rw [advanced_step_eq]
  by_cases h1 : b.matrix i j ≠ 0
  · rw [if_pos h1]; exact ⟨hs, hm⟩
  rw [if_neg h1]
  have hn := Board.narrows_advPre b i j
  have hs2 := hn.sync hs
  have hm2 := hn.memSub hm
  have hz2 : (b.advPre i j).matrix i j = 0 := by rw [hn.1]; exact not_not.1 h1
  by_cases h2 : (b.advPre i j).advPick i j ≠ 0
  · rw [if_pos h2]
    obtain ⟨d1, d9, _, _, dleg⟩ := adv_pick_legal hs2 hm2 hi hj hz2 h2
    exact set_true_sync hs2 hm2 hi hj d1 d9 hz2 dleg
  · rw [if_neg h2]; exact ⟨hs2, hm2⟩

theorem advanced_sweep_eq (b : Board) :
    b.advanced_sweep =
      (cells.foldl (fun b p => b.advanced_step p.1 p.2) b,
        (cells.foldl (fun b p => b.advanced_step p.1 p.2) b).memory_sub (b.memory_add 0) != 0) := by
  unfold Board.advanced_sweep
  dsimp only
  rw [foldl_cells (fun (b : Board) i j => b.advanced_step i j) b]

theorem advanced_sweep_fst (b : Board) :
    b.advanced_sweep.1 = cells.foldl (fun b p => b.advanced_step p.1 p.2) b := by
  rw [advanced_sweep_eq]

/-- Induction over the steps of the advanced pass after seeding. -/
theorem advanced_loop_induct (P : Board → Prop)
    (hpre : ∀ b i j, P b → i < 9 → j < 9 → b.matrix i j = 0 → P (b.advPre i j))
    (hset : ∀ b i j, P b → i < 9 → j < 9 → b.matrix i j = 0 → b.advPick i j ≠ 0 →
      P (b.set i j (numFor (b.advPick i j)) true))
    (fuel : Nat) (b b1 : Board) (h0 : P b) (h : Board.advanced_fill_loop fuel b = some b1) :
    P b1 := by
  have hstep : ∀ b i j, P b → i < 9 → j < 9 → P (b.advanced_step i j) := by
    intro b i j hb hi hj
    rw [advanced_step_eq]
    by_cases h1 : b.matrix i j ≠ 0
    · rw [if_pos h1]; exact hb
    rw [if_neg h1]
    have hp := hpre b i j hb hi hj (not_not.1 h1)
    have hz2 : (b.advPre i j).matrix i j = 0 := by
      rw [(Board.narrows_advPre b i j).1]; exact not_not.1 h1
    by_cases h2 : (b.advPre i j).advPick i j ≠ 0
    · rw [if_pos h2]; exact hset _ i j hp hi hj hz2 h2
    · rw [if_neg h2]; exact hp
  have hsweep : ∀ b, P b → P b.advanced_sweep.1 := by
    intro b hb
    rw [advanced_sweep_fst]
    refine foldl_inv (fun (x : Board) => P x) _ cells b hb ?_
    intro s p hp ih
    rw [mem_cells] at hp
    exact hstep s p.1 p.2 ih hp.1 hp.2
  induction fuel generalizing b with
  | zero => rw [Board.advanced_fill_loop] at h; cases h
  | succ n ih =>
    rw [Board.advanced_fill_loop] at h
    by_cases hs : b.advanced_sweep.2 = true
    · rw [if_pos hs] at h
      exact ih _ (hsweep b h0) h
    · rw [if_neg hs] at h
      have := hsweep b h0
      rw [Option.some.injEq] at h
      rwa [h] at this

/-- After the advanced pass the board is in step, the filled cells are kept and the
memory of the blank cells lies inside `possible`. -/
theorem advanced_fill_sync (b b1 : Board) (hs : b.Sync) (h : b.advanced_fill = some b1) :
    b1.Sync ∧ b1.MemSub ∧ b1.backtrack_count = b.backtrack_count ∧
    (∀ r c, b.matrix r c ≠ 0 → b1.matrix r c = b.matrix r c) := by
  have hn := Board.narrows_advanced_seed b
  refine advanced_loop_induct (fun x => x.Sync ∧ x.MemSub ∧
    x.backtrack_count = b.backtrack_count ∧
    (∀ r c, b.matrix r c ≠ 0 → x.matrix r c = b.matrix r c)) ?_ ?_ 2593 b.advanced_seed b1
    ⟨hn.sync hs, advanced_seed_memSub b, hn.2.2.2.1, fun r c _ => by rw [hn.1]⟩ h
  · rintro x i j ⟨hx, hm, hbc, hext⟩ hi hj hz
    have hn2 := Board.narrows_advPre x i j
    exact ⟨hn2.sync hx, hn2.memSub hm, by rw [hn2.2.2.2.1]; exact hbc,
      fun r c hne => by rw [hn2.1]; exact hext r c hne⟩
  · rintro x i j ⟨hx, hm, hbc, hext⟩ hi hj hz hne
    obtain ⟨d1, d9, _, _, dleg⟩ := adv_pick_legal hx hm hi hj hz hne
    obtain ⟨a1, a2⟩ := set_true_sync hx hm hi hj d1 d9 hz dleg
    have hn3 := Board.narrows_set_true x i j (numFor (x.advPick i j))
    refine ⟨a1, a2, ?_, ?_⟩
    · rw [hn3.2.2.2.1, set_false_eq _ _ _ _ (by omega)]; exact hbc
    · intro r c hrc
      rw [hn3.1, set_false_eq _ _ _ _ (by omega)]
      simp only [upd2_apply]
      have := hext r c hrc
      split_ifs with hh
      · obtain ⟨rfl, rfl⟩ := hh
        rw [hz] at this
        exact absurd this.symm hrc
      · exact this


/-! ## The advanced pass terminates -/

theorem pop32_le (x y : Nat) (h : ∀ k, x.testBit k = true → y.testBit k = true) :
    pop32 x ≤ pop32 y := by
  unfold pop32
  apply Finset.card_le_card
  intro k hk
  rw [Finset.mem_filter] at hk ⊢
  exact ⟨hk.1, h k hk.2⟩

theorem pop32_lt (x y : Nat) (hy : y < 4294967296)
    (h : ∀ k, x.testBit k = true → y.testBit k = true) (hne : x ≠ y) : pop32 x < pop32 y := by
  unfold pop32
  apply Finset.card_lt_card
  rw [Finset.ssubset_iff_of_subset (by
    intro k hk
    rw [Finset.mem_filter] at hk ⊢
    exact ⟨hk.1, h k hk.2⟩)]
  by_contra hcon
  apply hne
  apply Nat.eq_of_testBit_eq
  intro k
  cases hyk : y.testBit k
  · cases hxk : x.testBit k
    · rfl
    · rw [h k hxk] at hyk; exact absurd hyk (by simp)
  · have hk32 : k < 32 := by
      by_contra hge
      have : y.testBit k = false := by
        apply Nat.testBit_lt_two_pow
        calc y < 2 ^ 32 := by simpa using hy
          _ ≤ 2 ^ k := Nat.pow_le_pow_right (by norm_num) (by omega)
      rw [this] at hyk; exact absurd hyk (by simp)
    cases hxk : x.testBit k
    · exfalso
      apply hcon
      exact ⟨k, by rw [Finset.mem_filter]; exact ⟨Finset.mem_range.2 hk32, hyk⟩,
        by rw [Finset.mem_filter]; simp [hxk]⟩
    · rfl

theorem pop32_le_32 (x : Nat) : pop32 x ≤ 32 := by
  unfold pop32
  calc _ ≤ (Finset.range 32).card := Finset.card_filter_le _ _
    _ = 32 := Finset.card_range 32

theorem memBits_le (b : Board) : b.memBits ≤ 2592 := by
  unfold Board.memBits
  have h : ∀ (l : List (Nat × Nat)), (l.map (fun p => pop32 (b.memory p.1 p.2))).sum ≤ 32 * l.length := by
    intro l
    induction l with
    | nil => simp
    | cons p l ih =>
      simp only [List.map_cons, List.sum_cons, List.length_cons]
      have := pop32_le_32 (b.memory p.1 p.2)
      omega
  have hl : cells.length = 81 := by decide
  have := h cells
  rw [hl] at this
  omega

theorem memBits_lt (b b2 : Board) (hle : b.MemLe b2) (hw : b.MemWord)
    (hne : ∃ p ∈ cells, b2.memory p.1 p.2 ≠ b.memory p.1 p.2) : b2.memBits < b.memBits := by
  unfold Board.memBits
  apply List.sum_lt_sum
  · intro p _
    exact pop32_le _ _ (hle p.1 p.2)
  · obtain ⟨p, hp, hd⟩ := hne
    exact ⟨p, hp, pop32_lt _ _ (hw p hp) (hle p.1 p.2) hd⟩

theorem memory_add_eq (b : Board) (s : Nat) :
    b.memory_add s = cells.foldl (fun s p => (s + b.memory p.1 p.2) % 4294967296) s := by
  unfold Board.memory_add
  exact foldl_cells (fun s i j => (s + b.memory i j) % 4294967296) s

theorem memory_sub_eq (b : Board) (s : Nat) :
    b.memory_sub s = cells.foldl
      (fun s p => (s + (4294967296 - b.memory p.1 p.2 % 4294967296)) % 4294967296) s := by
  unfold Board.memory_sub
  exact foldl_cells (fun s i j => (s + (4294967296 - b.memory i j % 4294967296)) % 4294967296) s

theorem add_fold_mod (f : Nat × Nat → Nat) (l : List (Nat × Nat)) (s : Nat) :
    (l.foldl (fun s p => (s + f p) % 4294967296) s) % 4294967296
      = (s + (l.map f).sum) % 4294967296 := by
  induction l generalizing s with
  | nil => simp
  | cons p l ih =>
    rw [List.foldl_cons, ih, List.map_cons, List.sum_cons]
    omega

theorem sub_fold_mod (f : Nat × Nat → Nat) (l : List (Nat × Nat)) (s : Nat) :
    (l.foldl (fun s p => (s + (4294967296 - f p % 4294967296)) % 4294967296) s + (l.map f).sum)
      % 4294967296 = s % 4294967296 := by
  induction l generalizing s with
  | nil => simp
  | cons p l ih =>
    rw [List.foldl_cons, List.map_cons, List.sum_cons]
    have := ih ((s + (4294967296 - f p % 4294967296)) % 4294967296)
    omega

theorem fold_mod_lt (g : Nat → Nat × Nat → Nat) (hg : ∀ s p, g s p < 4294967296)
    (l : List (Nat × Nat)) (s : Nat) (hs : s < 4294967296) :
    l.foldl g s < 4294967296 := by
  induction l generalizing s with
  | nil => exact hs
  | cons p l ih => rw [List.foldl_cons]; exact ih _ (hg s p)

/-- The test `if (sum)` of `advanced_fill` fails when the sweep left every memory word
as it was. -/
theorem sum_zero_of_same (b b2 : Board)
    (h : ∀ p ∈ cells, b2.memory p.1 p.2 = b.memory p.1 p.2) :
    b2.memory_sub (b.memory_add 0) = 0 := by
  rw [memory_sub_eq, memory_add_eq]
  have e : cells.foldl
      (fun s p => (s + (4294967296 - b2.memory p.1 p.2 % 4294967296)) % 4294967296)
      (cells.foldl (fun s p => (s + b.memory p.1 p.2) % 4294967296) 0)
    = cells.foldl
      (fun s p => (s + (4294967296 - b.memory p.1 p.2 % 4294967296)) % 4294967296)
      (cells.foldl (fun s p => (s + b.memory p.1 p.2) % 4294967296) 0) := by
    generalize (cells.foldl (fun s p => (s + b.memory p.1 p.2) % 4294967296) 0) = s0
    have : ∀ (l : List (Nat × Nat)) (s : Nat), (∀ p ∈ l, b2.memory p.1 p.2 = b.memory p.1 p.2) →
        l.foldl (fun s p => (s + (4294967296 - b2.memory p.1 p.2 % 4294967296)) % 4294967296) s
        = l.foldl (fun s p => (s + (4294967296 - b.memory p.1 p.2 % 4294967296)) % 4294967296) s := by
      intro l
      induction l with
      | nil => intro s _; rfl
      | cons p l ih =>
        intro s hl
        rw [List.foldl_cons, List.foldl_cons, hl p (List.mem_cons_self _ _)]
        exact ih _ (fun q hq => hl q (List.mem_cons_of_mem _ hq))
    exact this cells s0 h
  rw [e]
  have h1 := add_fold_mod (fun p => b.memory p.1 p.2) cells 0
  have h2 := sub_fold_mod (fun p => b.memory p.1 p.2) cells
    (cells.foldl (fun s p => (s + b.memory p.1 p.2) % 4294967296) 0)
  have h3 := fold_mod_lt
    (fun s p => (s + (4294967296 - b.memory p.1 p.2 % 4294967296)) % 4294967296)
    (fun s p => Nat.mod_lt _ (by norm_num)) cells
    (cells.foldl (fun s p => (s + b.memory p.1 p.2) % 4294967296) 0)
    (fold_mod_lt (fun s p => (s + b.memory p.1 p.2) % 4294967296)
      (fun s p => Nat.mod_lt _ (by norm_num)) cells 0 (by norm_num))
  generalize (cells.map (fun p => b.memory p.1 p.2)).sum = total at h1 h2
  generalize cells.foldl (fun s p => (s + b.memory p.1 p.2) % 4294967296) 0 = s0 at h1 h2 h3 ⊢
  generalize cells.foldl
    (fun s p => (s + (4294967296 - b.memory p.1 p.2 % 4294967296)) % 4294967296) s0 = s1
    at h2 h3 ⊢
  omega

theorem Board.Narrows.memLe {b1 b2 : Board} (h : b1.Narrows b2) : b1.MemLe b2 :=
  h.2.2.2.2

theorem Board.MemLe.leTrans {b1 b2 b3 : Board} (h12 : b1.MemLe b2) (h23 : b2.MemLe b3) :
    b1.MemLe b3 :=
  fun r c k h => h12 r c k (h23 r c k h)

theorem memLe_set_false (b : Board) (i j d : Nat) : b.MemLe (b.set i j d false) := by
  intro r c k h
  by_cases hd : d = 0
  · subst hd
    rw [set_zero_eq] at h
    exact h
  · rw [set_false_eq _ _ _ _ hd] at h
    exact h

theorem memLe_advanced_step (b : Board) (i j : Nat) : b.MemLe (b.advanced_step i j) := by
  rw [advanced_step_eq]
  split_ifs
  · exact fun _ _ _ h => h
  · exact ((Board.narrows_advPre b i j).memLe.leTrans (memLe_set_false _ i j _)).leTrans
      (Board.narrows_set_true _ i j _).memLe
  · exact (Board.narrows_advPre b i j).memLe

theorem memLe_advanced_sweep (b : Board) : b.MemLe b.advanced_sweep.1 := by
  rw [advanced_sweep_fst]
  refine foldl_inv (fun (x : Board) => b.MemLe x) _ cells b (fun _ _ _ h => h) ?_
  intro s p _ ih
  exact ih.leTrans (memLe_advanced_step s p.1 p.2)

theorem Board.MemLe.memWord {b1 b2 : Board} (h : b1.MemLe b2) (hw : b1.MemWord) :
    b2.MemWord := by
  intro p hp
  have h1 := hw p hp
  have e : (4294967296 : Nat) = 2 ^ 32 := by norm_num
  rw [e] at h1 ⊢
  apply Nat.lt_pow_two_of_testBit
  intro k hk
  cases hx : (b2.memory p.1 p.2).testBit k
  · rfl
  · have := h p.1 p.2 k hx
    have h2 : (b1.memory p.1 p.2).testBit k = false := by
      apply Nat.testBit_lt_two_pow
      exact lt_of_lt_of_le h1 (Nat.pow_le_pow_right (by norm_num) hk)
    rw [h2] at this
    exact absurd this (by simp)

/-- A sweep that asks for another sweep has cleared a candidate bit. -/
theorem advanced_sweep_measure (b : Board) (hw : b.MemWord) (h : b.advanced_sweep.2 = true) :
    b.advanced_sweep.1.memBits < b.memBits := by
  apply memBits_lt b _ (memLe_advanced_sweep b) hw
  by_contra hcon
  push_neg at hcon
  have hz := sum_zero_of_same b b.advanced_sweep.1 hcon
  rw [advanced_sweep_fst] at hz
  have e := congrArg Prod.snd (advanced_sweep_eq b)
  dsimp only at e
  rw [e, hz] at h
  exact absurd h (by simp)

theorem advanced_fill_loop_total (fuel : Nat) (b : Board) (hw : b.MemWord)
    (h : b.memBits < fuel) : ∃ b1, Board.advanced_fill_loop fuel b = some b1 := by
  induction fuel generalizing b with
  | zero => omega
  | succ n ih =>
    rw [Board.advanced_fill_loop]
    by_cases hs : b.advanced_sweep.2 = true
    · rw [if_pos hs]
      have := advanced_sweep_measure b hw hs
      exact ih _ ((memLe_advanced_sweep b).memWord hw) (by omega)
    · rw [if_neg hs]
      exact ⟨_, rfl⟩

/-- `advanced_fill` terminates on every board whose memory words are 32-bit values. -/
theorem advanced_fill_total (b : Board) (hw : b.MemWord) : ∃ b1, b.advanced_fill = some b1 := by
  unfold Board.advanced_fill
  apply advanced_fill_loop_total
  · exact (Board.narrows_advanced_seed b).memLe.memWord hw
  · have := memBits_le b.advanced_seed
    omega


/-! ## The search -/

theorem bitCount_le_9 (x : Nat) : bitCount x ≤ 9 := by
  rw [bitCount_eq_card]
  calc _ ≤ (Finset.range 9).card := Finset.card_filter_le _ _
    _ = 9 := Finset.card_range 9

theorem findMinScan_eq (b : Board) :
    b.findMinScan = cells.foldl (fun (s : MinCell) p =>
      if b.matrix p.1 p.2 = 0 ∧ bitCount (b.Blank.possible p.1 p.2 &&& b.memory p.1 p.2) < s.count
      then { found := true
             count := bitCount (b.Blank.possible p.1 p.2 &&& b.memory p.1 p.2)
             row := p.1
             col := p.2 }
      else s) { found := false, count := 10, row := 0, col := 0 } := by
  unfold Board.findMinScan
  rw [foldl_cells (fun (s : MinCell) i j =>
      if b.matrix i j = 0 ∧ bitCount (b.Blank.possible i j &&& b.memory i j) < s.count
      then { found := true
             count := bitCount (b.Blank.possible i j &&& b.memory i j)
             row := i
             col := j }
      else s)]

theorem findMin_fold (b : Board) (l : List (Nat × Nat)) (hl : ∀ p ∈ l, p.1 < 9 ∧ p.2 < 9) :
    ∀ (s : MinCell),
      ((s.found = false → s.count = 10) ∧
        (s.found = true → s.row < 9 ∧ s.col < 9 ∧ b.matrix s.row s.col = 0 ∧
          s.count = bitCount (b.Blank.possible s.row s.col &&& b.memory s.row s.col))) →
      let t := l.foldl (fun (s : MinCell) p =>
        if b.matrix p.1 p.2 = 0 ∧
            bitCount (b.Blank.possible p.1 p.2 &&& b.memory p.1 p.2) < s.count
        then { found := true
               count := bitCount (b.Blank.possible p.1 p.2 &&& b.memory p.1 p.2)
               row := p.1
               col := p.2 }
        else s) s
      ((t.found = false → t.count = 10) ∧
        (t.found = true → t.row < 9 ∧ t.col < 9 ∧ b.matrix t.row t.col = 0 ∧
          t.count = bitCount (b.Blank.possible t.row t.col &&& b.memory t.row t.col))) ∧
      (s.found = true → t.found = true) ∧
      (∀ p ∈ l, b.matrix p.1 p.2 = 0 → t.found = true) := by
  induction l with
  | nil =>
    intro s hI
    exact ⟨hI, fun h => h, fun p hp => by cases hp⟩
  | cons q l ih =>
    intro s hI
    have hq := hl q (List.mem_cons_self _ _)
    simp only [List.foldl_cons]
    by_cases hc : b.matrix q.1 q.2 = 0 ∧
        bitCount (b.Blank.possible q.1 q.2 &&& b.memory q.1 q.2) < s.count
    · rw [if_pos hc]
      obtain ⟨i1, i2, i3⟩ := ih (fun p hp => hl p (List.mem_cons_of_mem _ hp))
        { found := true
          count := bitCount (b.Blank.possible q.1 q.2 &&& b.memory q.1 q.2)
          row := q.1
          col := q.2 }
        ⟨fun h => by simp at h, fun _ => ⟨hq.1, hq.2, hc.1, rfl⟩⟩
      refine ⟨i1, fun _ => i2 rfl, fun p hp hz => ?_⟩
      rcases List.mem_cons.1 hp with rfl | hp
      · exact i2 rfl
      · exact i3 p hp hz
    · rw [if_neg hc]
      obtain ⟨i1, i2, i3⟩ := ih (fun p hp => hl p (List.mem_cons_of_mem _ hp)) s hI
      refine ⟨i1, i2, fun p hp hz => ?_⟩
      rcases List.mem_cons.1 hp with rfl | hp
      · apply i2
        by_contra hf
        have hf2 : s.found = false := by simpa using hf
        have := hI.1 hf2
        have hb := bitCount_le_9 (b.Blank.possible p.1 p.2 &&& b.memory p.1 p.2)
        exact hc ⟨hz, by omega⟩
      · exact i3 p hp hz

/-- What `findMin` returns: a blank cell of the board when there is one, with `unique`
set iff the cell has exactly one candidate. -/
theorem findMin_spec (b : Board) :
    (b.findMin.1 = false → ∀ r c, r < 9 → c < 9 → b.matrix r c ≠ 0) ∧
    (b.findMin.1 = true → b.findMin.2.1 < 9 ∧ b.findMin.2.2.1 < 9 ∧
      b.matrix b.findMin.2.1 b.findMin.2.2.1 = 0 ∧
      (b.findMin.2.2.2 = true ↔
        bitCount (b.Blank.possible b.findMin.2.1 b.findMin.2.2.1 &&&
          b.memory b.findMin.2.1 b.findMin.2.2.1) = 1)) := by
  have h := findMin_fold b cells (fun p hp => (mem_cells p).1 hp)
    { found := false, count := 10, row := 0, col := 0 }
    ⟨fun _ => rfl, fun h => by simp at h⟩
  rw [← findMinScan_eq] at h
  obtain ⟨⟨_, i1⟩, _, i3⟩ := h
  constructor
  · intro hf r c hr hc hz
    have := i3 (r, c) ((mem_cells (r, c)).2 ⟨hr, hc⟩) hz
    have e : b.findMin.1 = b.findMinScan.found := rfl
    rw [e, this] at hf
    exact absurd hf (by simp)
  · intro hf
    have e : b.findMin.1 = b.findMinScan.found := rfl
    rw [e] at hf
    obtain ⟨a1, a2, a3, a4⟩ := i1 hf
    refine ⟨a1, a2, a3, ?_⟩
    show ((b.findMinScan.count == 1) = true ↔ _)
    rw [beq_iff_eq, a4]
    rfl


/-! ## Backtracking -/

theorem Board.SameCore.coreRefl (b : Board) : b.SameCore b := ⟨rfl, rfl, rfl, rfl⟩

theorem Board.SameCore.symm {b1 b2 : Board} (h : b1.SameCore b2) : b2.SameCore b1 :=
  ⟨h.1.symm, h.2.1.symm, h.2.2.1.symm, h.2.2.2.symm⟩

theorem Board.SameCore.coreTrans {b1 b2 b3 : Board} (h12 : b1.SameCore b2) (h23 : b2.SameCore b3) :
    b1.SameCore b3 :=
  ⟨h23.1.trans h12.1, h23.2.1.trans h12.2.1, h23.2.2.1.trans h12.2.2.1,
    h23.2.2.2.trans h12.2.2.2⟩

theorem Board.SameCore.coreSync {b1 b2 : Board} (h : b1.SameCore b2) (hs : b1.Sync) : b2.Sync := by
  obtain ⟨hm, _, hr, hb⟩ := h
  constructor
  · rw [hm]; exact hs.val_le
  · rw [hb]; exact hs.rows_lt
  · rw [hb]; exact hs.cols_lt
  · rw [hb]; exact hs.blocks_lt
  · rw [hb, hm]; exact hs.rows_bit
  · rw [hb, hm]; exact hs.cols_bit
  · rw [hb, hm]; exact hs.blocks_bit
  · rw [hm]; exact hs.row_inj
  · rw [hm]; exact hs.col_inj
  · rw [hm]; exact hs.block_inj
  · rw [hr, hm]; exact hs.remains_eq

theorem Board.SameCore.solvable {b1 b2 : Board} (h : b1.SameCore b2) (hs : b2.Solvable) :
    b1.Solvable := by
  obtain ⟨s, hv, ha, hm⟩ := hs
  refine ⟨s, hv, by rw [← h.1]; exact ha, ?_⟩
  intro r c hr hc hz
  have := hm r c hr hc (by rw [h.1]; exact hz)
  rwa [h.2.1] at this

theorem Board.SameCore.coreSet {b1 b2 : Board} (h : b1.SameCore b2) (r c d : Nat) :
    (b1.set r c d false).SameCore (b2.set r c d false) := by
  obtain ⟨hm, hmem, hr, hb⟩ := h
  by_cases hd : d = 0
  · subst hd
    rw [set_zero_eq, set_zero_eq]
    exact ⟨by simp only [hm], hmem, hr, hb⟩
  · rw [set_false_eq _ _ _ _ hd, set_false_eq _ _ _ _ hd]
    exact ⟨by simp only [hm], hmem, by simp only [hr], by simp only [hb]⟩

theorem Board.SearchPost.of_core {b0 b b2 : Board} {res : Bool} (h : b0.SameCore b)
    (hp : b.SearchPost res b2) : b0.SearchPost res b2 := by
  obtain ⟨p1, p2, p3⟩ := hp
  refine ⟨p1.trans h.2.1, fun hr => ?_, fun hr => ?_⟩
  · obtain ⟨a1, a2, a3⟩ := p2 hr
    exact ⟨a1, a2, fun r c hne => by rw [← h.1] at hne ⊢; exact a3 r c hne⟩
  · obtain ⟨a1, a2⟩ := p3 hr
    exact ⟨h.coreTrans a1, fun hs => a2 (h.symm.solvable hs)⟩

theorem cancel_elim (bl : BlankList) (r c d : Nat) (hd1 : 1 ≤ d) (hd9 : d ≤ 9)
    (h1 : bl.rows r < 4294967296) (h2 : bl.cols c < 4294967296)
    (h3 : bl.blocks (r / 3) (c / 3) < 4294967296)
    (hleg : (bl.possible r c).testBit (d - 1) = true) :
    (bl.elim r c d).cancel r c d = bl := by
  rw [possible_testBit] at hleg
  obtain ⟨rows, cols, blocks⟩ := bl
  simp only [BlankList.elim, BlankList.cancel, upd1_apply, upd2_apply, and_self, if_true,
    BlankList.mk.injEq, upd1_upd1, upd2_upd2]
  simp only [] at hleg h1 h2 h3
  refine ⟨?_, ?_, ?_⟩
  · rw [and_bnot_or_bitFor _ d h1 hd1 hd9 hleg.1]
    exact upd1_same rows r
  · rw [and_bnot_or_bitFor _ d h2 hd1 hd9 hleg.2.1]
    exact upd1_same cols c
  · rw [and_bnot_or_bitFor _ d h3 hd1 hd9 hleg.2.2]
    exact upd2_same blocks (r / 3) (c / 3)

/-- Undoing a trial placement after a failed search gives back the board. -/
theorem unset_after_fail {b b3 : Board} (hs : b.Sync) {r c d : Nat} (hr : r < 9) (hc : c < 9)
    (hd1 : 1 ≤ d) (hd9 : d ≤ 9) (hz : b.matrix r c = 0)
    (hleg : (b.Blank.possible r c).testBit (d - 1) = true)
    (h : (b.set r c d false).SameCore b3) : b.SameCore (b3.unset r c).2 := by
  rw [set_false_eq _ _ _ _ (by omega)] at h
  obtain ⟨hm, hmem, hrem, hb⟩ := h
  simp only [] at hm hmem hrem hb
  have hv : b3.matrix r c = d := by rw [hm]; simp
  rw [unset_eq _ _ _ (by omega)]
  refine ⟨?_, hmem, ?_, ?_⟩
  · show upd2 b3.matrix r c 0 = b.matrix
    rw [hm, upd2_upd2]
    have := upd2_same b.matrix r c
    rwa [hz] at this
  · show inc32 b3.remains = b.remains
    rw [hrem]
    apply inc32_dec32
    rw [hs.remains_eq]
    have := countZeros_le b.matrix
    omega
  · show b3.Blank.cancel r c (b3.matrix r c) = b.Blank
    rw [hb, hv]
    exact cancel_elim _ r c d hd1 hd9 (lt_trans (hs.rows_lt r hr) (by norm_num))
      (lt_trans (hs.cols_lt c hc) (by norm_num))
      (lt_trans (hs.blocks_lt _ _ (by omega) (by omega)) (by norm_num)) hleg

theorem mask_check_ne_zero (b : Board) (r c d : Nat) :
    b.mask_check r c (bitFor d) ≠ 0 ↔
      (b.Blank.possible r c).testBit (d - 1) = true ∧ (b.memory r c).testBit (d - 1) = true := by
  unfold Board.mask_check
  constructor
  · intro h
    obtain ⟨k, hk⟩ := Nat.ne_zero_implies_bit_true h
    simp only [Nat.testBit_and, Bool.and_eq_true, testBit_bitFor, decide_eq_true_eq] at hk
    obtain ⟨⟨h1, h2⟩, h3⟩ := hk
    rw [h2]; exact ⟨h1, h3⟩
  · rintro ⟨h1, h2⟩ h0
    have : (b.Blank.possible r c &&& bitFor d &&& b.memory r c).testBit (d - 1) = true := by
      simp only [Nat.testBit_and, Bool.and_eq_true, testBit_bitFor, decide_eq_true_eq]
      exact ⟨⟨h1, trivial⟩, h2⟩
    rw [h0] at this
    simp at this

/-- Two digits in a mask with exactly one set bit are equal. -/
theorem single_bit_unique (x d e : Nat) (hx : bitCount x = 1) (hd1 : 1 ≤ d) (hd9 : d ≤ 9)
    (he1 : 1 ≤ e) (he9 : e ≤ 9) (hd : x.testBit (d - 1) = true) (he : x.testBit (e - 1) = true) :
    d = e := by
  rw [bitCount_eq_card] at hx
  by_contra hne
  have hsub : ({d - 1, e - 1} : Finset Nat) ⊆ (Finset.range 9).filter (fun k => x.testBit k = true) := by
    intro k hk
    rw [Finset.mem_insert, Finset.mem_singleton] at hk
    rw [Finset.mem_filter, Finset.mem_range]
    rcases hk with rfl | rfl
    · exact ⟨by omega, hd⟩
    · exact ⟨by omega, he⟩
  have hc := Finset.card_le_card hsub
  rw [Finset.card_pair (by omega)] at hc
  omega

theorem countZeros_pos_of_blank (m : Nat → Nat → Nat) (r c : Nat) (hr : r < 9) (hc : c < 9)
    (hz : m r c = 0) : 0 < countZeros m := by
  unfold countZeros
  apply List.length_pos_of_mem (a := (r, c))
  rw [List.mem_filter]
  exact ⟨(mem_cells (r, c)).2 ⟨hr, hc⟩, by simpa using hz⟩

theorem no_blank_of_countZeros (m : Nat → Nat → Nat) (h : countZeros m = 0) (r c : Nat)
    (hr : r < 9) (hc : c < 9) : m r c ≠ 0 := by
  intro hz
  have := countZeros_pos_of_blank m r c hr hc hz
  omega


/-! ## The search is sound and complete -/

theorem two_pow_eq_maskMax (num : Nat) (h1 : 1 ≤ num) : 2 ^ (num - 1) = maskMax ↔ num = 10 := by
  have e : maskMax = 2 ^ 9 := by norm_num [maskMax]
  rw [e]
  constructor
  · intro h
    have := Nat.pow_right_injective (le_refl 2) h
    omega
  · intro h; subst h; rfl

/-- A solution that takes the digit `d` at a blank cell is a solution of the board with
`d` placed there. -/
theorem solvable_set {b b2 : Board} {s : Nat → Nat → Nat} {r c d : Nat} (hv : Valid s)
    (ha : Agrees b.matrix s) (hm : b.MemHas s) (hd : s r c = d)
    (hmat : b2.matrix = upd2 b.matrix r c d) (hmem : b2.memory = b.memory) : b2.Solvable := by
  refine ⟨s, hv, ?_, ?_⟩
  · apply agrees_of
    intro i j hi hj
    rw [hmat, upd2_apply]
    split_ifs with hh
    · intro _; rw [hh.1, hh.2, hd]
    · exact ha.at hi hj
  · intro i j hi hj hz
    rw [hmat, upd2_apply] at hz
    rw [hmem]
    split_ifs at hz with hh
    · have := (hv.gridOk.range i j hi hj).1
      rw [hh.1, hh.2, hd] at this
      omega
    · exact hm i j hi hj hz

/-- The candidate loop of `_btrack`, given what the recursive calls guarantee. -/
theorem btrackLoop_spec (rec : Board → Option (Bool × Board)) (b0 : Board) (hs : b0.Sync)
    (row col : Nat) (hr : row < 9) (hc : col < 9) (hz : b0.matrix row col = 0) (unique : Bool)
    (hu : unique = true → bitCount (b0.Blank.possible row col &&& b0.memory row col) = 1)
    (hrec : ∀ b2 : Board, b2.Sync → countZeros b2.matrix + 1 = countZeros b0.matrix →
      b2.remains = dec32 b0.remains → ∃ res b3, rec b2 = some (res, b3) ∧ b2.SearchPost res b3) :
    ∀ (k num : Nat) (bL : Board), 1 ≤ num → num ≤ 10 → k + num = 11 → b0.SameCore bL →
      (∀ s, Valid s → Agrees b0.matrix s → b0.MemHas s → num ≤ s row col) →
      ∃ res b1, Board.btrackLoop rec row col unique k bL num (2 ^ (num - 1)) = some (res, b1) ∧
        b0.SearchPost res b1 := by
  intro k
  induction k with
  | zero => intro num bL h1 h10 hk; omega
  | succ k ih =>
    intro num bL h1 h10 hk hcore hlow
    rw [Board.btrackLoop]
    by_cases hmax : 2 ^ (num - 1) = maskMax
    · rw [if_pos hmax]
      have hn := (two_pow_eq_maskMax num h1).1 hmax
      refine ⟨false, bL, rfl, hcore.2.1, fun h => by simp at h, fun _ => ⟨hcore, ?_⟩⟩
      rintro ⟨s, hv, ha, hm⟩
      have := hlow s hv ha hm
      have := (hv.gridOk.range row col hr hc).2
      omega
    · rw [if_neg hmax]
      have hn9 : num ≤ 9 := by
        by_contra hh
        exact hmax ((two_pow_eq_maskMax num h1).2 (by omega))
      have hnext : 2 ^ (num - 1) * 2 = 2 ^ (num + 1 - 1) := by
        have e : num + 1 - 1 = (num - 1) + 1 := by omega
        rw [e, pow_succ]
      have hmc_eq : bL.mask_check row col (2 ^ (num - 1)) = b0.mask_check row col (bitFor num) := by
        unfold Board.mask_check
        rw [hcore.2.2.2, hcore.2.1, bitFor_eq]
      by_cases hmc : bL.mask_check row col (2 ^ (num - 1)) ≠ 0
      · rw [if_pos hmc]
        rw [hmc_eq, mask_check_ne_zero] at hmc
        obtain ⟨hleg, hmem⟩ := hmc
        have hsL := hcore.coreSync hs
        have hzL : bL.matrix row col = 0 := by rw [hcore.1]; exact hz
        have hlegL : bL.Blank.possible row col &&& bitFor num ≠ 0 := by
          rw [and_bitFor_ne_zero, hcore.2.2.2]; exact hleg
        have hs2 := hsL.set hr hc h1 hn9 hzL hlegL
        have hcore2 := hcore.coreSet row col num
        have hm2 : (bL.set row col num false).matrix = upd2 b0.matrix row col num := by
          rw [set_false_eq _ _ _ _ (by omega), hcore.1]
        have hcount : countZeros (bL.set row col num false).matrix + 1 = countZeros b0.matrix := by
          rw [hm2]
          have := countZeros_upd2 b0.matrix row col num hr hc
          rw [if_pos hz, if_neg (by omega)] at this
          omega
        have hrem : (bL.set row col num false).remains = dec32 b0.remains := by
          rw [set_false_eq _ _ _ _ (by omega), ← hcore.2.2.1]
        have hmem2 : (bL.set row col num false).memory = b0.memory := by
          rw [set_false_eq _ _ _ _ (by omega)]; exact hcore.2.1
        obtain ⟨res, b3, hrq, hpost⟩ := hrec _ hs2 hcount hrem
        rw [hrq]
        have hnosol : res = false → ∀ s, Valid s → Agrees b0.matrix s → b0.MemHas s →
            s row col ≠ num := by
          intro hres s hv ha hm hd
          exact (hpost.2.2 hres).2 (solvable_set hv ha hm hd hm2 hmem2)
        cases res with
        | true =>
          refine ⟨true, b3, rfl, hpost.1.trans hmem2, fun _ => ?_, fun h => by simp at h⟩
          obtain ⟨a1, a2, a3⟩ := hpost.2.1 rfl
          refine ⟨a1, a2, fun r c hne => ?_⟩
          have hne2 : ¬ (r = row ∧ c = col) := by
            rintro ⟨rfl, rfl⟩; exact hne hz
          have e : (bL.set row col num false).matrix r c = b0.matrix r c := by
            rw [hm2, upd2_apply, if_neg hne2]
          rw [← e]
          exact a3 r c (by rw [e]; exact hne)
        | false =>
          obtain ⟨hc3, _⟩ := hpost.2.2 rfl
          have hcore4 : b0.SameCore (b3.unset row col).2 :=
            hcore.coreTrans (unset_after_fail hsL hr hc h1 hn9 hzL
              (by rw [hcore.2.2.2]; exact hleg) hc3)
          dsimp only
          by_cases hun : unique = true
          · rw [if_pos hun]
            refine ⟨false, _, rfl, hcore4.2.1, fun h => by simp at h, fun _ => ⟨hcore4, ?_⟩⟩
            rintro ⟨s, hv, ha, hm⟩
            have hrange := hv.gridOk.range row col hr hc
            have h1b : (b0.Blank.possible row col &&& b0.memory row col).testBit (s row col - 1)
                = true := by
              rw [Nat.testBit_and, Bool.and_eq_true]
              exact ⟨hs.sol_possible hv.gridOk ha hr hc hz, hm row col hr hc hz⟩
            have h2b : (b0.Blank.possible row col &&& b0.memory row col).testBit (num - 1)
                = true := by
              rw [Nat.testBit_and, Bool.and_eq_true]
              exact ⟨hleg, hmem⟩
            have := single_bit_unique _ _ _ (hu hun) hrange.1 hrange.2 h1 hn9 h1b h2b
            exact hnosol rfl s hv ha hm this
          · rw [if_neg hun, hnext]
            apply ih (num + 1) _ (by omega) (by omega) (by omega) hcore4
            intro s hv ha hm
            have := hlow s hv ha hm
            have := hnosol rfl s hv ha hm
            omega
      · rw [if_neg hmc, hnext]
        apply ih (num + 1) _ (by omega) (by omega) (by omega) hcore
        intro s hv ha hm
        have := hlow s hv ha hm
        have hne : s row col ≠ num := by
          intro hd
          apply hmc
          rw [hmc_eq, mask_check_ne_zero, ← hd]
          exact ⟨hs.sol_possible hv.gridOk ha hr hc hz, hm row col hr hc hz⟩
        omega

/-- `_btrack` on a board in step, called with the number of blank cells as depth and
enough fuel, returns; on success it leaves a full board in step that extends the
board, and on failure it leaves the board as it was and the board has no solution. -/
theorem btrack_spec (n : Nat) : ∀ (b : Board), b.Sync → countZeros b.matrix < n →
    ∃ res b1, Board._btrack n b b.remains = some (res, b1) ∧ b.SearchPost res b1 := by
  induction n with
  | zero => intro b _ h; omega
  | succ n ih =>
    intro b hs hcnt
    rw [Board._btrack]
    obtain ⟨f1, f2⟩ := findMin_spec b
    by_cases hf : b.findMin.1 = false
    · rw [if_pos hf]
      have hfull := f1 hf
      have h0 : countZeros b.matrix = 0 := countZeros_eq_zero _ hfull
      have hrem : b.remains = 0 := by rw [hs.remains_eq]; exact h0
      rw [if_pos hrem]
      exact ⟨true, b, rfl, rfl, fun _ => ⟨hs, h0, fun _ _ _ => rfl⟩, fun h => by simp at h⟩
    · rw [if_neg hf]
      have hft : b.findMin.1 = true := by simpa using hf
      obtain ⟨hr, hc, hz, hu⟩ := f2 hft
      dsimp only
      have hcore : b.SameCore { b with backtrack_count := inc32 b.backtrack_count } :=
        ⟨rfl, rfl, rfl, rfl⟩
      have e1 : bitFor 1 = 2 ^ (1 - 1) := by rw [bitFor_eq]
      rw [e1]
      apply btrackLoop_spec _ b hs _ _ hr hc hz _ (fun h => hu.1 h) _ 10 1 _ (le_refl 1)
        (by norm_num) (by norm_num) hcore
      · intro s hv _ _
        exact (hv.gridOk.range _ _ hr hc).1
      · intro b2 hs2 hc2 hr2
        have := ih b2 hs2 (by omega)
        rw [hr2] at this
        exact this

/-- `backtrack` on a board in step returns, with the guarantees of the search. -/
theorem backtrack_spec (b : Board) (hs : b.Sync) :
    ∃ res b1, b.backtrack = some (res, b1) ∧ b.SearchPost res b1 := by
  unfold Board.backtrack
  have hcore : b.SameCore { b with backtrack_count := 0 } := ⟨rfl, rfl, rfl, rfl⟩
  obtain ⟨res, b1, h1, h2⟩ := btrack_spec 82 { b with backtrack_count := 0 } (hcore.coreSync hs)
    (lt_of_le_of_lt (countZeros_le _) (by norm_num))
  exact ⟨res, b1, h1, h2.of_core hcore⟩


/-! ## `_solve` returns only solutions -/

/-- A full board in step holds a complete valid grid. -/
theorem Board.Sync.valid_of_full {b : Board} (hs : b.Sync) (h0 : countZeros b.matrix = 0) :
    Valid b.matrix := by
  have hfull := no_blank_of_countZeros b.matrix h0
  apply GridOk.valid
  constructor
  · intro r c hr hc
    have := hfull r c hr hc
    have := hs.val_le r c hr hc
    omega
  · intro r c1 c2 hr h1 h2 he
    exact hs.row_inj r c1 c2 hr h1 h2 (hfull r c1 hr h1) he
  · intro r1 r2 c h1 h2 hc he
    exact hs.col_inj r1 r2 c h1 h2 hc (hfull r1 c h1 hc) he
  · intro r1 c1 r2 c2 h1 hc1 h2 hc2 e1 e2 he
    exact hs.block_inj r1 c1 r2 c2 h1 hc1 h2 hc2 e1 e2 (hfull r1 c1 h1 hc1) he

/-- What `_solve` guarantees when it returns true on a board in step. -/
theorem solve_true_spec (s s1 : Sudoku) (hs : s._answer.Sync)
    (h : s._solve = some (true, s1)) :
    s1._answer.Sync ∧ countZeros s1._answer.matrix = 0 ∧
    ∀ r c, s._answer.matrix r c ≠ 0 → s1._answer.matrix r c = s._answer.matrix r c := by
  unfold Sudoku._solve at h
  cases hh : s._answer.hidden_fill with
  | none => rw [hh] at h; cases h
  | some a1 =>
    rw [hh] at h
    dsimp only at h
    obtain ⟨hs1, _, _, hext1, _⟩ := hidden_fill_spec _ _ hs hh
    by_cases hr : a1.remaining = 0
    · rw [if_pos hr] at h
      simp only [Option.some.injEq, Prod.mk.injEq, true_and] at h
      subst h
      refine ⟨hs1, ?_, hext1⟩
      rw [← hs1.remains_eq]; exact hr
    · rw [if_neg hr] at h
      cases ha : a1.advanced_fill with
      | none => rw [ha] at h; cases h
      | some a2 =>
        rw [ha] at h
        dsimp only at h
        obtain ⟨hs2, _, _, hext2⟩ := advanced_fill_sync _ _ hs1 ha
        obtain ⟨res, a3, hb, hpost⟩ := backtrack_spec a2 hs2
        rw [hb] at h
        simp only [Option.some.injEq, Prod.mk.injEq] at h
        obtain ⟨rfl, rfl⟩ := h
        obtain ⟨p1, p2, p3⟩ := hpost.2.1 rfl
        refine ⟨p1, p2, fun r c hne => ?_⟩
        have e1 := hext1 r c hne
        have e2 := hext2 r c (by rw [e1]; exact hne)
        rw [← e1, ← e2]
        exact p3 r c (by rw [e2, e1]; exact hne)

/-- C2: for every 9x9 input of values 0..9 with no repeated nonzero digit in any row,
column or block, if `Sudoku::_solve` returns true on the loaded input then the answer
board has no blank cell, every row, column and 3x3 block of it contains each digit 1..9
exactly once, and every nonzero cell of the input keeps its value. -/
theorem solve_sound (g : Nat → Nat → Nat) (hg : DupFree g)
    (h : (Sudoku.ofGrid g).map (fun x => x.1) = some true) :
    ∃ s, Sudoku.ofGrid g = some (true, s) ∧
      (∀ p ∈ cells, s._answer.matrix p.1 p.2 ≠ 0) ∧ Valid s._answer.matrix ∧
      Agrees g s._answer.matrix := by
  cases ho : Sudoku.ofGrid g with
  | none => rw [ho] at h; cases h
  | some x =>
    obtain ⟨res, s⟩ := x
    rw [ho] at h
    simp only [Option.map_some', Option.some.injEq] at h
    subst h
    refine ⟨s, rfl, ?_⟩
    obtain ⟨hs, hm, _, _⟩ := load_spec g hg.inputOk
    unfold Sudoku.ofGrid at ho
    dsimp only at ho
    obtain ⟨a1, a2, a3⟩ := solve_true_spec _ s hs ho
    refine ⟨fun p hp => ?_, a1.valid_of_full a2, ?_⟩
    · rw [mem_cells] at hp
      exact no_blank_of_countZeros _ a2 p.1 p.2 hp.1 hp.2
    · apply agrees_of
      intro r c hr hc hne
      have e := hm r c hr hc
      have := a3 r c (by rw [e]; exact hne)
      rw [this, e]

theorem samplePuzzle_dupFree : DupFree samplePuzzle := by decide

set_option maxRecDepth 1000000 in
theorem samplePuzzle_solved :
    (Sudoku.ofGrid samplePuzzle).map (fun x => x.1) = some true := by
  decide!

theorem solve_sound_witness :
    DupFree samplePuzzle ∧ (Sudoku.ofGrid samplePuzzle).map (fun x => x.1) = some true ∧
    ∃ s, Sudoku.ofGrid samplePuzzle = some (true, s) ∧
      (∀ p ∈ cells, s._answer.matrix p.1 p.2 ≠ 0) ∧ Valid s._answer.matrix ∧
      Agrees samplePuzzle s._answer.matrix :=
  ⟨samplePuzzle_dupFree, samplePuzzle_solved,
    solve_sound samplePuzzle samplePuzzle_dupFree samplePuzzle_solved⟩



/-! ## The scanning loops of `candidate_check` -/

/-- The accumulators of a scanning loop over a list of cells: the union of the memory of
the blank cells on the target line, the union for the blank cells off the line, and the
number of the latter. -/
theorem scan_fold {α : Type} (l : List α) (tgt filled : α → Prop) [DecidablePred tgt]
    [DecidablePred filled] (mem : α → Nat) (s : Nat × Nat × Nat) (k : Nat) :
    let t := l.foldl (fun (s : Nat × Nat × Nat) (x : α) =>
      if tgt x then (if filled x then s else (s.1 ||| mem x, s.2.1, s.2.2))
      else (if filled x then s else (s.1, s.2.1 ||| mem x, s.2.2 + 1))) s
    (t.1.testBit k = true ↔
      (s.1.testBit k = true ∨ ∃ x ∈ l, tgt x ∧ ¬ filled x ∧ (mem x).testBit k = true)) ∧
    (t.2.1.testBit k = true ↔
      (s.2.1.testBit k = true ∨ ∃ x ∈ l, ¬ tgt x ∧ ¬ filled x ∧ (mem x).testBit k = true)) ∧
    t.2.2 = s.2.2 + (l.filter (fun x => decide (¬ tgt x ∧ ¬ filled x))).length := by
  induction l generalizing s with
  | nil => simp
  | cons y ys ih =>
    simp only [List.foldl_cons]
    by_cases ht : tgt y <;> by_cases hf : filled y
    · simp only [ht, hf, if_true]
      obtain ⟨i1, i2, i3⟩ := ih s
      refine ⟨?_, ?_, ?_⟩
      · rw [i1]; simp [ht, hf]
      · rw [i2]; simp [ht, hf]
      · rw [i3]; simp [List.filter_cons, ht, hf]
    · simp only [ht, hf, if_true, if_false]
      obtain ⟨i1, i2, i3⟩ := ih (s.1 ||| mem y, s.2.1, s.2.2)
      refine ⟨?_, ?_, ?_⟩
      · rw [i1]; simp [ht, hf, or_assoc]
      · rw [i2]; simp [ht, hf]
      · rw [i3]; simp [List.filter_cons, ht, hf]
    · simp only [ht, hf, if_true, if_false]
      obtain ⟨i1, i2, i3⟩ := ih s
      refine ⟨?_, ?_, ?_⟩
      · rw [i1]; simp [ht, hf]
      · rw [i2]; simp [ht, hf]
      · rw [i3]; simp [List.filter_cons, ht, hf]
    · simp only [ht, hf, if_false]
      obtain ⟨i1, i2, i3⟩ := ih (s.1, s.2.1 ||| mem y, s.2.2 + 1)
      refine ⟨?_, ?_, ?_⟩
      · rw [i1]; simp [ht, hf]
      · rw [i2]; simp [ht, hf, or_assoc]
      · rw [i3]; simp [List.filter_cons, ht, hf]; omega

/-- The cells of the house of `(i, j)`, row by row. -/
theorem scanRows_eq (b : Board) (i j : Nat) :
    b.scanRows i j =
      ((List.range' (i / 3 * 3) 3).flatMap
        (fun r => (List.range' (j / 3 * 3) 3).map (fun c => (r, c)))).foldl
        (fun (s : Nat × Nat × Nat) (p : Nat × Nat) =>
          if p.1 = i then (if b.matrix p.1 p.2 ≠ 0 then s
            else (s.1 ||| b.memory p.1 p.2, s.2.1, s.2.2))
          else (if b.matrix p.1 p.2 ≠ 0 then s
            else (s.1, s.2.1 ||| b.memory p.1 p.2, s.2.2 + 1))) (0, 0, 0) := by
  unfold Board.scanRows
  dsimp only
  rw [← foldl_square (fun (s : Nat × Nat × Nat) (row col : Nat) =>
    if row = i then (if b.matrix row col ≠ 0 then s
      else (s.1 ||| b.memory row col, s.2.1, s.2.2))
    else (if b.matrix row col ≠ 0 then s
      else (s.1, s.2.1 ||| b.memory row col, s.2.2 + 1)))]
  congr 1
  funext s row
  by_cases h : row = i
  · simp only [h, if_true]
  · simp only [h, if_false]

/-- The cells of the house of `(i, j)`, column by column, as pairs `(col, row)`. -/
theorem scanCols_eq (b : Board) (i j : Nat) :
    b.scanCols i j =
      ((List.range' (j / 3 * 3) 3).flatMap
        (fun c => (List.range' (i / 3 * 3) 3).map (fun r => (c, r)))).foldl
        (fun (s : Nat × Nat × Nat) (p : Nat × Nat) =>
          if p.1 = j then (if b.matrix p.2 p.1 ≠ 0 then s
            else (s.1 ||| b.memory p.2 p.1, s.2.1, s.2.2))
          else (if b.matrix p.2 p.1 ≠ 0 then s
            else (s.1, s.2.1 ||| b.memory p.2 p.1, s.2.2 + 1))) (0, 0, 0) := by
  unfold Board.scanCols
  dsimp only
  rw [← foldl_square (fun (s : Nat × Nat × Nat) (col row : Nat) =>
    if col = j then (if b.matrix row col ≠ 0 then s
      else (s.1 ||| b.memory row col, s.2.1, s.2.2))
    else (if b.matrix row col ≠ 0 then s
      else (s.1, s.2.1 ||| b.memory row col, s.2.2 + 1)))]
  congr 1
  funext s col
  by_cases h : col = j
  · simp only [h, if_true]
  · simp only [h, if_false]


/-! ## Narrowing steps that keep the digits of a solution -/

theorem memHas_andMem {s : Board} {S : Nat → Nat → Nat} (hm : s.MemHas S) (r c x : Nat)
    (hx : r < 9 → c < 9 → s.matrix r c = 0 → x.testBit (S r c - 1) = true) :
    (s.andMem r c x).MemHas S := by
  intro r2 c2 hr2 hc2 hz
  have hz2 : s.matrix r2 c2 = 0 := hz
  simp only [Board.andMem, upd2_apply]
  split_ifs with h
  · obtain ⟨h1, h2⟩ := h
    subst h1; subst h2
    rw [Nat.testBit_and, hm _ _ hr2 hc2 hz2, hx hr2 hc2 hz2]
    rfl
  · exact hm r2 c2 hr2 hc2 hz2

/-- A clearing loop keeps the digits of the grid `S` in memory when the cleared bits are
not digits of `S` at the cells it touches. -/
theorem memHas_clear {α : Type} (l : List α) (S : Nat → Nat → Nat) (b : Board)
    (skip : Board → α → Prop) [∀ s a, Decidable (skip s a)] (row col : α → Nat) (x : Nat)
    (hm : b.MemHas S)
    (hx : ∀ s a, a ∈ l → s.matrix = b.matrix → ¬ skip s a → row a < 9 → col a < 9 →
      b.matrix (row a) (col a) = 0 → x.testBit (S (row a) (col a) - 1) = true) :
    (l.foldl (fun (s : Board) (a : α) => if skip s a then s else s.andMem (row a) (col a) x)
      b).MemHas S := by
  have h := foldl_inv (fun (s : Board) => s.matrix = b.matrix ∧ s.MemHas S)
    (fun (s : Board) (a : α) => if skip s a then s else s.andMem (row a) (col a) x) l b
    ⟨rfl, hm⟩ ?_
  · exact h.2
  · intro s a ha ih
    dsimp only
    by_cases hsk : skip s a
    · rw [if_pos hsk]; exact ih
    · rw [if_neg hsk]
      refine ⟨ih.1, memHas_andMem ih.2 _ _ _ ?_⟩
      intro hr hc hz
      rw [ih.1] at hz
      exact hx s a ha ih.1 hsk hr hc hz

theorem two_bits (v a b c : Nat) (hv : bitCount v = 2) (ha : a < 9) (hb : b < 9) (hc : c < 9)
    (hab : a ≠ b) (h1 : v.testBit a = true) (h2 : v.testBit b = true)
    (h3 : v.testBit c = true) : c = a ∨ c = b := by
  by_contra hcon
  simp only [not_or] at hcon
  rw [bitCount_eq_card] at hv
  have hsub : ({a, b, c} : Finset Nat) ⊆ (Finset.range 9).filter (fun k => v.testBit k = true) := by
    intro t ht
    simp only [Finset.mem_insert, Finset.mem_singleton] at ht
    simp only [Finset.mem_filter, Finset.mem_range]
    rcases ht with rfl | rfl | rfl
    · exact ⟨ha, h1⟩
    · exact ⟨hb, h2⟩
    · exact ⟨hc, h3⟩
  have hcard : ({a, b, c} : Finset Nat).card = 3 := by
    rw [Finset.card_insert_of_not_mem, Finset.card_insert_of_not_mem, Finset.card_singleton]
    · simp only [Finset.mem_singleton]; exact fun h => hcon.2 h.symm
    · simp only [Finset.mem_insert, Finset.mem_singleton, not_or]
      exact ⟨hab, fun h => hcon.1 h.symm⟩
  have := Finset.card_le_card hsub
  omega

/-- A naked subset: when the cells of `L`, all in the house of `(i, j)` and other than
`(i, j)`, hold their digits of the grid `S` inside the mask `x` and `x` has as many bits
as `L` has cells, the digit of `S` at `(i, j)` is not in `x`. -/
theorem naked_subset {S : Nat → Nat → Nat} (hS : GridOk S) (i j : Nat) (hi : i < 9) (hj : j < 9)
    (L : List (Nat × Nat)) (hnd : L.Nodup)
    (hin : ∀ p ∈ L, p.1 < 9 ∧ p.2 < 9 ∧ p.1 / 3 = i / 3 ∧ p.2 / 3 = j / 3 ∧ p ≠ (i, j))
    (x : Nat) (hx : ∀ p ∈ L, x.testBit (S p.1 p.2 - 1) = true)
    (hcard : L.length = bitCount x) : x.testBit (S i j - 1) = false := by
  by_contra hcon
  rw [Bool.not_eq_false] at hcon
  have hinj : Set.InjOn (fun (p : Nat × Nat) => S p.1 p.2 - 1) (L.toFinset : Set (Nat × Nat)) := by
    intro p hp q hq hpq
    simp only [Finset.mem_coe, List.mem_toFinset] at hp hq
    obtain ⟨p1, p2, p3, p4, _⟩ := hin p hp
    obtain ⟨q1, q2, q3, q4, _⟩ := hin q hq
    have r1 := hS.range p.1 p.2 p1 p2
    have r2 := hS.range q.1 q.2 q1 q2
    have e : S p.1 p.2 = S q.1 q.2 := by
      have : S p.1 p.2 - 1 = S q.1 q.2 - 1 := hpq
      omega
    obtain ⟨e1, e2⟩ := hS.block_inj p.1 p.2 q.1 q.2 p1 p2 q1 q2 (by omega) (by omega) e
    exact Prod.ext e1 e2
  have hsub : L.toFinset.image (fun (p : Nat × Nat) => S p.1 p.2 - 1) ⊆
      (Finset.range 9).filter (fun k => x.testBit k = true) := by
    intro t ht
    simp only [Finset.mem_image, List.mem_toFinset] at ht
    obtain ⟨p, hp, rfl⟩ := ht
    obtain ⟨p1, p2, _⟩ := hin p hp
    have r1 := hS.range p.1 p.2 p1 p2
    simp only [Finset.mem_filter, Finset.mem_range]
    exact ⟨by omega, hx p hp⟩
  have hc1 : (L.toFinset.image (fun (p : Nat × Nat) => S p.1 p.2 - 1)).card = L.length := by
    rw [Finset.card_image_of_injOn hinj, List.toFinset_card_of_nodup hnd]
  have heq := Finset.eq_of_subset_of_card_le hsub (by rw [hc1, hcard, bitCount_eq_card])
  have r0 := hS.range i j hi hj
  have hmem : S i j - 1 ∈ (Finset.range 9).filter (fun k => x.testBit k = true) := by
    simp only [Finset.mem_filter, Finset.mem_range]
    exact ⟨by omega, hcon⟩
  rw [← heq] at hmem
  simp only [Finset.mem_image, List.mem_toFinset] at hmem
  obtain ⟨p, hp, hpe⟩ := hmem
  obtain ⟨p1, p2, p3, p4, p5⟩ := hin p hp
  have r1 := hS.range p.1 p.2 p1 p2
  obtain ⟨e1, e2⟩ := hS.block_inj p.1 p.2 i j p1 p2 hi hj p3 p4 (by omega)
  exact p5 (Prod.ext e1 e2)

theorem square_nodup (a b : Nat) :
    ((List.range' a 3).flatMap (fun i => (List.range' b 3).map (fun j => (i, j)))).Nodup := by
  have e : ∀ n, List.range' n 3 = [n, n + 1, n + 2] := fun n => rfl
  rw [e a, e b]
  simp [List.flatMap]


/-! ## Locked candidates -/

theorem scanRows_spec (b : Board) (i j k : Nat) :
    ((b.scanRows i j).1.testBit k = true ↔
      ∃ p ∈ (List.range' (i / 3 * 3) 3).flatMap
          (fun r => (List.range' (j / 3 * 3) 3).map (fun c => (r, c))),
        p.1 = i ∧ ¬ b.matrix p.1 p.2 ≠ 0 ∧ (b.memory p.1 p.2).testBit k = true) ∧
    ((b.scanRows i j).2.1.testBit k = true ↔
      ∃ p ∈ (List.range' (i / 3 * 3) 3).flatMap
          (fun r => (List.range' (j / 3 * 3) 3).map (fun c => (r, c))),
        ¬ p.1 = i ∧ ¬ b.matrix p.1 p.2 ≠ 0 ∧ (b.memory p.1 p.2).testBit k = true) ∧
    (b.scanRows i j).2.2 =
      (((List.range' (i / 3 * 3) 3).flatMap
          (fun r => (List.range' (j / 3 * 3) 3).map (fun c => (r, c)))).filter
        (fun p => decide (¬ p.1 = i ∧ ¬ b.matrix p.1 p.2 ≠ 0))).length := by
  rw [scanRows_eq]
  have h := scan_fold ((List.range' (i / 3 * 3) 3).flatMap
      (fun r => (List.range' (j / 3 * 3) 3).map (fun c => (r, c))))
    (fun (p : Nat × Nat) => p.1 = i) (fun (p : Nat × Nat) => b.matrix p.1 p.2 ≠ 0)
    (fun (p : Nat × Nat) => b.memory p.1 p.2) (0, 0, 0) k
  dsimp only at h
  simp only [Nat.zero_testBit, Bool.false_eq_true, false_or, Nat.zero_add] at h
  exact h

theorem scanCols_spec (b : Board) (i j k : Nat) :
    ((b.scanCols i j).1.testBit k = true ↔
      ∃ p ∈ (List.range' (j / 3 * 3) 3).flatMap
          (fun c => (List.range' (i / 3 * 3) 3).map (fun r => (c, r))),
        p.1 = j ∧ ¬ b.matrix p.2 p.1 ≠ 0 ∧ (b.memory p.2 p.1).testBit k = true) ∧
    ((b.scanCols i j).2.1.testBit k = true ↔
      ∃ p ∈ (List.range' (j / 3 * 3) 3).flatMap
          (fun c => (List.range' (i / 3 * 3) 3).map (fun r => (c, r))),
        ¬ p.1 = j ∧ ¬ b.matrix p.2 p.1 ≠ 0 ∧ (b.memory p.2 p.1).testBit k = true) ∧
    (b.scanCols i j).2.2 =
      (((List.range' (j / 3 * 3) 3).flatMap
          (fun c => (List.range' (i / 3 * 3) 3).map (fun r => (c, r)))).filter
        (fun p => decide (¬ p.1 = j ∧ ¬ b.matrix p.2 p.1 ≠ 0))).length := by
  rw [scanCols_eq]
  have h := scan_fold ((List.range' (j / 3 * 3) 3).flatMap
      (fun c => (List.range' (i / 3 * 3) 3).map (fun r => (c, r))))
    (fun (p : Nat × Nat) => p.1 = j) (fun (p : Nat × Nat) => b.matrix p.2 p.1 ≠ 0)
    (fun (p : Nat × Nat) => b.memory p.2 p.1) (0, 0, 0) k
  dsimp only at h
  simp only [Nat.zero_testBit, Bool.false_eq_true, false_or, Nat.zero_add] at h
  exact h

/-- Naked subset in the rows of the house: when the blank cells of the house outside row
`i` are as many as their candidates, none of these candidates is the digit at `(i, j)`. -/
theorem scanRows_locked {b : Board} {S : Nat → Nat → Nat} (hk : b.Keeps S) (hv : Valid S)
    {i j : Nat} (hi : i < 9) (hj : j < 9)
    (hc : (b.scanRows i j).2.2 = bitCount (b.scanRows i j).2.1) :
    (b.scanRows i j).2.1.testBit (S i j - 1) = false := by
  have hin : ∀ p ∈ ((List.range' (i / 3 * 3) 3).flatMap
      (fun r => (List.range' (j / 3 * 3) 3).map (fun c => (r, c)))).filter
        (fun p => decide (¬ p.1 = i ∧ ¬ b.matrix p.1 p.2 ≠ 0)),
      (p.1 < 9 ∧ p.2 < 9 ∧ p.1 / 3 = i / 3 ∧ p.2 / 3 = j / 3 ∧ p ≠ (i, j)) ∧
        b.matrix p.1 p.2 = 0 ∧ p ∈ (List.range' (i / 3 * 3) 3).flatMap
      (fun r => (List.range' (j / 3 * 3) 3).map (fun c => (r, c))) ∧ ¬ p.1 = i := by
    intro p hp
    rw [List.mem_filter, mem_square, decide_eq_true_eq] at hp
    obtain ⟨⟨h1, h2⟩, h3, h4⟩ := hp
    refine ⟨⟨by omega, by omega, by omega, by omega, ?_⟩, not_not.1 h4, ?_, h3⟩
    · intro e; rw [e] at h3; exact h3 rfl
    · rw [mem_square]; exact ⟨h1, h2⟩
  apply naked_subset hv.gridOk i j hi hj _ ((square_nodup _ _).filter _)
    (fun p hp => (hin p hp).1)
  · intro p hp
    obtain ⟨⟨p1, p2, _⟩, hz, hsq, hne⟩ := hin p hp
    rw [(scanRows_spec b i j _).2.1]
    exact ⟨p, hsq, hne, not_not.2 hz, hk.memHas p.1 p.2 p1 p2 hz⟩
  · rw [← hc]; exact ((scanRows_spec b i j 0).2.2).symm

/-- Naked subset in the columns of the house. -/
theorem scanCols_locked {b : Board} {S : Nat → Nat → Nat} (hk : b.Keeps S) (hv : Valid S)
    {i j : Nat} (hi : i < 9) (hj : j < 9)
    (hc : (b.scanCols i j).2.2 = bitCount (b.scanCols i j).2.1) :
    (b.scanCols i j).2.1.testBit (S i j - 1) = false := by
  have hin : ∀ p ∈ ((List.range' (j / 3 * 3) 3).flatMap
      (fun c => (List.range' (i / 3 * 3) 3).map (fun r => (c, r)))).filter
        (fun p => decide (¬ p.1 = j ∧ ¬ b.matrix p.2 p.1 ≠ 0)),
      (p.2 < 9 ∧ p.1 < 9 ∧ p.2 / 3 = i / 3 ∧ p.1 / 3 = j / 3 ∧ p.swap ≠ (i, j)) ∧
        b.matrix p.2 p.1 = 0 ∧ p ∈ (List.range' (j / 3 * 3) 3).flatMap
      (fun c => (List.range' (i / 3 * 3) 3).map (fun r => (c, r))) ∧ ¬ p.1 = j := by
    intro p hp
    rw [List.mem_filter, mem_square, decide_eq_true_eq] at hp
    obtain ⟨⟨h1, h2⟩, h3, h4⟩ := hp
    refine ⟨⟨by omega, by omega, by omega, by omega, ?_⟩, not_not.1 h4, ?_, h3⟩
    · intro e
      have e2 : p.1 = j := congrArg Prod.snd e
      exact h3 e2
    · rw [mem_square]; exact ⟨h1, h2⟩
  apply naked_subset hv.gridOk i j hi hj
    ((((List.range' (j / 3 * 3) 3).flatMap
      (fun c => (List.range' (i / 3 * 3) 3).map (fun r => (c, r)))).filter
        (fun p => decide (¬ p.1 = j ∧ ¬ b.matrix p.2 p.1 ≠ 0))).map Prod.swap)
    (((square_nodup _ _).filter _).map Prod.swap_injective)
  · intro q hq
    rw [List.mem_map] at hq
    obtain ⟨p, hp, rfl⟩ := hq
    exact (hin p hp).1
  · intro q hq
    rw [List.mem_map] at hq
    obtain ⟨p, hp, rfl⟩ := hq
    obtain ⟨⟨p1, p2, _⟩, hz, hsq, hne⟩ := hin p hp
    rw [(scanCols_spec b i j _).2.1]
    exact ⟨p, hsq, hne, not_not.2 hz, hk.memHas p.2 p.1 p1 p2 hz⟩
  · rw [List.length_map, ← hc]; exact ((scanCols_spec b i j 0).2.2).symm



/-- Pointing along the row: a candidate that the blank cells of the house hold only in
row `i` is not the digit of a cell of row `i` outside the house. -/
theorem pointing_row {b : Board} {S : Nat → Nat → Nat} (hk : b.Keeps S) (hv : Valid S)
    {i j : Nat} (hi : i < 9) (hj : j < 9) {col : Nat} (hcol : col < 9)
    (hout : ¬ (j / 3 * 3 ≤ col ∧ col < j / 3 * 3 + 3)) :
    ((b.scanRows i j).1 &&& bnot (b.scanRows i j).2.1).testBit (S i col - 1) = false := by
  by_contra hcon
  rw [Bool.not_eq_false, Nat.testBit_and, Bool.and_eq_true] at hcon
  obtain ⟨h1, h2⟩ := hcon
  have hg := hv.gridOk
  have r0 := hg.range i col hi hcol
  rw [testBit_bnot _ _ (by omega)] at h2
  simp only [Bool.not_eq_true', ← Bool.not_eq_true] at h2
  rw [(scanRows_spec b i j _).1] at h1
  rw [(scanRows_spec b i j _).2.1] at h2
  obtain ⟨p, hp, hp1, hpz, hpm⟩ := h1
  rw [mem_square] at hp
  have hpz0 : b.matrix p.1 p.2 = 0 := not_not.1 hpz
  have hposs := hk.memSub p.1 p.2 (by omega) (by omega) hpz0 _ hpm
  obtain ⟨r2, c2, hr2, hc2, hb1, hb2, hS2⟩ := hv.block_surj hi hj r0.1 r0.2
  by_cases hz2 : b.matrix r2 c2 = 0
  · by_cases hri : r2 = i
    · subst hri
      have := hg.row_inj r2 c2 col hr2 hc2 hcol hS2
      omega
    · apply h2
      refine ⟨(r2, c2), ?_, hri, not_not.2 hz2, ?_⟩
      · rw [mem_square]; dsimp only; omega
      · have := hk.memHas r2 c2 hr2 hc2 hz2
        rw [hS2] at this
        exact this
  · have e := hk.agrees.at hr2 hc2 hz2
    simp only [BlankList.possible, Nat.testBit_and, Bool.and_eq_true] at hposs
    have hb := (hk.sync.blocks_bit (p.1 / 3) (p.2 / 3) (S i col) (by omega) (by omega)
      r0.1 r0.2).1 hposs.2 r2 c2 hr2 hc2 (by omega) (by omega)
    exact hb (e.trans hS2)

/-- Pointing along the column. -/
theorem pointing_col {b : Board} {S : Nat → Nat → Nat} (hk : b.Keeps S) (hv : Valid S)
    {i j : Nat} (hi : i < 9) (hj : j < 9) {row : Nat} (hrow : row < 9)
    (hout : ¬ (i / 3 * 3 ≤ row ∧ row < i / 3 * 3 + 3)) :
    ((b.scanCols i j).1 &&& bnot (b.scanCols i j).2.1).testBit (S row j - 1) = false := by
  by_contra hcon
  rw [Bool.not_eq_false, Nat.testBit_and, Bool.and_eq_true] at hcon
  obtain ⟨h1, h2⟩ := hcon
  have hg := hv.gridOk
  have r0 := hg.range row j hrow hj
  rw [testBit_bnot _ _ (by omega)] at h2
  simp only [Bool.not_eq_true', ← Bool.not_eq_true] at h2
  rw [(scanCols_spec b i j _).1] at h1
  rw [(scanCols_spec b i j _).2.1] at h2
  obtain ⟨p, hp, hp1, hpz, hpm⟩ := h1
  rw [mem_square] at hp
  have hpz0 : b.matrix p.2 p.1 = 0 := not_not.1 hpz
  have hposs := hk.memSub p.2 p.1 (by omega) (by omega) hpz0 _ hpm
  obtain ⟨r2, c2, hr2, hc2, hb1, hb2, hS2⟩ := hv.block_surj hi hj r0.1 r0.2
  by_cases hz2 : b.matrix r2 c2 = 0
  · by_cases hcj : c2 = j
    · subst hcj
      have := hg.col_inj r2 row c2 hr2 hrow hc2 hS2
      omega
    · apply h2
      refine ⟨(c2, r2), ?_, hcj, not_not.2 hz2, ?_⟩
      · rw [mem_square]; dsimp only; omega
      · have := hk.memHas r2 c2 hr2 hc2 hz2
        rw [hS2] at this
        exact this
  · have e := hk.agrees.at hr2 hc2 hz2
    simp only [BlankList.possible, Nat.testBit_and, Bool.and_eq_true] at hposs
    have hb := (hk.sync.blocks_bit (p.2 / 3) (p.1 / 3) (S row j) (by omega) (by omega)
      r0.1 r0.2).1 hposs.2 r2 c2 hr2 hc2 (by omega) (by omega)
    exact hb (e.trans hS2)

/-- Claiming along the row: a candidate that the blank cells of row `i` hold only inside
the house is not the digit of a cell of the house outside row `i`. -/
theorem claiming_row {b : Board} {S : Nat → Nat → Nat} (hk : b.Keeps S) (hv : Valid S)
    (b4 : Board) (hmat : b4.matrix = b.matrix) (hm4 : b4.MemHas S)
    {i j : Nat} (hi : i < 9) (hj : j < 9) {r c : Nat} (hr : r < 9) (hc : c < 9)
    (hblk : r / 3 = i / 3 ∧ c / 3 = j / 3) (hri : r ≠ i) :
    (b4.claimRow i j (b.scanRows i j).1).testBit (S r c - 1) = false := by
  by_contra hcon
  rw [Bool.not_eq_false] at hcon
  have hg := hv.gridOk
  have r0 := hg.range r c hr hc
  unfold Board.claimRow at hcon
  dsimp only at hcon
  rw [foldl_andnot_testBit (List.range 9)
    (fun col => b4.matrix i col ≠ 0 ∨ (j / 3 * 3 ≤ col ∧ col < j / 3 * 3 + 3))
    (fun col => b4.memory i col) _ _ (by omega)] at hcon
  obtain ⟨h1, h2⟩ := hcon
  rw [(scanRows_spec b i j _).1] at h1
  obtain ⟨p, hp, hp1, hpz, hpm⟩ := h1
  rw [mem_square] at hp
  have hpz0 : b.matrix p.1 p.2 = 0 := not_not.1 hpz
  have hposs := hk.memSub p.1 p.2 (by omega) (by omega) hpz0 _ hpm
  obtain ⟨c2, hc2, hS2⟩ := hv.row_surj hi r0.1 r0.2
  by_cases hz2 : b.matrix i c2 = 0
  · by_cases hin : j / 3 * 3 ≤ c2 ∧ c2 < j / 3 * 3 + 3
    · have := hg.block_inj i c2 r c hi hc2 hr hc (by omega) (by omega) hS2
      exact hri this.1.symm
    · have hf := h2 c2 (List.mem_range.2 hc2) (by
        rw [hmat]
        simp only [not_or]
        exact ⟨not_not.2 hz2, hin⟩)
      have := hm4 i c2 hi hc2 (by rw [hmat]; exact hz2)
      rw [hS2] at this
      rw [this] at hf
      exact Bool.noConfusion hf
  · have e := hk.agrees.at hi hc2 hz2
    simp only [BlankList.possible, Nat.testBit_and, Bool.and_eq_true] at hposs
    have hb := (hk.sync.rows_bit p.1 (S r c) (by omega) r0.1 r0.2).1 hposs.1.1 c2 hc2
    rw [hp1] at hb
    exact hb (e.trans hS2)

/-- Claiming along the column. -/
theorem claiming_col {b : Board} {S : Nat → Nat → Nat} (hk : b.Keeps S) (hv : Valid S)
    (b5 : Board) (hmat : b5.matrix = b.matrix) (hm5 : b5.MemHas S)
    {i j : Nat} (hi : i < 9) (hj : j < 9) {r c : Nat} (hr : r < 9) (hc : c < 9)
    (hblk : r / 3 = i / 3 ∧ c / 3 = j / 3) (hcj : c ≠ j) :
    (b5.claimCol i j (b.scanCols i j).1).testBit (S r c - 1) = false := by
  by_contra hcon
  rw [Bool.not_eq_false] at hcon
  have hg := hv.gridOk
  have r0 := hg.range r c hr hc
  unfold Board.claimCol at hcon
  dsimp only at hcon
  rw [foldl_andnot_testBit (List.range 9)
    (fun row => b5.matrix row j ≠ 0 ∨ (i / 3 * 3 ≤ row ∧ row < i / 3 * 3 + 3))
    (fun row => b5.memory row j) _ _ (by omega)] at hcon
  obtain ⟨h1, h2⟩ := hcon
  rw [(scanCols_spec b i j _).1] at h1
  obtain ⟨p, hp, hp1, hpz, hpm⟩ := h1
  rw [mem_square] at hp
  have hpz0 : b.matrix p.2 p.1 = 0 := not_not.1 hpz
  have hposs := hk.memSub p.2 p.1 (by omega) (by omega) hpz0 _ hpm
  obtain ⟨r2, hr2, hS2⟩ := hv.col_surj hj r0.1 r0.2
  by_cases hz2 : b.matrix r2 j = 0
  · by_cases hin : i / 3 * 3 ≤ r2 ∧ r2 < i / 3 * 3 + 3
    · have := hg.block_inj r2 j r c hr2 hj hr hc (by omega) (by omega) hS2
      exact hcj this.2.symm
    · have hf := h2 r2 (List.mem_range.2 hr2) (by
        rw [hmat]
        simp only [not_or]
        exact ⟨not_not.2 hz2, hin⟩)
      have := hm5 r2 j hr2 hj (by rw [hmat]; exact hz2)
      rw [hS2] at this
      rw [this] at hf
      exact Bool.noConfusion hf
  · have e := hk.agrees.at hr2 hj hz2
    simp only [BlankList.possible, Nat.testBit_and, Bool.and_eq_true] at hposs
    have hb := (hk.sync.cols_bit p.1 (S r c) (by omega) r0.1 r0.2).1 hposs.1.2 r2 hr2
    rw [hp1] at hb
    exact hb (e.trans hS2)


/-! ## `candidate_check` keeps every solution -/

theorem Board.Keeps.narrow {b b2 : Board} {S : Nat → Nat → Nat} (hk : b.Keeps S)
    (hn : b.Narrows b2) (hm : b2.MemHas S) : b2.Keeps S :=
  ⟨hn.sync hk.sync, hn.memSub hk.memSub, by rw [hn.1]; exact hk.agrees, hm⟩

theorem testBit_bnot_true {S : Nat → Nat → Nat} (hg : GridOk S) (x r c : Nat) (hr : r < 9)
    (hc : c < 9) (h : x.testBit (S r c - 1) = false) : (bnot x).testBit (S r c - 1) = true := by
  have r0 := hg.range r c hr hc
  rw [testBit_bnot _ _ (by omega), h]
  rfl

theorem memHas_clearRowOut {b : Board} {S : Nat → Nat → Nat} (hg : GridOk S) (hm : b.MemHas S)
    (i j x : Nat)
    (hx : ∀ col, col < 9 → ¬ (j / 3 * 3 ≤ col ∧ col < j / 3 * 3 + 3) →
      x.testBit (S i col - 1) = false) : (b.clearRowOut i j x).MemHas S := by
  unfold Board.clearRowOut
  dsimp only
  apply memHas_clear (List.range 9) S b
    (fun s col => s.matrix i col ≠ 0 ∨ (j / 3 * 3 ≤ col ∧ col < j / 3 * 3 + 3))
    (fun _ => i) (fun col => col) (bnot x) hm
  intro s a _ _ hsk hr hc _
  simp only [not_or] at hsk
  exact testBit_bnot_true hg x i a hr hc (hx a hc hsk.2)

theorem memHas_clearColOut {b : Board} {S : Nat → Nat → Nat} (hg : GridOk S) (hm : b.MemHas S)
    (i j x : Nat)
    (hx : ∀ row, row < 9 → ¬ (i / 3 * 3 ≤ row ∧ row < i / 3 * 3 + 3) →
      x.testBit (S row j - 1) = false) : (b.clearColOut i j x).MemHas S := by
  unfold Board.clearColOut
  dsimp only
  apply memHas_clear (List.range 9) S b
    (fun s row => s.matrix row j ≠ 0 ∨ (i / 3 * 3 ≤ row ∧ row < i / 3 * 3 + 3))
    (fun row => row) (fun _ => j) (bnot x) hm
  intro s a _ _ hsk hr hc _
  simp only [not_or] at hsk
  exact testBit_bnot_true hg x a j hr hc (hx a hr hsk.2)

theorem memHas_clearHouseRows {b : Board} {S : Nat → Nat → Nat} (hg : GridOk S)
    (hm : b.MemHas S) (i j x : Nat)
    (hx : ∀ r c, r < 9 → c < 9 → r / 3 = i / 3 ∧ c / 3 = j / 3 → r ≠ i →
      x.testBit (S r c - 1) = false) : (b.clearHouseRows i j x).MemHas S := by
  unfold Board.clearHouseRows
  dsimp only
  rw [foldl_square (fun (s : Board) r c =>
    if r = i ∨ s.matrix r c ≠ 0 then s else s.andMem r c (bnot x))]
  apply memHas_clear _ S b
    (fun (s : Board) (p : Nat × Nat) => p.1 = i ∨ s.matrix p.1 p.2 ≠ 0)
    (fun p => p.1) (fun p => p.2) (bnot x) hm
  intro s a ha _ hsk hr hc _
  simp only [not_or] at hsk
  rw [mem_square] at ha
  exact testBit_bnot_true hg x a.1 a.2 hr hc (hx a.1 a.2 hr hc (by omega) hsk.1)

theorem memHas_clearHouseCols {b : Board} {S : Nat → Nat → Nat} (hg : GridOk S)
    (hm : b.MemHas S) (i j x : Nat)
    (hx : ∀ r c, r < 9 → c < 9 → r / 3 = i / 3 ∧ c / 3 = j / 3 → c ≠ j →
      x.testBit (S r c - 1) = false) : (b.clearHouseCols i j x).MemHas S := by
  unfold Board.clearHouseCols
  dsimp only
  rw [foldl_square (fun (s : Board) r c =>
    if c = j ∨ s.matrix r c ≠ 0 then s else s.andMem r c (bnot x))]
  apply memHas_clear _ S b
    (fun (s : Board) (p : Nat × Nat) => p.2 = j ∨ s.matrix p.1 p.2 ≠ 0)
    (fun p => p.1) (fun p => p.2) (bnot x) hm
  intro s a ha _ hsk hr hc _
  simp only [not_or] at hsk
  rw [mem_square] at ha
  exact testBit_bnot_true hg x a.1 a.2 hr hc (hx a.1 a.2 hr hc (by omega) hsk.1)

theorem Board.Keeps.ite {b b2 : Board} {S : Nat → Nat → Nat} (hk : b.Keeps S)
    (p : Prop) [Decidable p] (hn : b.Narrows b2) (hm : p → b2.MemHas S) :
    (if p then b2 else b).Keeps S := by
  by_cases h : p
  · rw [if_pos h]; exact hk.narrow hn (hm h)
  · rw [if_neg h]; exact hk

/-- The locked-candidate pass at a cell keeps the board in step with every solution. -/
theorem candidate_check_keeps {b : Board} {S : Nat → Nat → Nat} (hk : b.Keeps S) (hv : Valid S)
    {i j : Nat} (hi : i < 9) (hj : j < 9) : (b.candidate_check i j).Keeps S := by
  have hg := hv.gridOk
  unfold Board.candidate_check
  dsimp only
  generalize hb1 : (if (b.scanRows i j).2.2 ≠ 0 ∧ (b.scanRows i j).2.2 = bitCount (b.scanRows i j).2.1
    then b.andMem i j (bnot (b.scanRows i j).2.1) else b) = b1
  have k1 : b1.Keeps S := by
    rw [← hb1]
    apply hk.ite _ (Board.narrows_andMem _ _ _ _)
    intro hp
    apply memHas_andMem hk.memHas
    intro _ _ _
    exact testBit_bnot_true hg _ i j hi hj (scanRows_locked hk hv hi hj hp.2)
  generalize hb2 : (if (b.scanRows i j).1 &&& bnot (b.scanRows i j).2.1 ≠ 0
    then b1.clearRowOut i j ((b.scanRows i j).1 &&& bnot (b.scanRows i j).2.1) else b1) = b2
  have k2 : b2.Keeps S := by
    rw [← hb2]
    apply k1.ite _ (Board.narrows_clearRowOut _ _ _ _)
    intro _
    apply memHas_clearRowOut hg k1.memHas
    intro col hcol hout
    exact pointing_row hk hv hi hj hcol hout
  generalize hb3 : (if (b2.scanCols i j).2.2 ≠ 0 ∧ (b2.scanCols i j).2.2 = bitCount (b2.scanCols i j).2.1
    then b2.andMem i j (bnot (b2.scanCols i j).2.1) else b2) = b3
  have k3 : b3.Keeps S := by
    rw [← hb3]
    apply k2.ite _ (Board.narrows_andMem _ _ _ _)
    intro hp
    apply memHas_andMem k2.memHas
    intro _ _ _
    exact testBit_bnot_true hg _ i j hi hj (scanCols_locked k2 hv hi hj hp.2)
  generalize hb4 : (if (b2.scanCols i j).1 &&& bnot (b2.scanCols i j).2.1 ≠ 0
    then b3.clearColOut i j ((b2.scanCols i j).1 &&& bnot (b2.scanCols i j).2.1) else b3) = b4
  have n4 : b3.Narrows b4 := by
    rw [← hb4]; exact Board.narrows_ite _ _ _ (Board.narrows_clearColOut _ _ _ _)
  have k4 : b4.Keeps S := by
    rw [← hb4]
    apply k3.ite _ (Board.narrows_clearColOut _ _ _ _)
    intro _
    apply memHas_clearColOut hg k3.memHas
    intro row hrow hout
    exact pointing_col k2 hv hi hj hrow hout
  have n12 : b.Narrows b2 := by
    have n1 : b.Narrows b1 := by
      rw [← hb1]; exact Board.narrows_ite _ _ _ (Board.narrows_andMem _ _ _ _)
    have n2 : b1.Narrows b2 := by
      rw [← hb2]; exact Board.narrows_ite _ _ _ (Board.narrows_clearRowOut _ _ _ _)
    exact n1.trans n2
  have n24 : b2.Narrows b4 := by
    have n3 : b2.Narrows b3 := by
      rw [← hb3]; exact Board.narrows_ite _ _ _ (Board.narrows_andMem _ _ _ _)
    exact n3.trans n4
  generalize hb5 : (if b4.claimRow i j (b.scanRows i j).1 ≠ 0
    then b4.clearHouseRows i j (b4.claimRow i j (b.scanRows i j).1) else b4) = b5
  have n5 : b4.Narrows b5 := by
    rw [← hb5]; exact Board.narrows_ite _ _ _ (Board.narrows_clearHouseRows _ _ _ _)
  have k5 : b5.Keeps S := by
    rw [← hb5]
    apply k4.ite _ (Board.narrows_clearHouseRows _ _ _ _)
    intro _
    apply memHas_clearHouseRows hg k4.memHas
    intro r c hr hc hblk hri
    exact claiming_row hk hv b4 (n12.trans n24).1 k4.memHas hi hj hr hc hblk hri
  apply k5.ite _ (Board.narrows_clearHouseCols _ _ _ _)
  intro _
  apply memHas_clearHouseCols hg k5.memHas
  intro r c hr hc hblk hcj
  exact claiming_col k2 hv b5 (n24.trans n5).1 k5.memHas hi hj hr hc hblk hcj


/-! ## `pair_check` keeps every solution -/

theorem pairRowMatch_spec (b : Board) (i j value : Nat) (h : b.pairRowMatch i j value ≠ 9) :
    b.pairRowMatch i j value < 9 ∧ b.matrix i (b.pairRowMatch i j value) = 0 ∧
    b.pairRowMatch i j value ≠ j ∧ b.memory i (b.pairRowMatch i j value) = value := by
  unfold Board.pairRowMatch at h ⊢
  cases hf : (List.range 9).find? (fun col =>
    !(b.matrix i col != 0 || col == j || b.memory i col != value)) with
  | none => rw [hf] at h; exact absurd rfl h
  | some col =>
    have h1 := List.find?_some hf
    have h2 := List.mem_of_find?_eq_some hf
    rw [List.mem_range] at h2
    simp only [Bool.not_eq_true', Bool.or_eq_false_iff, bne_eq_false_iff_eq, beq_eq_false_iff_ne,
      ne_eq] at h1
    exact ⟨h2, h1.1.1, h1.1.2, h1.2⟩

theorem pairColMatch_spec (b : Board) (i j value : Nat) (h : b.pairColMatch i j value ≠ 9) :
    b.pairColMatch i j value < 9 ∧ b.matrix (b.pairColMatch i j value) j = 0 ∧
    b.pairColMatch i j value ≠ i ∧ b.memory (b.pairColMatch i j value) j = value := by
  unfold Board.pairColMatch at h ⊢
  cases hf : (List.range 9).find? (fun row =>
    !(b.matrix row j != 0 || row == i || b.memory row j != value)) with
  | none => rw [hf] at h; exact absurd rfl h
  | some row =>
    have h1 := List.find?_some hf
    have h2 := List.mem_of_find?_eq_some hf
    rw [List.mem_range] at h2
    simp only [Bool.not_eq_true', Bool.or_eq_false_iff, bne_eq_false_iff_eq, beq_eq_false_iff_ne,
      ne_eq] at h1
    exact ⟨h2, h1.1.1, h1.1.2, h1.2⟩

theorem pairHouseMatch_spec (b : Board) (i j value : Nat) (hi : i < 9) (hj : j < 9)
    (h : (b.pairHouseMatch i j value).1 ≠ 9) :
    ((b.pairHouseMatch i j value).1 < 9 ∧ (b.pairHouseMatch i j value).2 < 9 ∧
      (b.pairHouseMatch i j value).1 / 3 = i / 3 ∧ (b.pairHouseMatch i j value).2 / 3 = j / 3) ∧
    (b.pairHouseMatch i j value).1 ≠ i ∧
    b.matrix (b.pairHouseMatch i j value).1 (b.pairHouseMatch i j value).2 = 0 ∧
    b.memory (b.pairHouseMatch i j value).1 (b.pairHouseMatch i j value).2 = value := by
  revert h
  unfold Board.pairHouseMatch
  dsimp only
  refine foldl_inv (fun (m : Nat × Nat) => m.1 ≠ 9 →
    (m.1 < 9 ∧ m.2 < 9 ∧ m.1 / 3 = i / 3 ∧ m.2 / 3 = j / 3) ∧ m.1 ≠ i ∧ b.matrix m.1 m.2 = 0 ∧
      b.memory m.1 m.2 = value) _ (List.range' (i / 3 * 3) 3) (9, 9) (fun h => absurd rfl h) ?_
  intro m row hrow ih
  rw [List.mem_range'_1] at hrow
  by_cases hr : row = i
  · rw [if_pos hr]; exact ih
  · rw [if_neg hr]
    cases hf : (List.range' (j / 3 * 3) 3).find? (fun col =>
      !(col == j || b.matrix row col != 0 || b.memory row col != value)) with
    | none => exact ih
    | some col =>
      have h1 := List.find?_some hf
      have h2 := List.mem_of_find?_eq_some hf
      rw [List.mem_range'_1] at h2
      simp only [Bool.not_eq_true', Bool.or_eq_false_iff, bne_eq_false_iff_eq,
        beq_eq_false_iff_ne, ne_eq] at h1
      intro _
      dsimp only
      exact ⟨⟨by omega, by omega, by omega, by omega⟩, hr, h1.1.2, h1.2⟩

/-- A naked pair: two cells that hold distinct digits of `S` inside a mask of two bits
leave no bit of the mask for a third digit. -/
theorem pair_sound {S : Nat → Nat → Nat} (hg : GridOk S) (value : Nat) (hc : bitCount value = 2)
    (r0 c0 r1 c1 r2 c2 : Nat) (hr0 : r0 < 9) (hc0 : c0 < 9) (hr1 : r1 < 9) (hc1 : c1 < 9)
    (hr2 : r2 < 9) (hc2 : c2 < 9) (h01 : S r0 c0 ≠ S r1 c1) (h20 : S r2 c2 ≠ S r0 c0)
    (h21 : S r2 c2 ≠ S r1 c1) (hv0 : value.testBit (S r0 c0 - 1) = true)
    (hv1 : value.testBit (S r1 c1 - 1) = true) : value.testBit (S r2 c2 - 1) = false := by
  by_contra hcon
  rw [Bool.not_eq_false] at hcon
  have a0 := hg.range r0 c0 hr0 hc0
  have a1 := hg.range r1 c1 hr1 hc1
  have a2 := hg.range r2 c2 hr2 hc2
  have := two_bits value _ _ _ hc (by omega : S r0 c0 - 1 < 9) (by omega : S r1 c1 - 1 < 9)
    (by omega : S r2 c2 - 1 < 9) (by omega) hv0 hv1 hcon
  omega

theorem memHas_clearRowPair {b : Board} {S : Nat → Nat → Nat} (hg : GridOk S) (hm : b.MemHas S)
    (i j mc x : Nat)
    (hx : ∀ col, col < 9 → col ≠ j → col ≠ mc → x.testBit (S i col - 1) = false) :
    (b.clearRowPair i j mc x).MemHas S := by
  unfold Board.clearRowPair
  apply memHas_clear (List.range 9) S b
    (fun s col => s.matrix i col ≠ 0 ∨ col = j ∨ col = mc)
    (fun _ => i) (fun col => col) (bnot x) hm
  intro s a _ _ hsk hr hc _
  simp only [not_or] at hsk
  exact testBit_bnot_true hg x i a hr hc (hx a hc hsk.2.1 hsk.2.2)

theorem memHas_clearColPair {b : Board} {S : Nat → Nat → Nat} (hg : GridOk S) (hm : b.MemHas S)
    (i j mr x : Nat)
    (hx : ∀ row, row < 9 → row ≠ i → row ≠ mr → x.testBit (S row j - 1) = false) :
    (b.clearColPair i j mr x).MemHas S := by
  unfold Board.clearColPair
  apply memHas_clear (List.range 9) S b
    (fun s row => s.matrix row j ≠ 0 ∨ row = i ∨ row = mr)
    (fun row => row) (fun _ => j) (bnot x) hm
  intro s a _ _ hsk hr hc _
  simp only [not_or] at hsk
  exact testBit_bnot_true hg x a j hr hc (hx a hr hsk.2.1 hsk.2.2)

theorem memHas_clearHousePair {b : Board} {S : Nat → Nat → Nat} (hg : GridOk S)
    (hm : b.MemHas S) (i j mr mc x : Nat)
    (hx : ∀ r c, r < 9 → c < 9 → r / 3 = i / 3 ∧ c / 3 = j / 3 → ¬ (r = i ∧ c = j) →
      ¬ (r = mr ∧ c = mc) → x.testBit (S r c - 1) = false) :
    (b.clearHousePair i j mr mc x).MemHas S := by
  unfold Board.clearHousePair
  dsimp only
  rw [foldl_square (fun (s : Board) row col =>
    if s.matrix row col ≠ 0 ∨ (row = i ∧ col = j) ∨ (row = mr ∧ col = mc) then s
    else s.andMem row col (bnot x))]
  apply memHas_clear _ S b
    (fun (s : Board) (p : Nat × Nat) =>
      s.matrix p.1 p.2 ≠ 0 ∨ (p.1 = i ∧ p.2 = j) ∨ (p.1 = mr ∧ p.2 = mc))
    (fun p => p.1) (fun p => p.2) (bnot x) hm
  intro s a ha _ hsk hr hc _
  simp only [not_or] at hsk
  rw [mem_square] at ha
  exact testBit_bnot_true hg x a.1 a.2 hr hc
    (hx a.1 a.2 hr hc (by omega) hsk.2.1 hsk.2.2)

/-- The naked-pair pass at a blank cell keeps the board in step with every solution. -/
theorem pair_check_keeps {b : Board} {S : Nat → Nat → Nat} (hk : b.Keeps S) (hv : Valid S)
    {i j : Nat} (hi : i < 9) (hj : j < 9) (hz : b.matrix i j = 0) :
    (b.pair_check i j).Keeps S := by
  have hg := hv.gridOk
  have hvj := hk.memHas i j hi hj hz
  unfold Board.pair_check
  dsimp only
  by_cases h : bitCount (b.memory i j) = 2
  swap
  · rw [if_neg h]; exact hk
  rw [if_pos h]
  generalize hb1 : (if b.pairRowMatch i j (b.memory i j) ≠ 9
    then b.clearRowPair i j (b.pairRowMatch i j (b.memory i j)) (b.memory i j) else b) = b1
  have k1 : b1.Keeps S := by
    rw [← hb1]
    apply hk.ite _ (Board.narrows_clearRowPair _ _ _ _ _)
    intro hp
    obtain ⟨s1, s2, s3, s4⟩ := pairRowMatch_spec b i j _ hp
    apply memHas_clearRowPair hg hk.memHas
    intro col hcol hc1 hc2
    have hm := hk.memHas i _ hi s1 s2
    rw [s4] at hm
    exact pair_sound hg _ h i j i _ i col hi hj hi s1 hi hcol
      (fun e => s3 (hg.row_inj i _ _ hi hj s1 e).symm)
      (fun e => hc1 (hg.row_inj i _ _ hi hcol hj e))
      (fun e => hc2 (hg.row_inj i _ _ hi hcol s1 e)) hvj hm
  generalize hb2 : (if b1.pairColMatch i j (b.memory i j) ≠ 9
    then b1.clearColPair i j (b1.pairColMatch i j (b.memory i j)) (b.memory i j) else b1) = b2
  have k2 : b2.Keeps S := by
    rw [← hb2]
    apply k1.ite _ (Board.narrows_clearColPair _ _ _ _ _)
    intro hp
    obtain ⟨s1, s2, s3, s4⟩ := pairColMatch_spec b1 i j _ hp
    apply memHas_clearColPair hg k1.memHas
    intro row hrow hc1 hc2
    have hm := k1.memHas _ j s1 hj s2
    rw [s4] at hm
    exact pair_sound hg _ h i j _ j row j hi hj s1 hj hrow hj
      (fun e => s3 (hg.col_inj _ _ j hi s1 hj e).symm)
      (fun e => hc1 (hg.col_inj _ _ j hrow hi hj e))
      (fun e => hc2 (hg.col_inj _ _ j hrow s1 hj e)) hvj hm
  apply k2.ite _ (Board.narrows_clearHousePair _ _ _ _ _ _)
  intro hp
  obtain ⟨⟨s1, s2, s3, s4⟩, s5, s6, s7⟩ := pairHouseMatch_spec b2 i j _ hi hj hp
  apply memHas_clearHousePair hg k2.memHas
  intro r c hr hc hblk hc1 hc2
  have hm := k2.memHas _ _ s1 s2 s6
  rw [s7] at hm
  exact pair_sound hg _ h i j _ _ r c hi hj s1 s2 hr hc
    (fun e => s5 (hg.block_inj _ _ _ _ hi hj s1 s2 s3.symm s4.symm e).1.symm)
    (fun e => hc1 (hg.block_inj _ _ _ _ hr hc hi hj hblk.1 hblk.2 e))
    (fun e => hc2 (hg.block_inj _ _ _ _ hr hc s1 s2 (hblk.1.trans s3.symm)
      (hblk.2.trans s4.symm) e)) hvj hm



/-! ## `advanced_fill` keeps every solution -/

theorem advPre_keeps {b : Board} {S : Nat → Nat → Nat} (hk : b.Keeps S) (hv : Valid S)
    {i j : Nat} (hi : i < 9) (hj : j < 9) (hz : b.matrix i j = 0) : (b.advPre i j).Keeps S := by
  unfold Board.advPre
  apply pair_check_keeps (candidate_check_keeps hk hv hi hj) hv hi hj
  rw [(Board.narrows_candidate_check b i j).1]
  exact hz

/-- The digit that the advanced pass places in a blank cell is the digit of every
solution that is still in memory. -/
theorem adv_pick_forced {b : Board} {S : Nat → Nat → Nat} (hk : b.Keeps S) (hv : Valid S)
    {i j : Nat} (hi : i < 9) (hj : j < 9) (hz : b.matrix i j = 0) (hne : b.advPick i j ≠ 0) :
    S i j = numFor (b.advPick i j) := by
  obtain ⟨h1, h2, h3, h4, h5⟩ := adv_pick_legal hk.sync hk.memSub hi hj hz hne
  have hp : (b.Blank.possible i j).testBit (numFor (b.advPick i j) - 1) = true :=
    (and_bitFor_ne_zero _ _).1 h5
  have hsol := hk.memHas i j hi hj hz
  have hrange := hv.gridOk.range i j hi hj
  have hbit : (b.advPick i j).testBit (numFor (b.advPick i j) - 1) = true := by
    have e : b.advPick i j = bitFor (numFor (b.advPick i j)) := h3
    rw [e, testBit_bitFor, ← e]
    simp
  rcases decide_cases _ _ _ _ hne with hc | hc | hc | hc
  · have e : b.memory i j = bitFor (numFor (b.advPick i j)) := by
      rw [← hc.2]; exact h3
    rw [e, testBit_bitFor, decide_eq_true_eq] at hsol
    omega
  · have hk2 := hc _ hbit
    rw [house_check_testBit b i j true _ (by omega) hi hj] at hk2
    exact forced_of_hidden hk.sync hv hk.agrees hi hj h1 h2 (fun r c => b.memory r c)
      hk.memHas hp (Or.inl hk2)
  · have hk2 := hc _ hbit
    rw [row_check_testBit b i j true _ (by omega)] at hk2
    exact forced_of_hidden hk.sync hv hk.agrees hi hj h1 h2 (fun r c => b.memory r c)
      hk.memHas hp (Or.inr (Or.inl hk2))
  · have hk2 := hc _ hbit
    rw [col_check_testBit b i j true _ (by omega)] at hk2
    exact forced_of_hidden hk.sync hv hk.agrees hi hj h1 h2 (fun r c => b.memory r c)
      hk.memHas hp (Or.inr (Or.inr hk2))

theorem memHas_updateStep {s : Board} {S : Nat → Nat → Nat} (hs : s.Sync) (hg : GridOk S)
    (ha : Agrees s.matrix S) (hm : s.MemHas S) (row col i : Nat) :
    (s.updateStep row col i).MemHas S := by
  have key : ∀ t : Board, t.matrix = s.matrix → t.Blank = s.Blank → t.MemHas S →
      ∀ r c, (t.andMem r c (t.Blank.possible r c)).MemHas S := by
    intro t tm tb th r c
    apply memHas_andMem th
    intro hr hc hz
    rw [tb]
    rw [tm] at hz
    exact hs.sol_possible hg ha hr hc hz
  unfold Board.updateStep
  dsimp only
  generalize hb1 : (if s.matrix row i = 0 then s.andMem row i (s.Blank.possible row i) else s) = s1
  have k1 : s1.matrix = s.matrix ∧ s1.Blank = s.Blank ∧ s1.MemHas S := by
    rw [← hb1]
    split_ifs
    · exact ⟨rfl, rfl, key s rfl rfl hm _ _⟩
    · exact ⟨rfl, rfl, hm⟩
  generalize hb2 : (if s1.matrix i col = 0 then s1.andMem i col (s1.Blank.possible i col)
    else s1) = s2
  have k2 : s2.matrix = s.matrix ∧ s2.Blank = s.Blank ∧ s2.MemHas S := by
    rw [← hb2]
    split_ifs
    · exact ⟨k1.1, k1.2.1, key s1 k1.1 k1.2.1 k1.2.2 _ _⟩
    · exact k1
  split_ifs
  · exact key s2 k2.1 k2.2.1 k2.2.2 _ _
  · exact k2.2.2

theorem memHas_update {s : Board} {S : Nat → Nat → Nat} (hs : s.Sync) (hg : GridOk S)
    (ha : Agrees s.matrix S) (hm : s.MemHas S) (row col : Nat) :
    (s._update row col).MemHas S := by
  unfold Board._update
  have h := foldl_inv (fun (t : Board) => s.Narrows t ∧ t.MemHas S)
    (fun (b : Board) (i : Nat) => b.updateStep row col i) (List.range 9) s
    ⟨Board.Narrows.refl s, hm⟩ ?_
  · exact h.2
  · intro t i _ ih
    refine ⟨ih.1.trans (Board.narrows_updateStep t row col i), ?_⟩
    exact memHas_updateStep (ih.1.sync hs) hg (by rw [ih.1.1]; exact ha) ih.2 row col i

/-- Placing the digit of the solution with propagation keeps the board in step with it. -/
theorem set_true_keeps {b : Board} {S : Nat → Nat → Nat} (hk : b.Keeps S) (hv : Valid S)
    {i j : Nat} (hi : i < 9) (hj : j < 9) (hz : b.matrix i j = 0)
    (hleg : b.Blank.possible i j &&& bitFor (S i j) ≠ 0) :
    (b.set i j (S i j) true).Keeps S := by
  have hg := hv.gridOk
  have r0 := hg.range i j hi hj
  obtain ⟨hs2, hm2⟩ := set_true_sync hk.sync hk.memSub hi hj r0.1 r0.2 hz hleg
  have hs1 := hk.sync.set hi hj r0.1 r0.2 hz hleg
  have ha1 : Agrees (b.set i j (S i j) false).matrix S := by
    apply agrees_of
    intro r c hr hc
    rw [set_false_eq _ _ _ _ (by omega)]
    simp only [upd2_apply]
    split_ifs with hh
    · obtain ⟨rfl, rfl⟩ := hh
      intro _; rfl
    · exact hk.agrees.at hr hc
  have hm1 : (b.set i j (S i j) false).MemHas S := by
    intro r c hr hc hz1
    rw [set_false_eq _ _ _ _ (by omega)] at hz1 ⊢
    simp only [upd2_apply] at hz1
    split_ifs at hz1 with hh
    · omega
    · exact hk.memHas r c hr hc hz1
  refine ⟨hs2, hm2, ?_, ?_⟩
  · rw [(Board.narrows_set_true b i j (S i j)).1]; exact ha1
  · rw [set_true_eq]
    exact memHas_update hs1 hg ha1 hm1 i j

theorem advanced_seed_keeps {b : Board} {S : Nat → Nat → Nat} (hs : b.Sync) (hv : Valid S)
    (ha : Agrees b.matrix S) (hm : b.MemHas S) : b.advanced_seed.Keeps S := by
  have hn := Board.narrows_advanced_seed b
  refine ⟨hn.sync hs, advanced_seed_memSub b, by rw [hn.1]; exact ha, ?_⟩
  rw [advanced_seed_eq]
  have h := foldl_inv (fun (t : Board) => b.Narrows t ∧ t.MemHas S)
    (fun (b : Board) (p : Nat × Nat) => b.seedStep p.1 p.2) cells b
    ⟨Board.Narrows.refl b, hm⟩ ?_
  · exact h.2
  · intro t p _ ih
    refine ⟨ih.1.trans (Board.narrows_seedStep t p.1 p.2), ?_⟩
    unfold Board.seedStep
    dsimp only
    split_ifs
    · apply memHas_andMem ih.2
      intro hr hc hz
      rw [ih.1.2.1]
      rw [ih.1.1] at hz
      exact hs.sol_possible hv.gridOk ha hr hc hz
    · exact ih.2

/-- The advanced pass loses no solution: a valid grid that extends the board with its
digits in memory still does so after `advanced_fill`. -/
theorem advanced_fill_keeps (b b1 : Board) {S : Nat → Nat → Nat} (hs : b.Sync) (hv : Valid S)
    (ha : Agrees b.matrix S) (hm : b.MemHas S) (h : b.advanced_fill = some b1) :
    b1.Keeps S := by
  unfold Board.advanced_fill at h
  refine advanced_loop_induct (fun x => x.Keeps S) ?_ ?_ 2593 b.advanced_seed b1
    (advanced_seed_keeps hs hv ha hm) h
  · intro x i j hx hi hj hz
    exact advPre_keeps hx hv hi hj hz
  · intro x i j hx hi hj hz hne
    have hf := adv_pick_forced hx hv hi hj hz hne
    obtain ⟨_, _, _, _, h5⟩ := adv_pick_legal hx.sync hx.memSub hi hj hz hne
    rw [← hf] at h5 ⊢
    exact set_true_keeps hx hv hi hj hz h5



/-! ## The solving pipeline finds every solvable board -/

theorem memWord_of_allSet {b : Board} (h : b.memory = fun _ _ => allSet) : b.MemWord := by
  intro p _
  rw [h]
  norm_num [allSet]

theorem memHas_of_allSet {b : Board} (h : b.memory = fun _ _ => allSet) {S : Nat → Nat → Nat}
    (hg : GridOk S) : b.MemHas S := by
  intro r c hr hc _
  have r0 := hg.range r c hr hc
  rw [h, testBit_allSet, decide_eq_true_eq]
  omega

/-- The three passes in a row return a result on every board in step. -/
theorem pipeline_total (b : Board) (hs : b.Sync) (hw : b.MemWord) :
    ∃ b1 b2 res b3, b.hidden_fill = some b1 ∧ b1.advanced_fill = some b2 ∧
      b2.backtrack = some (res, b3) ∧ b1.Sync ∧ b1.memory = b.memory ∧ b2.Sync ∧
      b2.SearchPost res b3 := by
  obtain ⟨b1, h1, _⟩ := hidden_fill_total b
  obtain ⟨hs1, hm1, _, _, _⟩ := hidden_fill_spec b b1 hs h1
  have hw1 : b1.MemWord := by
    intro p hp
    rw [hm1]; exact hw p hp
  obtain ⟨b2, h2⟩ := advanced_fill_total b1 hw1
  obtain ⟨hs2, _, _, _⟩ := advanced_fill_sync b1 b2 hs1 h2
  obtain ⟨res, b3, h3, hpost⟩ := backtrack_spec b2 hs2
  exact ⟨b1, b2, res, b3, h1, h2, h3, hs1, hm1, hs2, hpost⟩

/-- The three passes in a row succeed on every board in step that some valid grid
extends with its digits in memory. -/
theorem pipeline_complete (b : Board) (hs : b.Sync) (hw : b.MemWord) {S : Nat → Nat → Nat}
    (hv : Valid S) (ha : Agrees b.matrix S) (hm : b.MemHas S) :
    ∃ b1 b2 b3, b.hidden_fill = some b1 ∧ b1.advanced_fill = some b2 ∧
      b2.backtrack = some (true, b3) := by
  obtain ⟨b1, b2, res, b3, h1, h2, h3, hs1, hm1, hs2, hpost⟩ := pipeline_total b hs hw
  obtain ⟨_, _, _, hext, hsol⟩ := hidden_fill_spec b b1 hs h1
  have hmh1 : b1.MemHas S := by
    intro r c hr hc hz
    rw [hm1]
    apply hm r c hr hc
    by_contra hne
    have := hext r c hne
    rw [hz] at this
    exact hne this.symm
  have hk2 := advanced_fill_keeps b1 b2 hs1 hv (hsol S hv ha) hmh1 h2
  cases res with
  | true => exact ⟨b1, b2, b3, h1, h2, h3⟩
  | false =>
    exact absurd ⟨S, hv, hk2.agrees, hk2.memHas⟩ (hpost.2.2 rfl).2

theorem solve_complete_aux (s : Sudoku) (hs : s._answer.Sync) (hw : s._answer.MemWord)
    {S : Nat → Nat → Nat} (hv : Valid S) (ha : Agrees s._answer.matrix S)
    (hm : s._answer.MemHas S) : ∃ s1, s._solve = some (true, s1) := by
  obtain ⟨b1, b2, b3, h1, h2, h3⟩ := pipeline_complete s._answer hs hw hv ha hm
  unfold Sudoku._solve
  rw [h1]
  dsimp only
  by_cases hr : b1.remaining = 0
  · rw [if_pos hr]; exact ⟨_, rfl⟩
  · rw [if_neg hr, h2]
    dsimp only
    rw [h3]
    exact ⟨_, rfl⟩

theorem agrees_load {g S : Nat → Nat → Nat} (hg : InputOk g) (ha : Agrees g S) :
    Agrees (Board.load g).matrix S := by
  obtain ⟨_, hm, _, _⟩ := load_spec g hg
  apply agrees_of
  intro r c hr hc
  rw [hm r c hr hc]
  exact ha.at hr hc

/-- C3: for every duplicate-free 9x9 input of values 0..9 loaded into a fresh board,
whenever some complete valid grid agrees with the nonzero cells of the input,
`Sudoku::_solve` returns true. -/
theorem solve_complete (g : Nat → Nat → Nat) (hg : DupFree g) (S : Nat → Nat → Nat)
    (hv : Valid S) (ha : Agrees g S) : ∃ s, Sudoku.ofGrid g = some (true, s) := by
  obtain ⟨hs, _, hmem, _⟩ := load_spec g hg.inputOk
  unfold Sudoku.ofGrid
  dsimp only
  exact solve_complete_aux _ hs (memWord_of_allSet hmem) hv (agrees_load hg.inputOk ha)
    (memHas_of_allSet hmem hv.gridOk)

theorem samplePuzzle_agrees : Agrees samplePuzzle sampleGrid := by decide

theorem solve_complete_witness :
    DupFree samplePuzzle ∧ Valid sampleGrid ∧ Agrees samplePuzzle sampleGrid ∧
      ∃ s, Sudoku.ofGrid samplePuzzle = some (true, s) :=
  ⟨samplePuzzle_dupFree, sampleGrid_valid, samplePuzzle_agrees,
    solve_complete samplePuzzle samplePuzzle_dupFree sampleGrid sampleGrid_valid
      samplePuzzle_agrees⟩



/-! ## `_valid_dig`: restoring the dug cell -/

theorem or_and_bnot_bitFor (x d : Nat) (hx : x < 4294967296) (hd9 : d ≤ 9) (hb : x.testBit (d - 1) = false) :
    (x ||| bitFor d) &&& bnot (bitFor d) = x := by
  apply Nat.eq_of_testBit_eq
  intro k
  rw [Nat.testBit_and, Nat.testBit_or, testBit_bitFor]
  by_cases hk : k < 32
  · rw [testBit_bnot _ _ hk, testBit_bitFor]
    by_cases hdk : d - 1 = k
    · subst hdk; simp [hb]
    · simp [hdk]
  · have h1 : x.testBit k = false := by
      apply Nat.testBit_lt_two_pow
      calc x < 2 ^ 32 := by simpa using hx
        _ ≤ 2 ^ k := Nat.pow_le_pow_right (by norm_num) (by omega)
    have hdk : ¬ d - 1 = k := by omega
    simp [h1, hdk]

theorem elim_cancel (bl : BlankList) (r c d : Nat) (hd9 : d ≤ 9)
    (h1 : bl.rows r < 4294967296) (h2 : bl.cols c < 4294967296)
    (h3 : bl.blocks (r / 3) (c / 3) < 4294967296)
    (b1 : (bl.rows r).testBit (d - 1) = false) (b2 : (bl.cols c).testBit (d - 1) = false)
    (b3 : (bl.blocks (r / 3) (c / 3)).testBit (d - 1) = false) :
    (bl.cancel r c d).elim r c d = bl := by
  obtain ⟨rows, cols, blocks⟩ := bl
  simp only [BlankList.elim, BlankList.cancel, upd1_apply, upd2_apply, and_self, if_true,
    BlankList.mk.injEq, upd1_upd1, upd2_upd2]
  simp only [] at h1 h2 h3 b1 b2 b3
  refine ⟨?_, ?_, ?_⟩
  · rw [or_and_bnot_bitFor _ d h1 hd9 b1]
    exact upd1_same rows r
  · rw [or_and_bnot_bitFor _ d h2 hd9 b2]
    exact upd1_same cols c
  · rw [or_and_bnot_bitFor _ d h3 hd9 b3]
    exact upd2_same blocks (r / 3) (c / 3)

theorem dec32_inc32 (x : Nat) (hx : x < 4294967295) : dec32 (inc32 x) = x := by
  unfold inc32 dec32; omega

/-- Setting the dug cell back to the value that `unset` returned restores the board. -/
theorem set_after_unset {b : Board} (hs : b.Sync) {r c : Nat} (hr : r < 9) (hc : c < 9) :
    (b.unset r c).2.set r c (b.unset r c).1 false = b := by
  by_cases hv : b.matrix r c = 0
  · rw [unset_blank b r c hv]
    exact set_zero_blank b r c hv
  have hv9 := hs.val_le r c hr hc
  rw [unset_eq b r c hv]
  dsimp only
  rw [set_false_eq _ _ _ _ hv]
  dsimp only
  have e1 : upd2 (upd2 b.matrix r c 0) r c (b.matrix r c) = b.matrix := by
    rw [upd2_upd2]; exact upd2_same b.matrix r c
  have e2 : dec32 (inc32 b.remains) = b.remains := by
    apply dec32_inc32
    rw [hs.remains_eq]
    have := countZeros_le b.matrix
    omega
  have f1 : (b.Blank.rows r).testBit (b.matrix r c - 1) = false := by
    by_contra hcon
    rw [Bool.not_eq_false] at hcon
    exact (hs.rows_bit r _ hr (by omega) hv9).1 hcon c hc rfl
  have f2 : (b.Blank.cols c).testBit (b.matrix r c - 1) = false := by
    by_contra hcon
    rw [Bool.not_eq_false] at hcon
    exact (hs.cols_bit c _ hc (by omega) hv9).1 hcon r hr rfl
  have f3 : (b.Blank.blocks (r / 3) (c / 3)).testBit (b.matrix r c - 1) = false := by
    by_contra hcon
    rw [Bool.not_eq_false] at hcon
    exact (hs.blocks_bit (r / 3) (c / 3) _ (by omega) (by omega) (by omega) hv9).1 hcon r c hr hc
      rfl rfl rfl
  have e3 : (b.Blank.cancel r c (b.matrix r c)).elim r c (b.matrix r c) = b.Blank := by
    apply elim_cancel _ _ _ _ hv9 _ _ _ f1 f2 f3
    · exact lt_trans (hs.rows_lt r hr) (by norm_num)
    · exact lt_trans (hs.cols_lt c hc) (by norm_num)
    · exact lt_trans (hs.blocks_lt (r / 3) (c / 3) (by omega) (by omega)) (by norm_num)
  rw [e1, e2, e3]



/-! ## `_valid_dig` -/

theorem unset_props (b : Board) (r c : Nat) :
    (b.unset r c).2.matrix = upd2 b.matrix r c 0 ∧ (b.unset r c).2.memory = b.memory ∧
    (b.unset r c).1 = b.matrix r c := by
  by_cases hv : b.matrix r c = 0
  · rw [unset_blank b r c hv]
    refine ⟨?_, rfl, hv.symm⟩
    have := upd2_same b.matrix r c
    rw [hv] at this
    exact this.symm
  · rw [unset_eq b r c hv]
    exact ⟨rfl, rfl, rfl⟩

/-- The test of an alternative digit that passes `mask_check` returns; it returns false
only when the board with that digit has no solution. -/
theorem altTest_spec (P : Board) (hs : P.Sync) (hw : P.MemWord) (i j num : Nat) (hi : i < 9)
    (hj : j < 9) (hz : P.matrix i j = 0) (n1 : 1 ≤ num) (n9 : num ≤ 9)
    (hmask : P.mask_check i j (bitFor num) ≠ 0) :
    ∃ res, Holes.altTest P i j num = some res ∧
      (res = false → ¬ (P.set i j num false).Solvable) := by
  have hleg := ((mask_check_ne_zero P i j num).1 hmask).1
  have hsb : (P.set i j num false).Sync :=
    hs.set hi hj n1 n9 hz ((and_bitFor_ne_zero _ _).2 hleg)
  have hwb : (P.set i j num false).MemWord := by
    rw [set_false_eq _ _ _ _ (by omega)]
    exact hw
  obtain ⟨b1, b2, res, b3, h1, h2, h3, hs1, hm1, hs2, hpost⟩ := pipeline_total _ hsb hwb
  unfold Holes.altTest
  dsimp only
  rw [h1]
  dsimp only
  rw [h2]
  dsimp only
  rw [h3]
  refine ⟨res, rfl, ?_⟩
  rintro rfl ⟨S, hv, ha, hm⟩
  obtain ⟨c1, c2, c3, g1, g2, g3⟩ := pipeline_complete _ hsb hwb hv ha hm
  rw [h1] at g1
  cases g1
  rw [h2] at g2
  cases g2
  rw [h3] at g3
  cases g3

/-- The loop over the alternative digits returns; when it returns false, no alternative
digit that passes `mask_check` leaves a board with a solution. -/
theorem altLoop_spec (P : Board) (hs : P.Sync) (hw : P.MemWord) (i j val : Nat) (hi : i < 9)
    (hj : j < 9) (hz : P.matrix i j = 0) (l : List Nat) (hl : ∀ num ∈ l, 1 ≤ num ∧ num ≤ 9) :
    ∃ res, Holes.altLoop P i j val l = some res ∧
      (res = false → ∀ num ∈ l, num ≠ val → P.mask_check i j (bitFor num) ≠ 0 →
        ¬ (P.set i j num false).Solvable) := by
  induction l with
  | nil =>
    refine ⟨false, rfl, ?_⟩
    intro _ num hnum
    cases hnum
  | cons num rest ih =>
    obtain ⟨res0, hr0, hp0⟩ := ih (fun n hn => hl n (List.mem_cons_of_mem _ hn))
    obtain ⟨n1, n9⟩ := hl num (List.mem_cons_self _ _)
    rw [Holes.altLoop]
    by_cases hcond : num ≠ val ∧ P.mask_check i j (bitFor num) ≠ 0
    · rw [if_pos hcond]
      obtain ⟨res, h1, hp1⟩ := altTest_spec P hs hw i j num hi hj hz n1 n9 hcond.2
      rw [h1]
      cases res with
      | true =>
        refine ⟨true, rfl, ?_⟩
        intro h; cases h
      | false =>
        refine ⟨res0, hr0, ?_⟩
        intro hres n hn hne hmask
        rcases List.mem_cons.1 hn with e | hrest
        · subst e
          exact hp1 rfl
        · exact hp0 hres n hrest hne hmask
    · rw [if_neg hcond]
      refine ⟨res0, hr0, ?_⟩
      intro hres n hn hne hmask
      rcases List.mem_cons.1 hn with e | hrest
      · subst e
        exact absurd ⟨hne, hmask⟩ hcond
      · exact hp0 hres n hrest hne hmask

/-- The outcomes of `_valid_dig` on a board in step: it returns, and either the board
is put back as it was, or the cell stays dug and every alternative digit has failed. -/
theorem valid_dig_cases (P : Board) (hs : P.Sync) (hw : P.MemWord) (i j : Nat) (hi : i < 9)
    (hj : j < 9) (level : difficulty) :
    ∃ ok P1, Holes._valid_dig P i j level = some (ok, P1) ∧
      (P1 = P ∨ (P1 = (P.unset i j).2 ∧ (level = difficulty.EASY → P1.BasicSolved) ∧
        ∀ num, 1 ≤ num → num ≤ 9 → num ≠ (P.unset i j).1 →
          P1.mask_check i j (bitFor num) ≠ 0 → ¬ (P1.set i j num false).Solvable)) := by
  obtain ⟨um, umem, _⟩ := unset_props P i j
  have hs1 : (P.unset i j).2.Sync := hs.unset hi hj
  have hw1 : (P.unset i j).2.MemWord := by
    intro p hp
    rw [umem]; exact hw p hp
  have hz1 : (P.unset i j).2.matrix i j = 0 := by
    rw [um]; simp [upd2_apply]
  have hback := set_after_unset hs hi hj
  obtain ⟨res, hres, hpost⟩ := altLoop_spec _ hs1 hw1 i j (P.unset i j).1 hi hj hz1
    (List.range' 1 9) (fun num hnum => by rw [List.mem_range'_1] at hnum; omega)
  have hfin : ∀ res, Holes.altLoop (P.unset i j).2 i j (P.unset i j).1 (List.range' 1 9)
      = some res →
      (res = false → ∀ num ∈ List.range' 1 9, num ≠ (P.unset i j).1 →
        (P.unset i j).2.mask_check i j (bitFor num) ≠ 0 →
        ¬ ((P.unset i j).2.set i j num false).Solvable) →
      ∀ num, 1 ≤ num → num ≤ 9 → res = false → num ≠ (P.unset i j).1 →
        (P.unset i j).2.mask_check i j (bitFor num) ≠ 0 →
        ¬ ((P.unset i j).2.set i j num false).Solvable := by
    intro res _ hp num n1 n9 hr hne hmask
    exact hp hr num (by rw [List.mem_range'_1]; omega) hne hmask
  unfold Holes._valid_dig
  dsimp only
  by_cases hl : level = difficulty.EASY
  · rw [if_pos hl]
    obtain ⟨bd, hbd, _⟩ := hidden_fill_total (P.unset i j).2
    rw [hbd]
    dsimp only
    by_cases hrem : bd.remaining = 0
    · have e : (bd.remaining != 0) = false := by simp [hrem]
      rw [e]
      dsimp only
      rw [hres]
      cases res with
      | true =>
        dsimp only
        exact ⟨false, _, rfl, Or.inl hback⟩
      | false =>
        dsimp only
        exact ⟨true, _, rfl, Or.inr ⟨rfl, fun _ => ⟨bd, hbd, hrem⟩,
          fun num n1 n9 => hfin false hres hpost num n1 n9 rfl⟩⟩
    · have e : (bd.remaining != 0) = true := by simp [hrem]
      rw [e]
      dsimp only
      exact ⟨false, _, rfl, Or.inl hback⟩
  · rw [if_neg hl]
    dsimp only
    rw [hres]
    cases res with
    | true =>
      dsimp only
      exact ⟨false, _, rfl, Or.inl hback⟩
    | false =>
      dsimp only
      exact ⟨true, _, rfl, Or.inr ⟨rfl, fun h => absurd h hl,
        fun num n1 n9 => hfin false hres hpost num n1 n9 rfl⟩⟩



/-! ## `digHoles` -/

theorem base_le (i : Nat) : base.getD i 0 ≤ 60 := by
  by_cases h : i < 9
  · interval_cases i <;> decide
  · rw [List.getD_eq_default _ _ (by simp [base]; omega)]
    omega

theorem look_up_le (i : Nat) : look_up.getD i 0 ≤ 20 := by
  by_cases h : i < 9
  · interval_cases i <;> decide
  · rw [List.getD_eq_default _ _ (by simp [look_up]; omega)]
    omega

theorem random_by_level_le (level : difficulty) (r : RandState) :
    (Holes._random_by_level level r).1 ≤ 9 := by
  unfold Holes._random_by_level
  dsimp only
  cases level with
  | EASY =>
    dsimp only
    split_ifs with h
    · dsimp only; omega
    · dsimp only; omega
  | MEDIUM => dsimp only; omega
  | DIFFICULT => dsimp only; omega
  | EVIL => dsimp only; omega
  | DEFAULT => dsimp only; omega

/-- The digging loop of one block returns and keeps every property that `_valid_dig`
keeps. -/
theorem digBlock_inv (I : Board → Prop) (level : difficulty)
    (hstep : ∀ P i j, i < 9 → j < 9 → I P →
      ∃ ok P1, Holes._valid_dig P i j level = some (ok, P1) ∧ I P1)
    (array : List Nat) (i : Nat) :
    ∀ (k : Nat) (P : Board) (j diff : Nat), diff ≤ 9 → j ≤ 9 → 10 ≤ k + j → I P →
      ∃ P1, Holes.digBlock level array i k P j diff = some P1 ∧ I P1 := by
  intro k
  induction k with
  | zero => intro P j diff _ hj hk; omega
  | succ k ih =>
    intro P j diff hd hj hk hP
    rw [Holes.digBlock]
    by_cases hjd : j < diff
    · rw [if_pos hjd]
      dsimp only
      have hb := base_le i
      have hl := look_up_le (array.getD j 0)
      obtain ⟨ok, P1, h1, hI⟩ := hstep P
        ((base.getD i 0 + look_up.getD (array.getD j 0) 0) / 9)
        ((base.getD i 0 + look_up.getD (array.getD j 0) 0) % 9) (by omega) (by omega) hP
      rw [h1]
      cases ok with
      | true =>
        dsimp only
        exact ih P1 (j + 1) diff hd (by omega) (by omega) hI
      | false =>
        dsimp only
        by_cases h10 : diff + 1 = 10
        · rw [if_pos h10]; exact ⟨P1, rfl, hI⟩
        · rw [if_neg h10]
          exact ih P1 (j + 1) (diff + 1) (by omega) (by omega) (by omega) hI
    · rw [if_neg hjd]; exact ⟨P, rfl, hP⟩

/-- The digging of holes returns and keeps every property that `_valid_dig` keeps, for
every shuffle and every random source. -/
theorem digHoles_inv (I : Board → Prop) (level : difficulty)
    (hstep : ∀ P i j, i < 9 → j < 9 → I P →
      ∃ ok P1, Holes._valid_dig P i j level = some (ok, P1) ∧ I P1)
    (shuffle : List Nat → RandState → List Nat × RandState) (P : Board) (array : List Nat)
    (r : RandState) (hP : I P) :
    ∃ P1 array1 r1, Holes.digHoles shuffle level P array r = some (P1, array1, r1) ∧ I P1 := by
  unfold Holes.digHoles
  refine foldl_inv (fun (st : Option (Board × List Nat × RandState)) =>
    ∃ P1 array1 r1, st = some (P1, array1, r1) ∧ I P1) _ (List.range 9) _
    ⟨P, array, r, rfl, hP⟩ ?_
  rintro st i _ ⟨P1, a1, r1, rfl, h1⟩
  dsimp only
  obtain ⟨P2, h2, hI⟩ := digBlock_inv I level hstep
    (shuffle a1 (Holes._random_by_level level r1).2).1 i 10 P1 0
    (Holes._random_by_level level r1).1 (random_by_level_le level r1) (by omega) (by omega) h1
  rw [h2]
  exact ⟨P2, _, _, rfl, hI⟩


/-! ## The puzzle left by `digHoles` -/

theorem agrees_unset {P : Board} {A : Nat → Nat → Nat} (ha : Agrees P.matrix A) (i j : Nat) :
    Agrees (P.unset i j).2.matrix A := by
  apply agrees_of
  intro r c hr hc
  rw [(unset_props P i j).1, upd2_apply]
  split_ifs with h
  · intro h0; exact absurd rfl h0
  · exact ha.at hr hc

/-- A dig that `_valid_dig` accepts or undoes leaves the puzzle with the same single
solution. -/
theorem valid_dig_dug {P : Board} {A : Nat → Nat → Nat} (hd : P.Dug A) (i j : Nat)
    (hi : i < 9) (hj : j < 9) (level : difficulty) :
    ∃ ok P1, Holes._valid_dig P i j level = some (ok, P1) ∧ P1.Dug A := by
  obtain ⟨ok, P1, h1, hc⟩ := valid_dig_cases P hd.sync (memWord_of_allSet hd.mem) i j hi hj level
  refine ⟨ok, P1, h1, ?_⟩
  rcases hc with rfl | ⟨rfl, _, hno⟩
  · exact hd
  obtain ⟨um, umem, uval⟩ := unset_props P i j
  have hs1 : (P.unset i j).2.Sync := hd.sync.unset hi hj
  have hm1 : (P.unset i j).2.memory = fun _ _ => allSet := by rw [umem]; exact hd.mem
  have hz1 : (P.unset i j).2.matrix i j = 0 := by
    rw [um]; simp [upd2_apply]
  refine ⟨hs1, hm1, agrees_unset hd.agrees i j, ?_⟩
  intro S hv ha
  apply hd.unique S hv
  apply agrees_of
  intro r c hr hc hne
  by_cases hrc : r = i ∧ c = j
  · obtain ⟨rfl, rfl⟩ := hrc
    by_contra hdiff
    have r0 := hv.gridOk.range r c hr hc
    have hposs := hs1.sol_possible hv.gridOk ha hr hc hz1
    have hmask : (P.unset r c).2.mask_check r c (bitFor (S r c)) ≠ 0 := by
      rw [mask_check_ne_zero]
      refine ⟨hposs, ?_⟩
      rw [hm1, testBit_allSet, decide_eq_true_eq]
      omega
    apply hno (S r c) r0.1 r0.2 (by rw [uval]; exact fun e => hdiff e.symm) hmask
    refine ⟨S, hv, ?_, memHas_of_allSet ?_ hv.gridOk⟩
    · apply agrees_of
      intro r2 c2 hr2 hc2
      rw [set_false_eq _ _ _ _ (by omega)]
      simp only [upd2_apply]
      split_ifs with hh
      · obtain ⟨rfl, rfl⟩ := hh
        intro _; rfl
      · exact ha.at hr2 hc2
    · rw [set_false_eq _ _ _ _ (by omega)]
      exact hm1
  · have e : (P.unset i j).2.matrix r c = P.matrix r c := by
      rw [um, upd2_apply, if_neg hrc]
    rw [← e]
    exact ha.at hr hc (by rw [e]; exact hne)

theorem dug_start {answer : Board} {A : Nat → Nat → Nat} (hA : Valid A) (hs : answer.Sync)
    (hm : answer.memory = fun _ _ => allSet)
    (hmat : ∀ p ∈ cells, answer.matrix p.1 p.2 = A p.1 p.2) : answer.Dug A := by
  refine ⟨hs, hm, ?_, ?_⟩
  · intro p hp _
    exact hmat p hp
  · intro S _ ha p hp
    have hp2 := (mem_cells p).1 hp
    have r0 := hA.gridOk.range p.1 p.2 hp2.1 hp2.2
    rw [← hmat p hp]
    exact (ha p hp (by rw [hmat p hp]; omega)).symm

/-- C1: for every complete valid grid `A`, every difficulty level, every shuffle and
every random source, `Holes::digHoles` started on a board in step that holds `A` with
untouched memory returns a puzzle `P` with exactly one valid completion: every filled
cell of `P` equals the same cell of `A`, and every complete valid grid that agrees with
`P` on the filled cells of `P` is `A`. -/
theorem digHoles_unique (shuffle : List Nat → RandState → List Nat × RandState)
    (level : difficulty) (A : Nat → Nat → Nat) (hA : Valid A) (answer : Board)
    (hs : answer.Sync) (hm : answer.memory = fun _ _ => allSet)
    (hmat : ∀ p ∈ cells, answer.matrix p.1 p.2 = A p.1 p.2) (array : List Nat)
    (r : RandState) :
    ∃ P array1 r1, Holes.digHoles shuffle level answer array r = some (P, array1, r1) ∧
      Agrees P.matrix A ∧
      ∀ S, Valid S → Agrees P.matrix S → ∀ p ∈ cells, S p.1 p.2 = A p.1 p.2 := by
  obtain ⟨P, a1, r1, h1, hd⟩ := digHoles_inv (fun P => P.Dug A) level
    (fun P i j hi hj hP => valid_dig_dug hP i j hi hj level) shuffle answer array r
    (dug_start hA hs hm hmat)
  exact ⟨P, a1, r1, h1, hd.agrees, hd.unique⟩

theorem GridOk.toInput {g : Nat → Nat → Nat} (h : GridOk g) : InputOk g :=
  ⟨fun r c hr hc => (h.range r c hr hc).2,
    fun r c1 c2 hr h1 h2 _ he => h.row_inj r c1 c2 hr h1 h2 he,
    fun r1 r2 c h1 h2 hc _ he => h.col_inj r1 r2 c h1 h2 hc he,
    fun r1 c1 r2 c2 h1 hc1 h2 hc2 e1 e2 _ he => h.block_inj r1 c1 r2 c2 h1 hc1 h2 hc2 e1 e2 he⟩

theorem load_sample :
    (Board.load sampleGrid).Sync ∧ (Board.load sampleGrid).memory = (fun _ _ => allSet) ∧
    ∀ p ∈ cells, (Board.load sampleGrid).matrix p.1 p.2 = sampleGrid p.1 p.2 := by
  obtain ⟨h1, h2, h3, _⟩ := load_spec sampleGrid sampleGrid_valid.gridOk.toInput
  exact ⟨h1, h3, fun p hp => h2 p.1 p.2 ((mem_cells p).1 hp).1 ((mem_cells p).1 hp).2⟩

theorem digHoles_unique_witness :
    Valid sampleGrid ∧ (Board.load sampleGrid).Sync ∧
    (Board.load sampleGrid).memory = (fun _ _ => allSet) ∧
    (∀ p ∈ cells, (Board.load sampleGrid).matrix p.1 p.2 = sampleGrid p.1 p.2) ∧
    ∃ P array1 r1, Holes.digHoles idShuffle difficulty.EVIL (Board.load sampleGrid) startArray
        zeroRand = some (P, array1, r1) ∧
      Agrees P.matrix sampleGrid ∧
      ∀ S, Valid S → Agrees P.matrix S → ∀ p ∈ cells, S p.1 p.2 = sampleGrid p.1 p.2 :=
  ⟨sampleGrid_valid, load_sample.1, load_sample.2.1, load_sample.2.2,
    digHoles_unique idShuffle difficulty.EVIL sampleGrid sampleGrid_valid (Board.load sampleGrid)
      load_sample.1 load_sample.2.1 load_sample.2.2 startArray zeroRand⟩

/-! ## EASY puzzles -/

theorem basicSolved_full {b : Board} (hs : b.Sync)
    (hfull : ∀ r c, r < 9 → c < 9 → b.matrix r c ≠ 0) : b.BasicSolved := by
  refine ⟨b, hidden_fill_fixed b (hidden_sweep_full b hfull), ?_⟩
  show b.remains = 0
  rw [hs.remains_eq]
  exact countZeros_eq_zero _ hfull

/-- C9: for every complete valid grid `A`, every shuffle and every random source,
`Holes::digHoles(EASY)` started on a board in step that holds `A` with untouched memory
returns a puzzle that the basic pass alone solves: `hidden_fill` on a copy of it leaves
`remaining() == 0`. -/
theorem digHoles_easy_basic (shuffle : List Nat → RandState → List Nat × RandState)
    (A : Nat → Nat → Nat) (hA : Valid A) (answer : Board)
    (hs : answer.Sync) (hm : answer.memory = fun _ _ => allSet)
    (hmat : ∀ p ∈ cells, answer.matrix p.1 p.2 = A p.1 p.2) (array : List Nat)
    (r : RandState) :
    ∃ P array1 r1, Holes.digHoles shuffle difficulty.EASY answer array r
        = some (P, array1, r1) ∧
      ∃ b1, P.hidden_fill = some b1 ∧ b1.remaining = 0 := by
  have hfull : ∀ r c, r < 9 → c < 9 → answer.matrix r c ≠ 0 := by
    intro r c hr hc
    have r0 := hA.gridOk.range r c hr hc
    have := hmat (r, c) ((mem_cells (r, c)).2 ⟨hr, hc⟩)
    dsimp only at this
    omega
  obtain ⟨P, a1, r1, h1, hI⟩ := digHoles_inv
    (fun P => P.Sync ∧ P.memory = (fun _ _ => allSet) ∧ P.BasicSolved) difficulty.EASY
    (fun P i j hi hj hP => by
      obtain ⟨ok, P1, h1, hc⟩ := valid_dig_cases P hP.1 (memWord_of_allSet hP.2.1) i j hi hj
        difficulty.EASY
      refine ⟨ok, P1, h1, ?_⟩
      rcases hc with rfl | ⟨rfl, hb, _⟩
      · exact hP
      · exact ⟨hP.1.unset hi hj, by rw [(unset_props P i j).2.1]; exact hP.2.1, hb rfl⟩)
    shuffle answer array r ⟨hs, hm, basicSolved_full hs hfull⟩
  exact ⟨P, a1, r1, h1, hI.2.2⟩

theorem digHoles_easy_basic_witness :
    Valid sampleGrid ∧ (Board.load sampleGrid).Sync ∧
    (Board.load sampleGrid).memory = (fun _ _ => allSet) ∧
    (∀ p ∈ cells, (Board.load sampleGrid).matrix p.1 p.2 = sampleGrid p.1 p.2) ∧
    ∃ P array1 r1, Holes.digHoles idShuffle difficulty.EASY (Board.load sampleGrid) startArray
        zeroRand = some (P, array1, r1) ∧
      ∃ b1, P.hidden_fill = some b1 ∧ b1.remaining = 0 :=
  ⟨sampleGrid_valid, load_sample.1, load_sample.2.1, load_sample.2.2,
    digHoles_easy_basic idShuffle sampleGrid sampleGrid_valid (Board.load sampleGrid)
      load_sample.1 load_sample.2.1 load_sample.2.2 startArray zeroRand⟩



/-! ## The empty grid -/

theorem zero_dupFree : DupFree (fun _ _ => 0) := by decide

/-- C15: on the empty 9x9 grid loaded into a fresh board, the passes `hidden_fill`,
`advanced_fill` and `backtrack` run in a row return true, `Sudoku::_solve` returns true,
and the resulting matrix has no zero cell and contains each digit 1..9 exactly once in
every row, column and 3x3 block. -/
theorem solve_empty_grid :
    (∃ b1 b2 b3, (Board.load (fun _ _ => 0)).hidden_fill = some b1 ∧
      b1.advanced_fill = some b2 ∧ b2.backtrack = some (true, b3) ∧
      (∀ p ∈ cells, b3.matrix p.1 p.2 ≠ 0) ∧ Valid b3.matrix) ∧
    ∃ s, Sudoku.ofGrid (fun _ _ => 0) = some (true, s) ∧
      (∀ p ∈ cells, s._answer.matrix p.1 p.2 ≠ 0) ∧ Valid s._answer.matrix := by
  obtain ⟨hs, _, hmem, _⟩ := load_spec (fun _ _ => 0) zero_dupFree.inputOk
  have ha : Agrees (Board.load (fun _ _ => 0)).matrix sampleGrid :=
    agrees_load zero_dupFree.inputOk (fun _ _ h => absurd rfl h)
  have hw := memWord_of_allSet hmem
  have hm : (Board.load (fun _ _ => 0)).MemHas sampleGrid :=
    memHas_of_allSet hmem sampleGrid_valid.gridOk
  constructor
  · obtain ⟨b1, b2, res, b3, h1, h2, h3, _, _, _, hpost⟩ := pipeline_total _ hs hw
    obtain ⟨c1, c2, c3, g1, g2, g3⟩ := pipeline_complete _ hs hw sampleGrid_valid ha hm
    rw [h1] at g1
    cases g1
    rw [h2] at g2
    cases g2
    rw [h3] at g3
    cases g3
    obtain ⟨p1, p2, _⟩ := hpost.2.1 rfl
    refine ⟨b1, b2, b3, h1, h2, h3, fun p hp => ?_, p1.valid_of_full p2⟩
    exact no_blank_of_countZeros _ p2 p.1 p.2 ((mem_cells p).1 hp).1 ((mem_cells p).1 hp).2
  · generalize hL : Board.load (fun _ _ => 0) = L at hs ha hw hm
    have hof : Sudoku.ofGrid (fun _ _ => 0) = Sudoku._solve (Sudoku.mk L L) := by
      unfold Sudoku.ofGrid
      rw [hL]
    obtain ⟨s, h⟩ := solve_complete_aux (Sudoku.mk L L) hs hw sampleGrid_valid ha hm
    obtain ⟨a1, a2, _⟩ := solve_true_spec (Sudoku.mk L L) s hs h
    refine ⟨s, hof.trans h, fun p hp => ?_, a1.valid_of_full a2⟩
    exact no_blank_of_countZeros _ a2 p.1 p.2 ((mem_cells p).1 hp).1 ((mem_cells p).1 hp).2


/-! ## The passes keep every solution -/

theorem noRepeat_of_inj (f : Nat → Nat)
    (h : ∀ t1 t2, t1 < 9 → t2 < 9 → f t1 ≠ 0 → f t1 = f t2 → t1 = t2) :
    (((List.range 9).map f).filter (fun v => v ≠ 0)).Nodup := by
  rw [List.filter_map]
  apply List.Nodup.map_on
  · intro x hx y hy he
    simp only [List.mem_filter, List.mem_range, Function.comp_apply, decide_eq_true_eq] at hx hy
    exact h x y hx.1 hy.1 hx.2 he
  · exact (List.nodup_range 9).filter _

/-- A board in step has no repeated nonzero digit in any row, column or block. -/
theorem Board.Sync.dupFree {b : Board} (hs : b.Sync) : DupFree b.matrix := by
  refine ⟨fun p hp => hs.val_le p.1 p.2 ((mem_cells p).1 hp).1 ((mem_cells p).1 hp).2, ?_⟩
  intro k hk
  rw [List.mem_range] at hk
  refine ⟨?_, ?_, ?_⟩
  · unfold noRepeat rowCells
    rw [List.map_map]
    exact noRepeat_of_inj (fun t => b.matrix k t) (fun t1 t2 h1 h2 hne he =>
      hs.row_inj k t1 t2 hk h1 h2 hne he)
  · unfold noRepeat colCells
    rw [List.map_map]
    exact noRepeat_of_inj (fun t => b.matrix t k) (fun t1 t2 h1 h2 hne he =>
      hs.col_inj t1 t2 k h1 h2 hk hne he)
  · unfold noRepeat blockCells
    rw [List.map_map]
    apply noRepeat_of_inj (fun t => b.matrix (k / 3 * 3 + t / 3) (k % 3 * 3 + t % 3))
    intro t1 t2 h1 h2 hne he
    have := hs.block_inj (k / 3 * 3 + t1 / 3) (k % 3 * 3 + t1 % 3) (k / 3 * 3 + t2 / 3)
      (k % 3 * 3 + t2 % 3) (by omega) (by omega) (by omega) (by omega) (by omega) (by omega)
      hne he
    omega

/-- C16: for every board reached from the empty board by legal placements and every
complete valid grid `S` that agrees with the filled cells of the board, `hidden_fill`
returns a board whose filled cells all agree with `S`, so every digit it placed is the
digit of `S` at its cell; the cells filled before keep their values, and the result has
no repeated digit in any row, column or block. -/
theorem hidden_fill_places_forced (cs : List Call) (hl : legalCalls Board.init cs)
    (S : Nat → Nat → Nat) (hv : Valid S) (ha : Agrees (Board.init.calls cs).matrix S) :
    ∃ b1, (Board.init.calls cs).hidden_fill = some b1 ∧ Agrees b1.matrix S ∧
      (∀ r c, (Board.init.calls cs).matrix r c ≠ 0 →
        b1.matrix r c = (Board.init.calls cs).matrix r c) ∧
      DupFree b1.matrix := by
  have hs := Board.init_sync.calls cs hl
  obtain ⟨b1, h1, _⟩ := hidden_fill_total (Board.init.calls cs)
  obtain ⟨hs1, _, _, hext, hsol⟩ := hidden_fill_spec _ b1 hs h1
  exact ⟨b1, h1, hsol S hv ha, hext, hs1.dupFree⟩

theorem hidden_fill_places_forced_witness :
    legalCalls Board.init [.set 0 0 5 false, .set 0 1 3 false, .set 8 8 9 false] ∧
    Valid sampleGrid ∧
    Agrees (Board.init.calls [.set 0 0 5 false, .set 0 1 3 false, .set 8 8 9 false]).matrix
      sampleGrid ∧
    ∃ b1, (Board.init.calls [.set 0 0 5 false, .set 0 1 3 false,
        .set 8 8 9 false]).hidden_fill = some b1 ∧ Agrees b1.matrix sampleGrid ∧
      (∀ r c, (Board.init.calls [.set 0 0 5 false, .set 0 1 3 false,
          .set 8 8 9 false]).matrix r c ≠ 0 →
        b1.matrix r c = (Board.init.calls [.set 0 0 5 false, .set 0 1 3 false,
          .set 8 8 9 false]).matrix r c) ∧
      DupFree b1.matrix :=
  ⟨by decide, sampleGrid_valid, by decide,
    hidden_fill_places_forced _ (by decide) sampleGrid sampleGrid_valid (by decide)⟩

theorem memWord_calls {b : Board} (hw : b.MemWord) (cs : List Call) : (b.calls cs).MemWord := by
  induction cs generalizing b with
  | nil => exact hw
  | cons cl cs ih =>
    apply ih
    cases cl with
    | set row col val adv =>
      have hn := (Board.narrows_set_adv b row col val adv).memLe
      apply hn.memWord
      by_cases hd : val = 0
      · subst hd; rw [set_zero_eq]; exact hw
      · rw [set_false_eq _ _ _ _ hd]; exact hw
    | unset row col =>
      intro p hp
      show ((b.unset row col).2.memory p.1 p.2) < _
      rw [(unset_props b row col).2.1]
      exact hw p hp

/-- C17: for every board reached from the empty board by legal placements whose memory
holds all nine bits on its blank cells, and every complete valid grid `S` that agrees
with the filled cells of the board, `advanced_fill` returns a board whose filled cells
all agree with `S` and on which, at every cell still blank, the bit of the digit of `S`
is set in the memory of the cell and in `possible`. -/
theorem advanced_fill_keeps_solution (cs : List Call) (hl : legalCalls Board.init cs)
    (hopen : ∀ p ∈ cells, (Board.init.calls cs).matrix p.1 p.2 = 0 →
      (Board.init.calls cs).memory p.1 p.2 = allSet)
    (S : Nat → Nat → Nat) (hv : Valid S) (ha : Agrees (Board.init.calls cs).matrix S) :
    ∃ b1, (Board.init.calls cs).advanced_fill = some b1 ∧ Agrees b1.matrix S ∧
      ∀ p ∈ cells, b1.matrix p.1 p.2 = 0 →
        (b1.memory p.1 p.2).testBit (S p.1 p.2 - 1) = true ∧
        (b1.Blank.possible p.1 p.2).testBit (S p.1 p.2 - 1) = true := by
  have hs := Board.init_sync.calls cs hl
  have hw : (Board.init.calls cs).MemWord :=
    memWord_calls (memWord_of_allSet (b := Board.init) rfl) cs
  have hm : (Board.init.calls cs).MemHas S := by
    intro r c hr hc hz
    have r0 := hv.gridOk.range r c hr hc
    rw [hopen (r, c) ((mem_cells (r, c)).2 ⟨hr, hc⟩) hz, testBit_allSet, decide_eq_true_eq]
    omega
  obtain ⟨b1, h1⟩ := advanced_fill_total _ hw
  have hk := advanced_fill_keeps _ b1 hs hv ha hm h1
  refine ⟨b1, h1, hk.agrees, fun p hp hz => ?_⟩
  have hp2 := (mem_cells p).1 hp
  exact ⟨hk.memHas p.1 p.2 hp2.1 hp2.2 hz,
    hk.sync.sol_possible hv.gridOk hk.agrees hp2.1 hp2.2 hz⟩

theorem advanced_fill_keeps_solution_witness :
    legalCalls Board.init [.set 0 0 5 false, .set 0 1 3 false, .set 8 8 9 false] ∧
    (∀ p ∈ cells,
      (Board.init.calls [.set 0 0 5 false, .set 0 1 3 false, .set 8 8 9 false]).matrix p.1 p.2 = 0 →
      (Board.init.calls [.set 0 0 5 false, .set 0 1 3 false, .set 8 8 9 false]).memory p.1 p.2
        = allSet) ∧
    Valid sampleGrid ∧
    Agrees (Board.init.calls [.set 0 0 5 false, .set 0 1 3 false, .set 8 8 9 false]).matrix
      sampleGrid ∧
    ∃ b1, (Board.init.calls [.set 0 0 5 false, .set 0 1 3 false,
        .set 8 8 9 false]).advanced_fill = some b1 ∧ Agrees b1.matrix sampleGrid ∧
      ∀ p ∈ cells, b1.matrix p.1 p.2 = 0 →
        (b1.memory p.1 p.2).testBit (sampleGrid p.1 p.2 - 1) = true ∧
        (b1.Blank.possible p.1 p.2).testBit (sampleGrid p.1 p.2 - 1) = true :=
  ⟨by decide, by decide, sampleGrid_valid, by decide,
    advanced_fill_keeps_solution _ (by decide) (by decide) sampleGrid sampleGrid_valid
      (by decide)⟩



/-! ## `findMin`: minimum remaining values -/

theorem cells_eq_range : cells = (List.range 81).map (fun k => (k / 9, k % 9)) := by decide

/-- The scan of `findMin` over the first `n` cells in row-major order. -/
theorem findMin_prefix (b : Board) (n : Nat) (hn : n ≤ 81) :
    let t := ((List.range n).map (fun k => (k / 9, k % 9))).foldl (fun (s : MinCell) p =>
      if b.matrix p.1 p.2 = 0 ∧ bitCount (b.Blank.possible p.1 p.2 &&& b.memory p.1 p.2) < s.count
      then { found := true
             count := bitCount (b.Blank.possible p.1 p.2 &&& b.memory p.1 p.2)
             row := p.1
             col := p.2 }
      else s) { found := false, count := 10, row := 0, col := 0 }
    (t.found = false → t.count = 10 ∧ ∀ k, k < n → b.matrix (k / 9) (k % 9) ≠ 0) ∧
    (t.found = true → t.row < 9 ∧ t.col < 9 ∧ 9 * t.row + t.col < n ∧
      b.matrix t.row t.col = 0 ∧
      t.count = bitCount (b.Blank.possible t.row t.col &&& b.memory t.row t.col) ∧
      ∀ k, k < n → b.matrix (k / 9) (k % 9) = 0 →
        t.count ≤ bitCount (b.Blank.possible (k / 9) (k % 9) &&& b.memory (k / 9) (k % 9)) ∧
        (k < 9 * t.row + t.col →
          t.count < bitCount (b.Blank.possible (k / 9) (k % 9) &&& b.memory (k / 9) (k % 9)))) := by
  induction n with
  | zero =>
    dsimp only
    refine ⟨fun _ => ⟨rfl, fun k hk => absurd hk (by omega)⟩, fun h => ?_⟩
    simp at h
  | succ n ih =>
    have ih := ih (by omega)
    dsimp only at ih ⊢
    rw [List.range_succ, List.map_append, List.foldl_append]
    generalize ((List.range n).map (fun k => (k / 9, k % 9))).foldl (fun (s : MinCell) p =>
      if b.matrix p.1 p.2 = 0 ∧ bitCount (b.Blank.possible p.1 p.2 &&& b.memory p.1 p.2) < s.count
      then { found := true
             count := bitCount (b.Blank.possible p.1 p.2 &&& b.memory p.1 p.2)
             row := p.1
             col := p.2 }
      else s) { found := false, count := 10, row := 0, col := 0 } = s at ih
    obtain ⟨i1, i2⟩ := ih
    simp only [List.map_cons, List.map_nil, List.foldl_cons, List.foldl_nil]
    have hb := bitCount_le_9 (b.Blank.possible (n / 9) (n % 9) &&& b.memory (n / 9) (n % 9))
    by_cases hc : b.matrix (n / 9) (n % 9) = 0 ∧
        bitCount (b.Blank.possible (n / 9) (n % 9) &&& b.memory (n / 9) (n % 9)) < s.count
    · rw [if_pos hc]
      refine ⟨fun h => by simp at h, fun _ => ?_⟩
      dsimp only
      refine ⟨by omega, by omega, by omega, hc.1, rfl, ?_⟩
      intro k hk hz
      have e : 9 * (n / 9) + n % 9 = n := by omega
      rw [e]
      by_cases hkn : k = n
      · subst hkn
        exact ⟨le_refl _, fun h => absurd h (by omega)⟩
      · cases hf : s.found with
        | false =>
          exact absurd hz ((i1 hf).2 k (by omega))
        | true =>
          obtain ⟨_, _, _, _, _, j6⟩ := i2 hf
          have := (j6 k (by omega) hz).1
          exact ⟨by omega, fun _ => by omega⟩
    · rw [if_neg hc]
      constructor
      · intro hf
        obtain ⟨j1, j2⟩ := i1 hf
        refine ⟨j1, fun k hk => ?_⟩
        by_cases hkn : k = n
        · subst hkn
          intro hz
          exact hc ⟨hz, by omega⟩
        · exact j2 k (by omega)
      · intro hf
        obtain ⟨j1, j2, j3, j4, j5, j6⟩ := i2 hf
        refine ⟨j1, j2, by omega, j4, j5, fun k hk hz => ?_⟩
        by_cases hkn : k = n
        · subst hkn
          exact ⟨by
            have : ¬ bitCount (b.Blank.possible (k / 9) (k % 9) &&& b.memory (k / 9) (k % 9))
                < s.count := fun h => hc ⟨hz, h⟩
            omega, fun h => absurd h (by omega)⟩
        · exact j6 k (by omega) hz

/-- C18: `findMin` returns false iff the board has no blank cell; otherwise the returned
cell is blank, its candidate count `bitCount(possible & memory)` is at most that of
every blank cell and strictly less than that of every blank cell earlier in row-major
order, and the `unique` flag is set iff that count is 1; the flag is not set when no
blank cell is found. -/
theorem findMin_minimum_remaining (b : Board) :
    (b.findMin.1 = false ↔ ∀ r c, r < 9 → c < 9 → b.matrix r c ≠ 0) ∧
    (b.findMin.1 = false → b.findMin.2.2.2 = false) ∧
    (b.findMin.1 = true →
      b.findMin.2.1 < 9 ∧ b.findMin.2.2.1 < 9 ∧ b.matrix b.findMin.2.1 b.findMin.2.2.1 = 0 ∧
      (∀ r c, r < 9 → c < 9 → b.matrix r c = 0 →
        bitCount (b.Blank.possible b.findMin.2.1 b.findMin.2.2.1 &&&
            b.memory b.findMin.2.1 b.findMin.2.2.1)
          ≤ bitCount (b.Blank.possible r c &&& b.memory r c) ∧
        (r < b.findMin.2.1 ∨ (r = b.findMin.2.1 ∧ c < b.findMin.2.2.1) →
          bitCount (b.Blank.possible b.findMin.2.1 b.findMin.2.2.1 &&&
              b.memory b.findMin.2.1 b.findMin.2.2.1)
            < bitCount (b.Blank.possible r c &&& b.memory r c))) ∧
      (b.findMin.2.2.2 = true ↔
        bitCount (b.Blank.possible b.findMin.2.1 b.findMin.2.2.1 &&&
          b.memory b.findMin.2.1 b.findMin.2.2.1) = 1)) := by
  have h := findMin_prefix b 81 (le_refl _)
  rw [← cells_eq_range, ← findMinScan_eq] at h
  dsimp only at h
  obtain ⟨i1, i2⟩ := h
  have e1 : b.findMin.1 = b.findMinScan.found := rfl
  have e2 : b.findMin.2.1 = b.findMinScan.row := rfl
  have e3 : b.findMin.2.2.1 = b.findMinScan.col := rfl
  have e4 : b.findMin.2.2.2 = (b.findMinScan.count == 1) := rfl
  rw [e1, e2, e3, e4]
  refine ⟨⟨fun hf r c hr hc => ?_, fun hall => ?_⟩, fun hf => ?_, fun hf => ?_⟩
  · have := (i1 hf).2 (9 * r + c) (by omega)
    have a1 : (9 * r + c) / 9 = r := by omega
    have a2 : (9 * r + c) % 9 = c := by omega
    rwa [a1, a2] at this
  · by_contra hne
    have hf : b.findMinScan.found = true := by simpa using hne
    obtain ⟨j1, j2, _, j4, _⟩ := i2 hf
    exact hall _ _ j1 j2 j4
  · rw [(i1 hf).1]; rfl
  · obtain ⟨j1, j2, j3, j4, j5, j6⟩ := i2 hf
    refine ⟨j1, j2, j4, fun r c hr hc hz => ?_, ?_⟩
    · have a1 : (9 * r + c) / 9 = r := by omega
      have a2 : (9 * r + c) % 9 = c := by omega
      have := j6 (9 * r + c) (by omega) (by rw [a1, a2]; exact hz)
      rw [a1, a2, j5] at this
      refine ⟨this.1, fun hlt => this.2 ?_⟩
      rcases hlt with h | ⟨h1, h2⟩
      · omega
      · omega
    · rw [beq_iff_eq, j5]



/-! ## The loader -/

theorem set_matrix (b : Board) (r c v : Nat) :
    (b.set r c v false).matrix = upd2 b.matrix r c v := by
  by_cases hv : v = 0
  · subst hv; rw [set_zero_eq]
  · rw [set_false_eq _ _ _ _ hv]

theorem load_fold_matrix (g : Nat → Nat → Nat) (l : List (Nat × Nat)) (hnd : l.Nodup)
    (b : Board) (r c : Nat) :
    (l.foldl (fun b p => b.set p.1 p.2 (g p.1 p.2) false) b).matrix r c
      = if (r, c) ∈ l then g r c else b.matrix r c := by
  induction l generalizing b with
  | nil => simp
  | cons q l ih =>
    rw [List.foldl_cons, ih (List.nodup_cons.1 hnd).2, set_matrix, upd2_apply]
    by_cases hq : (r, c) = q
    · subst hq
      simp [(List.nodup_cons.1 hnd).1]
    · have hq2 : ¬ (r = q.1 ∧ c = q.2) := fun h => hq (Prod.ext h.1 h.2)
      simp [hq, hq2]

/-- The reading loop places every number it reads: the matrix of the loaded board is the
input, whatever the input is. -/
theorem load_matrix (g : Nat → Nat → Nat) (r c : Nat) (hr : r < 9) (hc : c < 9) :
    (Board.load g).matrix r c = g r c := by
  rw [load_eq, load_fold_matrix g cells cells_nodup, if_pos ((mem_cells (r, c)).2 ⟨hr, hc⟩)]

/-- C12 as stated fails: on an input with the digit 5 twice in the first row the reading
loop places both copies into the board and counts two filled cells; nothing is
rejected. -/
theorem loader_places_duplicates :
    dupGrid 0 0 ≠ 0 ∧ dupGrid 0 0 = dupGrid 0 1 ∧
    (Board.load dupGrid).matrix 0 0 = 5 ∧ (Board.load dupGrid).matrix 0 1 = 5 ∧
    (Board.load dupGrid).remaining = 79 := by
  decide

/-- C12, amended: for every 9x9 input in which some row contains the same nonzero digit
twice, the loader validates nothing: the reading loop places all 81 values, so the
matrix of the board is the input and holds the repeated digit in both cells. -/
theorem loader_keeps_duplicates (g : Nat → Nat → Nat) (r c1 c2 : Nat) (hr : r < 9)
    (h1 : c1 < 9) (h2 : c2 < 9) (_hne : c1 ≠ c2) (h0 : g r c1 ≠ 0) (hd : g r c1 = g r c2) :
    (∀ p ∈ cells, (Board.load g).matrix p.1 p.2 = g p.1 p.2) ∧
    (Board.load g).matrix r c1 ≠ 0 ∧
    (Board.load g).matrix r c1 = (Board.load g).matrix r c2 := by
  refine ⟨fun p hp => load_matrix g p.1 p.2 ((mem_cells p).1 hp).1 ((mem_cells p).1 hp).2, ?_, ?_⟩
  · rw [load_matrix g r c1 hr h1]; exact h0
  · rw [load_matrix g r c1 hr h1, load_matrix g r c2 hr h2]; exact hd

theorem loader_keeps_duplicates_witness :
    (0 : Nat) ≠ 1 ∧ dupGrid 0 0 ≠ 0 ∧ dupGrid 0 0 = dupGrid 0 1 ∧
    (∀ p ∈ cells, (Board.load dupGrid).matrix p.1 p.2 = dupGrid p.1 p.2) ∧
    (Board.load dupGrid).matrix 0 0 ≠ 0 ∧
    (Board.load dupGrid).matrix 0 0 = (Board.load dupGrid).matrix 0 1 :=
  ⟨by decide, by decide, by decide,
    loader_keeps_duplicates dupGrid 0 0 1 (by decide) (by decide) (by decide) (by decide)
      (by decide) (by decide)⟩



/-! ## Text round trip -/

theorem showUnsigned_digit : ∀ v, v ≤ 9 →
    showUnsigned v = [Nat.digitChar v] ∧ (Nat.digitChar v).isDigit = true ∧
    isSpaceChar (Nat.digitChar v) = false ∧ (Nat.digitChar v).toNat - 48 = v := by
  decide

theorem dropWhile_space (ws : List Char) (hws : ∀ c ∈ ws, isSpaceChar c = true) (d : Char)
    (hd : isSpaceChar d = false) (rest : List Char) :
    (ws ++ d :: rest).dropWhile isSpaceChar = d :: rest := by
  induction ws with
  | nil => simp [List.dropWhile, hd]
  | cons w ws ih =>
    rw [List.cons_append, List.dropWhile_cons, if_pos (hws w (List.mem_cons_self _ _))]
    exact ih (fun c hc => hws c (List.mem_cons_of_mem _ hc))

/-- Reading one cell of the text of `print_board`: leading whitespace, one digit, and
the space after it. -/
theorem read_cell (ws : List Char) (hws : ∀ c ∈ ws, isSpaceChar c = true) (v : Nat) (hv : v ≤ 9)
    (rest : List Char) (num : Nat) :
    IStream.readUnsigned { buf := ws ++ (showUnsigned v ++ ' ' :: rest), fail := false } num
      = (v, { buf := ' ' :: rest, fail := false }) := by
  obtain ⟨e1, e2, e3, e4⟩ := showUnsigned_digit v hv
  have hsp : Char.isDigit ' ' = false := by decide
  unfold IStream.readUnsigned
  simp only [Bool.false_eq_true, if_false]
  rw [e1, List.singleton_append, dropWhile_space ws hws _ e3]
  simp only [List.takeWhile_cons, e2, hsp, if_true, List.dropWhile_cons, List.foldl_cons,
    List.foldl_nil, e4]
  simp
  omega

theorem read_cells (l : List (Nat × List Char))
    (hl : ∀ x ∈ l, x.1 ≤ 9 ∧ ∀ c ∈ x.2, isSpaceChar c = true) :
    ∀ (ws : List Char), (∀ c ∈ ws, isSpaceChar c = true) → ∀ (post : List Char) (num : Nat),
      readNumbers l.length
        { buf := ws ++ (l.flatMap (fun x => showUnsigned x.1 ++ ' ' :: x.2) ++ post),
          fail := false } num = l.map (fun x => x.1) := by
  induction l with
  | nil => intro ws _ post num; rfl
  | cons x l ih =>
    intro ws hws post num
    obtain ⟨hx1, hx2⟩ := hl x (List.mem_cons_self _ _)
    rw [List.length_cons, readNumbers, List.flatMap_cons]
    have e : ws ++ ((showUnsigned x.1 ++ ' ' :: x.2) ++
        l.flatMap (fun x => showUnsigned x.1 ++ ' ' :: x.2) ++ post)
        = ws ++ (showUnsigned x.1 ++ ' ' :: (x.2 ++
          (l.flatMap (fun x => showUnsigned x.1 ++ ' ' :: x.2) ++ post))) := by
      simp [List.append_assoc]
    rw [e, read_cell ws hws x.1 hx1]
    dsimp only
    rw [List.map_cons]
    congr 1
    have e2 : ' ' :: (x.2 ++ (l.flatMap (fun x => showUnsigned x.1 ++ ' ' :: x.2) ++ post))
        = (' ' :: x.2) ++ (l.flatMap (fun x => showUnsigned x.1 ++ ' ' :: x.2) ++ post) := rfl
    rw [e2]
    apply ih (fun y hy => hl y (List.mem_cons_of_mem _ hy))
    intro c hc
    rcases List.mem_cons.1 hc with rfl | hc
    · decide
    · exact hx2 c hc


theorem foldl_append_flatMap {α : Type} (f : α → List Char) (l : List α) (init : List Char) :
    l.foldl (fun (out : List Char) (x : α) => out ++ f x) init = init ++ l.flatMap f := by
  induction l generalizing init with
  | nil => simp
  | cons x l ih => rw [List.foldl_cons, ih, List.flatMap_cons, List.append_assoc]

/-- The text of a row followed by a newline, the newline being attached to the last
cell. -/
theorem row_text (f : Nat → List Char) :
    (List.range 9).flatMap f ++ ['\n']
      = (List.range 9).flatMap (fun j => f j ++ if j = 8 then ['\n'] else []) := by
  have e : List.range 9 = [0, 1, 2, 3, 4, 5, 6, 7, 8] := rfl
  rw [e]
  simp [List.flatMap_cons]

/-- The text that `print_board` writes, cell by cell. -/
theorem print_board_eq (b : Board) :
    b.print_board =
      (cells.map (fun p => (b.matrix p.1 p.2, if p.2 = 8 then ['\n'] else []))).flatMap
        (fun x => showUnsigned x.1 ++ ' ' :: x.2) ++ ['\n'] := by
  unfold Board.print_board
  have inner : ∀ (out : List Char) (i : Nat),
      (List.range 9).foldl (fun (out : List Char) (j : Nat) =>
        out ++ showUnsigned (b.matrix i j) ++ [' ']) out
        = out ++ (List.range 9).flatMap (fun j => showUnsigned (b.matrix i j) ++ [' ']) := by
    intro out i
    rw [← foldl_append_flatMap]
    congr 1
    funext o j
    rw [List.append_assoc]
  simp only [inner]
  have outer := foldl_append_flatMap (fun i =>
    (List.range 9).flatMap (fun j => showUnsigned (b.matrix i j) ++ [' ']) ++ ['\n'])
    (List.range 9) []
  simp only [List.append_assoc] at outer ⊢
  rw [outer, List.nil_append]
  congr 1
  simp only [cells, List.map_flatMap, List.flatMap_assoc, List.map_map, List.flatMap_map]
  congr 1
  funext i
  have := row_text (fun j => showUnsigned (b.matrix i j) ++ [' '])
  simp only [List.append_assoc] at this
  rw [this]
  congr 1

/-- C13: for every board whose cells hold values 0..9, the text written by `print_board`
(nine lines of nine numbers, each followed by a space, then an empty line), read back
by the 81 reads `in >> num` of the loader in row-major order and placed by its reading
loop, gives a board whose 81 cells equal those of the original. -/
theorem print_load_round_trip (b : Board) (hv : ∀ p ∈ cells, b.matrix p.1 p.2 ≤ 9)
    (r c : Nat) (hr : r < 9) (hc : c < 9) :
    (Board.load (Sudoku.readGrid b.print_board)).matrix r c = b.matrix r c := by
  rw [load_matrix _ r c hr hc]
  unfold Sudoku.readGrid
  have hlen : (cells.map (fun p => (b.matrix p.1 p.2,
      if p.2 = 8 then ['\n'] else []))).length = 81 := by
    rw [List.length_map]; decide
  have h := read_cells (cells.map (fun p => (b.matrix p.1 p.2, if p.2 = 8 then ['\n'] else [])))
    (fun x hx => by
      rw [List.mem_map] at hx
      obtain ⟨p, hp, rfl⟩ := hx
      refine ⟨hv p hp, fun ch hch => ?_⟩
      dsimp only at hch
      split_ifs at hch
      · rw [List.mem_singleton] at hch
        subst hch
        decide
      · cases hch) [] (fun _ h => absurd h (List.not_mem_nil _)) ['\n'] 0
  rw [hlen, List.nil_append, ← print_board_eq] at h
  rw [h, List.map_map, cells_eq_range, List.map_map, List.getD_eq_getElem?_getD,
    List.getElem?_map, List.getElem?_range (by omega)]
  simp only [Option.map_some', Option.getD_some, Function.comp_apply]
  have a1 : (9 * r + c) / 9 = r := by omega
  have a2 : (9 * r + c) % 9 = c := by omega
  rw [a1, a2]

theorem print_load_round_trip_witness :
    (∀ p ∈ cells, (Board.load sampleGrid).matrix p.1 p.2 ≤ 9) ∧
    (Board.load (Sudoku.readGrid (Board.load sampleGrid).print_board)).matrix 4 7
      = (Board.load sampleGrid).matrix 4 7 :=
  ⟨fun p hp => load_sample.1.val_le p.1 p.2 ((mem_cells p).1 hp).1 ((mem_cells p).1 hp).2,
    print_load_round_trip (Board.load sampleGrid)
      (fun p hp => load_sample.1.val_le p.1 p.2 ((mem_cells p).1 hp).1 ((mem_cells p).1 hp).2)
      4 7 (by decide) (by decide)⟩



/-! ## Interactive play -/

theorem blockedBoard_sync : blockedBoard.Sync := by
  have h := Board.init_sync
  exact ⟨h.val_le, h.rows_lt, h.cols_lt, h.blocks_lt, h.rows_bit, h.cols_bit, h.blocks_bit,
    h.row_inj, h.col_inj, h.block_inj, h.remains_eq⟩

theorem load_sample_valid : Valid (Board.load sampleGrid).matrix := by
  apply load_sample.1.valid_of_full
  apply countZeros_eq_zero
  intro r c hr hc
  rw [load_matrix _ r c hr hc]
  exact (by decide : ∀ r, r < 9 → ∀ c, c < 9 → sampleGrid r c ≠ 0) r hr c hc

/-- The effect of `play` on a board in step whose filled cells agree with a complete
valid answer grid and whose memory holds the digit of the answer at every blank cell: the
board changes iff cell `(row, col)` is blank and `val` is the value of the answer there;
in that case the board becomes `set(row, col, val)` of the old one, whose matrix differs
in that cell only, and in every other case the whole board is unchanged. The answer is
never changed. -/
theorem play_with_memory (s : Sudoku) (hs : s._board.Sync)
    (hv : Valid s._answer.matrix) (ha : Agrees s._board.matrix s._answer.matrix)
    (hm : s._board.MemHas s._answer.matrix) (row col val : Nat) (hr : row < 9) (hc : col < 9)
    (h1 : 1 ≤ val) (h9 : val ≤ 9) :
    ((s.play row col val)._board ≠ s._board ↔
      (s._board.matrix row col = 0 ∧ val = s._answer.matrix row col)) ∧
    (s._board.matrix row col = 0 ∧ val = s._answer.matrix row col →
      (s.play row col val)._board = s._board.set row col val false ∧
      (s.play row col val)._board.matrix = upd2 s._board.matrix row col val) ∧
    (¬ (s._board.matrix row col = 0 ∧ val = s._answer.matrix row col) →
      (s.play row col val)._board = s._board) ∧
    (s.play row col val)._answer = s._answer := by
  have hg := hv.gridOk
  have key : (s._board.mask_check row col (bitFor val) ≠ 0 ∧ s._answer.assert row col val = true)
      ↔ (s._board.matrix row col = 0 ∧ val = s._answer.matrix row col) := by
    rw [mask_check_ne_zero]
    unfold Board.assert
    rw [beq_iff_eq]
    constructor
    · rintro ⟨⟨hp, _⟩, he⟩
      refine ⟨?_, he.symm⟩
      by_contra hne
      have e := ha.at hr hc hne
      rw [possible_testBit] at hp
      exact (hs.rows_bit row val hr h1 h9).1 hp.1 col hc (e.trans he)
    · rintro ⟨hz, he⟩
      subst he
      exact ⟨⟨hs.sol_possible hg ha hr hc hz, hm row col hr hc hz⟩, rfl⟩
  have hset : s._board.set row col val false ≠ s._board ∨ s._board.matrix row col ≠ 0 := by
    by_cases hz : s._board.matrix row col = 0
    · left
      intro e
      have := congrArg (fun b => b.matrix row col) e
      dsimp only at this
      rw [set_matrix, upd2_apply, if_pos ⟨rfl, rfl⟩, hz] at this
      omega
    · exact Or.inr hz
  unfold Sudoku.play
  by_cases hk : s._board.matrix row col = 0 ∧ val = s._answer.matrix row col
  · obtain ⟨k1, k2⟩ := key.2 hk
    rw [if_pos k1, if_pos k2]
    dsimp only
    refine ⟨⟨fun _ => hk, fun _ => ?_⟩, fun _ => ⟨rfl, set_matrix _ _ _ _⟩,
      fun h => absurd hk h, rfl⟩
    rcases hset with h | h
    · exact h
    · exact absurd hk.1 h
  · have hn : ¬ (s._board.mask_check row col (bitFor val) ≠ 0 ∧
        s._answer.assert row col val = true) := fun h => hk (key.1 h)
    have e : (if s._board.mask_check row col (bitFor val) ≠ 0 then
        if s._answer.assert row col val = true then
          { s with _board := s._board.set row col val false }
        else s
      else s) = s := by
      by_cases k1 : s._board.mask_check row col (bitFor val) ≠ 0
      · rw [if_pos k1, if_neg (fun k2 => hn ⟨k1, k2⟩)]
      · rw [if_neg k1]
    rw [e]
    exact ⟨⟨fun h => absurd rfl h, fun h => absurd h hk⟩, fun h => absurd h hk, fun _ => rfl, rfl⟩


theorem load_puzzle_facts :
    (Board.load samplePuzzle).Sync ∧
    Agrees (Board.load samplePuzzle).matrix (Board.load sampleGrid).matrix ∧
    (Board.load samplePuzzle).MemHas (Board.load sampleGrid).matrix := by
  obtain ⟨h1, _, h3, _⟩ := load_spec samplePuzzle samplePuzzle_dupFree.inputOk
  refine ⟨h1, ?_, memHas_of_allSet h3 load_sample_valid.gridOk⟩
  apply agrees_of
  intro r c hr hc
  rw [load_matrix _ r c hr hc, load_matrix _ r c hr hc]
  exact samplePuzzle_agrees.at hr hc


/-! ## The log of the search -/

theorem btrackLoopLog_erase (recL : Board → Option ((Bool × Board) × List (Board × Nat)))
    (rec : Board → Option (Bool × Board)) (hrec : ∀ b, (recL b).map (fun x => x.1) = rec b)
    (row col : Nat) (unique : Bool) :
    ∀ (k : Nat) (b : Board) (num mask : Nat),
      (Board.btrackLoopLog recL row col unique k b num mask).map (fun x => x.1)
        = Board.btrackLoop rec row col unique k b num mask := by
  intro k
  induction k with
  | zero => intro b num mask; rfl
  | succ k ih =>
    intro b num mask
    rw [Board.btrackLoopLog, Board.btrackLoop]
    by_cases h1 : mask = maskMax
    · rw [if_pos h1, if_pos h1]; rfl
    · rw [if_neg h1, if_neg h1]
      by_cases h2 : b.mask_check row col mask ≠ 0
      · rw [if_pos h2, if_pos h2, ← hrec]
        cases hr : recL (b.set row col num false) with
        | none => rfl
        | some x =>
          obtain ⟨⟨res, b1⟩, log⟩ := x
          cases res with
          | true => rfl
          | false =>
            dsimp only [Option.map_some']
            by_cases hu : unique = true
            · rw [if_pos hu, if_pos hu]; rfl
            · rw [if_neg hu, if_neg hu, ← ih]
              cases Board.btrackLoopLog recL row col unique k (b1.unset row col).2 (num + 1)
                (mask * 2) with
              | none => rfl
              | some y => rfl
      · rw [if_neg h2, if_neg h2]
        exact ih b (num + 1) (mask * 2)

theorem btrackLog_erase (fuel : Nat) : ∀ (b : Board) (depth : Nat),
    (Board._btrackLog fuel b depth).map (fun x => x.1) = Board._btrack fuel b depth := by
  induction fuel with
  | zero => intro b depth; rfl
  | succ n ih =>
    intro b depth
    rw [Board._btrackLog, Board._btrack]
    dsimp only
    by_cases hf : b.findMin.1 = false
    · rw [if_pos hf, if_pos hf]
      by_cases hd : depth = 0
      · rw [if_pos hd, if_pos hd]; rfl
      · rw [if_neg hd, if_neg hd]; rfl
    · rw [if_neg hf, if_neg hf]
      rw [← btrackLoopLog_erase (fun b2 => Board._btrackLog n b2 (dec32 depth))
        (fun b2 => Board._btrack n b2 (dec32 depth)) (fun b2 => ih b2 (dec32 depth))]
      cases Board.btrackLoopLog (fun b2 => Board._btrackLog n b2 (dec32 depth)) b.findMin.2.1
        b.findMin.2.2.1 b.findMin.2.2.2 10
        { b with backtrack_count := inc32 b.backtrack_count } 1 (bitFor 1) with
      | none => rfl
      | some y => rfl

/-- The search with a log computes what the search computes. -/
theorem backtrackLog_erase (b : Board) :
    b.backtrackLog.map (fun x => x.1) = b.backtrack :=
  btrackLog_erase 82 _ _


theorem Board.CoreWord.of_word32 {b : Board} (h : b.Word32) : b.CoreWord :=
  ⟨h.1, fun i j => ⟨(h.2.2 i j).2.2.1, (h.2.2 i j).2.2.2.1, (h.2.2 i j).2.2.2.2⟩⟩

theorem Board.CoreWord.of_sameCore {b b2 : Board} (hw : b.CoreWord) (h : b.SameCore b2) :
    b2.CoreWord := by
  obtain ⟨hm, _, hr, hb⟩ := h
  unfold Board.CoreWord
  rw [hr, hb]
  exact hw

theorem Board.CoreWord.set_digit {b : Board} (hw : b.CoreWord) (r c d : Nat) (hd : d ≠ 0) :
    (b.set r c d false).CoreWord := by
  rw [set_false_eq _ _ _ _ hd]
  refine ⟨?_, fun i j => ?_⟩
  · show dec32 b.remains < 4294967296
    unfold dec32; omega
  · obtain ⟨w1, w2, w3⟩ := hw.2 i j
    simp only [BlankList.elim, upd1_apply, upd2_apply]
    refine ⟨?_, ?_, ?_⟩
    · split_ifs with h
      · exact lt_of_le_of_lt Nat.and_le_left (h ▸ w1)
      · exact w1
    · split_ifs with h
      · exact lt_of_le_of_lt Nat.and_le_left (h ▸ w2)
      · exact w2
    · split_ifs with h
      · exact lt_of_le_of_lt Nat.and_le_left (by rw [← h.1, ← h.2]; exact w3)
      · exact w3

/-- Undoing a trial placement after a failed search gives back the board, whatever the
board holds. -/
theorem unset_after_fail_core {b b3 : Board} (hw : b.CoreWord) {r c d : Nat}
    (hd1 : 1 ≤ d) (hd9 : d ≤ 9) (hz : b.matrix r c = 0)
    (hleg : (b.Blank.possible r c).testBit (d - 1) = true)
    (h : (b.set r c d false).SameCore b3) : b.SameCore (b3.unset r c).2 := by
  rw [set_false_eq _ _ _ _ (by omega)] at h
  obtain ⟨hm, hmem, hrem, hb⟩ := h
  simp only [] at hm hmem hrem hb
  have hv : b3.matrix r c = d := by rw [hm]; simp
  rw [unset_eq _ _ _ (by omega)]
  refine ⟨?_, hmem, ?_, ?_⟩
  · show upd2 b3.matrix r c 0 = b.matrix
    rw [hm, upd2_upd2]
    have := upd2_same b.matrix r c
    rwa [hz] at this
  · show inc32 b3.remains = b.remains
    rw [hrem]
    exact inc32_dec32 _ hw.1
  · show b3.Blank.cancel r c (b3.matrix r c) = b.Blank
    rw [hb, hv]
    exact cancel_elim _ r c d hd1 hd9 (hw.2 r 0).1 (hw.2 c 0).2.1 (hw.2 (r / 3) (c / 3)).2.2 hleg

/-- The candidate loop of the logged search, given what the recursive calls guarantee:
it returns, a failure leaves the board as it was, and when `remains` and the depth
argument equal the number of blank cells at entry they do so at every logged
invocation. -/
theorem btrackLoopLog_spec (recL : Board → Option ((Bool × Board) × List (Board × Nat)))
    (b0 : Board) (hw : b0.CoreWord) (row col : Nat) (hr : row < 9) (hc : col < 9)
    (hz : b0.matrix row col = 0) (unique : Bool) (depth : Nat)
    (hrec : ∀ b2 : Board, b2.CoreWord → countZeros b2.matrix + 1 = countZeros b0.matrix →
      b2.remains = dec32 b0.remains →
      ∃ res b3 log, recL b2 = some ((res, b3), log) ∧ (res = false → b2.SameCore b3) ∧
        (b2.remains = countZeros b2.matrix → dec32 depth = countZeros b2.matrix →
          ∀ e ∈ log, e.2 = countZeros e.1.matrix)) :
    ∀ (k num : Nat) (bL : Board), 1 ≤ num → num ≤ 10 → k + num = 11 → b0.SameCore bL →
      ∃ res b1 log,
        Board.btrackLoopLog recL row col unique k bL num (2 ^ (num - 1))
          = some ((res, b1), log) ∧
        (res = false → b0.SameCore b1) ∧
        (b0.remains = countZeros b0.matrix → depth = countZeros b0.matrix →
          ∀ e ∈ log, e.2 = countZeros e.1.matrix) := by
  intro k
  induction k with
  | zero => intro num bL h1 h10 hk; omega
  | succ k ih =>
    intro num bL h1 h10 hk hcore
    rw [Board.btrackLoopLog]
    by_cases hmax : 2 ^ (num - 1) = maskMax
    · rw [if_pos hmax]
      exact ⟨false, bL, [], rfl, fun _ => hcore, fun _ _ e he => absurd he (List.not_mem_nil _)⟩
    · rw [if_neg hmax]
      have hn9 : num ≤ 9 := by
        by_contra hh
        exact hmax ((two_pow_eq_maskMax num h1).2 (by omega))
      have hnext : 2 ^ (num - 1) * 2 = 2 ^ (num + 1 - 1) := by
        have e : num + 1 - 1 = (num - 1) + 1 := by omega
        rw [e, pow_succ]
      by_cases hmc : bL.mask_check row col (2 ^ (num - 1)) ≠ 0
      · rw [if_pos hmc]
        rw [← bitFor_eq, mask_check_ne_zero] at hmc
        obtain ⟨hleg, _⟩ := hmc
        have hwL := hw.of_sameCore hcore
        have hzL : bL.matrix row col = 0 := by rw [hcore.1]; exact hz
        have hm2 : (bL.set row col num false).matrix = upd2 b0.matrix row col num := by
          rw [set_false_eq _ _ _ _ (by omega), hcore.1]
        have hcount : countZeros (bL.set row col num false).matrix + 1 = countZeros b0.matrix := by
          rw [hm2]
          have := countZeros_upd2 b0.matrix row col num hr hc
          rw [if_pos hz, if_neg (by omega)] at this
          omega
        have hrem : (bL.set row col num false).remains = dec32 b0.remains := by
          rw [set_false_eq _ _ _ _ (by omega), ← hcore.2.2.1]
        obtain ⟨res, b3, log, hrq, hfail, hlog⟩ :=
          hrec _ (hwL.set_digit row col num (by omega)) hcount hrem
        rw [hrq]
        have hlog2 : b0.remains = countZeros b0.matrix → depth = countZeros b0.matrix →
            ∀ e ∈ log, e.2 = countZeros e.1.matrix := by
          intro hr0 hd0
          have hle := countZeros_le b0.matrix
          apply hlog
          · rw [hrem, hr0]; unfold dec32; omega
          · rw [hd0]; unfold dec32; omega
        cases res with
        | true =>
          exact ⟨true, b3, log, rfl, fun h => by simp at h, hlog2⟩
        | false =>
          have hcore4 : b0.SameCore (b3.unset row col).2 :=
            hcore.coreTrans (unset_after_fail_core hwL h1 hn9 hzL hleg (hfail rfl))
          dsimp only
          by_cases hun : unique = true
          · rw [if_pos hun]
            exact ⟨false, _, log, rfl, fun _ => hcore4, hlog2⟩
          · rw [if_neg hun, hnext]
            obtain ⟨res2, b4, log2, hq2, hfail2, hlog3⟩ :=
              ih (num + 1) (b3.unset row col).2 (by omega) (by omega) (by omega) hcore4
            rw [hq2]
            refine ⟨res2, b4, log ++ log2, rfl, hfail2, fun hr0 hd0 e he => ?_⟩
            rcases List.mem_append.1 he with h | h
            · exact hlog2 hr0 hd0 e h
            · exact hlog3 hr0 hd0 e h
      · rw [if_neg hmc, hnext]
        exact ih (num + 1) bL (by omega) (by omega) (by omega) hcore

/-- The logged `_btrack` with enough fuel returns; a failure leaves the board as it was,
and when `remains` and the depth argument equal the number of blank cells at entry
they do so at every logged invocation. -/
theorem btrackLog_spec (n : Nat) : ∀ (b : Board) (depth : Nat), b.CoreWord →
    countZeros b.matrix < n →
    ∃ res b1 log, Board._btrackLog n b depth = some ((res, b1), log) ∧
      (res = false → b.SameCore b1) ∧
      (b.remains = countZeros b.matrix → depth = countZeros b.matrix →
        ∀ e ∈ log, e.2 = countZeros e.1.matrix) ∧
      (b, depth) ∈ log := by
  induction n with
  | zero => intro b _ _ h; omega
  | succ n ih =>
    intro b depth hw hcnt
    rw [Board._btrackLog]
    dsimp only
    obtain ⟨_, f2⟩ := findMin_spec b
    by_cases hf : b.findMin.1 = false
    · rw [if_pos hf]
      have hone : ∀ res : Bool, ∃ res2 b1 log,
          some ((res, b), [(b, depth)]) = some ((res2, b1), log) ∧
          (res2 = false → b.SameCore b1) ∧
          (b.remains = countZeros b.matrix → depth = countZeros b.matrix →
            ∀ e ∈ log, e.2 = countZeros e.1.matrix) ∧ (b, depth) ∈ log := by
        intro res
        refine ⟨res, b, _, rfl, fun _ => Board.SameCore.coreRefl b, fun _ hd e he => ?_,
          List.mem_singleton.2 rfl⟩
        rw [List.mem_singleton] at he
        subst he
        exact hd
      by_cases hd : depth = 0
      · rw [if_pos hd]; exact hone true
      · rw [if_neg hd]; exact hone false
    · rw [if_neg hf]
      have hft : b.findMin.1 = true := by simpa using hf
      obtain ⟨hr, hc, hz, _⟩ := f2 hft
      have hcore : b.SameCore { b with backtrack_count := inc32 b.backtrack_count } :=
        ⟨rfl, rfl, rfl, rfl⟩
      have e1 : bitFor 1 = 2 ^ (1 - 1) := by rw [bitFor_eq]
      rw [e1]
      obtain ⟨res, b1, log, hq, hfail, hlog⟩ := btrackLoopLog_spec
        (fun b2 => Board._btrackLog n b2 (dec32 depth)) b hw _ _ hr hc hz b.findMin.2.2.2 depth
        (fun b2 hw2 hc2 _ => by
          obtain ⟨res, b3, log, g1, g2, g3, _⟩ := ih b2 (dec32 depth) hw2 (by omega)
          exact ⟨res, b3, log, g1, g2, g3⟩)
        10 1 _ (le_refl 1) (by norm_num) (by norm_num) hcore
      rw [hq]
      refine ⟨res, b1, _, rfl, hfail, fun hr0 hd0 e he => ?_, List.mem_cons_self _ _⟩
      rcases List.mem_cons.1 he with h | h
      · subst h; exact hd0
      · exact hlog hr0 hd0 e h


/-- C19: for every board of 32-bit members whose `remaining` equals its number of zero
cells, `backtrack` returns, and in every invocation of `_btrack` that it makes, the
first one included, the argument `depth` equals the number of blank cells of the board
at entry; so an invocation in which `findMin` finds no blank cell returns true. The
invocations are those logged by `backtrackLog`, which computes what `backtrack`
computes. -/
theorem depth_counter_in_step (b : Board) (hw : b.Word32)
    (hrem : b.remains = countZeros b.matrix) :
    ∃ res b1 log, b.backtrackLog = some ((res, b1), log) ∧ b.backtrack = some (res, b1) ∧
      ({ b with backtrack_count := 0 }, b.remaining) ∈ log ∧
      ∀ e ∈ log, e.2 = countZeros e.1.matrix ∧
        (e.1.findMin.1 = false → ∀ fuel, Board._btrack (fuel + 1) e.1 e.2 = some (true, e.1)) := by
  have hcore : b.SameCore { b with backtrack_count := 0 } := ⟨rfl, rfl, rfl, rfl⟩
  obtain ⟨res, b1, log, h1, _, h3, h4⟩ := btrackLog_spec 82 { b with backtrack_count := 0 }
    b.remains ((Board.CoreWord.of_word32 hw).of_sameCore hcore)
    (lt_of_le_of_lt (countZeros_le _) (by norm_num))
  have h1b : b.backtrackLog = some ((res, b1), log) := h1
  refine ⟨res, b1, log, h1b, ?_, h4, fun e he => ?_⟩
  · rw [← backtrackLog_erase, h1b]; rfl
  · have hd := h3 hrem hrem e he
    refine ⟨hd, fun hf fuel => ?_⟩
    have hfull := (findMin_spec e.1).1 hf
    have h0 : e.2 = 0 := by rw [hd]; exact countZeros_eq_zero _ hfull
    rw [Board._btrack]
    dsimp only
    rw [if_pos hf, if_pos h0]

theorem depth_counter_in_step_witness :
    Board.init.Word32 ∧ Board.init.remains = countZeros Board.init.matrix ∧
    ∃ res b1 log, Board.init.backtrackLog = some ((res, b1), log) ∧
      Board.init.backtrack = some (res, b1) ∧
      ({ Board.init with backtrack_count := 0 }, Board.init.remaining) ∈ log ∧
      ∀ e ∈ log, e.2 = countZeros e.1.matrix ∧
        (e.1.findMin.1 = false → ∀ fuel, Board._btrack (fuel + 1) e.1 e.2 = some (true, e.1)) :=
  ⟨Board.init_word32, Board.init_sync.remains_eq,
    depth_counter_in_step Board.init Board.init_word32 Board.init_sync.remains_eq⟩

/-- C20: for every board of 32-bit members `backtrack` returns, and if it returns false
then the matrix, the row, column and block masks, `remaining` and the memory are
exactly what they were before the call. -/
theorem backtrack_failure_restores (b : Board) (hw : b.Word32) :
    ∃ res b1, b.backtrack = some (res, b1) ∧
      (res = false → b1.matrix = b.matrix ∧ b1.Blank = b.Blank ∧ b1.remains = b.remains ∧
        b1.memory = b.memory) := by
  have hcore : b.SameCore { b with backtrack_count := 0 } := ⟨rfl, rfl, rfl, rfl⟩
  obtain ⟨res, b1, log, h1, h2, _, _⟩ := btrackLog_spec 82 { b with backtrack_count := 0 }
    b.remains ((Board.CoreWord.of_word32 hw).of_sameCore hcore)
    (lt_of_le_of_lt (countZeros_le _) (by norm_num))
  have h1b : b.backtrackLog = some ((res, b1), log) := h1
  refine ⟨res, b1, ?_, fun hres => ?_⟩
  · rw [← backtrackLog_erase, h1b]; rfl
  · obtain ⟨c1, c2, c3, c4⟩ := hcore.coreTrans (h2 hres)
    exact ⟨c1, c4, c3, c2⟩

theorem blockedBoard_word32 : blockedBoard.Word32 := by
  refine ⟨by decide, by decide, fun i j => ?_⟩
  simp [blockedBoard, Board.init, BlankList.init, allSet]

set_option maxRecDepth 100000 in
theorem blockedBoard_search_fails : blockedBoard.backtrack.map (fun x => x.1) = some false := by
  decide!

theorem backtrack_failure_restores_witness :
    blockedBoard.Word32 ∧ blockedBoard.backtrack.map (fun x => x.1) = some false ∧
    ∃ res b1, blockedBoard.backtrack = some (res, b1) ∧
      (res = false → b1.matrix = blockedBoard.matrix ∧ b1.Blank = blockedBoard.Blank ∧
        b1.remains = blockedBoard.remains ∧ b1.memory = blockedBoard.memory) :=
  ⟨blockedBoard_word32, blockedBoard_search_fails,
    backtrack_failure_restores blockedBoard blockedBoard_word32⟩



/-! ## The random fill -/

theorem fill_cell_lt (block place : Nat) :
    (base.getD ((2 * block) % 9) 0 + look_up.getD place 0) / 9 < 9 ∧
    (base.getD ((2 * block) % 9) 0 + look_up.getD place 0) % 9 < 9 := by
  have h1 := base_le ((2 * block) % 9)
  have h2 := look_up_le place
  omega

theorem fillPost_of_core {b b0 b1 : Board} {n : Nat} {res : Bool} (hc : b.SameCore b0)
    (h : b0.FillPost n res b1) : b.FillPost n res b1 := by
  obtain ⟨p1, p2, p3⟩ := h
  refine ⟨p1, fun hr => hc.coreTrans (p2 hr), fun hr => ?_⟩
  obtain ⟨a1, a2⟩ := p3 hr
  rw [hc.1] at a1 a2
  exact ⟨a1, a2⟩

/-- A trial placement followed by a call that returned true. -/
theorem fillPost_set {b b1 : Board} {n r c d : Nat} (hr : r < 9) (hc : c < 9) (hd : d ≠ 0)
    (hz : b.matrix r c = 0) (h : (b.set r c d false).FillPost n true b1) :
    b.FillPost (n + 1) true b1 := by
  obtain ⟨p1, _, p3⟩ := h
  obtain ⟨a1, a2⟩ := p3 rfl
  rw [set_false_eq b r c d hd] at a1 a2
  simp only [] at a1 a2
  refine ⟨p1, fun h => (by cases h), fun _ => ⟨?_, fun r2 c2 hne => ?_⟩⟩
  · have := countZeros_upd2 b.matrix r c d hr hc
    rw [if_pos hz, if_neg hd] at this
    omega
  · have hne2 : ¬ (r2 = r ∧ c2 = c) := fun e => hne (by rw [e.1, e.2]; exact hz)
    have e : upd2 b.matrix r c d r2 c2 = b.matrix r2 c2 := by
      simp only [upd2_apply, hne2, if_false]
    rw [← e]
    exact a2 r2 c2 (by rw [e]; exact hne)

theorem fillLoop_inv (rec : Board → RandState → Option (Bool × Board × RandState))
    (pick block num n : Nat) (h1 : 1 ≤ num) (h9 : num ≤ 9)
    (hrec : ∀ b r res b1 r1, b.Sync → rec b r = some (res, b1, r1) → b.FillPost n res b1) :
    ∀ (k : Nat) (b : Board) (available : bitfield) (r : RandState) (res : Bool) (b1 : Board)
      (r1 : RandState), b.Sync →
      Board.fillLoop rec pick block num k b available r = some (res, b1, r1) →
      b.FillPost (n + 1) res b1 := by
  intro k
  induction k with
  | zero =>
    intro b available r res b1 r1 _ h
    simp [Board.fillLoop] at h
  | succ k ih =>
    intro b available r res b1 r1 hs h
    rw [Board.fillLoop] at h
    split_ifs at h with h0
    · cases h
      exact ⟨hs, fun _ => Board.SameCore.coreRefl b, fun h => by cases h⟩
    · split at h
      · cases h
      · rename_i place r2 _
        obtain ⟨hrow, hcol⟩ := fill_cell_lt block place
        simp only [] at h
        split_ifs at h with hcond
        · obtain ⟨hz, hleg⟩ := hcond
          rw [Nat.land_comm] at hleg
          have hset := hs.set hrow hcol h1 h9 hz hleg
          split at h
          · cases h
          · rename_i b2 r3 hcall
            cases h
            exact fillPost_set hrow hcol (by omega) hz (hrec _ _ _ _ _ hset hcall)
          · rename_i b2 r3 hcall
            have hp := hrec _ _ _ _ _ hset hcall
            have hcore := unset_after_fail hs hrow hcol h1 h9 hz
              ((and_bitFor_ne_zero _ _).1 hleg) (hp.2.1 rfl)
            exact fillPost_of_core hcore (ih _ _ _ _ _ _ (hcore.coreSync hs) h)
        · exact ih _ _ _ _ _ _ hs h

/-- The effect of `_fill` on a board in step: the board stays in step, a false result
gives back the board, a true result fills `fillCount is_big block num` blank cells. -/
theorem fill_inv (pick : Nat) : ∀ (fuel : Nat) (b : Board) (is_big : Bool) (block num : Nat)
    (r : RandState) (res : Bool) (b1 : Board) (r1 : RandState), b.Sync → block ≤ 9 →
    1 ≤ num → (num ≤ 9 ∨ (is_big = true ∧ num = 10)) →
    Board._fill pick fuel b is_big block num r = some (res, b1, r1) →
    b.FillPost (fillCount is_big block num) res b1 := by
  intro fuel
  induction fuel with
  | zero =>
    intro b is_big block num r res b1 r1 _ _ _ _ h
    simp [Board._fill] at h
  | succ fuel ih =>
    intro b is_big block num r res b1 r1 hs hb h1 h9 h
    rw [Board._fill] at h
    split_ifs at h with c1 c2 c3
    · cases h
      refine ⟨hs, fun h => (by cases h), fun _ => ⟨?_, fun _ _ _ => rfl⟩⟩
      simp [fillCount, c1.1, c1.2]
    · have hn : num ≤ 9 := by
        rcases h9 with h9 | h9
        · exact h9
        · exact absurd ⟨c2.1, h9.2⟩ c1
      have hp := ih b is_big 0 (num + 1) r res b1 r1 hs (by omega) (by omega)
        (by
          by_cases e : num = 9
          · exact Or.inr ⟨c2.1, by omega⟩
          · exact Or.inl (by omega)) h
      have e : fillCount is_big 0 (num + 1) = fillCount is_big block num := by
        simp only [fillCount, c2.1, c2.2, if_true]
        split_ifs <;> omega
      rw [← e]
      exact hp
    · cases h
      have hbig : is_big = false := by
        cases is_big
        · rfl
        · exact absurd ⟨rfl, c3⟩ c2
      refine ⟨hs, fun h => (by cases h), fun _ => ⟨?_, fun _ _ _ => rfl⟩⟩
      simp [fillCount, hbig, c3]
    · have hn : num ≤ 9 := by
        rcases h9 with h9 | h9
        · exact h9
        · exact absurd h9 c1
      have e : fillCount is_big (block + 1) num + 1 = fillCount is_big block num := by
        unfold fillCount
        split_ifs <;> omega
      rw [← e]
      exact fillLoop_inv _ pick block num _ h1 hn
        (fun b2 r2 res2 b3 r3 hs2 hcall =>
          ih b2 is_big (block + 1) num r2 res2 b3 r3 hs2 (by omega) h1 (Or.inl hn) hcall)
        10 b allSet r res b1 r1 hs h

theorem fillStep_some {pick fuel num : Nat} {is_big : Bool}
    {st : Option (List Bool × Board × RandState)} {flags : List Bool} {b1 : Board}
    {r1 : RandState} (h : Board.fillStep pick fuel is_big num st = some (flags, b1, r1)) :
    ∃ fl b r ok, st = some (fl, b, r) ∧ flags = fl ++ [ok] ∧
      Board._fill pick fuel b is_big 0 num r = some (ok, b1, r1) := by
  unfold Board.fillStep at h
  split at h
  · cases h
  · rename_i fl b r
    split at h
    · cases h
    · rename_i ok b2 r2 hcall
      cases h
      exact ⟨fl, b, r, ok, rfl, rfl, hcall⟩

theorem fillAll_unfold (pick fuel : Nat) (b : Board) (r : RandState) :
    Board.fillAll pick fuel b r =
      Board.fillStep pick fuel true 6 (Board.fillStep pick fuel false 5
        (Board.fillStep pick fuel false 4 (Board.fillStep pick fuel false 3
          (Board.fillStep pick fuel false 2 (Board.fillStep pick fuel false 1
            (some ([], b, r))))))) := rfl

theorem fillPost_count {b b1 : Board} {n : Nat} {res : Bool} (h : b.FillPost n res b1) :
    countZeros b1.matrix + (if res = true then n else 0) = countZeros b.matrix ∧
    ∀ r c, b.matrix r c ≠ 0 → b1.matrix r c = b.matrix r c := by
  obtain ⟨_, p2, p3⟩ := h
  cases res
  · have := (p2 rfl).1
    rw [this]
    exact ⟨by simp, fun _ _ _ => rfl⟩
  · simpa using p3 rfl

/-- The six calls of `_random_fill` on a board in step: the board stays in step, keeps its
filled cells, and each call that returns true fills its share of the blank cells (nine for
each of the first five calls, 36 for the last). -/
theorem fillAll_spec (pick fuel : Nat) (b : Board) (r : RandState) (flags : List Bool)
    (b1 : Board) (r1 : RandState) (hs : b.Sync)
    (h : Board.fillAll pick fuel b r = some (flags, b1, r1)) :
    b1.Sync ∧ (∀ i j, b.matrix i j ≠ 0 → b1.matrix i j = b.matrix i j) ∧
    ∃ o1 o2 o3 o4 o5 o6, flags = [o1, o2, o3, o4, o5, o6] ∧
      countZeros b1.matrix + ((if o1 = true then 9 else 0) + (if o2 = true then 9 else 0) +
        (if o3 = true then 9 else 0) + (if o4 = true then 9 else 0) +
        (if o5 = true then 9 else 0) + (if o6 = true then 36 else 0)) = countZeros b.matrix := by
  rw [fillAll_unfold] at h
  obtain ⟨f5, c5, s5, o6, h5, e6, g6⟩ := fillStep_some h
  obtain ⟨f4, c4, s4, o5, h4, e5, g5⟩ := fillStep_some h5
  obtain ⟨f3, c3, s3, o4, h3, e4, g4⟩ := fillStep_some h4
  obtain ⟨f2, c2, s2, o3, h2, e3, g3⟩ := fillStep_some h3
  obtain ⟨f1, c1, s1, o2, h1, e2, g2⟩ := fillStep_some h2
  obtain ⟨f0, c0, s0, o1, h0, e1, g1⟩ := fillStep_some h1
  cases h0
  have p1 := fill_inv pick fuel _ _ _ _ _ _ _ _ hs (by omega) (by omega) (Or.inl (by omega)) g1
  have p2 := fill_inv pick fuel _ _ _ _ _ _ _ _ p1.1 (by omega) (by omega) (Or.inl (by omega)) g2
  have p3 := fill_inv pick fuel _ _ _ _ _ _ _ _ p2.1 (by omega) (by omega) (Or.inl (by omega)) g3
  have p4 := fill_inv pick fuel _ _ _ _ _ _ _ _ p3.1 (by omega) (by omega) (Or.inl (by omega)) g4
  have p5 := fill_inv pick fuel _ _ _ _ _ _ _ _ p4.1 (by omega) (by omega) (Or.inl (by omega)) g5
  have p6 := fill_inv pick fuel _ _ _ _ _ _ _ _ p5.1 (by omega) (by omega) (Or.inl (by omega)) g6
  obtain ⟨q1, k1⟩ := fillPost_count p1
  obtain ⟨q2, k2⟩ := fillPost_count p2
  obtain ⟨q3, k3⟩ := fillPost_count p3
  obtain ⟨q4, k4⟩ := fillPost_count p4
  obtain ⟨q5, k5⟩ := fillPost_count p5
  obtain ⟨q6, k6⟩ := fillPost_count p6
  have n1 : fillCount false 0 1 = 9 := rfl
  have n2 : fillCount false 0 2 = 9 := rfl
  have n3 : fillCount false 0 3 = 9 := rfl
  have n4 : fillCount false 0 4 = 9 := rfl
  have n5 : fillCount false 0 5 = 9 := rfl
  have n6 : fillCount true 0 6 = 36 := rfl
  rw [n1] at q1
  rw [n2] at q2
  rw [n3] at q3
  rw [n4] at q4
  rw [n5] at q5
  rw [n6] at q6
  refine ⟨p6.1, fun i j hne => ?_, o1, o2, o3, o4, o5, o6, ?_, ?_⟩
  · have a1 := k1 i j hne
    have a2 := k2 i j (by rw [a1]; exact hne)
    have a3 := k3 i j (by rw [a2, a1]; exact hne)
    have a4 := k4 i j (by rw [a3, a2, a1]; exact hne)
    have a5 := k5 i j (by rw [a4, a3, a2, a1]; exact hne)
    have a6 := k6 i j (by rw [a5, a4, a3, a2, a1]; exact hne)
    rw [a6, a5, a4, a3, a2, a1]
  · rw [e6, e5, e4, e3, e2, e1]
    rfl
  · omega

/-- A clearing loop removes the bits of `x` from the memory of every cell it does not
skip and leaves the memory of the cells it does not visit as it was. -/
theorem clear_loop {α : Type} (skip : Board → α → Prop) [∀ s a, Decidable (skip s a)]
    (row col : α → Nat) (x : Nat)
    (hskip : ∀ (s t : Board) (a : α), s.matrix = t.matrix → (skip s a ↔ skip t a))
    (l : List α) : ∀ (b : Board),
    (∀ a ∈ l, ¬ skip b a → ∀ k, k < 32 → x.testBit k = true →
      ((l.foldl (fun (s : Board) (a : α) =>
        if skip s a then s else s.andMem (row a) (col a) (bnot x)) b).memory
          (row a) (col a)).testBit k = false) ∧
    (∀ r c, (∀ a ∈ l, ¬ skip b a → ¬ (row a = r ∧ col a = c)) →
      (l.foldl (fun (s : Board) (a : α) =>
        if skip s a then s else s.andMem (row a) (col a) (bnot x)) b).memory r c
        = b.memory r c) := by
  induction l with
  | nil =>
    intro b
    exact ⟨fun a ha => (by cases ha), fun _ _ _ => rfl⟩
  | cons y ys ih =>
    intro b
    rw [List.foldl_cons]
    have hn : (if skip b y then b else b.andMem (row y) (col y) (bnot x)).matrix = b.matrix := by
      split_ifs <;> rfl
    obtain ⟨ih1, ih2⟩ := ih (if skip b y then b else b.andMem (row y) (col y) (bnot x))
    constructor
    · intro a ha hsk k hk hx
      rcases List.mem_cons.1 ha with e | ha2
      · subst e
        have hnar := Board.narrows_foldl
          (fun (s : Board) (a : α) =>
            if skip s a then s else s.andMem (row a) (col a) (bnot x)) ys
          (if skip b a then b else b.andMem (row a) (col a) (bnot x))
          (fun s a => Board.narrows_ite2 _ _ _ (Board.narrows_andMem _ _ _ _))
        cases hb : ((ys.foldl (fun (s : Board) (a : α) =>
            if skip s a then s else s.andMem (row a) (col a) (bnot x))
            (if skip b a then b else b.andMem (row a) (col a) (bnot x))).memory
              (row a) (col a)).testBit k
        · rfl
        · have h1 := hnar.2.2.2.2 _ _ k hb
          rw [if_neg hsk] at h1
          simp only [Board.andMem, upd2_apply, and_self, if_true, Nat.testBit_and,
            testBit_bnot _ _ hk, hx, Bool.not_true, Bool.and_false] at h1
          exact absurd h1 (by simp)
      · exact ih1 a ha2 (fun h => hsk ((hskip _ _ a hn).1 h)) k hk hx
    · intro r c hrc
      rw [ih2 r c (fun a ha hsk => hrc a (List.mem_cons_of_mem _ ha)
        (fun h => hsk ((hskip _ _ a hn).2 h)))]
      by_cases hsk : skip b y
      · rw [if_pos hsk]
      · rw [if_neg hsk]
        have := hrc y (List.mem_cons_self _ _) hsk
        simp only [Board.andMem, upd2_apply]
        rw [if_neg (fun e => this ⟨e.1.symm, e.2.symm⟩)]

theorem clearRowPair_spec (b : Board) (i j m x : Nat) :
    (∀ c, c < 9 → b.matrix i c = 0 → c ≠ j → c ≠ m → ∀ k, k < 32 → x.testBit k = true →
      ((b.clearRowPair i j m x).memory i c).testBit k = false) ∧
    (∀ r c, r ≠ i → (b.clearRowPair i j m x).memory r c = b.memory r c) := by
  unfold Board.clearRowPair
  obtain ⟨h1, h2⟩ := clear_loop
    (fun (s : Board) (col : Nat) => s.matrix i col ≠ 0 ∨ col = j ∨ col = m)
    (fun _ => i) (fun col => col) x (fun s t a e => by dsimp only; rw [e]) (List.range 9) b
  constructor
  · intro c hc hz hj hm k hk hx
    exact h1 c (List.mem_range.2 hc) (by simp only [not_or, not_not]; exact ⟨hz, hj, hm⟩)
      k hk hx
  · intro r c hr
    exact h2 r c (fun a _ _ e => hr e.1.symm)

theorem clearColPair_spec (b : Board) (i j m x : Nat) :
    (∀ r, r < 9 → b.matrix r j = 0 → r ≠ i → r ≠ m → ∀ k, k < 32 → x.testBit k = true →
      ((b.clearColPair i j m x).memory r j).testBit k = false) ∧
    (∀ r c, c ≠ j → (b.clearColPair i j m x).memory r c = b.memory r c) := by
  unfold Board.clearColPair
  obtain ⟨h1, h2⟩ := clear_loop
    (fun (s : Board) (row : Nat) => s.matrix row j ≠ 0 ∨ row = i ∨ row = m)
    (fun row => row) (fun _ => j) x (fun s t a e => by dsimp only; rw [e]) (List.range 9) b
  constructor
  · intro r hr hz hi hm k hk hx
    exact h1 r (List.mem_range.2 hr) (by simp only [not_or, not_not]; exact ⟨hz, hi, hm⟩)
      k hk hx
  · intro r c hc
    exact h2 r c (fun a _ _ e => hc e.2.symm)

theorem clearHousePair_spec (b : Board) (i j mr mc x : Nat) :
    ∀ r c, r / 3 = i / 3 → c / 3 = j / 3 → b.matrix r c = 0 → ¬ (r = i ∧ c = j) →
      ¬ (r = mr ∧ c = mc) → ∀ k, k < 32 → x.testBit k = true →
      ((b.clearHousePair i j mr mc x).memory r c).testBit k = false := by
  intro r c hr hc hz hij hm k hk hx
  have hmem : (r, c) ∈ (List.range' (i / 3 * 3) 3).flatMap
      (fun r => (List.range' (j / 3 * 3) 3).map (fun c => (r, c))) := by
    rw [mem_square]
    dsimp only
    omega
  have key0 := (clear_loop
    (fun (s : Board) (p : Nat × Nat) =>
      s.matrix p.1 p.2 ≠ 0 ∨ (p.1 = i ∧ p.2 = j) ∨ (p.1 = mr ∧ p.2 = mc))
    (fun p => p.1) (fun p => p.2) x (fun s t a e => by dsimp only; rw [e])
    ((List.range' (i / 3 * 3) 3).flatMap (fun r => (List.range' (j / 3 * 3) 3).map
      (fun c => (r, c)))) b).1
  have hns : ¬ (b.matrix r c ≠ 0 ∨ (r = i ∧ c = j) ∨ (r = mr ∧ c = mc)) := by
    simp only [not_or, not_not]
    exact ⟨hz, hij, hm⟩
  have key := key0 (r, c) hmem hns k hk hx
  dsimp only at key
  unfold Board.clearHousePair
  dsimp only
  rw [foldl_square (fun (s : Board) row col =>
    if s.matrix row col ≠ 0 ∨ (row = i ∧ col = j) ∨ (row = mr ∧ col = mc) then s
    else s.andMem row col (bnot x))]
  exact key

theorem pairRowMatch_found (b : Board) (i j value : Nat)
    (h : ∃ c, c < 9 ∧ c ≠ j ∧ b.matrix i c = 0 ∧ b.memory i c = value) :
    b.pairRowMatch i j value ≠ 9 := by
  obtain ⟨c, hc, hj, hz, hm⟩ := h
  unfold Board.pairRowMatch
  cases hf : (List.range 9).find? (fun col =>
    !(b.matrix i col != 0 || col == j || b.memory i col != value)) with
  | none =>
    have := List.find?_eq_none.1 hf c (List.mem_range.2 hc)
    simp [hz, hj, hm] at this
  | some col =>
    have h2 := List.mem_of_find?_eq_some hf
    rw [List.mem_range] at h2
    simp only [Option.getD_some]
    omega

theorem pairColMatch_found (b : Board) (i j value : Nat)
    (h : ∃ r, r < 9 ∧ r ≠ i ∧ b.matrix r j = 0 ∧ b.memory r j = value) :
    b.pairColMatch i j value ≠ 9 := by
  obtain ⟨r, hr, hi, hz, hm⟩ := h
  unfold Board.pairColMatch
  cases hf : (List.range 9).find? (fun row =>
    !(b.matrix row j != 0 || row == i || b.memory row j != value)) with
  | none =>
    have := List.find?_eq_none.1 hf r (List.mem_range.2 hr)
    simp [hz, hi, hm] at this
  | some row =>
    have h2 := List.mem_of_find?_eq_some hf
    rw [List.mem_range] at h2
    simp only [Option.getD_some]
    omega

theorem fold_three_rows (step : Nat × Nat → Nat → Nat × Nat) (r0 r : Nat) (m0 : Nat × Nat)
    (h1 : ∀ m row, step m row = m ∨ (step m row).1 = row) (h2 : ∀ m, (step m r).1 = r)
    (hr : r = r0 ∨ r = r0 + 1 ∨ r = r0 + 2) (h9 : r0 + 2 < 9) :
    ((List.range' r0 3).foldl step m0).1 ≠ 9 := by
  have e : List.range' r0 3 = [r0, r0 + 1, r0 + 2] := rfl
  rw [e]
  simp only [List.foldl_cons, List.foldl_nil]
  have d2 := h1 (step m0 r0) (r0 + 1)
  have d3 := h1 (step (step m0 r0) (r0 + 1)) (r0 + 2)
  rcases hr with g | g | g
  · have a := h2 m0
    rw [g] at a
    rcases d3 with d3 | d3
    · rw [d3]
      rcases d2 with d2 | d2
      · rw [d2, a]
        omega
      · rw [d2]
        omega
    · rw [d3]
      omega
  · have a := h2 (step m0 r0)
    rw [g] at a
    rcases d3 with d3 | d3
    · rw [d3, a]
      omega
    · rw [d3]
      omega
  · have a := h2 (step (step m0 r0) (r0 + 1))
    rw [g] at a
    rw [a]
    omega

theorem pairHouseMatch_found (b : Board) (i j value : Nat) (hi : i < 9)
    (h : ∃ r c, r / 3 = i / 3 ∧ c / 3 = j / 3 ∧ r ≠ i ∧ c ≠ j ∧ b.matrix r c = 0 ∧
      b.memory r c = value) :
    (b.pairHouseMatch i j value).1 ≠ 9 := by
  obtain ⟨r, c, hr, hc, hri, hcj, hz, hm⟩ := h
  unfold Board.pairHouseMatch
  dsimp only
  refine fold_three_rows _ (i / 3 * 3) r (9, 9) ?_ ?_ (by omega) (by omega)
  · intro m row
    dsimp only
    split_ifs
    · exact Or.inl rfl
    · split
      · exact Or.inr rfl
      · exact Or.inl rfl
  · intro m
    dsimp only
    rw [if_neg hri]
    split
    · rfl
    · rename_i hf
      have := List.find?_eq_none.1 hf c (by rw [List.mem_range'_1]; omega)
      simp [hz, hcj, hm] at this

theorem pairHouseMatch_col (b : Board) (i j value : Nat)
    (h : (b.pairHouseMatch i j value).1 ≠ 9) : (b.pairHouseMatch i j value).2 ≠ j := by
  revert h
  unfold Board.pairHouseMatch
  dsimp only
  refine foldl_inv (fun (m : Nat × Nat) => m.1 ≠ 9 → m.2 ≠ j) _ (List.range' (i / 3 * 3) 3)
    (9, 9) (fun h => absurd rfl h) ?_
  intro m row _ ih
  by_cases hr : row = i
  · rw [if_pos hr]; exact ih
  · rw [if_neg hr]
    cases hf : (List.range' (j / 3 * 3) 3).find? (fun col =>
      !(col == j || b.matrix row col != 0 || b.memory row col != value)) with
    | none => exact ih
    | some col =>
      have h1 := List.find?_some hf
      simp only [Bool.not_eq_true', Bool.or_eq_false_iff, bne_eq_false_iff_eq,
        beq_eq_false_iff_ne, ne_eq] at h1
      intro _
      exact h1.1.1

theorem narrows_bit_false {b1 b2 : Board} (h : b1.Narrows b2) {r c k : Nat}
    (hb : (b1.memory r c).testBit k = false) : (b2.memory r c).testBit k = false := by
  cases h2 : (b2.memory r c).testBit k
  · rfl
  · rw [h.2.2.2.2 r c k h2] at hb
    exact absurd hb (by simp)

/-- C21 as stated fails: on an empty board where (0, 0), (0, 1) and (0, 5) remember only
the digits 1 and 2, `pair_check(0, 0)` leaves bit 0 in the memory of the blank house cell
(1, 0) although the house holds the partner (0, 1), and leaves it in the memory of the
blank row cell (0, 1) although the row holds the partner (0, 5). -/
theorem pair_check_misses_partners :
    crowdedPairBoard.matrix 0 0 = 0 ∧ bitCount (crowdedPairBoard.memory 0 0) = 2 ∧
    (crowdedPairBoard.memory 0 0).testBit 0 = true ∧
    (crowdedPairBoard.matrix 0 1 = 0 ∧
      crowdedPairBoard.memory 0 1 = crowdedPairBoard.memory 0 0 ∧
      (crowdedPairBoard.pair_check 0 0).matrix 1 0 = 0 ∧
      ((crowdedPairBoard.pair_check 0 0).memory 1 0).testBit 0 = true) ∧
    (crowdedPairBoard.matrix 0 5 = 0 ∧
      crowdedPairBoard.memory 0 5 = crowdedPairBoard.memory 0 0 ∧
      (crowdedPairBoard.pair_check 0 0).matrix 0 1 = 0 ∧
      ((crowdedPairBoard.pair_check 0 0).memory 0 1).testBit 0 = true) := by
  decide

/-- C21, amended: for every board and blank cell `(i, j)` whose memory has exactly two
bits, and for each scope among row `i`, column `j` and the 3x3 house of `(i, j)`: if
another blank cell of that scope (for the house: one that lies neither in row `i` nor in
column `j`) has the identical memory, then the scope has such a partner, the one the scan
of `pair_check` selects, so that after `pair_check(i, j)` no blank cell of that scope other
than `(i, j)` and that partner has a bit of the pair in its memory. -/
theorem pair_check_clears_scopes (b : Board) (i j : Nat) (hi : i < 9) (hj : j < 9)
    (_hz : b.matrix i j = 0) (h2 : bitCount (b.memory i j) = 2) :
    ((∃ c, c < 9 ∧ c ≠ j ∧ b.matrix i c = 0 ∧ b.memory i c = b.memory i j) →
      ∃ m, m < 9 ∧ m ≠ j ∧ b.matrix i m = 0 ∧ b.memory i m = b.memory i j ∧
        ∀ c, c < 9 → c ≠ j → c ≠ m → (b.pair_check i j).matrix i c = 0 →
          ∀ k, k < 32 → (b.memory i j).testBit k = true →
            ((b.pair_check i j).memory i c).testBit k = false) ∧
    ((∃ r, r < 9 ∧ r ≠ i ∧ b.matrix r j = 0 ∧ b.memory r j = b.memory i j) →
      ∃ m, m < 9 ∧ m ≠ i ∧ b.matrix m j = 0 ∧ b.memory m j = b.memory i j ∧
        ∀ r, r < 9 → r ≠ i → r ≠ m → (b.pair_check i j).matrix r j = 0 →
          ∀ k, k < 32 → (b.memory i j).testBit k = true →
            ((b.pair_check i j).memory r j).testBit k = false) ∧
    ((∃ r c, r / 3 = i / 3 ∧ c / 3 = j / 3 ∧ r ≠ i ∧ c ≠ j ∧ b.matrix r c = 0 ∧
        b.memory r c = b.memory i j) →
      ∃ mr mc, mr / 3 = i / 3 ∧ mc / 3 = j / 3 ∧ mr ≠ i ∧ mc ≠ j ∧ b.matrix mr mc = 0 ∧
        b.memory mr mc = b.memory i j ∧
        ∀ r c, r / 3 = i / 3 → c / 3 = j / 3 → ¬ (r = i ∧ c = j) → ¬ (r = mr ∧ c = mc) →
          (b.pair_check i j).matrix r c = 0 →
          ∀ k, k < 32 → (b.memory i j).testBit k = true →
            ((b.pair_check i j).memory r c).testBit k = false) := by
  unfold Board.pair_check
  dsimp only
  rw [if_pos h2]
  generalize hb1 : (if b.pairRowMatch i j (b.memory i j) ≠ 9
    then b.clearRowPair i j (b.pairRowMatch i j (b.memory i j)) (b.memory i j) else b) = b1
  have n1 : b.Narrows b1 := by
    rw [← hb1]; exact Board.narrows_ite _ _ _ (Board.narrows_clearRowPair _ _ _ _ _)
  have f1 : ∀ r c, r ≠ i → b1.memory r c = b.memory r c := by
    intro r c hr
    rw [← hb1]
    split_ifs
    · exact (clearRowPair_spec b i j _ _).2 r c hr
    · rfl
  generalize hb2 : (if b1.pairColMatch i j (b.memory i j) ≠ 9
    then b1.clearColPair i j (b1.pairColMatch i j (b.memory i j)) (b.memory i j) else b1) = b2
  have n2 : b1.Narrows b2 := by
    rw [← hb2]; exact Board.narrows_ite _ _ _ (Board.narrows_clearColPair _ _ _ _ _)
  have f2 : ∀ r c, c ≠ j → b2.memory r c = b1.memory r c := by
    intro r c hc
    rw [← hb2]
    split_ifs
    · exact (clearColPair_spec b1 i j _ _).2 r c hc
    · rfl
  generalize hb3 : (if (b2.pairHouseMatch i j (b.memory i j)).1 ≠ 9
    then b2.clearHousePair i j (b2.pairHouseMatch i j (b.memory i j)).1
      (b2.pairHouseMatch i j (b.memory i j)).2 (b.memory i j) else b2) = b3
  have n3 : b2.Narrows b3 := by
    rw [← hb3]; exact Board.narrows_ite _ _ _ (Board.narrows_clearHousePair _ _ _ _ _ _)
  have m1 : b1.matrix = b.matrix := n1.1
  have m2 : b2.matrix = b.matrix := n2.1.trans m1
  have m3 : b3.matrix = b.matrix := n3.1.trans m2
  refine ⟨fun hex => ?_, fun hex => ?_, fun hex => ?_⟩
  · have hne := pairRowMatch_found b i j _ hex
    obtain ⟨s1, s2, s3, s4⟩ := pairRowMatch_spec b i j _ hne
    rw [if_pos hne] at hb1
    refine ⟨_, s1, s3, s2, s4, fun c hc hcj hcm hz k hk hx => ?_⟩
    rw [m3] at hz
    have e1 := (clearRowPair_spec b i j (b.pairRowMatch i j (b.memory i j))
      (b.memory i j)).1 c hc hz hcj hcm k hk hx
    rw [hb1] at e1
    exact narrows_bit_false n3 (narrows_bit_false n2 e1)
  · obtain ⟨r, hr, hri, hz, hm⟩ := hex
    have hne := pairColMatch_found b1 i j (b.memory i j)
      ⟨r, hr, hri, by rw [m1]; exact hz, by rw [f1 r j hri]; exact hm⟩
    obtain ⟨s1, s2, s3, s4⟩ := pairColMatch_spec b1 i j _ hne
    rw [if_pos hne] at hb2
    refine ⟨_, s1, s3, by rw [← m1]; exact s2, by rw [← f1 _ j s3]; exact s4,
      fun r2 hr2 hri2 hrm hz2 k hk hx => ?_⟩
    rw [m3, ← m1] at hz2
    have e1 := (clearColPair_spec b1 i j (b1.pairColMatch i j (b.memory i j))
      (b.memory i j)).1 r2 hr2 hz2 hri2 hrm k hk hx
    rw [hb2] at e1
    exact narrows_bit_false n3 e1
  · obtain ⟨r, c, hr, hc, hri, hcj, hz, hm⟩ := hex
    have hne := pairHouseMatch_found b2 i j (b.memory i j) hi
      ⟨r, c, hr, hc, hri, hcj, by rw [m2]; exact hz, by rw [f2 r c hcj, f1 r c hri]; exact hm⟩
    obtain ⟨⟨_, _, s1, s2⟩, s3, s4, s5⟩ := pairHouseMatch_spec b2 i j _ hi hj hne
    have s6 := pairHouseMatch_col b2 i j _ hne
    rw [if_pos hne] at hb3
    refine ⟨_, _, s1, s2, s3, s6, by rw [← m2]; exact s4,
      by rw [← f1 _ _ s3, ← f2 _ _ s6]; exact s5, fun r2 c2 hr2 hc2 hij hm2 hz2 k hk hx => ?_⟩
    rw [m3, ← m2] at hz2
    have e1 := clearHousePair_spec b2 i j (b2.pairHouseMatch i j (b.memory i j)).1
      (b2.pairHouseMatch i j (b.memory i j)).2 (b.memory i j) r2 c2 hr2 hc2 hz2 hij hm2 k hk hx
    rw [hb3] at e1
    exact e1

theorem pair_check_clears_scopes_witness :
    (∃ m, m < 9 ∧ m ≠ 0 ∧ pairScopesBoard.matrix 0 m = 0 ∧
        pairScopesBoard.memory 0 m = pairScopesBoard.memory 0 0 ∧
        ∀ c, c < 9 → c ≠ 0 → c ≠ m → (pairScopesBoard.pair_check 0 0).matrix 0 c = 0 →
          ∀ k, k < 32 → (pairScopesBoard.memory 0 0).testBit k = true →
            ((pairScopesBoard.pair_check 0 0).memory 0 c).testBit k = false) ∧
    (∃ m, m < 9 ∧ m ≠ 0 ∧ pairScopesBoard.matrix m 0 = 0 ∧
        pairScopesBoard.memory m 0 = pairScopesBoard.memory 0 0 ∧
        ∀ r, r < 9 → r ≠ 0 → r ≠ m → (pairScopesBoard.pair_check 0 0).matrix r 0 = 0 →
          ∀ k, k < 32 → (pairScopesBoard.memory 0 0).testBit k = true →
            ((pairScopesBoard.pair_check 0 0).memory r 0).testBit k = false) ∧
    (∃ mr mc, mr / 3 = 0 / 3 ∧ mc / 3 = 0 / 3 ∧ mr ≠ 0 ∧ mc ≠ 0 ∧
        pairScopesBoard.matrix mr mc = 0 ∧
        pairScopesBoard.memory mr mc = pairScopesBoard.memory 0 0 ∧
        ∀ r c, r / 3 = 0 / 3 → c / 3 = 0 / 3 → ¬ (r = 0 ∧ c = 0) → ¬ (r = mr ∧ c = mc) →
          (pairScopesBoard.pair_check 0 0).matrix r c = 0 →
          ∀ k, k < 32 → (pairScopesBoard.memory 0 0).testBit k = true →
            ((pairScopesBoard.pair_check 0 0).memory r c).testBit k = false) :=
  ⟨(pair_check_clears_scopes pairScopesBoard 0 0 (by decide) (by decide) (by decide)
      (by decide)).1 ⟨5, by decide⟩,
    (pair_check_clears_scopes pairScopesBoard 0 0 (by decide) (by decide) (by decide)
      (by decide)).2.1 ⟨5, by decide⟩,
    (pair_check_clears_scopes pairScopesBoard 0 0 (by decide) (by decide) (by decide)
      (by decide)).2.2 ⟨1, 1, by decide⟩⟩


/-! ## Placement with propagation -/

/-- What `_update(i, j)` has done so far to the memory of a board `x` started from `s`:
each word is the old one, or, at a blank cell of the row, the column or the block, the old
one narrowed to the tracker's `possible`. -/
theorem update_inv_andMem {s x : Board} {i j : Nat}
    (hx : x.matrix = s.matrix ∧ x.Blank = s.Blank ∧ ∀ r2 c2,
      x.memory r2 c2 = s.memory r2 c2 ∨
      (x.memory r2 c2 = s.memory r2 c2 &&& s.Blank.possible r2 c2 ∧ s.matrix r2 c2 = 0 ∧
        r2 < 9 ∧ c2 < 9 ∧ (r2 = i ∨ c2 = j ∨ (r2 / 3 = i / 3 ∧ c2 / 3 = j / 3))))
    (r c : Nat) (p : Prop) [Decidable p]
    (hp : p → x.matrix r c = 0 ∧ r < 9 ∧ c < 9 ∧ (r = i ∨ c = j ∨ (r / 3 = i / 3 ∧ c / 3 = j / 3))) :
    (if p then x.andMem r c (x.Blank.possible r c) else x).matrix = s.matrix ∧
    (if p then x.andMem r c (x.Blank.possible r c) else x).Blank = s.Blank ∧ ∀ r2 c2,
      (if p then x.andMem r c (x.Blank.possible r c) else x).memory r2 c2 = s.memory r2 c2 ∨
      ((if p then x.andMem r c (x.Blank.possible r c) else x).memory r2 c2
          = s.memory r2 c2 &&& s.Blank.possible r2 c2 ∧ s.matrix r2 c2 = 0 ∧
        r2 < 9 ∧ c2 < 9 ∧ (r2 = i ∨ c2 = j ∨ (r2 / 3 = i / 3 ∧ c2 / 3 = j / 3))) := by
  obtain ⟨h1, h2, h3⟩ := hx
  by_cases h : p
  · rw [if_pos h]
    obtain ⟨q1, q2, q3, q4⟩ := hp h
    refine ⟨h1, h2, fun r2 c2 => ?_⟩
    simp only [Board.andMem, upd2_apply]
    by_cases e : r2 = r ∧ c2 = c
    · rw [if_pos e, e.1, e.2]
      right
      refine ⟨?_, by rw [← h1]; exact q1, q2, q3, q4⟩
      rw [h2]
      rcases h3 r c with g | g
      · rw [g]
      · rw [g.1, Nat.land_assoc, Nat.and_self]
    · rw [if_neg e]
      exact h3 r2 c2
  · rw [if_neg h]
    exact ⟨h1, h2, h3⟩

theorem update_cases (s : Board) (i j : Nat) (hi : i < 9) (hj : j < 9) (r2 c2 : Nat) :
    (s._update i j).memory r2 c2 = s.memory r2 c2 ∨
    ((s._update i j).memory r2 c2 = s.memory r2 c2 &&& s.Blank.possible r2 c2 ∧
      s.matrix r2 c2 = 0 ∧ r2 < 9 ∧ c2 < 9 ∧
      (r2 = i ∨ c2 = j ∨ (r2 / 3 = i / 3 ∧ c2 / 3 = j / 3))) := by
  have key := foldl_inv (fun (x : Board) => x.matrix = s.matrix ∧ x.Blank = s.Blank ∧ ∀ r2 c2,
      x.memory r2 c2 = s.memory r2 c2 ∨
      (x.memory r2 c2 = s.memory r2 c2 &&& s.Blank.possible r2 c2 ∧ s.matrix r2 c2 = 0 ∧
        r2 < 9 ∧ c2 < 9 ∧ (r2 = i ∨ c2 = j ∨ (r2 / 3 = i / 3 ∧ c2 / 3 = j / 3))))
    (fun (x : Board) (t : Nat) => x.updateStep i j t) (List.range 9) s
    ⟨rfl, rfl, fun _ _ => Or.inl rfl⟩
    (by
      intro x t ht hx
      rw [List.mem_range] at ht
      unfold Board.updateStep
      dsimp only
      have a1 := update_inv_andMem hx i t (x.matrix i t = 0)
        (fun h => ⟨h, hi, ht, Or.inl rfl⟩)
      have a2 := update_inv_andMem a1 t j _ (fun h => ⟨h, ht, hj, Or.inr (Or.inl rfl)⟩)
      exact update_inv_andMem a2 (i / 3 * 3 + t / 3) (j / 3 * 3 + t % 3) _
        (fun h => ⟨h.2.2, by omega, by omega, Or.inr (Or.inr ⟨by omega, by omega⟩)⟩))
  exact key.2.2 r2 c2

/-- The memory after `_update(i, j)`: narrowed to `possible` exactly at the blank cells of
the row, the column and the block. -/
theorem update_memory (s : Board) (i j : Nat) (hi : i < 9) (hj : j < 9) (r2 c2 : Nat)
    (hr2 : r2 < 9) (hc2 : c2 < 9) :
    (s._update i j).memory r2 c2 =
      if s.matrix r2 c2 = 0 ∧ (r2 = i ∨ c2 = j ∨ (r2 / 3 = i / 3 ∧ c2 / 3 = j / 3))
      then s.memory r2 c2 &&& s.Blank.possible r2 c2 else s.memory r2 c2 := by
  split_ifs with h
  · rcases update_cases s i j hi hj r2 c2 with g | g
    · rw [g]
      apply Nat.eq_of_testBit_eq
      intro k
      rw [Nat.testBit_and]
      cases hk : (s.memory r2 c2).testBit k
      · rfl
      · have := update_peers s i j r2 c2 hr2 hc2 h.2 h.1 k (by rw [g]; exact hk)
        rw [this]
        rfl
    · exact g.1
  · rcases update_cases s i j hi hj r2 c2 with g | g
    · exact g
    · exact absurd ⟨g.2.1, g.2.2.2.2⟩ h

/-- C22: for a cell `(r, c)` of the board and a digit `d` in 1..9, after
`set(r, c, d, true)` every blank cell that shares the row, the column or the 3x3 block
with `(r, c)` has its previous memory ANDed with the tracker's new `possible` for that
cell, and the memory of every other cell of the board (the cells outside the three units
and the filled cells) is unchanged. -/
theorem set_propagates_to_peers (b : Board) (r c d : Nat) (hr : r < 9) (hc : c < 9)
    (h1 : 1 ≤ d) (_h9 : d ≤ 9) (r2 c2 : Nat) (hr2 : r2 < 9) (hc2 : c2 < 9) :
    ((b.set r c d true).matrix r2 c2 = 0 →
      (r2 = r ∨ c2 = c ∨ (r2 / 3 = r / 3 ∧ c2 / 3 = c / 3)) →
      (b.set r c d true).memory r2 c2
        = b.memory r2 c2 &&& (b.set r c d true).Blank.possible r2 c2) ∧
    (¬ ((b.set r c d true).matrix r2 c2 = 0 ∧
        (r2 = r ∨ c2 = c ∨ (r2 / 3 = r / 3 ∧ c2 / 3 = c / 3))) →
      (b.set r c d true).memory r2 c2 = b.memory r2 c2) := by
  have hn := Board.narrows_set_true b r c d
  have hmem : (b.set r c d false).memory = b.memory := by
    rw [set_false_eq b r c d (by omega)]
  have hu := update_memory (b.set r c d false) r c hr hc r2 c2 hr2 hc2
  rw [← set_true_eq, hmem, ← hn.1, ← hn.2.1] at hu
  constructor
  · intro hz hp
    rw [hu, if_pos ⟨hz, hp⟩]
  · intro h
    rw [hu, if_neg h]

theorem set_propagates_to_peers_witness :
    (Board.init.set 0 2 4 true).memory 0 3
      = Board.init.memory 0 3 &&& (Board.init.set 0 2 4 true).Blank.possible 0 3 ∧
    (Board.init.set 0 2 4 true).memory 4 4 = Board.init.memory 4 4 :=
  ⟨(set_propagates_to_peers Board.init 0 2 4 (by decide) (by decide) (by decide) (by decide)
      0 3 (by decide) (by decide)).1 (by decide) (by decide),
    (set_propagates_to_peers Board.init 0 2 4 (by decide) (by decide) (by decide) (by decide)
      4 4 (by decide) (by decide)).2 (by decide)⟩


/-! ## The advanced pass ends and only narrows the memory -/

theorem le_of_bits_subset (x y : Nat) (h : ∀ k, x.testBit k = true → y.testBit k = true) :
    x ≤ y := by
  have e : x &&& y = x := by
    apply Nat.eq_of_testBit_eq
    intro k
    rw [Nat.testBit_and]
    cases hk : x.testBit k
    · rfl
    · rw [h k hk]
      rfl
  rw [← e]
  exact Nat.and_le_right

theorem memSum_lt (b b2 : Board) (hle : b.MemLe b2)
    (hne : ∃ p ∈ cells, b2.memory p.1 p.2 ≠ b.memory p.1 p.2) : b2.memSum < b.memSum := by
  unfold Board.memSum
  apply List.sum_lt_sum
  · intro p _
    exact le_of_bits_subset _ _ (hle p.1 p.2)
  · obtain ⟨p, hp, hd⟩ := hne
    exact ⟨p, hp, lt_of_le_of_ne (le_of_bits_subset _ _ (hle p.1 p.2)) hd⟩

/-- A sweep that sets the flag `again` has lowered the sum of the memory masks. -/
theorem advanced_sweep_sum (s : Board) (h : s.advanced_sweep.2 = true) :
    s.advanced_sweep.1.memSum < s.memSum := by
  apply memSum_lt s _ (memLe_advanced_sweep s)
  by_contra hcon
  push_neg at hcon
  have hz := sum_zero_of_same s s.advanced_sweep.1 hcon
  rw [advanced_sweep_fst] at hz
  have e := congrArg Prod.snd (advanced_sweep_eq s)
  dsimp only at e
  rw [e, hz] at h
  exact absurd h (by simp)

theorem memLe_advanced_fill_loop (fuel : Nat) : ∀ (b b1 : Board),
    Board.advanced_fill_loop fuel b = some b1 → b.MemLe b1 := by
  induction fuel with
  | zero =>
    intro b b1 h
    simp [Board.advanced_fill_loop] at h
  | succ n ih =>
    intro b b1 h
    rw [Board.advanced_fill_loop] at h
    split_ifs at h with hs
    · exact (memLe_advanced_sweep b).leTrans (ih _ _ h)
    · rw [← Option.some.inj h]
      exact memLe_advanced_sweep b

/-- C23: on every board of 32-bit memory words `advanced_fill` returns, and the memory of
every cell after it is a bitwise subset of the memory before it; the sweep loop repeats
exactly when the sweep set its flag, and then the sum of the 81 memory masks has strictly
decreased. -/
theorem advanced_fill_ends_narrower (b : Board) (hw : b.MemWord) :
    (∃ b1, b.advanced_fill = some b1 ∧
      ∀ r c k, (b1.memory r c).testBit k = true → (b.memory r c).testBit k = true) ∧
    ∀ (s : Board) (fuel : Nat),
      (s.advanced_sweep.2 = true →
        s.advanced_sweep.1.memSum < s.memSum ∧
        Board.advanced_fill_loop (fuel + 1) s
          = Board.advanced_fill_loop fuel s.advanced_sweep.1) ∧
      (s.advanced_sweep.2 = false →
        Board.advanced_fill_loop (fuel + 1) s = some s.advanced_sweep.1) := by
  constructor
  · obtain ⟨b1, h1⟩ := advanced_fill_total b hw
    refine ⟨b1, h1, ?_⟩
    unfold Board.advanced_fill at h1
    exact (Board.narrows_advanced_seed b).memLe.leTrans (memLe_advanced_fill_loop _ _ _ h1)
  · intro s fuel
    constructor
    · intro h
      refine ⟨advanced_sweep_sum s h, ?_⟩
      rw [Board.advanced_fill_loop]
      rw [if_pos h]
    · intro h
      rw [Board.advanced_fill_loop]
      rw [if_neg (by rw [h]; exact Bool.false_ne_true)]

theorem advanced_fill_ends_narrower_witness :
    (∃ b1, (Board.load samplePuzzle).advanced_fill = some b1 ∧
      ∀ r c k, (b1.memory r c).testBit k = true →
        ((Board.load samplePuzzle).memory r c).testBit k = true) ∧
    ∀ (s : Board) (fuel : Nat),
      (s.advanced_sweep.2 = true →
        s.advanced_sweep.1.memSum < s.memSum ∧
        Board.advanced_fill_loop (fuel + 1) s
          = Board.advanced_fill_loop fuel s.advanced_sweep.1) ∧
      (s.advanced_sweep.2 = false →
        Board.advanced_fill_loop (fuel + 1) s = some s.advanced_sweep.1) :=
  advanced_fill_ends_narrower (Board.load samplePuzzle)
    (memWord_of_allSet (load_spec samplePuzzle samplePuzzle_dupFree.inputOk).2.2.1)


/-! ## The deciding function -/

theorem and_and_and (p x y : Nat) : (p &&& x) &&& (p &&& y) = p &&& (x &&& y) := by
  apply Nat.eq_of_testBit_eq
  intro k
  simp only [Nat.testBit_and]
  cases p.testBit k <;> cases x.testBit k <;> cases y.testBit k <;> rfl

theorem and_and_and3 (p h r c : Nat) :
    (p &&& r) &&& (p &&& c) &&& (p &&& h) = p &&& (h &&& r &&& c) := by
  apply Nat.eq_of_testBit_eq
  intro k
  simp only [Nat.testBit_and]
  cases p.testBit k <;> cases h.testBit k <;> cases r.testBit k <;> cases c.testBit k <;> rfl

theorem firstSingle_cons (m : bitfield) (l : List bitfield) :
    firstSingle (m :: l) = if bitCount m = 1 then m else firstSingle l := by
  unfold firstSingle
  by_cases h : bitCount m = 1
  · rw [if_pos h, List.find?_cons_of_pos _ (by simpa using h)]
    rfl
  · rw [if_neg h, List.find?_cons_of_neg _ (by simpa using h)]

theorem decide_eq_firstSingle (possible house row col : bitfield) :
    Board.decide possible house row col = firstSingle (decideOrder possible house row col) := by
  unfold Board.decide decideOrder
  dsimp only
  rw [and_and_and3, and_and_and, and_and_and, and_and_and]
  simp only [firstSingle_cons]
  rfl

/-- C24: `decide` returns the first mask with exactly one set bit in the order `possible`,
`possible & house`, `possible & row`, `possible & col`, the pairwise intersections
house-row, house-col, row-col within `possible`, the three-way intersection, and 0 when
none has exactly one bit. For a 9-bit `possible` the result is 0 or the mask of one digit
1..9 contained in `possible`, and the result is `possible` when `possible` has exactly one
bit. -/
theorem decide_first_single (possible house row col : bitfield) :
    Board.decide possible house row col = firstSingle (decideOrder possible house row col) ∧
    (possible < 512 → house < 512 → row < 512 → col < 512 →
      Board.decide possible house row col = 0 ∨
      (bitCount (Board.decide possible house row col) = 1 ∧
        (∃ d, 1 ≤ d ∧ d ≤ 9 ∧ Board.decide possible house row col = bitFor d) ∧
        Board.decide possible house row col &&& possible
          = Board.decide possible house row col)) ∧
    (bitCount possible = 1 → Board.decide possible house row col = possible) := by
  refine ⟨decide_eq_firstSingle possible house row col, fun hp _ _ _ => ?_,
    fun h1 => decide_of_single possible house row col h1⟩
  rcases decide_zero_or_single possible house row col with h0 | h0
  · exact Or.inl h0
  · right
    have hlt : Board.decide possible house row col < 512 :=
      lt_of_le_of_lt (decide_le possible house row col) hp
    obtain ⟨a1, a2, a3⟩ := single_bit_cases _ hlt h0
    refine ⟨h0, ⟨_, a1, a2, a3⟩, ?_⟩
    apply Nat.eq_of_testBit_eq
    intro k
    rw [Nat.testBit_and]
    cases hk : (Board.decide possible house row col).testBit k
    · rfl
    · rw [decide_subset possible house row col k hk]
      rfl

theorem decide_first_single_witness :
    Board.decide 6 5 0 0 = firstSingle (decideOrder 6 5 0 0) ∧
    (Board.decide 6 5 0 0 = 0 ∨
      (bitCount (Board.decide 6 5 0 0) = 1 ∧
        (∃ d, 1 ≤ d ∧ d ≤ 9 ∧ Board.decide 6 5 0 0 = bitFor d) ∧
        Board.decide 6 5 0 0 &&& 6 = Board.decide 6 5 0 0)) ∧
    Board.decide 4 0 0 0 = 4 :=
  ⟨(decide_first_single 6 5 0 0).1,
    (decide_first_single 6 5 0 0).2.1 (by decide) (by decide) (by decide) (by decide),
    (decide_first_single 4 0 0 0).2.2 (by decide)⟩


/-! ## The boards that `play` receives -/

theorem set_false_memory (b : Board) (r c v : Nat) : (b.set r c v false).memory = b.memory := by
  by_cases hv : v = 0
  · subst hv; rw [set_zero_eq]
  · rw [set_false_eq _ _ _ _ hv]

/-- The loader leaves the candidate memory fully open, whatever the input is. -/
theorem load_memory (g : Nat → Nat → Nat) : (Board.load g).memory = fun _ _ => allSet := by
  rw [load_eq]
  exact foldl_inv (fun (b : Board) => b.memory = fun _ _ => allSet)
    (fun (b : Board) (p : Nat × Nat) => b.set p.1 p.2 (g p.1 p.2) false) cells Board.init rfl
    (fun b p _ h => by dsimp only at h ⊢; rw [set_false_memory]; exact h)

theorem solve_board (s s1 : Sudoku) (res : Bool) (h : s._solve = some (res, s1)) :
    s1._board = s._board := by
  unfold Sudoku._solve at h
  split at h
  · cases h
  · split_ifs at h
    · cases h
      rfl
    · split at h
      · cases h
      · split at h
        · cases h
        · cases h
          rfl

theorem fillLoop_memory (rec : Board → RandState → Option (Bool × Board × RandState))
    (pick block num : Nat)
    (hrec : ∀ b r res b1 r1, rec b r = some (res, b1, r1) → b1.memory = b.memory) :
    ∀ (k : Nat) (b : Board) (available : bitfield) (r : RandState) (res : Bool) (b1 : Board)
      (r1 : RandState),
      Board.fillLoop rec pick block num k b available r = some (res, b1, r1) →
      b1.memory = b.memory := by
  intro k
  induction k with
  | zero =>
    intro b available r res b1 r1 h
    simp [Board.fillLoop] at h
  | succ k ih =>
    intro b available r res b1 r1 h
    rw [Board.fillLoop] at h
    split_ifs at h with h0
    · cases h
      rfl
    · split at h
      · cases h
      · simp only [] at h
        split_ifs at h with hcond
        · split at h
          · cases h
          · rename_i b2 r3 hcall
            cases h
            rw [hrec _ _ _ _ _ hcall, set_false_memory]
          · rename_i b2 r3 hcall
            rw [ih _ _ _ _ _ _ h, (unset_props _ _ _).2.1, hrec _ _ _ _ _ hcall,
              set_false_memory]
        · exact ih _ _ _ _ _ _ h

/-- The random fill never touches the candidate memory. -/
theorem fill_memory (pick : Nat) : ∀ (fuel : Nat) (b : Board) (is_big : Bool) (block num : Nat)
    (r : RandState) (res : Bool) (b1 : Board) (r1 : RandState),
    Board._fill pick fuel b is_big block num r = some (res, b1, r1) → b1.memory = b.memory := by
  intro fuel
  induction fuel with
  | zero =>
    intro b is_big block num r res b1 r1 h
    simp [Board._fill] at h
  | succ fuel ih =>
    intro b is_big block num r res b1 r1 h
    rw [Board._fill] at h
    split_ifs at h
    · cases h
      rfl
    · exact ih _ _ _ _ _ _ _ _ h
    · cases h
      rfl
    · exact fillLoop_memory _ pick block num
        (fun b2 r2 res2 b3 r3 hcall => ih _ _ _ _ _ _ _ _ hcall) 10 b allSet r res b1 r1 h

/-- The board built by the seeded constructor is in step and its memory is fully open. -/
theorem seeded_facts (pick fuel : Nat) (r : RandState) (a : Board) (r1 : RandState)
    (h : Board.seeded pick fuel r = some (a, r1)) :
    a.Sync ∧ a.memory = fun _ _ => allSet := by
  unfold Board.seeded Board._random_fill at h
  cases hfa : Board.fillAll pick fuel Board.init r with
  | none => rw [hfa] at h; simp at h
  | some x =>
    obtain ⟨flags, b, r2⟩ := x
    rw [hfa] at h
    simp only [Option.map_some', Option.some.injEq, Prod.mk.injEq] at h
    obtain ⟨hb, _⟩ := h
    subst hb
    refine ⟨(fillAll_spec pick fuel _ _ _ _ _ Board.init_sync hfa).1, ?_⟩
    rw [fillAll_unfold] at hfa
    obtain ⟨f5, c5, s5, o6, h5, _, g6⟩ := fillStep_some hfa
    obtain ⟨f4, c4, s4, o5, h4, _, g5⟩ := fillStep_some h5
    obtain ⟨f3, c3, s3, o4, h3, _, g4⟩ := fillStep_some h4
    obtain ⟨f2, c2, s2, o3, h2, _, g3⟩ := fillStep_some h3
    obtain ⟨f1, c1, s1, o2, h1, _, g2⟩ := fillStep_some h2
    obtain ⟨f0, c0, s0, o1, h0, _, g1⟩ := fillStep_some h1
    cases h0
    rw [fill_memory _ _ _ _ _ _ _ _ _ _ g6, fill_memory _ _ _ _ _ _ _ _ _ _ g5,
      fill_memory _ _ _ _ _ _ _ _ _ _ g4, fill_memory _ _ _ _ _ _ _ _ _ _ g3,
      fill_memory _ _ _ _ _ _ _ _ _ _ g2, fill_memory _ _ _ _ _ _ _ _ _ _ g1]
    rfl

/-- Digging holes into a board in step with fully open memory leaves the memory fully
open. -/
theorem digHoles_memory (shuffle : List Nat → RandState → List Nat × RandState)
    (level : difficulty) (a : Board) (hs : a.Sync) (hm : a.memory = fun _ _ => allSet)
    (array : List Nat) (r : RandState) (p : Board) (array1 : List Nat) (r1 : RandState)
    (h : Holes.digHoles shuffle level a array r = some (p, array1, r1)) :
    p.memory = fun _ _ => allSet := by
  obtain ⟨p2, a2, r2, h2, _, hm2⟩ := digHoles_inv
    (fun (P : Board) => P.Sync ∧ P.memory = fun _ _ => allSet) level
    (fun P i j hi hj hP => by
      obtain ⟨ok, P1, e, hcase⟩ := valid_dig_cases P hP.1 (memWord_of_allSet hP.2) i j hi hj level
      refine ⟨ok, P1, e, ?_⟩
      rcases hcase with hc | hc
      · rw [hc]; exact hP
      · rw [hc.1]
        exact ⟨hP.1.unset hi hj, by rw [(unset_props P i j).2.1]; exact hP.2⟩)
    shuffle a array r ⟨hs, hm⟩
  rw [h2] at h
  simp only [Option.some.injEq, Prod.mk.injEq] at h
  rw [← h.1]
  exact hm2

theorem generateLoop_memory (shuffle : List Nat → RandState → List Nat × RandState)
    (level : difficulty) (a : Board) (hs : a.Sync) (hm : a.memory = fun _ _ => allSet)
    (rounds : Nat) : ∀ (array : List Nat) (r : RandState) (p : Board) (array1 : List Nat)
      (r1 : RandState),
      Sudoku.generateLoop shuffle level a rounds array r = some (p, array1, r1) →
      p.memory = fun _ _ => allSet := by
  induction rounds with
  | zero =>
    intro array r p array1 r1 h
    rw [Sudoku.generateLoop] at h
    cases h
  | succ n ih =>
    intro array r p array1 r1 h
    rw [Sudoku.generateLoop] at h
    cases hd : Sudoku.generateRound shuffle level a array r with
    | none => rw [hd] at h; cases h
    | some x =>
      obtain ⟨op, a2, r2⟩ := x
      rw [hd] at h
      cases op with
      | none => exact ih _ _ _ _ _ h
      | some q =>
        simp only [Option.some.injEq, Prod.mk.injEq] at h
        obtain ⟨hq, _, _⟩ := h
        subst hq
        unfold Sudoku.generateRound at hd
        cases hdig : Holes.digHoles shuffle level a array r with
        | none => rw [hdig] at hd; cases hd
        | some y =>
          obtain ⟨puzzle, a3, r3⟩ := y
          have hmem := digHoles_memory shuffle level a hs hm array r puzzle a3 r3 hdig
          rw [hdig] at hd
          dsimp only at hd
          have hq : q = puzzle := by
            split_ifs at hd
            · split at hd
              · cases hd
              · split_ifs at hd
                · cases hd
                · split at hd
                  · cases hd
                  · split_ifs at hd
                    · cases hd
                    · cases hd
                      rfl
            · cases hd
              rfl
          rw [hq]
          exact hmem

theorem ofGrid_board (g : Nat → Nat → Nat) (res : Bool) (s : Sudoku)
    (h : Sudoku.ofGrid g = some (res, s)) : s._board = Board.load g := by
  unfold Sudoku.ofGrid at h
  exact solve_board _ _ _ h

theorem constructed_memory (s : Sudoku) (h : s.Constructed) :
    s._board.memory = fun _ _ => allSet := by
  rcases h with ⟨g, res, h⟩ | ⟨shuffle, pick, fuel, rounds, level, array, r, h⟩
  · rw [ofGrid_board g res s h]
    exact load_memory g
  · obtain ⟨r1, a, r2, h1, h2⟩ := generate_eq_loop shuffle pick fuel rounds level array r s h
    obtain ⟨hs, hm⟩ := seeded_facts pick fuel r _ r1 h1
    exact generateLoop_memory shuffle level _ hs hm rounds array r1 _ a r2 h2

theorem play_memory (s : Sudoku) (row col val : Nat) :
    (s.play row col val)._board.memory = s._board.memory := by
  unfold Sudoku.play
  split_ifs
  · exact set_false_memory _ _ _ _
  · rfl
  · rfl

theorem plays_memory (moves : List (Nat × Nat × Nat)) : ∀ (s : Sudoku),
    (s.plays moves)._board.memory = s._board.memory := by
  induction moves with
  | nil => intro s; rfl
  | cons m ms ih =>
    intro s
    unfold Sudoku.plays
    rw [List.foldl_cons]
    exact (ih (s.play m.1 m.2.1 m.2.2)).trans (play_memory s _ _ _)

/-- The puzzle board of every state on which `play` is called has fully open memory: no
call on `_board` narrows it. -/
theorem playable_memory (s : Sudoku) (h : s.Playable) :
    s._board.memory = fun _ _ => allSet := by
  obtain ⟨s0, moves, hc, e⟩ := h
  rw [e, plays_memory]
  exact constructed_memory s0 hc

/-- C11: for the puzzle board of a `Sudoku` object in play (built by a constructor and
changed only by `play`), in step and with its filled cells agreeing with a complete valid
answer grid, and for every row, col in 0..8 and val in 1..9, `play` changes the board iff
cell `(row, col)` is blank and `val` is the value of the answer there; in that case the
board becomes `set(row, col, val)` of the old one, whose matrix differs in that cell only,
and in every other case the whole board (matrix, tracker, remaining) is unchanged. The
answer is never changed. -/
theorem play_changes_iff_correct (s : Sudoku) (hp : s.Playable) (hs : s._board.Sync)
    (hv : Valid s._answer.matrix) (ha : Agrees s._board.matrix s._answer.matrix)
    (row col val : Nat) (hr : row < 9) (hc : col < 9) (h1 : 1 ≤ val) (h9 : val ≤ 9) :
    ((s.play row col val)._board ≠ s._board ↔
      (s._board.matrix row col = 0 ∧ val = s._answer.matrix row col)) ∧
    (s._board.matrix row col = 0 ∧ val = s._answer.matrix row col →
      (s.play row col val)._board = s._board.set row col val false ∧
      (s.play row col val)._board.matrix = upd2 s._board.matrix row col val) ∧
    (¬ (s._board.matrix row col = 0 ∧ val = s._answer.matrix row col) →
      (s.play row col val)._board = s._board) ∧
    (s.play row col val)._answer = s._answer :=
  play_with_memory s hs hv ha (memHas_of_allSet (playable_memory s hp) hv.gridOk)
    row col val hr hc h1 h9

set_option maxRecDepth 1000000 in
theorem samplePuzzle_answer_cell :
    (Sudoku.ofGrid samplePuzzle).map (fun x => x.2._answer.matrix 0 2) = some 4 := by
  decide!

theorem play_changes_iff_correct_witness :
    ∃ s, Sudoku.ofGrid samplePuzzle = some (true, s) ∧
      s._board.matrix 0 2 = 0 ∧ 4 = s._answer.matrix 0 2 ∧
      (((s.play 0 2 4)._board ≠ s._board ↔
        (s._board.matrix 0 2 = 0 ∧ 4 = s._answer.matrix 0 2)) ∧
      (s._board.matrix 0 2 = 0 ∧ 4 = s._answer.matrix 0 2 →
        (s.play 0 2 4)._board = s._board.set 0 2 4 false ∧
        (s.play 0 2 4)._board.matrix = upd2 s._board.matrix 0 2 4) ∧
      (¬ (s._board.matrix 0 2 = 0 ∧ 4 = s._answer.matrix 0 2) →
        (s.play 0 2 4)._board = s._board) ∧
      (s.play 0 2 4)._answer = s._answer) := by
  obtain ⟨s, h, _, hv, hag⟩ := solve_sound samplePuzzle samplePuzzle_dupFree samplePuzzle_solved
  have hb : s._board = Board.load samplePuzzle := ofGrid_board samplePuzzle true s h
  have hs : s._board.Sync := by
    rw [hb]
    exact (load_spec samplePuzzle samplePuzzle_dupFree.inputOk).1
  have ha : Agrees s._board.matrix s._answer.matrix := by
    intro p hp hne
    have hr := ((mem_cells p).1 hp).1
    have hc := ((mem_cells p).1 hp).2
    rw [hb, load_matrix _ _ _ hr hc] at hne ⊢
    exact hag p hp hne
  have h4 := samplePuzzle_answer_cell
  rw [h] at h4
  simp only [Option.map_some', Option.some.injEq] at h4
  have h0 : s._board.matrix 0 2 = 0 := by
    rw [hb, load_matrix _ _ _ (by decide) (by decide)]
    rfl
  exact ⟨s, h, h0, h4.symm,
    play_changes_iff_correct s ⟨s, [], Or.inl ⟨samplePuzzle, true, h⟩, rfl⟩ hs hv ha 0 2 4
      (by decide) (by decide) (by decide) (by decide)⟩

end SimpleSudoku
